import Mathlib

/-!
# shoccs: cut-cell mesh lines and the derivative operator

A shallow embedding of `src/mesh/mesh.cpp`, `src/mesh/Index.hpp`,
`src/operators/Derivative.cpp`, `src/operators/IdentityStencil.hpp`,
`src/matrices/InnerBlock.cpp` and `src/matrices/Dense.hpp`.

Conventions of the embedding:

* `int` and `integer` are `Int`; the code performs no wrapping arithmetic and signed overflow
  is undefined in C++, so every statement is about runs that stay inside the machine range.
* `real` is an arbitrary type `α` (a commutative ring where arithmetic is done): the
  statements are about exact arithmetic, not about rounding.
* `std::span<real>` is a map `Int → α` from index to value; writing is `Function.update`.
* Undefined behaviour and failed assertions are explicit: the functions return `Option`
  (`none` = the run left defined behaviour) or `Except Fault`.
-/

set_option autoImplicit false

namespace ccs

/-! ## `int3` and indexing (`types.hpp`, `Index.hpp`) -/

/-- The type `int3` of the source: `std::array<int, 3>`. -/
structure int3 where
  x : Int
  y : Int
  z : Int
deriving DecidableEq, Repr

/-- Element access `v[i]` of an `int3`, for `i` in `0, 1, 2`. -/
def int3.get (v : int3) (i : Nat) : Int :=
  match i with
  | 0 => v.x
  | 1 => v.y
  | _ => v.z

/-- Element assignment `v[i] = a` of an `int3`, for `i` in `0, 1, 2`. -/
def int3.set (v : int3) (i : Nat) (a : Int) : int3 :=
  match i with
  | 0 => { v with x := a }
  | 1 => { v with y := a }
  | _ => { v with z := a }

/-- Value-initialised `int3{}`. -/
def int3.zero : int3 := ⟨0, 0, 0⟩

namespace index

/-- Modelled from the spec: `index::dir<I>::slow` is declared outside `src/`; the spec
gives the table d=0: slow=1, d=1: slow=0, d=2: slow=0. -/
def slow (I : Nat) : Nat :=
  match I with
  | 0 => 1
  | _ => 0

/-- Modelled from the spec: `index::dir<I>::fast` is declared outside `src/`; the spec
gives the table d=0: fast=2, d=1: fast=2, d=2: fast=1. -/
def fast (I : Nat) : Nat :=
  match I with
  | 2 => 1
  | _ => 2

/-- Modelled from the spec: `index::stride<I>(extents)` is declared outside `src/`; the spec
gives `stride(0)=ny·nz`, `stride(1)=nz`, `stride(2)=1`. -/
def stride (I : Nat) (n : int3) : Int :=
  match I with
  | 0 => n.y * n.z
  | 1 => n.z
  | _ => 1

end index

/-- `IndexExtents::operator()` of `Index.hpp`: the linearisation
`ijk[0] * ny * nz + ijk[1] * nz + ijk[2]`. -/
def ic (extents : int3) (ijk : int3) : Int :=
  ijk.x * extents.y * extents.z + ijk.y * extents.z + ijk.z

/-- Number of cells of the grid, `mesh.size()`. -/
def size (extents : int3) : Int := extents.x * extents.y * extents.z

/-! ## Intersections, boundaries and lines (`CutGeometry.hpp`, `mesh.cpp`) -/

/-- The struct `mesh_object_info` of `CutGeometry.hpp`. -/
structure mesh_object_info (α : Type) where
  psi : α
  position : α × α × α
  ray_outside : Bool
  solid_coord : int3
  shape_id : Int
deriving DecidableEq, Repr

/-- The struct `object_boundary`: index into `R(d)`, shape id and cut-cell distance. -/
structure object_boundary (α : Type) where
  object_coordinate : Int
  objectID : Int
  psi : α
deriving DecidableEq, Repr

/-- The struct `boundary`: a mesh coordinate and, for an object boundary, its data. -/
structure boundary (α : Type) where
  mesh_coordinate : int3
  object : Option (object_boundary α)
deriving DecidableEq, Repr

/-- The struct `line` (`end` is written `end_`). -/
structure line (α : Type) where
  stride : Int
  start : boundary α
  end_ : boundary α
deriving DecidableEq, Repr

/-- The template `same_plane<J, K>` of `mesh.cpp`. -/
def same_plane (J K : Nat) (a b : int3) : Bool :=
  a.get J == b.get J && a.get K == b.get K

/-- The loop state of `init_line`: `first - begin(r)`, the range `[first, last)`, and `v`. -/
structure LineState (α : Type) where
  first : Nat
  rest : List (mesh_object_info α)
  v : List (line α)
deriving DecidableEq, Repr

/-- The object boundary built from the intersection `m` at position `k` of `r`
(`boundary{first->solid_coord, object_boundary{first - begin(r), shape_id, psi}}`). -/
def object_at {α : Type} (k : Nat) (m : mesh_object_info α) : boundary α :=
  { mesh_coordinate := m.solid_coord
    object := some { object_coordinate := (k : Int), objectID := m.shape_id, psi := m.psi } }

/-- The `while` loop of `init_line` (lines 59-79) for one ray with left point `left`.
It returns `none` when `*left_boundary` is evaluated on an empty optional. -/
def ray_loop {α : Type} (I : Nat) (extents left : int3) :
    List (mesh_object_info α) → Nat → Option (boundary α) → List (line α) →
    Option (LineState α × Option (boundary α))
  | [], k, lb, v => some (⟨k, [], v⟩, lb)
  | m :: rest, k, lb, v =>
    if same_plane (index.slow I) (index.fast I) left m.solid_coord then
      if m.ray_outside then
        match lb with
        | none => none
        | some b =>
          ray_loop I extents left rest (k + 1) none
            (v ++ [⟨index.stride I extents, b, object_at k m⟩])
      else
        ray_loop I extents left rest (k + 1) (some (object_at k m)) v
    else some (⟨k, m :: rest, v⟩, lb)

/-- The point `left` of `init_line` inside the loops: `left[S] = s`, `left[F] = f`,
`left[I] = 0` (all three components are assigned before each use). -/
def left_point (I : Nat) (s f : Int) : int3 :=
  ((int3.zero.set (index.slow I) s).set (index.fast I) f).set I 0

/-- The point `right` of `init_line` inside the loops: `right[S] = s`, `right[F] = f`,
`right[I] = extents[I] - 1`. -/
def right_point (I : Nat) (extents : int3) (s f : Int) : int3 :=
  ((int3.zero.set (index.slow I) s).set (index.fast I) f).set I (extents.get I - 1)

/-- The body of the `f` loop of `init_line` (lines 51-88) for the ray `(s, f)`. -/
def plane_step {α : Type} (I : Nat) (extents : int3) (s f : Int) (st : LineState α) :
    Option (LineState α) :=
  match ray_loop I extents (left_point I s f) st.rest st.first
      (some ⟨left_point I s f, none⟩) st.v with
  | none => none
  | some (st1, some b) =>
    some { st1 with v := st1.v ++ [⟨index.stride I extents, b, ⟨right_point I extents s f, none⟩⟩] }
  | some (st1, none) => some st1

/-- The loop `for (f = ...; f < nf; f++)` with `n` iterations left. -/
def fast_loop {α : Type} (I : Nat) (extents : int3) (s : Int) :
    Nat → Int → LineState α → Option (LineState α)
  | 0, _, st => some st
  | n + 1, f, st =>
    match plane_step I extents s f st with
    | none => none
    | some st1 => fast_loop I extents s n (f + 1) st1

/-- The loop `for (s = ...; s < ns; s++)` with `n` iterations left. -/
def slow_loop {α : Type} (I : Nat) (extents : int3) :
    Nat → Int → LineState α → Option (LineState α)
  | 0, _, st => some st
  | n + 1, s, st =>
    match fast_loop I extents s (extents.get (index.fast I)).toNat 0 st with
    | none => none
    | some st1 => slow_loop I extents n (s + 1) st1

/-- The template `init_line<I>(v, extents, r)` of `mesh.cpp`; the result is the final `v`. -/
def init_line {α : Type} (I : Nat) (v : List (line α)) (extents : int3)
    (r : List (mesh_object_info α)) : Option (List (line α)) :=
  if extents.get I = 1 then some v
  else
    match slow_loop I extents (extents.get (index.slow I)).toNat 0 ⟨0, r, v⟩ with
    | none => none
    | some st => some st.v

/-! ## Boundary conditions and `mesh::dirichlet_line` (`mesh.cpp`) -/

namespace bcs

/-- Modelled from the spec: the enum `bcs::type` is declared outside `src/`; the spec lists
Dirichlet, Neumann and Free, and `IdentityStencil.hpp` names the Neumann value `N`. -/
inductive type where
  | D
  | N
  | F
deriving DecidableEq, Repr

/-- The constant `bcs::Dirichlet`. -/
def Dirichlet : type := type.D

/-- The constant `bcs::Neumann`. -/
def Neumann : type := type.N

/-- The pair of boundary conditions of one direction (`.left`, `.right`). -/
structure Line where
  left : type
  right : type
deriving DecidableEq, Repr

/-- The type `bcs::Grid`: one pair per direction. -/
structure Grid where
  x : Line
  y : Line
  z : Line
deriving DecidableEq, Repr

/-- Element access `grid_bcs[i]`, for `i` in `0, 1, 2`. -/
def Grid.get (g : Grid) (i : Nat) : Line :=
  match i with
  | 0 => g.x
  | 1 => g.y
  | _ => g.z

/-- The constant `bcs::ff`: free on both faces. -/
def ff : Line := ⟨type.F, type.F⟩

/-- The constant `bcs::dd`: Dirichlet on both faces. -/
def dd : Line := ⟨type.D, type.D⟩

/-- The constant `bcs::nn`: Neumann on both faces. -/
def nn : Line := ⟨type.N, type.N⟩

/-- The type `bcs::Object`: the boundary condition of every shape id. -/
abbrev Object := List type

end bcs

namespace bcs

/-- The constant `bcs::fd`: free on the left face, Dirichlet on the right. -/
def fd : Line := ⟨type.F, type.D⟩

/-- The constant `bcs::df`: Dirichlet on the left face, free on the right. -/
def df : Line := ⟨type.D, type.F⟩

end bcs

/-- Modelled from the spec: `Cartesian::on_boundary` is defined outside `src/`; the spec says
that `on_boundary(d, right, ijk)` is true when `ijk[d]` is at the `0` face (`right = false`) or
at the `extents[d] - 1` face (`right = true`). -/
def on_boundary (extents : int3) (d : Nat) (right : Bool) (ijk : int3) : Bool :=
  if right then ijk.get d == extents.get d - 1 else ijk.get d == 0

/-- The lambda `f` of `mesh::dirichlet_line`. -/
def dirichlet_face (extents : int3) (start : int3) (cart_bcs : bcs.Grid) (i : Nat) : Bool :=
  ((cart_bcs.get i).left == bcs.Dirichlet && on_boundary extents i false start) ||
  ((cart_bcs.get i).right == bcs.Dirichlet && on_boundary extents i true start)

/-- The method `mesh::dirichlet_line(start, dir, cart_bcs)` of `mesh.cpp`: the loops over
`i < dir` and over `dir + 1 ≤ i < 3`. -/
def dirichlet_line (extents : int3) (start : int3) (dir : Nat) (cart_bcs : bcs.Grid) : Bool :=
  let result := (List.range dir).foldl
    (fun result i => result || dirichlet_face extents start cart_bcs i) false
  (List.range' (dir + 1) (3 - (dir + 1))).foldl
    (fun result i => result || dirichlet_face extents start cart_bcs i) result

/-! ## Admissible intersection lists and measures used in the statements -/

/-- The solid coordinate of `m` lies inside the grid `extents`. -/
def in_grid {α : Type} (extents : int3) (m : mesh_object_info α) : Prop :=
  (0 ≤ m.solid_coord.x ∧ m.solid_coord.x < extents.x) ∧
  (0 ≤ m.solid_coord.y ∧ m.solid_coord.y < extents.y) ∧
  (0 ≤ m.solid_coord.z ∧ m.solid_coord.z < extents.z)

instance {α : Type} (extents : int3) (m : mesh_object_info α) : Decidable (in_grid extents m) := by
  unfold in_grid; infer_instance

/-- Every solid coordinate of `r` lies inside the grid. -/
def InRange {α : Type} (extents : int3) (r : List (mesh_object_info α)) : Prop :=
  ∀ m ∈ r, in_grid extents m

instance {α : Type} (extents : int3) (r : List (mesh_object_info α)) :
    Decidable (InRange extents r) := by
  unfold InRange; infer_instance

/-- Loop order of the planes of direction `I`: the `(slow, fast)` pair of `a` is
lexicographically not after that of `b`. -/
def plane_le {α : Type} (I : Nat) (a b : mesh_object_info α) : Prop :=
  a.solid_coord.get (index.slow I) < b.solid_coord.get (index.slow I) ∨
  (a.solid_coord.get (index.slow I) = b.solid_coord.get (index.slow I) ∧
    a.solid_coord.get (index.fast I) ≤ b.solid_coord.get (index.fast I))

instance {α : Type} (I : Nat) (a b : mesh_object_info α) : Decidable (plane_le I a b) := by
  unfold plane_le; infer_instance

/-- The list `r` is sorted by `(slow, fast)` plane in loop order. -/
def PlaneSorted {α : Type} (I : Nat) (r : List (mesh_object_info α)) : Prop :=
  r.Pairwise (plane_le I)

instance {α : Type} (I : Nat) (r : List (mesh_object_info α)) : Decidable (PlaneSorted I r) := by
  unfold PlaneSorted; infer_instance

/-- The list is a sequence of pairs on one ray each: an intersection that closes a line
(`ray_outside = true`) followed by the one that opens the next (`ray_outside = false`).
For a plane-sorted list this says that every ray carries an even number of intersections
alternating closing, opening, closing, opening, and so on. -/
def Paired {α : Type} (I : Nat) : List (mesh_object_info α) → Prop
  | [] => True
  | [_] => False
  | a :: b :: rest =>
    a.ray_outside = true ∧ b.ray_outside = false ∧
      same_plane (index.slow I) (index.fast I) a.solid_coord b.solid_coord = true ∧
      Paired I rest

/-- Deciding `Paired`. -/
def Paired.decide {α : Type} (I : Nat) : (r : List (mesh_object_info α)) → Decidable (Paired I r)
  | [] => isTrue trivial
  | [_] => isFalse (fun h => h)
  | a :: b :: rest =>
    have := Paired.decide I rest
    show Decidable (_ ∧ _ ∧ _ ∧ Paired I rest) from inferInstance

instance {α : Type} (I : Nat) (r : List (mesh_object_info α)) : Decidable (Paired I r) :=
  Paired.decide I r

/-- The flags alternate `true, false, true, false, …` and their number is even. -/
def alternating : List Bool → Bool
  | [] => true
  | [_] => false
  | a :: b :: rest => a && !b && alternating rest

/-- The intersections of `r` that lie on the ray of `m`, in list order. -/
def ray_of {α : Type} (I : Nat) (m : mesh_object_info α) (r : List (mesh_object_info α)) :
    List (mesh_object_info α) :=
  r.filter (fun a => same_plane (index.slow I) (index.fast I) m.solid_coord a.solid_coord)

/-- Every ray carries an even number of intersections whose flags alternate between one that
closes a line (`ray_outside = true`) and one that opens the next (`ray_outside = false`). -/
def RaysAlternate {α : Type} (I : Nat) (r : List (mesh_object_info α)) : Prop :=
  ∀ m ∈ r, alternating ((ray_of I m r).map (fun a => a.ray_outside)) = true

instance {α : Type} (I : Nat) (r : List (mesh_object_info α)) :
    Decidable (RaysAlternate I r) := by
  unfold RaysAlternate; infer_instance

/-- In every pair the closing intersection is not after the opening one along `I`
(a consequence of sorting each ray along `I`). -/
def PairOrdered {α : Type} (I : Nat) : List (mesh_object_info α) → Prop
  | a :: b :: rest => a.solid_coord.get I ≤ b.solid_coord.get I ∧ PairOrdered I rest
  | _ => True

/-- Deciding `PairOrdered`. -/
def PairOrdered.decide {α : Type} (I : Nat) :
    (r : List (mesh_object_info α)) → Decidable (PairOrdered I r)
  | [] => isTrue trivial
  | [_] => isTrue trivial
  | a :: b :: rest =>
    have := PairOrdered.decide I rest
    show Decidable (_ ∧ PairOrdered I rest) from inferInstance

instance {α : Type} (I : Nat) (r : List (mesh_object_info α)) : Decidable (PairOrdered I r) :=
  PairOrdered.decide I r

/-- Number of cells of a line along `I`: `end[I] - start[I] + 1`. -/
def line_cells {α : Type} (I : Nat) (l : line α) : Int :=
  l.end_.mesh_coordinate.get I - l.start.mesh_coordinate.get I + 1

/-- Sum over the lines of `end[I] - start[I] + 1`. -/
def covered_cells {α : Type} (I : Nat) (v : List (line α)) : Int :=
  (v.map (line_cells I)).sum

/-- Number of fully-solid cells along `I`: for every pair, the cells whose `I`-index lies
strictly between the two solid coordinates. -/
def solid_cells {α : Type} (I : Nat) : List (mesh_object_info α) → Int
  | a :: b :: rest =>
    ((b.solid_coord.get I - a.solid_coord.get I - 1).toNat : Int) + solid_cells I rest
  | _ => 0

/-- Number of pairs whose two intersections have the same `I`-index. -/
def shared_cells {α : Type} (I : Nat) : List (mesh_object_info α) → Int
  | a :: b :: rest =>
    (if a.solid_coord.get I = b.solid_coord.get I then 1 else 0) + shared_cells I rest
  | _ => 0

/-- Order of the intersections of direction `I`: lexicographic by `(slow, fast, I)`
coordinate. -/
def ray_le {α : Type} (I : Nat) (a b : mesh_object_info α) : Prop :=
  a.solid_coord.get (index.slow I) < b.solid_coord.get (index.slow I) ∨
  (a.solid_coord.get (index.slow I) = b.solid_coord.get (index.slow I) ∧
    (a.solid_coord.get (index.fast I) < b.solid_coord.get (index.fast I) ∨
      (a.solid_coord.get (index.fast I) = b.solid_coord.get (index.fast I) ∧
        a.solid_coord.get I ≤ b.solid_coord.get I)))

instance {α : Type} (I : Nat) (a b : mesh_object_info α) : Decidable (ray_le I a b) := by
  unfold ray_le; infer_instance

/-- The list `r` is sorted by `(slow, fast)` plane in loop order and along `I` within a ray. -/
def RaySorted {α : Type} (I : Nat) (r : List (mesh_object_info α)) : Prop :=
  r.Pairwise (ray_le I)

instance {α : Type} (I : Nat) (r : List (mesh_object_info α)) : Decidable (RaySorted I r) := by
  unfold RaySorted; infer_instance

/-- Every remaining intersection lies on the ray `(s, f)` or on a later one. -/
def NotBefore {α : Type} (I : Nat) (s f : Int) (rest : List (mesh_object_info α)) : Prop :=
  ∀ m ∈ rest, s < m.solid_coord.get (index.slow I) ∨
    (s = m.solid_coord.get (index.slow I) ∧ f ≤ m.solid_coord.get (index.fast I))

/-- A left boundary of ray `(s, f)`: the domain face, or the object boundary built from an
opening intersection `R[k]` of that ray. -/
def StartOK {α : Type} (I : Nat) (R : List (mesh_object_info α)) (s f : Int)
    (b : boundary α) : Prop :=
  b = ⟨left_point I s f, none⟩ ∨
  ∃ k m, R[k]? = some m ∧ m.ray_outside = false ∧
    m.solid_coord.get (index.slow I) = s ∧ m.solid_coord.get (index.fast I) = f ∧
    b = object_at k m

/-- A right boundary of ray `(s, f)`: the domain face, or the object boundary built from a
closing intersection `R[k]` of that ray. -/
def EndOK {α : Type} (I : Nat) (extents : int3) (R : List (mesh_object_info α)) (s f : Int)
    (e : boundary α) : Prop :=
  e = ⟨right_point I extents s f, none⟩ ∨
  ∃ k m, R[k]? = some m ∧ m.ray_outside = true ∧
    m.solid_coord.get (index.slow I) = s ∧ m.solid_coord.get (index.fast I) = f ∧
    e = object_at k m

/-- The shape of every line `init_line` emits: the stride of the direction and two boundaries
of one ray `(s, f)` of the loops. -/
def LineOK {α : Type} (I : Nat) (extents : int3) (R : List (mesh_object_info α))
    (l : line α) : Prop :=
  l.stride = index.stride I extents ∧
  ∃ s f : Int, (0 ≤ s ∧ s < extents.get (index.slow I)) ∧
    (0 ≤ f ∧ f < extents.get (index.fast I)) ∧
    StartOK I R s f l.start ∧ EndOK I extents R s f l.end_

/-! ## The mesh (`mesh.cpp`) -/

/-- The class `mesh` as far as the derivative uses it: the extents and spacing of its
`Cartesian`, the intersection lists `R(d)` of its geometry, and the lines of each direction. -/
structure mesh (α : Type) where
  extents : int3
  h : Nat → α
  R : Nat → List (mesh_object_info α)
  lines_ : Nat → List (line α)

/-- The constructor `mesh::mesh(extents, bounds, shapes)`: `init_line<0>`, `init_line<1>`,
`init_line<2>` fill `lines_`; the spacing and the intersection lists come from `Cartesian` and
`CutGeometry`, which are outside `src/`, and are passed in. -/
def mesh.make {α : Type} (extents : int3) (h : Nat → α)
    (R : Nat → List (mesh_object_info α)) : Option (mesh α) :=
  match init_line 0 [] extents (R 0), init_line 1 [] extents (R 1),
      init_line 2 [] extents (R 2) with
  | some l0, some l1, some l2 =>
    some { extents := extents, h := h, R := R,
           lines_ := fun d => match d with
             | 0 => l0
             | 1 => l1
             | _ => l2 }
  | _, _, _ => none

/-- The accessor `mesh::lines(dir)`. -/
def mesh.lines {α : Type} (m : mesh α) (dir : Nat) : List (line α) := m.lines_ dir

/-! ## Matrices (`Dense.hpp`, `InnerBlock.cpp`) -/

/-- How a construction can fail: a failed `assert`, or undefined behaviour (an index outside
its container). -/
inductive Fault where
  | assertion
  | undefined
deriving DecidableEq, Repr

/-- The tags `eq_t` (assign) and `plus_eq_t` (add-assign). -/
inductive Op where
  | eq
  | plus_eq
deriving DecidableEq, Repr

/-- The effect of `b ⟨op⟩= val` on the old value of `b`. -/
def Op.store {α : Type} [Add α] (op : Op) (old val : α) : α :=
  match op with
  | Op.eq => val
  | Op.plus_eq => old + val

namespace matrix

/-- The class `Dense`: the `Common` addressing data and the row-major coefficients `v`. -/
structure Dense (α : Type) where
  rows : Int
  columns : Int
  row_offset : Int
  col_offset : Int
  stride : Int
  v : List α
deriving DecidableEq, Repr

/-- The constructor `Dense(rows, columns, rng)` of `Dense.hpp`: `v` has `rows * columns`
zero-initialised entries and receives `rng | take(v.size())`. The offsets and the stride of a
fresh `Common` are overwritten by `InnerBlock` before use; they are written 0, 0, 1 here. -/
def Dense.make {α : Type} [Zero α] (rows columns : Int) (rng : List α) : Dense α :=
  { rows := rows, columns := columns, row_offset := 0, col_offset := 0, stride := 1,
    v := rng.take (rows * columns).toNat ++
      List.replicate ((rows * columns).toNat - rng.length) 0 }

/-- The default constructor `Dense{}`. -/
def Dense.empty {α : Type} : Dense α :=
  { rows := 0, columns := 0, row_offset := 0, col_offset := 0, stride := 1, v := [] }

/-- Modelled from the spec: the class `Circulant` is declared outside `src/`; the spec
describes `Circulant(rows, coeffs[2p+1])` with offset and stride addressing. -/
structure Circulant (α : Type) where
  rows : Int
  row_offset : Int
  stride : Int
  coeffs : List α
deriving DecidableEq, Repr

/-- The constructor call `Circulant{n_interior, interior_c}`. -/
def Circulant.make {α : Type} (rows : Int) (coeffs : List α) : Circulant α :=
  { rows := rows, row_offset := 0, stride := 1, coeffs := coeffs }

/-- The class `InnerBlock`: the `Common` data and the three children. -/
structure InnerBlock (α : Type) where
  rows : Int
  columns : Int
  row_offset : Int
  col_offset : Int
  stride : Int
  left_boundary : Dense α
  interior : Circulant α
  right_boundary : Dense α
deriving DecidableEq, Repr

/-- The 7-argument constructor `InnerBlock(columns, row_offset, col_offset, stride, left, i,
right)` of `InnerBlock.cpp`, with the offsets and strides it sets on the children. -/
def InnerBlock.make {α : Type} (columns row_offset col_offset stride : Int)
    (left : Dense α) (i : Circulant α) (right : Dense α) : InnerBlock α :=
  { rows := left.rows + i.rows + right.rows
    columns := columns
    row_offset := row_offset
    col_offset := col_offset
    stride := stride
    left_boundary :=
      { left with row_offset := row_offset, col_offset := col_offset, stride := stride }
    interior :=
      { i with row_offset := row_offset + stride * left.rows, stride := stride }
    right_boundary :=
      { right with
        row_offset := row_offset + stride * (left.rows + i.rows)
        col_offset := col_offset + stride * (columns - right.columns)
        stride := stride } }

/-- Modelled from the spec: `Dense::operator()` is defined outside `src/`; the spec gives
`b[row_offset + r·stride] ⟨op⟩= Σ_c A[r,c] · x[col_offset + c·stride]` for the rows
`r ∈ [0, rows)`, with `A` row-major. -/
def Dense.apply {α : Type} [CommRing α] (A : Dense α) (x b : Int → α) (op : Op) : Int → α :=
  (List.range A.rows.toNat).foldl
    (fun (b : Int → α) (r : Nat) =>
      Function.update b (A.row_offset + (r : Int) * A.stride)
        (op.store (b (A.row_offset + (r : Int) * A.stride))
          ((List.range A.columns.toNat).map
            (fun (c : Nat) => A.v.getD (r * A.columns.toNat + c) 0 *
              x (A.col_offset + (c : Int) * A.stride))).sum))
    b

/-- Modelled from the spec: `Circulant::operator()` is defined outside `src/`; the spec
describes an interior stencil of half-width `p` whose row `r` has width `2p+1` and is centred at
`r`, with columns addressed relative to its first row:
`b[row_offset + r·stride] ⟨op⟩= Σ_j coeffs[j] · x[row_offset + (r + j - p)·stride]`. -/
def Circulant.apply {α : Type} [CommRing α] (A : Circulant α) (x b : Int → α) (op : Op) :
    Int → α :=
  (List.range A.rows.toNat).foldl
    (fun (b : Int → α) (r : Nat) =>
      Function.update b (A.row_offset + (r : Int) * A.stride)
        (op.store (b (A.row_offset + (r : Int) * A.stride))
          ((List.range A.coeffs.length).map
            (fun (j : Nat) => A.coeffs.getD j 0 *
              x (A.row_offset +
                ((r : Int) + (j : Int) - ((A.coeffs.length - 1) / 2 : Nat)) * A.stride))).sum))
    b

/-- The operator `InnerBlock::operator()(x, b, op)` of `InnerBlock.cpp`: left, interior,
right, each with the same `op`. -/
def InnerBlock.apply {α : Type} [CommRing α] (A : InnerBlock α) (x b : Int → α) (op : Op) :
    Int → α :=
  A.right_boundary.apply x (A.interior.apply x (A.left_boundary.apply x b op) op) op

/-- Modelled from the spec: the class `Block` is declared outside `src/`; the spec describes an
ordered vector of `InnerBlock`s whose apply runs every block in insertion order. -/
def Block.apply {α : Type} [CommRing α] (O : List (InnerBlock α)) (x b : Int → α) (op : Op) :
    Int → α :=
  O.foldl (fun b A => A.apply x b op) b

/-- Modelled from the spec: the class `CSR` and its builder are declared outside `src/`; the
matrix is kept as the points `(row, col, val)` given to `add_point`, duplicates standing for
their sum, with the row count fixed by `to_CSR`. -/
structure CSR (α : Type) where
  points : List (Int × Int × α)
  nrows : Int
deriving DecidableEq, Repr

/-- Modelled from the spec: `CSR::operator()` is defined outside `src/`; the spec says that
apply computes `y[row] += Σ A[row,col]·x[col]` and always accumulates. -/
def CSR.apply {α : Type} [CommRing α] (A : CSR α) (x b : Int → α) : Int → α :=
  A.points.foldl (fun b pt => Function.update b pt.1 (b pt.1 + pt.2.2 * x pt.2.1)) b

end matrix

/-! ## Stencils (`IdentityStencil.hpp`) -/

/-- The result `{p, r, t, nextra}` of `query` and `query_max`. -/
structure StencilInfo where
  p : Int
  r : Int
  t : Int
  nextra : Int
deriving DecidableEq, Repr

/-- The stencil interface the derivative consumes: `query`, `query_max`, `interior(h, c)`
returning the buffer `c` after the call and `nbs(h, b, psi, right_wall, c, x)` returning the
buffers `c` and `x` after the call, or a fault. -/
structure Stencil (α : Type) where
  query : bcs.type → StencilInfo
  query_max : StencilInfo
  interior : α → List α → List α
  nbs : α → bcs.type → α → Bool → List α → List α → Except Fault (List α × List α)

/-- The assignments `c[0] = a0; c[1] = a1; …` on a buffer. -/
def store_all {α : Type} (c : List α) (vals : List α) : List α :=
  vals.enum.foldl (fun c iv => c.set iv.1 iv.2) c

namespace stencils

/-- The struct `stencils::Identity` of `IdentityStencil.hpp`. -/
def Identity {α : Type} [LinearOrderedCommRing α] : Stencil α :=
  { query := fun b => if b = bcs.type.N then ⟨0, 2, 3, 2⟩ else ⟨0, 2, 3, 0⟩
    query_max := ⟨0, 2, 3, 2⟩
    interior := fun _ c => c.set 0 1
    nbs := fun _ b psi right_wall c x =>
      if 0 ≤ psi ∧ psi ≤ 1 then
        if b = bcs.type.N then
          if right_wall then
            Except.ok (store_all c [0, 1, -1, 0, 0, -1], store_all x [1, 2])
          else
            Except.ok (store_all c [-1, 0, 0, -1, 1, 0], store_all x [2, 1])
        else if right_wall then
          Except.ok (store_all c [0, 1, 0, 0, 0, 1], x)
        else
          Except.ok (store_all c [1, 0, 0, 0, 1, 0], x)
      else Except.error Fault.assertion }

end stencils

/-! ## The derivative (`Derivative.cpp`) -/

/-- The view `vs::chunk(n)`: consecutive pieces of `n` elements (`fuel` bounds the number of
pieces). -/
def chunk_aux {α : Type} : Nat → Nat → List α → List (List α)
  | 0, _, _ => []
  | fuel + 1, n, l => if l.isEmpty then [] else l.take n :: chunk_aux fuel n (l.drop n)

/-- The view `vs::chunk(n)` of a buffer. -/
def chunk {α : Type} (n : Nat) (l : List α) : List (List α) := chunk_aux l.length n l

/-- The view `vs::stride(n)`: the elements at positions `0, n, 2n, …`. -/
def stride_view {α : Type} (n : Nat) (l : List α) : List α :=
  (chunk n l).filterMap List.head?

/-- The scratch buffers and the three builders of the constructor. -/
structure Builders (α : Type) where
  left : List α
  right : List α
  extra : List α
  B : List (Int × Int × α)
  O : List (matrix.InnerBlock α)
  N : List (Int × Int × α)

/-- The running `rows`, `columns`, `row_offset`, `col_offset` of one line, with the builders. -/
structure Assembly (α : Type) where
  rows : Int
  columns : Int
  row_offset : Int
  col_offset : Int
  st : Builders α

/-- The lookup `assert(id < obj_bcs.size()); bc_t = obj_bcs[id]; assert(bc_t == Dirichlet)`. -/
def object_bc (obj_bcs : bcs.Object) (id : Int) : Except Fault bcs.type :=
  if id < (obj_bcs.length : Int) then
    if id < 0 then Except.error Fault.undefined
    else
      match obj_bcs[id.toNat]? with
      | none => Except.error Fault.undefined
      | some bc_t =>
        if bc_t = bcs.Dirichlet then Except.ok bc_t else Except.error Fault.assertion
  else Except.error Fault.assertion

/-- The loop `for (row = 0; row < n; row++) N_builder.add_point(first + stride * row, col,
extra[row])`; reading `extra` outside its size is a fault. -/
def neumann_points {α : Type} (extra : List α) (n : Int) (first stride col : Int) :
    Except Fault (List (Int × Int × α)) :=
  (List.range n.toNat).mapM
    (fun (row : Nat) =>
      match extra[row]? with
      | some e => Except.ok (first + stride * (row : Int), col, e)
      | none => Except.error Fault.undefined)

/-- The loop `for ((row, val) : enumerate(b_coeffs)) B_builder.add_point(first + stride * row,
col, val)`. -/
def object_points {α : Type} (b_coeffs : List α) (first stride col : Int) :
    List (Int × Int × α) :=
  b_coeffs.enum.map (fun rv => (first + stride * (rv.1 : Int), col, rv.2))

/-- Lines 51-92 of `Derivative.cpp`: the left boundary of one line. -/
def assemble_left {α : Type} [CommRing α] (dir : Nat) (h : α) (stencil : Stencil α)
    (grid_bcs : bcs.Grid) (obj_bcs : bcs.Object) (stride : Int) (start : boundary α)
    (a : Assembly α) : Except Fault (matrix.Dense α × Assembly α) :=
  match start.object with
  | some obj =>
    match object_bc obj_bcs obj.objectID with
    | Except.error e => Except.error e
    | Except.ok bc_t =>
      match stencil.nbs h bc_t obj.psi false a.st.left a.st.extra with
      | Except.error e => Except.error e
      | Except.ok (left, extra) =>
        let q := stencil.query bc_t
        let leftMat := matrix.Dense.make q.r (q.t - 1)
          ((chunk q.t.toNat left).flatMap (List.drop 1))
        let row_offset := a.row_offset + stride
        let b_coeffs := (stride_view q.t.toNat left).take q.r.toNat
        Except.ok (leftMat,
          { rows := a.rows - 1
            columns := a.columns - 1
            row_offset := row_offset
            col_offset := a.col_offset + stride
            st := { a.st with
              left := left
              extra := extra
              B := a.st.B ++ object_points b_coeffs row_offset stride obj.object_coordinate } })
  | none =>
    match stencil.nbs h (grid_bcs.get dir).left 1 false a.st.left a.st.extra with
    | Except.error e => Except.error e
    | Except.ok (left, extra) =>
      let q := stencil.query (grid_bcs.get dir).left
      let leftMat := matrix.Dense.make q.r q.t left
      if (grid_bcs.get dir).left = bcs.Dirichlet then
        Except.ok (leftMat,
          { a with
            rows := a.rows - 1
            row_offset := a.row_offset + stride
            st := { a.st with left := left, extra := extra } })
      else if (grid_bcs.get dir).left = bcs.Neumann then
        match neumann_points extra q.nextra a.row_offset stride a.row_offset with
        | Except.error e => Except.error e
        | Except.ok pts =>
          Except.ok (leftMat,
            { a with st := { a.st with left := left, extra := extra, N := a.st.N ++ pts } })
      else
        Except.ok (leftMat, { a with st := { a.st with left := left, extra := extra } })

/-- Lines 94-136 of `Derivative.cpp`: the right boundary of one line (`ic_end` is
`mesh.ic(end.mesh_coordinate)`). -/
def assemble_right {α : Type} [CommRing α] (dir : Nat) (h : α) (stencil : Stencil α)
    (grid_bcs : bcs.Grid) (obj_bcs : bcs.Object) (stride : Int) (end_ : boundary α)
    (ic_end : Int) (a : Assembly α) : Except Fault (matrix.Dense α × Assembly α) :=
  match end_.object with
  | some obj =>
    match object_bc obj_bcs obj.objectID with
    | Except.error e => Except.error e
    | Except.ok bc_t =>
      match stencil.nbs h bc_t obj.psi true a.st.right a.st.extra with
      | Except.error e => Except.error e
      | Except.ok (right, extra) =>
        let q := stencil.query bc_t
        let rightMat := matrix.Dense.make q.r (q.t - 1)
          ((chunk q.t.toNat right).flatMap (List.take (q.t - 1).toNat))
        let boundary_offset := ic_end - q.r * stride
        let b_coeffs :=
          (stride_view q.t.toNat (right.drop (q.t - 1).toNat)).take q.r.toNat
        Except.ok (rightMat,
          { a with
            rows := a.rows - 1
            columns := a.columns - 1
            st := { a.st with
              right := right
              extra := extra
              B := a.st.B ++
                object_points b_coeffs boundary_offset stride obj.object_coordinate } })
  | none =>
    match stencil.nbs h (grid_bcs.get dir).right 1 true a.st.right a.st.extra with
    | Except.error e => Except.error e
    | Except.ok (right, extra) =>
      let q := stencil.query (grid_bcs.get dir).right
      let rightMat := matrix.Dense.make q.r q.t right
      if (grid_bcs.get dir).right = bcs.Dirichlet then
        Except.ok (rightMat,
          { a with rows := a.rows - 1, st := { a.st with right := right, extra := extra } })
      else if (grid_bcs.get dir).right = bcs.Neumann then
        match neumann_points extra q.nextra (ic_end - (q.nextra - 1) * stride) stride ic_end with
        | Except.error e => Except.error e
        | Except.ok pts =>
          Except.ok (rightMat,
            { a with st := { a.st with right := right, extra := extra, N := a.st.N ++ pts } })
      else
        Except.ok (rightMat, { a with st := { a.st with right := right, extra := extra } })

/-- The body of the loop over `mesh.lines(dir)` (lines 40-146 of `Derivative.cpp`). -/
def assemble_line {α : Type} [CommRing α] (dir : Nat) (m : mesh α) (stencil : Stencil α)
    (grid_bcs : bcs.Grid) (obj_bcs : bcs.Object) (interior_c : List α)
    (st : Builders α) (l : line α) : Except Fault (Builders α) :=
  if dirichlet_line m.extents l.start.mesh_coordinate dir grid_bcs then Except.ok st
  else
    let columns := l.end_.mesh_coordinate.get dir - l.start.mesh_coordinate.get dir + 1
    let row_offset := ic m.extents l.start.mesh_coordinate
    match assemble_left dir (m.h dir) stencil grid_bcs obj_bcs l.stride l.start
        ⟨columns, columns, row_offset, row_offset, st⟩ with
    | Except.error e => Except.error e
    | Except.ok (leftMat, a1) =>
      match assemble_right dir (m.h dir) stencil grid_bcs obj_bcs l.stride l.end_
          (ic m.extents l.end_.mesh_coordinate) a1 with
      | Except.error e => Except.error e
      | Except.ok (rightMat, a2) =>
        let n_interior := a2.rows - leftMat.rows - rightMat.rows
        Except.ok { a2.st with
          O := a2.st.O ++
            [matrix.InnerBlock.make a2.columns a2.row_offset a2.col_offset l.stride leftMat
              (matrix.Circulant.make n_interior interior_c) rightMat] }

/-- The loop over the lines. -/
def assemble_lines {α : Type} [CommRing α] (dir : Nat) (m : mesh α) (stencil : Stencil α)
    (grid_bcs : bcs.Grid) (obj_bcs : bcs.Object) (interior_c : List α) :
    Builders α → List (line α) → Except Fault (Builders α)
  | st, [] => Except.ok st
  | st, l :: ls =>
    match assemble_line dir m stencil grid_bcs obj_bcs interior_c st l with
    | Except.error e => Except.error e
    | Except.ok st1 => assemble_lines dir m stencil grid_bcs obj_bcs interior_c st1 ls

/-- The class `derivative`: the direction, the block operator `O` and the CSR operators `B`
and `N`, and the interior coefficients. -/
structure derivative (α : Type) where
  dir : Nat
  O : List (matrix.InnerBlock α)
  B : matrix.CSR α
  N : matrix.CSR α
  interior_c : List α

/-- The constructor `Derivative::Derivative(dir, mesh, stencil, grid_bcs, obj_bcs)`. -/
def derivative.make {α : Type} [CommRing α] (dir : Nat) (m : mesh α) (stencil : Stencil α)
    (grid_bcs : bcs.Grid) (obj_bcs : bcs.Object) : Except Fault (derivative α) :=
  let q := stencil.query_max
  let interior_c := stencil.interior (m.h dir) (List.replicate (2 * q.p + 1).toNat 0)
  let st0 : Builders α :=
    { left := List.replicate (q.r * q.t).toNat 0
      right := List.replicate (q.r * q.t).toNat 0
      extra := List.replicate q.nextra.toNat 0
      B := [], O := [], N := [] }
  match assemble_lines dir m stencil grid_bcs obj_bcs interior_c st0 (m.lines dir) with
  | Except.error e => Except.error e
  | Except.ok st =>
    Except.ok { dir := dir, O := st.O, B := ⟨st.B, size m.extents⟩, N := ⟨st.N, size m.extents⟩,
                interior_c := interior_c }

/-- A scalar field (view): the domain values `D` and the boundary arrays `Rx`, `Ry`, `Rz`. -/
structure scalar (α : Type) where
  D : Int → α
  Rx : Int → α
  Ry : Int → α
  Rz : Int → α

/-- The operator `Derivative::operator()(u, du, op)` of `Derivative.cpp`. -/
def derivative.apply {α : Type} [CommRing α] (d : derivative α) (u du : scalar α) (op : Op) :
    scalar α :=
  let D1 := matrix.Block.apply d.O u.D du.D op
  match d.dir with
  | 0 => { du with D := d.B.apply u.Rx D1 }
  | 1 => { du with D := d.B.apply u.Ry D1 }
  | _ => { du with D := d.B.apply u.Rz D1 }

/-- The operator `Derivative::operator()(u, nu, du, op)` of `Derivative.cpp`. -/
def derivative.apply_neumann {α : Type} [CommRing α] (d : derivative α) (u nu du : scalar α)
    (op : Op) : scalar α :=
  let du1 := d.apply u du op
  { du1 with D := d.N.apply nu.D du1.D }

/-! ## Notions used in the statements about the derivative -/

/-- The boundary array of direction `dir`: `Rx` for 0, `Ry` for 1, `Rz` for 2 (and for any
other value, as the `default` label of the `switch` in `Derivative::operator()`). -/
def scalar.R {α : Type} (u : scalar α) (dir : Nat) : Int → α :=
  match dir with
  | 0 => u.Rx
  | 1 => u.Ry
  | _ => u.Rz

/-- The cell `ijk` lies inside the grid. -/
def in_cells (extents : int3) (ijk : int3) : Prop :=
  (0 ≤ ijk.x ∧ ijk.x < extents.x) ∧ (0 ≤ ijk.y ∧ ijk.y < extents.y) ∧
  (0 ≤ ijk.z ∧ ijk.z < extents.z)

instance (extents : int3) (ijk : int3) : Decidable (in_cells extents ijk) := by
  unfold in_cells; infer_instance

/-- An update of `b` (for a fixed input `x`) keeps every entry that already equals `x`. -/
def KeepsCopy {α : Type} (x : Int → α) (F : (Int → α) → (Int → α)) : Prop :=
  ∀ b t, b t = x t → F b t = x t

/-- An update of `b` (for a fixed input `x`) writes `x t` into entry `t`. -/
def WritesCopy {α : Type} (x : Int → α) (F : (Int → α) → (Int → α)) (t : Int) : Prop :=
  ∀ b, F b t = x t

/-- The block the constructor emits for a line without objects under free boundary conditions
and the Identity stencil. -/
def identity_block {α : Type} [CommRing α] (extents : int3) (dir : Nat) (l : line α) :
    matrix.InnerBlock α :=
  matrix.InnerBlock.make
    (l.end_.mesh_coordinate.get dir - l.start.mesh_coordinate.get dir + 1)
    (ic extents l.start.mesh_coordinate) (ic extents l.start.mesh_coordinate) l.stride
    (matrix.Dense.make 2 3 [1, 0, 0, 0, 1, 0])
    (matrix.Circulant.make
      (l.end_.mesh_coordinate.get dir - l.start.mesh_coordinate.get dir + 1 - 2 - 2) [1])
    (matrix.Dense.make 2 3 [0, 1, 0, 0, 0, 1])

/-- The global rows of a `Dense`: `row_offset + r·stride` for `0 ≤ r < rows`. -/
def matrix.Dense.has_row {α : Type} (A : matrix.Dense α) (g : Int) : Prop :=
  ∃ r : Int, 0 ≤ r ∧ r < A.rows ∧ g = A.row_offset + r * A.stride

/-- The global rows of a `Circulant`: `row_offset + r·stride` for `0 ≤ r < rows`. -/
def matrix.Circulant.has_row {α : Type} (A : matrix.Circulant α) (g : Int) : Prop :=
  ∃ r : Int, 0 ≤ r ∧ r < A.rows ∧ g = A.row_offset + r * A.stride

/-- The global rows of an `InnerBlock`: `row_offset + r·stride` for `0 ≤ r < rows`. -/
def matrix.InnerBlock.has_row {α : Type} (A : matrix.InnerBlock α) (g : Int) : Prop :=
  ∃ r : Int, 0 ≤ r ∧ r < A.rows ∧ g = A.row_offset + r * A.stride

/-- A field with the same four arrays everywhere zero. -/
def scalar.zero {α : Type} [Zero α] : scalar α := ⟨fun _ => 0, fun _ => 0, fun _ => 0, fun _ => 0⟩

/-- The writes of `Dense::operator()` for the input `x`: for each row, its global row and the
value `Σ_c A[r,c] · x[col_offset + c·stride]`. -/
def matrix.Dense.writes {α : Type} [CommRing α] (A : matrix.Dense α) (x : Int → α) :
    List (Int × α) :=
  (List.range A.rows.toNat).map
    (fun (r : Nat) => (A.row_offset + (r : Int) * A.stride,
      ((List.range A.columns.toNat).map
        (fun (c : Nat) => A.v.getD (r * A.columns.toNat + c) 0 *
          x (A.col_offset + (c : Int) * A.stride))).sum))

/-- The writes of `Circulant::operator()` for the input `x`. -/
def matrix.Circulant.writes {α : Type} [CommRing α] (A : matrix.Circulant α) (x : Int → α) :
    List (Int × α) :=
  (List.range A.rows.toNat).map
    (fun (r : Nat) => (A.row_offset + (r : Int) * A.stride,
      ((List.range A.coeffs.length).map
        (fun (j : Nat) => A.coeffs.getD j 0 *
          x (A.row_offset +
            ((r : Int) + (j : Int) - ((A.coeffs.length - 1) / 2 : Nat)) * A.stride))).sum))

/-- The writes of an `InnerBlock`: left, interior, right. -/
def matrix.InnerBlock.writes {α : Type} [CommRing α] (A : matrix.InnerBlock α) (x : Int → α) :
    List (Int × α) :=
  A.left_boundary.writes x ++ A.interior.writes x ++ A.right_boundary.writes x

/-- The writes of a `Block`, in the order of its blocks. -/
def matrix.Block.writes {α : Type} [CommRing α] (O : List (matrix.InnerBlock α))
    (x : Int → α) : List (Int × α) :=
  O.flatMap (fun A => A.writes x)

/-- Performing a list of writes `b[row] ⟨op⟩= val` in order. -/
def store_writes {α : Type} [Add α] (op : Op) (ws : List (Int × α)) (b : Int → α) : Int → α :=
  ws.foldl (fun b w => Function.update b w.1 (op.store (b w.1) w.2)) b

/-- The global rows the children of an `InnerBlock` write, in order. -/
def matrix.InnerBlock.row_list {α : Type} (A : matrix.InnerBlock α) : List Int :=
  (List.range A.left_boundary.rows.toNat).map
      (fun (r : Nat) => A.left_boundary.row_offset + (r : Int) * A.left_boundary.stride) ++
  (List.range A.interior.rows.toNat).map
      (fun (r : Nat) => A.interior.row_offset + (r : Int) * A.interior.stride) ++
  (List.range A.right_boundary.rows.toNat).map
      (fun (r : Nat) => A.right_boundary.row_offset + (r : Int) * A.right_boundary.stride)

/-- The global rows the blocks of `O` write, in order. -/
def matrix.Block.row_list {α : Type} (O : List (matrix.InnerBlock α)) : List Int :=
  O.flatMap (fun A => A.row_list)

/-- The field `a * u + b * v`, component by component. -/
def scalar.lin {α : Type} [CommRing α] (a : α) (u : scalar α) (b : α) (v : scalar α) :
    scalar α :=
  { D := fun g => a * u.D g + b * v.D g
    Rx := fun g => a * u.Rx g + b * v.Rx g
    Ry := fun g => a * u.Ry g + b * v.Ry g
    Rz := fun g => a * u.Rz g + b * v.Rz g }

/-- The number of rows the constructor drops at one end of a line: one at an object boundary,
one at a Dirichlet domain face, none at a free or Neumann domain face. -/
def dropped {α : Type} (b : boundary α) (face : bcs.type) : Int :=
  if b.object.isSome then 1 else if face = bcs.Dirichlet then 1 else 0

/-- The block `A` has the addressing the constructor gives to the block of the line `l`:
the stride of the line, the first row at the start cell moved past a dropped row, as many rows
as the line has cells without the dropped ones, the left child at the first rows and the right
child at the last rows. -/
def BlockOfLine {α : Type} (extents : int3) (dir : Nat) (grid_bcs : bcs.Grid) (l : line α)
    (A : matrix.InnerBlock α) : Prop :=
  A.stride = l.stride ∧
  A.row_offset = ic extents l.start.mesh_coordinate
      + dropped l.start (grid_bcs.get dir).left * l.stride ∧
  A.rows = line_cells dir l - dropped l.start (grid_bcs.get dir).left
      - dropped l.end_ (grid_bcs.get dir).right ∧
  A.left_boundary.row_offset = A.row_offset ∧ A.left_boundary.stride = A.stride ∧
  A.interior.row_offset = A.row_offset + A.stride * A.left_boundary.rows ∧
  A.interior.stride = A.stride ∧
  A.interior.rows = A.rows - A.left_boundary.rows - A.right_boundary.rows ∧
  A.right_boundary.row_offset = A.row_offset + A.stride * (A.rows - A.right_boundary.rows) ∧
  A.right_boundary.stride = A.stride

/-- Two lines of direction `I`, the first emitted before the second, are separated: when they
lie on one ray, the first ends at an object, the second starts at an object, and the end is
not after the start. -/
def Separated {α : Type} (I : Nat) (l1 l2 : line α) : Prop :=
  l1.start.mesh_coordinate.get (index.slow I) = l2.start.mesh_coordinate.get (index.slow I) →
  l1.start.mesh_coordinate.get (index.fast I) = l2.start.mesh_coordinate.get (index.fast I) →
  l1.end_.object.isSome = true ∧ l2.start.object.isSome = true ∧
    l1.end_.mesh_coordinate.get I ≤ l2.start.mesh_coordinate.get I

/-- The number of columns the constructor drops at one end of a line: one at an object
boundary, none at a domain face. -/
def at_object {α : Type} (b : boundary α) : Int :=
  if b.object.isSome then 1 else 0

/-- The block `A` has the column addressing the constructor gives to the block of the line
`l`: the first column at the start cell moved past an object boundary, as many columns as the
line has cells without the object boundaries. -/
def ColumnsOfLine {α : Type} (extents : int3) (dir : Nat) (l : line α)
    (A : matrix.InnerBlock α) : Prop :=
  A.col_offset = ic extents l.start.mesh_coordinate + at_object l.start * l.stride ∧
  A.columns = line_cells dir l - at_object l.start - at_object l.end_

/-- The global columns of an `InnerBlock`: `col_offset + c·stride` for `0 ≤ c < columns`. -/
def matrix.InnerBlock.has_col {α : Type} (A : matrix.InnerBlock α) (g : Int) : Prop :=
  ∃ c : Int, 0 ≤ c ∧ c < A.columns ∧ g = A.col_offset + c * A.stride

/-- The order of the lines of direction `I`: lexicographic by the `(slow, fast, I)` coordinates
of the start. -/
def line_le {α : Type} (I : Nat) (l1 l2 : line α) : Prop :=
  l1.start.mesh_coordinate.get (index.slow I) < l2.start.mesh_coordinate.get (index.slow I) ∨
  (l1.start.mesh_coordinate.get (index.slow I) = l2.start.mesh_coordinate.get (index.slow I) ∧
    (l1.start.mesh_coordinate.get (index.fast I)
        < l2.start.mesh_coordinate.get (index.fast I) ∨
      (l1.start.mesh_coordinate.get (index.fast I)
          = l2.start.mesh_coordinate.get (index.fast I) ∧
        l1.start.mesh_coordinate.get I ≤ l2.start.mesh_coordinate.get I)))

instance {α : Type} (I : Nat) (l1 l2 : line α) : Decidable (line_le I l1 l2) := by
  unfold line_le; infer_instance

/-- Modelled from the spec: `mesh::F()` and the selector pipeline `u | sel::D | m.F()` are
defined outside `src/` (only their tests are there); the spec describes a fluid filter that
wraps the D sequence plus a list of solid cells and skips these cells, indexing through the
non-solid cells in D-major order. The filtered view is kept as the list of the indices of
`[0, mesh.size())` that survive, in increasing order; `S` is the list of solid cells. -/
def fluid_indices (extents : int3) (S : List int3) : List Int :=
  ((List.range (size extents).toNat).map (fun (g : Nat) => (g : Int))).filter
    (fun g => decide (g ∉ S.map (ic extents)))

/-- Modelled from the spec: the assignment `u | sel::D | m.F() = val` is defined outside
`src/`; the spec says that assignment through the filtered view writes only to the surviving
indices. -/
def assign_fluid {α : Type} (extents : int3) (S : List int3) (D : Int → α) (val : α) :
    Int → α :=
  (fluid_indices extents S).foldl (fun D g => Function.update D g val) D

/-- The list is sorted by `I`-coordinate within each ray: of two intersections of one ray,
the one that comes first in the list is not after the other along `I`. -/
def SortedOnRays {α : Type} (I : Nat) (r : List (mesh_object_info α)) : Prop :=
  r.Pairwise (fun a b =>
    same_plane (index.slow I) (index.fast I) a.solid_coord b.solid_coord = true →
      a.solid_coord.get I ≤ b.solid_coord.get I)

instance {α : Type} (I : Nat) (r : List (mesh_object_info α)) :
    Decidable (SortedOnRays I r) := by
  unfold SortedOnRays; infer_instance

/-- The use a boundary makes of the intersection list: nothing for a domain face, and for an
object boundary its `object_coordinate` together with the role of the boundary in its line
(`true` for an end, `false` for a start). -/
def object_use {α : Type} (is_end : Bool) (b : boundary α) : List (Int × Bool) :=
  match b.object with
  | none => []
  | some o => [(o.object_coordinate, is_end)]

/-- All uses of the intersection list by the boundaries of the lines `v`, in the order of `v`,
the start of a line before its end. -/
def boundary_uses {α : Type} : List (line α) → List (Int × Bool)
  | [] => []
  | l :: t => object_use false l.start ++ object_use true l.end_ ++ boundary_uses t

/-- The positions `k, k + 1, …` of the intersections of a list, each with its `ray_outside`
flag. -/
def intersection_roles {α : Type} : Nat → List (mesh_object_info α) → List (Int × Bool)
  | _, [] => []
  | k, m :: t => ((k : Int), m.ray_outside) :: intersection_roles (k + 1) t

/-- No two consecutive flags of the list are both `true`. -/
def no_consecutive_true : List Bool → Bool
  | a :: b :: rest => !(a && b) && no_consecutive_true (b :: rest)
  | _ => true

/-- On no ray are two consecutive intersections (in list order) both closing
(`ray_outside = true`). Every list whose rays alternate starting with `ray_outside = true`
has this property, whatever the number of intersections of a ray. -/
def NoDoubleClose {α : Type} (I : Nat) (r : List (mesh_object_info α)) : Prop :=
  ∀ m ∈ r, no_consecutive_true ((ray_of I m r).map (fun a => a.ray_outside)) = true

instance {α : Type} (I : Nat) (r : List (mesh_object_info α)) :
    Decidable (NoDoubleClose I r) := by
  unfold NoDoubleClose; infer_instance

/-! ## Concrete inputs -/

/-- An intersection over `Int` with the given flag, solid coordinate, shape id and psi. -/
def hit (outside : Bool) (x y z : Int) (id psi : Int) : mesh_object_info Int :=
  { psi := psi, position := (0, 0, 0), ray_outside := outside, solid_coord := ⟨x, y, z⟩,
    shape_id := id }

/-- A grid of 4 x 2 x 2 cells. -/
def grid422 : int3 := ⟨4, 2, 2⟩

/-- Intersections along x in `grid422`: the ray `(y, z) = (0, 1)` enters a solid at cell 1 and
leaves it at cell 2; the ray `(1, 0)` enters and leaves at cell 2. -/
def hits422 : List (mesh_object_info Int) :=
  [hit true 1 0 1 0 7, hit false 2 0 1 0 8, hit true 2 1 0 0 5, hit false 2 1 0 0 6]

/-- A domain-face boundary at cell `(x, y, z)`. -/
def face (x y z : Int) : boundary Int := ⟨⟨x, y, z⟩, none⟩

/-- An object boundary at cell `(x, y, z)` with object coordinate `k`, shape id and psi. -/
def cut (x y z : Int) (k id psi : Int) : boundary Int := ⟨⟨x, y, z⟩, some ⟨k, id, psi⟩⟩

/-- The lines `init_line<0>` returns for `grid422` and `hits422`. -/
def lines422 : List (line Int) :=
  [⟨4, face 0 0 0, face 3 0 0⟩,
   ⟨4, face 0 0 1, cut 1 0 1 0 0 7⟩, ⟨4, cut 2 0 1 1 0 8, face 3 0 1⟩,
   ⟨4, face 0 1 0, cut 2 1 0 2 0 5⟩, ⟨4, cut 2 1 0 3 0 6, face 3 1 0⟩,
   ⟨4, face 0 1 1, face 3 1 1⟩]

/-- A grid of 1 x 2 x 2 cells: direction x is degenerate. -/
def grid122 : int3 := ⟨1, 2, 2⟩

/-- Intersections along x in `grid422` on the ray `(y, z) = (0, 1)` with the flags in the
order the data model of the spec gives: `ray_outside = false` first, then `true`. -/
def hits_false_first : List (mesh_object_info Int) :=
  [hit false 1 0 1 0 7, hit true 2 0 1 0 8]

/-- The lines `init_line<0>` returns for `grid422` and `hits_false_first`: the ray `(0, 1)`
yields the single line from the first to the second intersection. -/
def lines_false_first : List (line Int) :=
  [⟨4, face 0 0 0, face 3 0 0⟩,
   ⟨4, cut 1 0 1 0 0 7, cut 2 0 1 1 0 8⟩,
   ⟨4, face 0 1 0, face 3 1 0⟩,
   ⟨4, face 0 1 1, face 3 1 1⟩]

/-- Free boundary conditions on all six faces. -/
def free3 : bcs.Grid := ⟨bcs.ff, bcs.ff, bcs.ff⟩

/-- A field over `Int` with `D[g] = 10 + g` and boundary arrays `100 + g`, `200 + g`,
`300 + g`. -/
def ramp : scalar Int := ⟨fun g => 10 + g, fun g => 100 + g, fun g => 200 + g, fun g => 300 + g⟩

/-- The field `ramp` with other values in `Ry` and `Rz`. -/
def ramp_other : scalar Int := ⟨fun g => 10 + g, fun g => 100 + g, fun _ => 5, fun _ => 6⟩

/-- A field with the domain values of `ramp` and zero boundary arrays. -/
def zero_ramp : scalar Int := ⟨fun g => 10 + g, fun _ => 0, fun _ => 0, fun _ => 0⟩

/-- The zero field over `Int`. -/
def zero_field : scalar Int := ⟨fun _ => 0, fun _ => 0, fun _ => 0, fun _ => 0⟩

/-- A derivative in direction x with an empty `O`, one point in `B` and one point in `N`. -/
def one_point_derivative : derivative Int :=
  { dir := 0, O := [], B := ⟨[(1, 0, 2)], 4⟩, N := ⟨[(2, 1, 3)], 4⟩, interior_c := [1] }

/-- The mesh `mesh::mesh` builds for the grid 3 x 1 x 1 without objects. -/
def mesh311 : mesh Int :=
  { extents := ⟨3, 1, 1⟩, h := fun _ => 1, R := fun _ => [],
    lines_ := fun d => match d with
      | 0 => [⟨1, face 0 0 0, face 2 0 0⟩]
      | 1 => []
      | _ => [] }

/-- A derivative in direction x with one identity block of four rows, one point in `B` and
one point in `N`. -/
def one_block_derivative : derivative Int :=
  { dir := 0, O := [identity_block ⟨4, 1, 1⟩ 0 ⟨1, face 0 0 0, face 3 0 0⟩],
    B := ⟨[(1, 0, 2)], 4⟩, N := ⟨[(2, 1, 3)], 4⟩, interior_c := [1] }

/-- Neumann conditions on all six faces. -/
def neumann3 : bcs.Grid := ⟨bcs.nn, bcs.nn, bcs.nn⟩

/-- Along x in `grid422`, the ray `(0, 1)` crosses a shape whose id is `-1`. -/
def hits_negative_id : Nat → List (mesh_object_info Int) := fun d =>
  match d with
  | 0 => [hit true 1 0 1 (-1) 1, hit false 2 0 1 (-1) 0]
  | _ => []

/-- A stencil that writes nothing and whose `query` asks for one Neumann extra while
`query_max` announces none. -/
def over_extra : Stencil Int :=
  { query := fun _ => ⟨0, 1, 1, 1⟩
    query_max := ⟨0, 1, 1, 0⟩
    interior := fun _ c => c
    nbs := fun _ _ _ _ c x => Except.ok (c, x) }

/-- A stencil that writes nothing and whose `query` asks for three rows of four coefficients
while `query_max` announces one row of one coefficient. -/
def over_rows : Stencil Int :=
  { query := fun _ => ⟨0, 3, 4, 0⟩
    query_max := ⟨0, 1, 1, 0⟩
    interior := fun _ c => c
    nbs := fun _ _ _ _ c x => Except.ok (c, x) }

/-- The mesh `mesh::mesh` builds for the grid 8 x 1 x 1 without objects. -/
def mesh811 : mesh Int :=
  { extents := ⟨8, 1, 1⟩, h := fun _ => 1, R := fun _ => [],
    lines_ := fun d => match d with
      | 0 => [⟨1, face 0 0 0, face 7 0 0⟩]
      | 1 => []
      | _ => [] }

/-- The builders at the start of the constructor for the stencil `over_extra`. -/
def builders_over_extra : Builders Int :=
  { left := [0], right := [0], extra := [], B := [], O := [], N := [] }

/-- Dirichlet conditions on the two x faces, free conditions on the others. -/
def dirichlet_x : bcs.Grid := ⟨bcs.dd, bcs.ff, bcs.ff⟩

/-- Dirichlet conditions on the two z faces, free conditions on the others. -/
def dirichlet_z : bcs.Grid := ⟨bcs.ff, bcs.ff, bcs.dd⟩

/-- Along x in a grid 12 x 1 x 1, the only ray enters a solid of shape 0 at cell 5 and leaves
it at cell 6. -/
def hits_cut12 : Nat → List (mesh_object_info Int) := fun d =>
  match d with
  | 0 => [hit true 5 0 0 0 1, hit false 6 0 0 0 0]
  | _ => []

/-- The mesh `mesh::mesh` builds for the grid 12 x 1 x 1 with `hits_cut12`. -/
def mesh_cut12 : mesh Int :=
  { extents := ⟨12, 1, 1⟩, h := fun _ => 1, R := hits_cut12,
    lines_ := fun d => match d with
      | 0 => [⟨1, face 0 0 0, cut 5 0 0 0 0 1⟩, ⟨1, cut 6 0 0 1 0 0, face 11 0 0⟩]
      | 1 => []
      | _ => [] }

/-- The derivative in direction x the constructor returns for `mesh_cut12` with the Identity
stencil, Dirichlet conditions on the x faces and a Dirichlet object (an empty derivative stands
for a failed construction). -/
def derivative_cut12 : derivative Int :=
  match derivative.make 0 mesh_cut12 stencils.Identity dirichlet_x [bcs.Dirichlet] with
  | Except.ok d => d
  | Except.error _ => ⟨0, [], ⟨[], 0⟩, ⟨[], 0⟩, []⟩

/-- The scratch buffers and empty builders the constructor starts with for the Identity
stencil. -/
def builders_identity : Builders Int :=
  { left := List.replicate 6 0, right := List.replicate 6 0, extra := List.replicate 2 0,
    B := [], O := [], N := [] }

/-- The builders after the constructor has assembled the first line of `mesh_cut12` in
direction x with Dirichlet conditions on the x faces (the initial builders stand for a failed
step). -/
def builders_cut12_first : Builders Int :=
  match assemble_line 0 mesh_cut12 stencils.Identity dirichlet_x [bcs.Dirichlet] [1]
      builders_identity ⟨1, face 0 0 0, cut 5 0 0 0 0 1⟩ with
  | Except.ok s => s
  | Except.error _ => builders_identity

/-- An InnerBlock as the constructor builds it for a line of two cells between two Dirichlet
faces with the Identity stencil: no rows of its own, an interior row count of -4. -/
def short_block : matrix.InnerBlock Int :=
  matrix.InnerBlock.make 2 1 0 1 (matrix.Dense.make 2 3 [1, 0, 0, 0, 1, 0])
    (matrix.Circulant.make (-4) [1]) (matrix.Dense.make 2 3 [0, 1, 0, 0, 0, 1])

/-- The builders after the constructor has assembled the only line of `mesh811` in direction
x with Neumann conditions on all faces and the Identity stencil (the initial builders stand
for a failed step). -/
def builders_neumann8 : Builders Int :=
  match assemble_line 0 mesh811 stencils.Identity neumann3 [] [1] builders_identity
      ⟨1, face 0 0 0, face 7 0 0⟩ with
  | Except.ok s => s
  | Except.error _ => builders_identity

/-- The derivative in direction x the constructor returns for `mesh811` with the Identity
stencil and Neumann conditions on all faces (an empty derivative stands for a failed
construction). -/
def derivative_neumann8 : derivative Int :=
  match derivative.make 0 mesh811 stencils.Identity neumann3 [] with
  | Except.ok d => d
  | Except.error _ => ⟨0, [], ⟨[], 0⟩, ⟨[], 0⟩, []⟩

end ccs

/-! ## Theorems -/

namespace ccs

section mesh_basics

theorem left_point_slow (I : Nat) (hI : I < 3) (s f : Int) :
    (left_point I s f).get (index.slow I) = s := by
  interval_cases I <;> rfl

theorem left_point_fast (I : Nat) (hI : I < 3) (s f : Int) :
    (left_point I s f).get (index.fast I) = f := by
  interval_cases I <;> rfl

theorem left_point_dir (I : Nat) (hI : I < 3) (s f : Int) :
    (left_point I s f).get I = 0 := by
  interval_cases I <;> rfl

theorem right_point_slow (I : Nat) (hI : I < 3) (extents : int3) (s f : Int) :
    (right_point I extents s f).get (index.slow I) = s := by
  interval_cases I <;> rfl

theorem right_point_fast (I : Nat) (hI : I < 3) (extents : int3) (s f : Int) :
    (right_point I extents s f).get (index.fast I) = f := by
  interval_cases I <;> rfl

theorem right_point_dir (I : Nat) (hI : I < 3) (extents : int3) (s f : Int) :
    (right_point I extents s f).get I = extents.get I - 1 := by
  interval_cases I <;> rfl

theorem same_plane_left_point (I : Nat) (hI : I < 3) (s f : Int) (c : int3) :
    same_plane (index.slow I) (index.fast I) (left_point I s f) c = true ↔
      c.get (index.slow I) = s ∧ c.get (index.fast I) = f := by
  unfold same_plane
  rw [left_point_slow I hI, left_point_fast I hI]
  simp only [Bool.and_eq_true, beq_iff_eq]
  constructor
  · rintro ⟨h1, h2⟩; exact ⟨h1.symm, h2.symm⟩
  · rintro ⟨h1, h2⟩; exact ⟨h1.symm, h2.symm⟩

end mesh_basics

/-! ### A proof rule for runs of `init_line` on admissible intersection lists -/

section admissible_rule

variable {α : Type}

theorem list_two_step {β : Type} (P : List β → Prop) (h0 : P []) (h1 : ∀ a, P [a])
    (h2 : ∀ a b l, P l → P (a :: b :: l)) : ∀ l, P l := by
  intro l
  have key : ∀ n : Nat, ∀ l : List β, l.length ≤ n → P l := by
    intro n
    induction n with
    | zero =>
      intro l hl
      cases l with
      | nil => exact h0
      | cons a t => simp at hl
    | succ n ih =>
      intro l hl
      match l, hl with
      | [], _ => exact h0
      | [a], _ => exact h1 a
      | a :: b :: t, hl =>
        apply h2
        apply ih
        simp only [List.length_cons] at hl
        omega
  exact key l.length l le_rfl

theorem drop_cons_two {β : Type} (R : List β) (k : Nat) (a b : β) (l : List β)
    (h : a :: b :: l = R.drop k) :
    R[k]? = some a ∧ R[k + 1]? = some b ∧ l = R.drop (k + 2) ∧ k + 2 ≤ R.length := by
  have h0 : (R.drop k)[0]? = some a := by rw [← h]; simp
  have h1 : (R.drop k)[1]? = some b := by rw [← h]; simp
  have hlen : (R.drop k).length = l.length + 2 := by rw [← h]; simp
  rw [List.getElem?_drop] at h0 h1
  refine ⟨by simpa using h0, by simpa using h1, ?_, ?_⟩
  · have : R.drop (k + 2) = (R.drop k).drop 2 := by rw [List.drop_drop]
    rw [this, ← h]; rfl
  · rw [List.length_drop] at hlen; omega

/-- The `while` loop on a paired list: pairs on the ray are consumed two at a time. -/
theorem ray_loop_paired (I : Nat) (hI : I < 3) (extents : int3)
    (R : List (mesh_object_info α)) (s f : Int)
    (J : Nat → List (line α) → boundary α → Prop)
    (hpair : ∀ k v b0 a b, R[k]? = some a → R[k + 1]? = some b →
      a.ray_outside = true → b.ray_outside = false →
      a.solid_coord.get (index.slow I) = s → a.solid_coord.get (index.fast I) = f →
      b.solid_coord.get (index.slow I) = s → b.solid_coord.get (index.fast I) = f →
      J k v b0 →
      J (k + 2) (v ++ [⟨index.stride I extents, b0, object_at k a⟩]) (object_at (k + 1) b)) :
    ∀ (rest : List (mesh_object_info α)) (k : Nat) (v : List (line α)) (b0 : boundary α),
      rest = R.drop k → Paired I rest → k ≤ R.length → J k v b0 →
      ∃ k1 v1 b1,
        ray_loop I extents (left_point I s f) rest k (some b0) v
          = some (⟨k1, R.drop k1, v1⟩, some b1) ∧
        J k1 v1 b1 ∧ Paired I (R.drop k1) ∧ k1 ≤ R.length ∧ k ≤ k1 ∧
        (∀ m, (R.drop k1).head? = some m →
          ¬ (m.solid_coord.get (index.slow I) = s ∧ m.solid_coord.get (index.fast I) = f)) := by
  intro rest
  induction rest using list_two_step with
  | h0 =>
    intro k v b0 hrest _ hk hJ
    refine ⟨k, v, b0, ?_, hJ, ?_, hk, le_rfl, ?_⟩
    · rw [← hrest]; rfl
    · rw [← hrest]; trivial
    · rw [← hrest]; intro m hm; simp at hm
  | h1 a =>
    intro k v b0 _ hP
    exact absurd hP (by simp [Paired])
  | h2 a b l ih =>
    intro k v b0 hrest hP hk hJ
    obtain ⟨haT, hbF, hab, hPl⟩ := hP
    obtain ⟨hka, hkb, hl, hk2⟩ := drop_cons_two R k a b l hrest
    by_cases hin : same_plane (index.slow I) (index.fast I) (left_point I s f) a.solid_coord = true
    · have ha := (same_plane_left_point I hI s f _).1 hin
      have hb : b.solid_coord.get (index.slow I) = s ∧ b.solid_coord.get (index.fast I) = f := by
        unfold same_plane at hab
        simp only [Bool.and_eq_true, beq_iff_eq] at hab
        exact ⟨hab.1 ▸ ha.1, hab.2 ▸ ha.2⟩
      have hinb := (same_plane_left_point I hI s f _).2 hb
      have hJ2 := hpair k v b0 a b hka hkb haT hbF ha.1 ha.2 hb.1 hb.2 hJ
      obtain ⟨k1, v1, b1, hrun, hJ1, hP1, hk1, hkk1, hhead⟩ :=
        ih (k + 2) _ _ hl hPl hk2 hJ2
      refine ⟨k1, v1, b1, ?_, hJ1, hP1, hk1, by omega, hhead⟩
      rw [ray_loop, if_pos hin, if_pos haT]
      rw [ray_loop, if_pos hinb, hbF]
      simpa using hrun
    · refine ⟨k, v, b0, ?_, hJ, ?_, hk, le_rfl, ?_⟩
      · rw [ray_loop, if_neg hin, ← hrest]
      · rw [← hrest]; exact ⟨haT, hbF, hab, hPl⟩
      · rw [← hrest]
        intro m hm
        simp only [List.head?_cons, Option.some.injEq] at hm
        subst hm
        intro hc
        exact hin ((same_plane_left_point I hI s f _).2 hc)

theorem notBefore_next (I : Nat) (s f : Int) (rest : List (mesh_object_info α))
    (hS : PlaneSorted I rest) (hlow : NotBefore I s f rest)
    (hhead : ∀ m, rest.head? = some m →
      ¬ (m.solid_coord.get (index.slow I) = s ∧ m.solid_coord.get (index.fast I) = f)) :
    NotBefore I s (f + 1) rest := by
  cases rest with
  | nil => intro m hm; simp at hm
  | cons m0 t =>
    have h0 := hlow m0 (List.mem_cons_self _ _)
    have hn := hhead m0 rfl
    have hrel := (List.pairwise_cons.1 hS).1
    intro m hm
    rcases List.mem_cons.1 hm with rfl | hmt
    · omega
    · have := hrel m hmt
      unfold plane_le at this
      omega

theorem planeSorted_drop (I : Nat) (R : List (mesh_object_info α)) (hS : PlaneSorted I R)
    (k : Nat) : PlaneSorted I (R.drop k) :=
  List.Pairwise.sublist (List.drop_sublist k R) hS

theorem notBefore_drop (I : Nat) (s f : Int) (R : List (mesh_object_info α)) (k k1 : Nat)
    (hk : k ≤ k1) (hlow : NotBefore I s f (R.drop k)) : NotBefore I s f (R.drop k1) := by
  intro m hm
  apply hlow
  have : R.drop k1 = (R.drop k).drop (k1 - k) := by
    rw [List.drop_drop]; congr 1; omega
  rw [this] at hm
  exact List.mem_of_mem_drop hm

/-- One ray of `init_line` on an admissible list. -/
theorem plane_step_paired (I : Nat) (hI : I < 3) (extents : int3)
    (R : List (mesh_object_info α)) (hS : PlaneSorted I R) (s f : Int)
    (J : Nat → List (line α) → boundary α → Prop)
    (hpair : ∀ k v b0 a b, R[k]? = some a → R[k + 1]? = some b →
      a.ray_outside = true → b.ray_outside = false →
      a.solid_coord.get (index.slow I) = s → a.solid_coord.get (index.fast I) = f →
      b.solid_coord.get (index.slow I) = s → b.solid_coord.get (index.fast I) = f →
      J k v b0 →
      J (k + 2) (v ++ [⟨index.stride I extents, b0, object_at k a⟩]) (object_at (k + 1) b))
    (k : Nat) (v : List (line α)) (hP : Paired I (R.drop k)) (hk : k ≤ R.length)
    (hlow : NotBefore I s f (R.drop k)) (hJ : J k v ⟨left_point I s f, none⟩) :
    ∃ k1 v1 b1,
      plane_step I extents s f ⟨k, R.drop k, v⟩
        = some ⟨k1, R.drop k1,
            v1 ++ [⟨index.stride I extents, b1, ⟨right_point I extents s f, none⟩⟩]⟩ ∧
      J k1 v1 b1 ∧ Paired I (R.drop k1) ∧ k1 ≤ R.length ∧
      NotBefore I s (f + 1) (R.drop k1) := by
  obtain ⟨k1, v1, b1, hrun, hJ1, hP1, hk1, hkk1, hhead⟩ :=
    ray_loop_paired I hI extents R s f J hpair (R.drop k) k v _ rfl hP hk hJ
  refine ⟨k1, v1, b1, ?_, hJ1, hP1, hk1, ?_⟩
  · unfold plane_step
    simp only [hrun]
  · exact notBefore_next I s f _ (planeSorted_drop I R hS k1)
      (notBefore_drop I s f R k k1 hkk1 hlow) hhead

theorem in_grid_get (extents : int3) (m : mesh_object_info α) (h : in_grid extents m)
    (i : Nat) : 0 ≤ m.solid_coord.get i ∧ m.solid_coord.get i < extents.get i := by
  obtain ⟨hx, hy, hz⟩ := h
  unfold int3.get
  split
  · exact hx
  · exact hy
  · exact hz

/-- The `f` loop of `init_line` on an admissible list. -/
theorem fast_loop_paired (I : Nat) (hI : I < 3) (extents : int3)
    (R : List (mesh_object_info α)) (hS : PlaneSorted I R) (s : Nat)
    (K : Nat → Nat → List (line α) → Prop)
    (J : Nat → Nat → Nat → List (line α) → boundary α → Prop)
    (hstart : ∀ f k v, f < (extents.get (index.fast I)).toNat →
      K (s * (extents.get (index.fast I)).toNat + f) k v →
      J s f k v ⟨left_point I s f, none⟩)
    (hpair : ∀ f k v b0 a b, f < (extents.get (index.fast I)).toNat →
      R[k]? = some a → R[k + 1]? = some b →
      a.ray_outside = true → b.ray_outside = false →
      a.solid_coord.get (index.slow I) = (s : Int) →
      a.solid_coord.get (index.fast I) = (f : Int) →
      b.solid_coord.get (index.slow I) = (s : Int) →
      b.solid_coord.get (index.fast I) = (f : Int) →
      J s f k v b0 →
      J s f (k + 2) (v ++ [⟨index.stride I extents, b0, object_at k a⟩]) (object_at (k + 1) b))
    (hend : ∀ f k v b0, f < (extents.get (index.fast I)).toNat → J s f k v b0 →
      K (s * (extents.get (index.fast I)).toNat + f + 1) k
        (v ++ [⟨index.stride I extents, b0, ⟨right_point I extents s f, none⟩⟩])) :
    ∀ (n j k : Nat) (v : List (line α)), j + n = (extents.get (index.fast I)).toNat →
      Paired I (R.drop k) → k ≤ R.length → NotBefore I s j (R.drop k) →
      K (s * (extents.get (index.fast I)).toNat + j) k v →
      ∃ k1 v1, fast_loop I extents s n j ⟨k, R.drop k, v⟩ = some ⟨k1, R.drop k1, v1⟩ ∧
        Paired I (R.drop k1) ∧ k1 ≤ R.length ∧
        NotBefore I s ((extents.get (index.fast I)).toNat : Nat) (R.drop k1) ∧
        K (s * (extents.get (index.fast I)).toNat + (extents.get (index.fast I)).toNat) k1 v1 := by
  intro n
  induction n with
  | zero =>
    intro j k v hj hP hk hlow hK
    have hj0 : j = (extents.get (index.fast I)).toNat := by omega
    subst hj0
    exact ⟨k, v, rfl, hP, hk, hlow, hK⟩
  | succ n ih =>
    intro j k v hj hP hk hlow hK
    have hjlt : j < (extents.get (index.fast I)).toNat := by omega
    obtain ⟨k1, v1, b1, hrun, hJ1, hP1, hk1, hlow1⟩ :=
      plane_step_paired I hI extents R hS s j (J s j)
        (fun k v b0 a b h1 h2 h3 h4 h5 h6 h7 h8 h9 =>
          hpair j k v b0 a b hjlt h1 h2 h3 h4 h5 h6 h7 h8 h9)
        k v hP hk hlow (hstart j k v hjlt hK)
    have hK1 := hend j k1 v1 b1 hjlt hJ1
    have hlow1c : NotBefore I s ((j + 1 : Nat) : Int) (R.drop k1) := by
      simpa using hlow1
    obtain ⟨k2, v2, hrun2, hP2, hk2, hlow2, hK2⟩ :=
      ih (j + 1) k1 _ (by omega) hP1 hk1 hlow1c (by simpa [Nat.add_assoc] using hK1)
    refine ⟨k2, v2, ?_, hP2, hk2, hlow2, hK2⟩
    rw [fast_loop, hrun]
    simpa using hrun2

/-- The `s` loop of `init_line` on an admissible list. -/
theorem slow_loop_paired (I : Nat) (hI : I < 3) (extents : int3)
    (R : List (mesh_object_info α)) (hR : InRange extents R) (hS : PlaneSorted I R)
    (K : Nat → Nat → List (line α) → Prop)
    (J : Nat → Nat → Nat → List (line α) → boundary α → Prop)
    (hstart : ∀ s f k v, s < (extents.get (index.slow I)).toNat →
      f < (extents.get (index.fast I)).toNat →
      K (s * (extents.get (index.fast I)).toNat + f) k v →
      J s f k v ⟨left_point I s f, none⟩)
    (hpair : ∀ s f k v b0 a b, s < (extents.get (index.slow I)).toNat →
      f < (extents.get (index.fast I)).toNat →
      R[k]? = some a → R[k + 1]? = some b →
      a.ray_outside = true → b.ray_outside = false →
      a.solid_coord.get (index.slow I) = (s : Int) →
      a.solid_coord.get (index.fast I) = (f : Int) →
      b.solid_coord.get (index.slow I) = (s : Int) →
      b.solid_coord.get (index.fast I) = (f : Int) →
      J s f k v b0 →
      J s f (k + 2) (v ++ [⟨index.stride I extents, b0, object_at k a⟩]) (object_at (k + 1) b))
    (hend : ∀ s f k v b0, s < (extents.get (index.slow I)).toNat →
      f < (extents.get (index.fast I)).toNat → J s f k v b0 →
      K (s * (extents.get (index.fast I)).toNat + f + 1) k
        (v ++ [⟨index.stride I extents, b0, ⟨right_point I extents s f, none⟩⟩])) :
    ∀ (n i k : Nat) (v : List (line α)), i + n = (extents.get (index.slow I)).toNat →
      Paired I (R.drop k) → k ≤ R.length → NotBefore I i 0 (R.drop k) →
      K (i * (extents.get (index.fast I)).toNat) k v →
      ∃ k1 v1, slow_loop I extents n i ⟨k, R.drop k, v⟩ = some ⟨k1, R.drop k1, v1⟩ ∧
        Paired I (R.drop k1) ∧ k1 ≤ R.length ∧
        NotBefore I ((extents.get (index.slow I)).toNat : Nat) 0 (R.drop k1) ∧
        K ((extents.get (index.slow I)).toNat * (extents.get (index.fast I)).toNat) k1 v1 := by
  intro n
  induction n with
  | zero =>
    intro i k v hi hP hk hlow hK
    have hi0 : i = (extents.get (index.slow I)).toNat := by omega
    subst hi0
    exact ⟨k, v, rfl, hP, hk, hlow, hK⟩
  | succ n ih =>
    intro i k v hi hP hk hlow hK
    have hilt : i < (extents.get (index.slow I)).toNat := by omega
    obtain ⟨k1, v1, hrun, hP1, hk1, hlow1, hK1⟩ :=
      fast_loop_paired I hI extents R hS i K J
        (fun f k v hf h => hstart i f k v hilt hf h)
        (fun f k v b0 a b hf => hpair i f k v b0 a b hilt hf)
        (fun f k v b0 hf => hend i f k v b0 hilt hf)
        (extents.get (index.fast I)).toNat 0 k v (by omega) hP hk
        (by simpa using hlow) (by simpa using hK)
    have hlow1c : NotBefore I ((i + 1 : Nat) : Int) 0 (R.drop k1) := by
      intro m hm
      have hg := in_grid_get extents m (hR m (List.mem_of_mem_drop hm)) (index.fast I)
      have := hlow1 m hm
      push_cast
      omega
    obtain ⟨k2, v2, hrun2, hP2, hk2, hlow2, hK2⟩ :=
      ih (i + 1) k1 v1 (by omega) hP1 hk1 hlow1c (by rw [Nat.succ_mul]; exact hK1)
    refine ⟨k2, v2, ?_, hP2, hk2, hlow2, hK2⟩
    rw [slow_loop]
    simp only [Nat.cast_ofNat, Int.Nat.cast_ofNat_Int] at hrun ⊢
    rw [hrun]
    simpa using hrun2

/-- Proof rule for `init_line` on an in-range, plane-sorted, paired list `R`: an invariant `K`
between rays (indexed by the number of rays done and the number of intersections consumed) and
an invariant `J` inside a ray (with the pending left boundary) are carried through the run,
which consumes all of `R`. -/
theorem init_line_rule (I : Nat) (hI : I < 3) (extents : int3)
    (R : List (mesh_object_info α)) (hR : InRange extents R) (hS : PlaneSorted I R)
    (hP : Paired I R) (hne : extents.get I ≠ 1)
    (K : Nat → Nat → List (line α) → Prop)
    (J : Nat → Nat → Nat → List (line α) → boundary α → Prop)
    (hstart : ∀ s f k v, s < (extents.get (index.slow I)).toNat →
      f < (extents.get (index.fast I)).toNat →
      K (s * (extents.get (index.fast I)).toNat + f) k v →
      J s f k v ⟨left_point I s f, none⟩)
    (hpair : ∀ s f k v b0 a b, s < (extents.get (index.slow I)).toNat →
      f < (extents.get (index.fast I)).toNat →
      R[k]? = some a → R[k + 1]? = some b →
      a.ray_outside = true → b.ray_outside = false →
      a.solid_coord.get (index.slow I) = (s : Int) →
      a.solid_coord.get (index.fast I) = (f : Int) →
      b.solid_coord.get (index.slow I) = (s : Int) →
      b.solid_coord.get (index.fast I) = (f : Int) →
      J s f k v b0 →
      J s f (k + 2) (v ++ [⟨index.stride I extents, b0, object_at k a⟩]) (object_at (k + 1) b))
    (hend : ∀ s f k v b0, s < (extents.get (index.slow I)).toNat →
      f < (extents.get (index.fast I)).toNat → J s f k v b0 →
      K (s * (extents.get (index.fast I)).toNat + f + 1) k
        (v ++ [⟨index.stride I extents, b0, ⟨right_point I extents s f, none⟩⟩]))
    (v0 : List (line α)) (h0 : K 0 0 v0) :
    ∃ vf, init_line I v0 extents R = some vf ∧
      K ((extents.get (index.slow I)).toNat * (extents.get (index.fast I)).toNat) R.length vf := by
  have hlow0 : NotBefore I ((0 : Nat) : Int) 0 (R.drop 0) := by
    intro m hm
    have hm1 : m ∈ R := by simpa using hm
    have hs := in_grid_get extents m (hR m hm1) (index.slow I)
    have hf := in_grid_get extents m (hR m hm1) (index.fast I)
    push_cast
    omega
  obtain ⟨k1, v1, hrun, _, hk1, hlow1, hK1⟩ :=
    slow_loop_paired I hI extents R hR hS K J hstart hpair hend
      (extents.get (index.slow I)).toNat 0 0 v0 (by omega) (by simpa using hP) (by omega)
      hlow0 (by simpa using h0)
  have hnil : R.drop k1 = [] := by
    cases hd : R.drop k1 with
    | nil => rfl
    | cons m t =>
      exfalso
      have hm : m ∈ R.drop k1 := by rw [hd]; exact List.mem_cons_self _ _
      have hs := in_grid_get extents m (hR m (List.mem_of_mem_drop hm)) (index.slow I)
      have := hlow1 m hm
      omega
  have hk : k1 = R.length := by
    have := List.drop_eq_nil_iff.1 hnil
    omega
  subst hk
  refine ⟨v1, ?_, hK1⟩
  unfold init_line
  rw [if_neg hne]
  simp only [Nat.cast_ofNat, Int.Nat.cast_ofNat_Int, List.drop_zero] at hrun
  rw [hrun]

end admissible_rule

/-! ### Rays that alternate are lists of pairs -/

section alternate

variable {α : Type}

theorem same_plane_iff (J K : Nat) (a b : int3) :
    same_plane J K a b = true ↔ a.get J = b.get J ∧ a.get K = b.get K := by
  simp [same_plane]

theorem same_plane_self (J K : Nat) (a : int3) : same_plane J K a a = true := by
  simp [same_plane]

theorem ray_of_cons (I : Nat) (m a : mesh_object_info α) (l : List (mesh_object_info α)) :
    ray_of I m (a :: l) =
      if same_plane (index.slow I) (index.fast I) m.solid_coord a.solid_coord = true
      then a :: ray_of I m l else ray_of I m l := by
  unfold ray_of
  rw [List.filter_cons]

/-- On a plane-sorted list, rays that alternate make the list a sequence of closing/opening
pairs. -/
theorem paired_of_raysAlternate (I : Nat) :
    ∀ r : List (mesh_object_info α), PlaneSorted I r → RaysAlternate I r → Paired I r := by
  intro r
  induction r using list_two_step with
  | h0 => intro _ _; trivial
  | h1 a =>
    intro _ hA
    have h := hA a (List.mem_cons_self _ _)
    rw [ray_of_cons, if_pos (same_plane_self _ _ _)] at h
    simp [ray_of, alternating] at h
  | h2 a b l ih =>
    intro hS hA
    have hS1 := List.pairwise_cons.1 hS
    have hS2 := List.pairwise_cons.1 hS1.2
    have hab_le := hS1.1 b (List.mem_cons_self _ _)
    have ha := hA a (List.mem_cons_self _ _)
    rw [ray_of_cons, if_pos (same_plane_self _ _ _)] at ha
    -- the second intersection lies on the ray of the first
    have hab : same_plane (index.slow I) (index.fast I) a.solid_coord b.solid_coord = true := by
      by_contra hne
      rw [ray_of_cons, if_neg hne] at ha
      cases hfl : ray_of I a l with
      | nil => rw [hfl] at ha; simp [alternating] at ha
      | cons c t =>
        have hc : c ∈ ray_of I a l := by rw [hfl]; exact List.mem_cons_self _ _
        unfold ray_of at hc
        rw [List.mem_filter] at hc
        obtain ⟨hcl, hac⟩ := hc
        have hbc := hS2.1 c hcl
        apply hne
        have hac1 := (same_plane_iff _ _ _ _).1 (by simpa using hac)
        rw [same_plane_iff]
        unfold plane_le at hab_le hbc
        omega
    have hab1 := (same_plane_iff _ _ _ _).1 hab
    rw [ray_of_cons, if_pos hab] at ha
    simp only [List.map_cons, alternating, Bool.and_eq_true, Bool.not_eq_true'] at ha
    refine ⟨ha.1.1, ha.1.2, hab, ih hS2.2 ?_⟩
    intro m hm
    have h := hA m (List.mem_cons_of_mem _ (List.mem_cons_of_mem _ hm))
    by_cases hma : same_plane (index.slow I) (index.fast I) m.solid_coord a.solid_coord = true
    · have hma1 := (same_plane_iff _ _ _ _).1 hma
      have hmb : same_plane (index.slow I) (index.fast I) m.solid_coord b.solid_coord = true := by
        rw [same_plane_iff]; omega
      rw [ray_of_cons, if_pos hma, ray_of_cons, if_pos hmb] at h
      simp only [List.map_cons, alternating, Bool.and_eq_true] at h
      exact h.2
    · have hmb : ¬ same_plane (index.slow I) (index.fast I) m.solid_coord b.solid_coord = true := by
        intro hmb
        apply hma
        have hmb1 := (same_plane_iff _ _ _ _).1 hmb
        rw [same_plane_iff]; omega
      rw [ray_of_cons, if_neg hma, ray_of_cons, if_neg hmb] at h
      exact h

end alternate

/-! ### Line counts -/

section line_count

variable {α : Type}

theorem init_line_length (I : Nat) (hI : I < 3) (extents : int3)
    (R : List (mesh_object_info α)) (hR : InRange extents R) (hS : PlaneSorted I R)
    (hP : Paired I R) (hne : extents.get I ≠ 1) :
    ∃ v, init_line I [] extents R = some v ∧
      2 * v.length =
        2 * ((extents.get (index.slow I)).toNat * (extents.get (index.fast I)).toNat)
          + R.length := by
  exact init_line_rule I hI extents R hR hS hP hne
    (fun q k v => 2 * v.length = 2 * q + k)
    (fun s f k v _ => 2 * v.length = 2 * (s * (extents.get (index.fast I)).toNat + f) + k)
    (fun s f k v _ _ h => h)
    (fun s f k v b0 a b _ _ _ _ _ _ _ _ _ _ h => by
      simp only [List.length_append, List.length_singleton]; omega)
    (fun s f k v b0 _ _ h => by
      simp only [List.length_append, List.length_singleton]; omega)
    [] (by simp)

/-- C2. Line count with objects: for a direction `I` with `extents[I] ≥ 2` of a grid (the two
other extents are not negative) and an intersection list `R` that is inside the grid, sorted by
`(slow, fast)` plane in loop order and in which every ray carries an even number of
intersections alternating between closing (`ray_outside = true`) and opening
(`ray_outside = false`), `init_line` returns a list of exactly (product of the two other
extents) + `|R| / 2` lines. -/
theorem C2_line_count_with_objects (I : Nat) (hI : I < 3) (extents : int3)
    (R : List (mesh_object_info α)) (hd : 2 ≤ extents.get I)
    (hs : 0 ≤ extents.get (index.slow I)) (hf : 0 ≤ extents.get (index.fast I))
    (hR : InRange extents R) (hS : PlaneSorted I R) (hA : RaysAlternate I R) :
    ∃ v, init_line I [] extents R = some v ∧
      (v.length : Int) =
        extents.get (index.slow I) * extents.get (index.fast I) + ((R.length / 2 : Nat) : Int) := by
  obtain ⟨v, hv, hlen⟩ := init_line_length I hI extents R hR hS
    (paired_of_raysAlternate I R hS hA) (by omega)
  refine ⟨v, hv, ?_⟩
  have h1 : v.length =
      (extents.get (index.slow I)).toNat * (extents.get (index.fast I)).toNat + R.length / 2 := by
    omega
  rw [h1]
  push_cast
  rw [Int.toNat_of_nonneg hs, Int.toNat_of_nonneg hf]

/-- C3. Line count without objects: for a grid with all extents at least 1, a direction `I`
with `extents[I] ≥ 2` and an empty intersection list, `init_line` returns exactly the product
of the two other extents lines. -/
theorem C3_line_count_without_objects (I : Nat) (hI : I < 3) (extents : int3)
    (hx : 1 ≤ extents.x) (hy : 1 ≤ extents.y) (hz : 1 ≤ extents.z)
    (hd : 2 ≤ extents.get I) :
    ∃ v, init_line I [] extents ([] : List (mesh_object_info α)) = some v ∧
      (v.length : Int) = extents.get (index.slow I) * extents.get (index.fast I) := by
  have hs : 0 ≤ extents.get (index.slow I) := by
    interval_cases I <;> simp [index.slow, int3.get] <;> omega
  have hf : 0 ≤ extents.get (index.fast I) := by
    interval_cases I <;> simp [index.fast, int3.get] <;> omega
  obtain ⟨v, hv, hlen⟩ := init_line_length (α := α) I hI extents [] (by intro m hm; simp at hm)
    List.Pairwise.nil trivial (by omega)
  refine ⟨v, hv, ?_⟩
  have h1 : v.length =
      (extents.get (index.slow I)).toNat * (extents.get (index.fast I)).toNat := by
    simp only [List.length_nil] at hlen
    omega
  rw [h1]
  push_cast
  rw [Int.toNat_of_nonneg hs, Int.toNat_of_nonneg hf]

/-- Witness of C2 on `grid422` with the four intersections `hits422`: 2 * 2 + 2 = 6 lines. -/
theorem C2_line_count_with_objects_witness :
    ∃ v, init_line 0 [] grid422 hits422 = some v ∧
      (v.length : Int) =
        grid422.get (index.slow 0) * grid422.get (index.fast 0)
          + ((hits422.length / 2 : Nat) : Int) :=
  C2_line_count_with_objects 0 (by decide) grid422 hits422 (by decide) (by decide) (by decide)
    (by decide) (by decide) (by decide)

/-- Witness of C3 on `grid422` in direction y: 4 * 2 = 8 lines. -/
theorem C3_line_count_without_objects_witness :
    ∃ v, init_line 1 [] grid422 ([] : List (mesh_object_info Int)) = some v ∧
      (v.length : Int) = grid422.get (index.slow 1) * grid422.get (index.fast 1) :=
  C3_line_count_without_objects 1 (by decide) grid422 (by decide) (by decide) (by decide)
    (by decide)

end line_count

/-! ### Lines of a grid without objects -/

section uncut

variable {α : Type}

theorem plane_index_inj (nf s f s1 f1 : Nat) (hf : f < nf) (hf1 : f1 < nf)
    (h : s1 * nf + f1 = s * nf + f) : s1 = s ∧ f1 = f := by
  have hpos : 0 < nf := by omega
  have e1 : (s1 * nf + f1) / nf = s1 := by
    rw [Nat.add_comm, Nat.add_mul_div_right _ _ hpos, Nat.div_eq_of_lt hf1, Nat.zero_add]
  have e2 : (s * nf + f) / nf = s := by
    rw [Nat.add_comm, Nat.add_mul_div_right _ _ hpos, Nat.div_eq_of_lt hf, Nat.zero_add]
  have hs : s1 = s := by rw [← e1, ← e2, h]
  subst hs
  exact ⟨rfl, by omega⟩

theorem init_line_uncut (I : Nat) (hI : I < 3) (extents : int3) (hne : extents.get I ≠ 1) :
    ∃ v, init_line I [] extents ([] : List (mesh_object_info α)) = some v ∧
      (v.length = (extents.get (index.slow I)).toNat * (extents.get (index.fast I)).toNat ∧
        ∀ s f : Nat, s < (extents.get (index.slow I)).toNat →
          f < (extents.get (index.fast I)).toNat →
          s * (extents.get (index.fast I)).toNat + f
            < (extents.get (index.slow I)).toNat * (extents.get (index.fast I)).toNat →
          v[s * (extents.get (index.fast I)).toNat + f]? =
            some ⟨index.stride I extents, ⟨left_point I s f, none⟩,
              ⟨right_point I extents s f, none⟩⟩) := by
  refine init_line_rule (α := α) I hI extents [] (by intro m hm; simp at hm) List.Pairwise.nil
    trivial hne
    (fun q _ v => v.length = q ∧
      ∀ s f : Nat, s < (extents.get (index.slow I)).toNat →
        f < (extents.get (index.fast I)).toNat →
        s * (extents.get (index.fast I)).toNat + f < q →
        v[s * (extents.get (index.fast I)).toNat + f]? =
          some ⟨index.stride I extents, ⟨left_point I s f, none⟩,
            ⟨right_point I extents s f, none⟩⟩)
    (fun s f _ v b0 => (v.length = s * (extents.get (index.fast I)).toNat + f ∧
      ∀ s1 f1 : Nat, s1 < (extents.get (index.slow I)).toNat →
        f1 < (extents.get (index.fast I)).toNat →
        s1 * (extents.get (index.fast I)).toNat + f1
          < s * (extents.get (index.fast I)).toNat + f →
        v[s1 * (extents.get (index.fast I)).toNat + f1]? =
          some ⟨index.stride I extents, ⟨left_point I s1 f1, none⟩,
            ⟨right_point I extents s1 f1, none⟩⟩) ∧ b0 = ⟨left_point I s f, none⟩)
    ?_ ?_ ?_ [] ?_
  · intro s f k v _ _ h
    exact ⟨h, rfl⟩
  · intro s f k v b0 a b _ _ hk
    simp at hk
  · intro s f k v b0 _ hf h
    obtain ⟨⟨hlen, hold⟩, hb0⟩ := h
    subst hb0
    refine ⟨by simp [hlen], ?_⟩
    intro s1 f1 hs1 hf1 hlt
    by_cases hq : s1 * (extents.get (index.fast I)).toNat + f1
        < s * (extents.get (index.fast I)).toNat + f
    · rw [List.getElem?_append_left (by omega)]
      exact hold s1 f1 hs1 hf1 hq
    · have heq : s1 * (extents.get (index.fast I)).toNat + f1
          = s * (extents.get (index.fast I)).toNat + f := by omega
      obtain ⟨e1, e2⟩ := plane_index_inj _ s f s1 f1 hf hf1 heq
      subst e1; subst e2
      rw [List.getElem?_append_right (by omega)]
      simp [hlen]
  · exact ⟨rfl, fun s f _ _ h => by omega⟩

/-- C6. Endpoints of uncut lines: for a direction `I` with `extents[I] ≥ 2` and an empty
intersection list, the line at list position `s * nf + f` (`s` below the slow extent, `f` below
the fast extent `nf`) starts at the cell with slow index `s`, fast index `f` and `I`-index 0,
ends at the cell with the same slow and fast indices and `I`-index `extents[I] - 1`, and both
boundaries are domain faces (no object). -/
theorem C6_uncut_line_endpoints (I : Nat) (hI : I < 3) (extents : int3)
    (hd : 2 ≤ extents.get I) (s f : Nat)
    (hs : (s : Int) < extents.get (index.slow I)) (hf : (f : Int) < extents.get (index.fast I)) :
    ∃ v l, init_line I [] extents ([] : List (mesh_object_info α)) = some v ∧
      v[s * (extents.get (index.fast I)).toNat + f]? = some l ∧
      l.start.mesh_coordinate.get (index.slow I) = s ∧
      l.start.mesh_coordinate.get (index.fast I) = f ∧
      l.start.mesh_coordinate.get I = 0 ∧
      l.end_.mesh_coordinate.get (index.slow I) = s ∧
      l.end_.mesh_coordinate.get (index.fast I) = f ∧
      l.end_.mesh_coordinate.get I = extents.get I - 1 ∧
      l.start.object = none ∧ l.end_.object = none := by
  obtain ⟨v, hv, _, hget⟩ := init_line_uncut (α := α) I hI extents (by omega)
  have hs1 : s < (extents.get (index.slow I)).toNat := by omega
  have hf1 : f < (extents.get (index.fast I)).toNat := by omega
  have hlt : s * (extents.get (index.fast I)).toNat + f
      < (extents.get (index.slow I)).toNat * (extents.get (index.fast I)).toNat := by
    calc s * (extents.get (index.fast I)).toNat + f
        < s * (extents.get (index.fast I)).toNat + (extents.get (index.fast I)).toNat := by omega
      _ = (s + 1) * (extents.get (index.fast I)).toNat := by rw [Nat.succ_mul]
      _ ≤ (extents.get (index.slow I)).toNat * (extents.get (index.fast I)).toNat :=
        Nat.mul_le_mul_right _ hs1
  refine ⟨v, _, hv, hget s f hs1 hf1 hlt, ?_, ?_, ?_, ?_, ?_, ?_, rfl, rfl⟩
  · exact left_point_slow I hI s f
  · exact left_point_fast I hI s f
  · exact left_point_dir I hI s f
  · exact right_point_slow I hI extents s f
  · exact right_point_fast I hI extents s f
  · exact right_point_dir I hI extents s f

/-- Witness of C6 on `grid422` in direction x at `(s, f) = (1, 1)`: position 3. -/
theorem C6_uncut_line_endpoints_witness :
    ∃ v l, init_line 0 [] grid422 ([] : List (mesh_object_info Int)) = some v ∧
      v[1 * (grid422.get (index.fast 0)).toNat + 1]? = some l ∧
      l.start.mesh_coordinate.get (index.slow 0) = (1 : Nat) ∧
      l.start.mesh_coordinate.get (index.fast 0) = (1 : Nat) ∧
      l.start.mesh_coordinate.get 0 = 0 ∧
      l.end_.mesh_coordinate.get (index.slow 0) = (1 : Nat) ∧
      l.end_.mesh_coordinate.get (index.fast 0) = (1 : Nat) ∧
      l.end_.mesh_coordinate.get 0 = grid422.get 0 - 1 ∧
      l.start.object = none ∧ l.end_.object = none :=
  C6_uncut_line_endpoints 0 (by decide) grid422 (by decide) 1 1 (by decide) (by decide)

end uncut

/-! ### The shape of every emitted line, for arbitrary intersection lists -/

section line_shape

variable {α : Type}

theorem ray_loop_lineOK (I : Nat) (hI : I < 3) (extents : int3)
    (R : List (mesh_object_info α)) (s f : Int)
    (hs : 0 ≤ s ∧ s < extents.get (index.slow I)) (hf : 0 ≤ f ∧ f < extents.get (index.fast I)) :
    ∀ (rest : List (mesh_object_info α)) (k : Nat) (lb : Option (boundary α))
      (v : List (line α)) (st : LineState α) (lb1 : Option (boundary α)),
      rest = R.drop k → (∀ b, lb = some b → StartOK I R s f b) →
      (∀ l ∈ v, LineOK I extents R l) →
      ray_loop I extents (left_point I s f) rest k lb v = some (st, lb1) →
      st.rest = R.drop st.first ∧ (∀ b, lb1 = some b → StartOK I R s f b) ∧
        (∀ l ∈ st.v, LineOK I extents R l) := by
  intro rest
  induction rest with
  | nil =>
    intro k lb v st lb1 hrest hlb hv hrun
    simp only [ray_loop, Option.some.injEq, Prod.mk.injEq] at hrun
    obtain ⟨rfl, rfl⟩ := hrun
    exact ⟨hrest, hlb, hv⟩
  | cons m t ih =>
    intro k lb v st lb1 hrest hlb hv hrun
    have hkm : R[k]? = some m := by
      have h0 : (R.drop k)[0]? = some m := by rw [← hrest]; simp
      rw [List.getElem?_drop] at h0
      simpa using h0
    have ht : t = R.drop (k + 1) := by
      have : R.drop (k + 1) = (R.drop k).drop 1 := by rw [List.drop_drop]
      rw [this, ← hrest]; rfl
    unfold ray_loop at hrun
    by_cases hin : same_plane (index.slow I) (index.fast I) (left_point I s f) m.solid_coord = true
    · have hm := (same_plane_left_point I hI s f _).1 hin
      rw [if_pos hin] at hrun
      by_cases hT : m.ray_outside = true
      · rw [if_pos hT] at hrun
        cases lb with
        | none => simp at hrun
        | some b =>
          simp only at hrun
          refine ih (k + 1) none _ st lb1 ht (by intro b hb; simp at hb) ?_ hrun
          intro l hl
          rcases List.mem_append.1 hl with h | h
          · exact hv l h
          · simp only [List.mem_singleton] at h
            subst h
            exact ⟨rfl, s, f, hs, hf, hlb b rfl,
              Or.inr ⟨k, m, hkm, hT, hm.1, hm.2, rfl⟩⟩
      · rw [if_neg hT] at hrun
        refine ih (k + 1) _ v st lb1 ht ?_ hv hrun
        intro b hb
        simp only [Option.some.injEq] at hb
        subst hb
        exact Or.inr ⟨k, m, hkm, by simpa using hT, hm.1, hm.2, rfl⟩
    · rw [if_neg hin] at hrun
      simp only [Option.some.injEq, Prod.mk.injEq] at hrun
      obtain ⟨rfl, rfl⟩ := hrun
      exact ⟨hrest, hlb, hv⟩

theorem plane_step_lineOK (I : Nat) (hI : I < 3) (extents : int3)
    (R : List (mesh_object_info α)) (s f : Int)
    (hs : 0 ≤ s ∧ s < extents.get (index.slow I)) (hf : 0 ≤ f ∧ f < extents.get (index.fast I))
    (st st1 : LineState α) (hrest : st.rest = R.drop st.first)
    (hv : ∀ l ∈ st.v, LineOK I extents R l)
    (hrun : plane_step I extents s f st = some st1) :
    st1.rest = R.drop st1.first ∧ ∀ l ∈ st1.v, LineOK I extents R l := by
  unfold plane_step at hrun
  cases hray : ray_loop I extents (left_point I s f) st.rest st.first
      (some ⟨left_point I s f, none⟩) st.v with
  | none => rw [hray] at hrun; simp at hrun
  | some res =>
    obtain ⟨st2, lb2⟩ := res
    rw [hray] at hrun
    obtain ⟨h1, h2, h3⟩ := ray_loop_lineOK I hI extents R s f hs hf st.rest st.first _ st.v
      st2 lb2 hrest (by intro b hb; simp only [Option.some.injEq] at hb; subst hb; exact Or.inl rfl)
      hv hray
    cases lb2 with
    | none =>
      simp only [Option.some.injEq] at hrun
      subst hrun
      exact ⟨h1, h3⟩
    | some b =>
      simp only [Option.some.injEq] at hrun
      subst hrun
      refine ⟨h1, ?_⟩
      intro l hl
      rcases List.mem_append.1 hl with h | h
      · exact h3 l h
      · simp only [List.mem_singleton] at h
        subst h
        exact ⟨rfl, s, f, hs, hf, h2 b rfl, Or.inl rfl⟩

theorem fast_loop_lineOK (I : Nat) (hI : I < 3) (extents : int3)
    (R : List (mesh_object_info α)) (s : Int)
    (hs : 0 ≤ s ∧ s < extents.get (index.slow I)) :
    ∀ (n : Nat) (f : Int) (st st1 : LineState α), 0 ≤ f →
      (n ≠ 0 → f + n ≤ extents.get (index.fast I)) → st.rest = R.drop st.first →
      (∀ l ∈ st.v, LineOK I extents R l) →
      fast_loop I extents s n f st = some st1 →
      st1.rest = R.drop st1.first ∧ ∀ l ∈ st1.v, LineOK I extents R l := by
  intro n
  induction n with
  | zero =>
    intro f st st1 _ _ hrest hv hrun
    simp only [fast_loop, Option.some.injEq] at hrun
    subst hrun
    exact ⟨hrest, hv⟩
  | succ n ih =>
    intro f st st1 hf0 hfn hrest hv hrun
    rw [fast_loop] at hrun
    cases hstep : plane_step I extents s f st with
    | none => rw [hstep] at hrun; simp at hrun
    | some st2 =>
      rw [hstep] at hrun
      have hfn1 := hfn (Nat.succ_ne_zero n)
      push_cast at hfn1
      obtain ⟨h1, h2⟩ := plane_step_lineOK I hI extents R s f hs
        ⟨hf0, by omega⟩ st st2 hrest hv hstep
      exact ih (f + 1) st2 st1 (by omega) (fun _ => by omega) h1 h2 hrun

theorem slow_loop_lineOK (I : Nat) (hI : I < 3) (extents : int3)
    (R : List (mesh_object_info α)) :
    ∀ (n : Nat) (s : Int) (st st1 : LineState α), 0 ≤ s →
      (n ≠ 0 → s + n ≤ extents.get (index.slow I)) → st.rest = R.drop st.first →
      (∀ l ∈ st.v, LineOK I extents R l) →
      slow_loop I extents n s st = some st1 →
      st1.rest = R.drop st1.first ∧ ∀ l ∈ st1.v, LineOK I extents R l := by
  intro n
  induction n with
  | zero =>
    intro s st st1 _ _ hrest hv hrun
    simp only [slow_loop, Option.some.injEq] at hrun
    subst hrun
    exact ⟨hrest, hv⟩
  | succ n ih =>
    intro s st st1 hs0 hsn hrest hv hrun
    rw [slow_loop] at hrun
    cases hstep : fast_loop I extents s (extents.get (index.fast I)).toNat 0 st with
    | none => rw [hstep] at hrun; simp at hrun
    | some st2 =>
      rw [hstep] at hrun
      have hsn1 := hsn (Nat.succ_ne_zero n)
      push_cast at hsn1
      obtain ⟨h1, h2⟩ := fast_loop_lineOK I hI extents R s
        ⟨hs0, by omega⟩ _ 0 st st2 le_rfl (fun h => by omega) hrest hv hstep
      exact ih (s + 1) st2 st1 (by omega) (fun _ => by omega) h1 h2 hrun

/-- Every line `init_line` emits, for any intersection list, has the stride of the direction
and its two boundaries are a domain face or an intersection of `R`, all on one ray. -/
theorem init_line_lineOK (I : Nat) (hI : I < 3) (extents : int3)
    (R : List (mesh_object_info α)) (v : List (line α))
    (hrun : init_line I [] extents R = some v) : ∀ l ∈ v, LineOK I extents R l := by
  unfold init_line at hrun
  by_cases h1 : extents.get I = 1
  · rw [if_pos h1] at hrun
    simp only [Option.some.injEq] at hrun
    subst hrun
    intro l hl; simp at hl
  · rw [if_neg h1] at hrun
    cases hstep : slow_loop I extents (extents.get (index.slow I)).toNat 0 ⟨0, R, []⟩ with
    | none => rw [hstep] at hrun; simp at hrun
    | some st =>
      rw [hstep] at hrun
      simp only [Option.some.injEq] at hrun
      subst hrun
      exact (slow_loop_lineOK I hI extents R _ 0 _ st le_rfl (fun h => by omega) (by simp)
        (by intro l hl; simp at hl) hstep).2

theorem init_line_grid422 : init_line 0 [] grid422 hits422 = some lines422 := by
  decide

/-- C5. Object boundary annotation: in the result of `init_line`, for any intersection list
`R`, the start of a line is either a domain face `(…, 0 at I)` without object, or it is built
from an intersection `R[k]` and then has `mesh_coordinate = R[k].solid_coord`,
`object_coordinate = k`, `objectID = R[k].shape_id` and `psi = R[k].psi`; the same holds for
the end, whose domain face is `(…, extents[I] - 1 at I)`. -/
theorem C5_object_boundary_annotation (I : Nat) (hI : I < 3) (extents : int3)
    (R : List (mesh_object_info α)) (v : List (line α))
    (hrun : init_line I [] extents R = some v) (l : line α) (hl : l ∈ v) :
    ((∃ s f, l.start = ⟨left_point I s f, none⟩) ∨
      (∃ (k : Nat) (m : mesh_object_info α), R[k]? = some m ∧ l.start.mesh_coordinate = m.solid_coord ∧
        l.start.object = some ⟨(k : Int), m.shape_id, m.psi⟩)) ∧
    ((∃ s f, l.end_ = ⟨right_point I extents s f, none⟩) ∨
      (∃ (k : Nat) (m : mesh_object_info α), R[k]? = some m ∧ l.end_.mesh_coordinate = m.solid_coord ∧
        l.end_.object = some ⟨(k : Int), m.shape_id, m.psi⟩)) := by
  obtain ⟨_, s, f, _, _, hstart, hend⟩ := init_line_lineOK I hI extents R v hrun l hl
  constructor
  · rcases hstart with h | ⟨k, m, hk, _, _, _, h⟩
    · exact Or.inl ⟨s, f, h⟩
    · exact Or.inr ⟨k, m, hk, by rw [h]; rfl, by rw [h]; rfl⟩
  · rcases hend with h | ⟨k, m, hk, _, _, _, h⟩
    · exact Or.inl ⟨s, f, h⟩
    · exact Or.inr ⟨k, m, hk, by rw [h]; rfl, by rw [h]; rfl⟩

/-- Witness of C5: the line of `lines422` that starts at the object boundary built from
`hits422[1]` and ends at the domain face. -/
theorem C5_object_boundary_annotation_witness :
    ((∃ s f, cut 2 0 1 1 0 8 = ⟨left_point 0 s f, none⟩) ∨
      (∃ (k : Nat) (m : mesh_object_info Int), hits422[k]? = some m ∧ (cut 2 0 1 1 0 8).mesh_coordinate = m.solid_coord ∧
        (cut 2 0 1 1 0 8).object = some ⟨(k : Int), m.shape_id, m.psi⟩)) ∧
    ((∃ s f, face 3 0 1 = ⟨right_point 0 grid422 s f, none⟩) ∨
      (∃ (k : Nat) (m : mesh_object_info Int), hits422[k]? = some m ∧ (face 3 0 1).mesh_coordinate = m.solid_coord ∧
        (face 3 0 1).object = some ⟨(k : Int), m.shape_id, m.psi⟩)) :=
  C5_object_boundary_annotation 0 (by decide) grid422 hits422 lines422 init_line_grid422
    ⟨4, cut 2 0 1 1 0 8, face 3 0 1⟩ (by decide)

/-- C7. Line stride: every line `init_line` emits for direction `I` carries
`stride = index::stride<I>(extents)`, that is `ny * nz` for `I = 0`, `nz` for `I = 1` and `1`
for `I = 2`, whatever its boundaries are. -/
theorem C7_line_stride (I : Nat) (hI : I < 3) (extents : int3)
    (R : List (mesh_object_info α)) (v : List (line α))
    (hrun : init_line I [] extents R = some v) (l : line α) (hl : l ∈ v) :
    l.stride = index.stride I extents ∧
      (I = 0 → l.stride = extents.y * extents.z) ∧
      (I = 1 → l.stride = extents.z) ∧
      (I = 2 → l.stride = 1) := by
  obtain ⟨hst, _⟩ := init_line_lineOK I hI extents R v hrun l hl
  refine ⟨hst, ?_, ?_, ?_⟩
  · intro h; subst h; rw [hst]; rfl
  · intro h; subst h; rw [hst]; rfl
  · intro h; subst h; rw [hst]; rfl

/-- Witness of C7: a line of `lines422` between a domain face and an object has stride
`2 * 2 = 4` in direction x. -/
theorem C7_line_stride_witness :
    (4 : Int) = index.stride 0 grid422 ∧
      (0 = 0 → (4 : Int) = grid422.y * grid422.z) ∧
      (0 = 1 → (4 : Int) = grid422.z) ∧
      (0 = 2 → (4 : Int) = 1) :=
  C7_line_stride 0 (by decide) grid422 hits422 lines422 init_line_grid422
    ⟨4, face 0 0 1, cut 1 0 1 0 0 7⟩ (by decide)

end line_shape

/-! ### Coverage of the grid by the lines -/

section coverage

variable {α : Type}

theorem planeSorted_of_raySorted (I : Nat) (R : List (mesh_object_info α))
    (h : RaySorted I R) : PlaneSorted I R := by
  refine List.Pairwise.imp ?_ h
  intro a b hab
  unfold ray_le at hab
  unfold plane_le
  omega

theorem pairOrdered_of_raySorted (I : Nat) :
    ∀ R : List (mesh_object_info α), RaySorted I R → Paired I R → PairOrdered I R := by
  intro R
  induction R using list_two_step with
  | h0 => intro _ _; trivial
  | h1 a => intro _ _; trivial
  | h2 a b l ih =>
    intro hS hP
    obtain ⟨_, _, hab, hPl⟩ := hP
    have hS1 := List.pairwise_cons.1 hS
    have hS2 := List.pairwise_cons.1 hS1.2
    refine ⟨?_, ih hS2.2 hPl⟩
    have hle := hS1.1 b (List.mem_cons_self _ _)
    unfold same_plane at hab
    simp only [Bool.and_eq_true, beq_iff_eq] at hab
    unfold ray_le at hle
    omega

theorem drop_eq_cons_cons {β : Type} (R : List β) (k : Nat) (a b : β)
    (ha : R[k]? = some a) (hb : R[k + 1]? = some b) :
    R.drop k = a :: b :: R.drop (k + 2) := by
  have hk : k < R.length := by
    by_contra h
    rw [List.getElem?_eq_none (by omega)] at ha
    simp at ha
  have hk1 : k + 1 < R.length := by
    by_contra h
    rw [List.getElem?_eq_none (by omega)] at hb
    simp at hb
  rw [List.getElem?_eq_getElem hk] at ha
  rw [List.getElem?_eq_getElem hk1] at hb
  simp only [Option.some.injEq] at ha hb
  rw [List.drop_eq_getElem_cons hk, List.drop_eq_getElem_cons hk1, ha, hb]

theorem covered_cells_append (I : Nat) (v : List (line α)) (l : line α) :
    covered_cells I (v ++ [l]) = covered_cells I v + line_cells I l := by
  simp [covered_cells, List.map_append, List.sum_append]

theorem init_line_covered (I : Nat) (hI : I < 3) (extents : int3)
    (R : List (mesh_object_info α)) (hR : InRange extents R) (hS : PlaneSorted I R)
    (hP : Paired I R) (hO : PairOrdered I R) (hne : extents.get I ≠ 1) :
    ∃ v, init_line I [] extents R = some v ∧
      (PairOrdered I (R.drop R.length) ∧
        covered_cells I v - (solid_cells I (R.drop R.length) - shared_cells I (R.drop R.length))
          = (((extents.get (index.slow I)).toNat * (extents.get (index.fast I)).toNat : Nat) : Int)
              * extents.get I - (solid_cells I R - shared_cells I R)) := by
  refine init_line_rule I hI extents R hR hS hP hne
    (fun q k v => PairOrdered I (R.drop k) ∧
      covered_cells I v - (solid_cells I (R.drop k) - shared_cells I (R.drop k))
        = (q : Int) * extents.get I - (solid_cells I R - shared_cells I R))
    (fun s f k v b0 => PairOrdered I (R.drop k) ∧
      covered_cells I v + (extents.get I - b0.mesh_coordinate.get I)
          - (solid_cells I (R.drop k) - shared_cells I (R.drop k))
        = ((s * (extents.get (index.fast I)).toNat + f + 1 : Nat) : Int) * extents.get I
            - (solid_cells I R - shared_cells I R))
    ?_ ?_ ?_ [] ?_
  · intro s f k v _ _ h
    refine ⟨h.1, ?_⟩
    have h2 := h.2
    simp only [left_point_dir I hI]
    push_cast at h2 ⊢
    linarith
  · intro s f k v b0 a b _ _ hka hkb _ _ _ _ _ _ h
    obtain ⟨hO1, h2⟩ := h
    rw [drop_eq_cons_cons R k a b hka hkb] at hO1 h2
    obtain ⟨hab, hO2⟩ := hO1
    refine ⟨hO2, ?_⟩
    rw [covered_cells_append]
    simp only [solid_cells, shared_cells] at h2
    simp only [line_cells, object_at]
    by_cases he : a.solid_coord.get I = b.solid_coord.get I
    · rw [if_pos he] at h2
      have : (b.solid_coord.get I - a.solid_coord.get I - 1).toNat = 0 := by omega
      rw [this] at h2
      push_cast at h2 ⊢
      linarith
    · rw [if_neg he] at h2
      have : ((b.solid_coord.get I - a.solid_coord.get I - 1).toNat : Int)
          = b.solid_coord.get I - a.solid_coord.get I - 1 := by omega
      rw [this] at h2
      push_cast at h2 ⊢
      linarith
  · intro s f k v b0 _ _ h
    refine ⟨h.1, ?_⟩
    have h2 := h.2
    rw [covered_cells_append]
    simp only [line_cells, right_point_dir I hI]
    push_cast at h2 ⊢
    linarith
  · refine ⟨by simpa using hO, ?_⟩
    simp [covered_cells]

/-- C4, as stated, fails: on `grid422` with `hits422` (in range, sorted, paired) the ray
`(1, 0)` has a pair with one shared solid coordinate, the cell is the end of one line and the
start of the next, and the lines cover 17 cells while the grid has 16 and no cell lies strictly
between a pair. In the degenerate direction of `grid122` no line is emitted at all. -/
theorem C4_line_coverage_counterexample :
    (InRange grid422 hits422 ∧ RaySorted 0 hits422 ∧ RaysAlternate 0 hits422 ∧
      Paired 0 hits422 ∧ init_line 0 [] grid422 hits422 = some lines422 ∧
      covered_cells 0 lines422 + solid_cells 0 hits422 ≠ size grid422) ∧
    (init_line 0 [] grid122 ([] : List (mesh_object_info Int)) = some [] ∧
      covered_cells 0 ([] : List (line Int)) + solid_cells 0 ([] : List (mesh_object_info Int))
        ≠ size grid122) := by
  decide

/-- C4, amended. Line coverage: for a direction `I` with `extents[I] ≥ 2` of a grid and an
intersection list `R` that is in range, sorted by plane and along `I`, and whose rays alternate
closing/opening intersections (so they are paired per ray), the sum over all lines of `end[I] - start[I] + 1` plus the number of cells strictly between the
two solid coordinates of a pair equals `nx * ny * nz` plus the number of pairs whose two
intersections share one solid coordinate (such a cell ends one line and starts the next). -/
theorem C4_line_coverage (I : Nat) (hI : I < 3) (extents : int3)
    (R : List (mesh_object_info α)) (hd : 2 ≤ extents.get I)
    (hs : 0 ≤ extents.get (index.slow I)) (hf : 0 ≤ extents.get (index.fast I))
    (hR : InRange extents R) (hS : RaySorted I R) (hA : RaysAlternate I R) :
    ∃ v, init_line I [] extents R = some v ∧
      covered_cells I v + solid_cells I R = size extents + shared_cells I R := by
  have hP := paired_of_raysAlternate I R (planeSorted_of_raySorted I R hS) hA
  obtain ⟨v, hv, _, hsum⟩ := init_line_covered I hI extents R hR
    (planeSorted_of_raySorted I R hS) hP (pairOrdered_of_raySorted I R hS hP) (by omega)
  refine ⟨v, hv, ?_⟩
  simp only [List.drop_length, solid_cells, shared_cells] at hsum
  push_cast at hsum
  rw [Int.toNat_of_nonneg hs, Int.toNat_of_nonneg hf] at hsum
  have hsize : extents.get (index.slow I) * extents.get (index.fast I) * extents.get I
      = size extents := by
    interval_cases I <;> simp only [index.slow, index.fast, int3.get, size] <;> ring
  rw [hsize] at hsum
  linarith

/-- Witness of the amended C4 on `grid422` with `hits422`: 17 + 0 = 16 + 1. -/
theorem C4_line_coverage_witness :
    ∃ v, init_line 0 [] grid422 hits422 = some v ∧
      covered_cells 0 v + solid_cells 0 hits422 = size grid422 + shared_cells 0 hits422 :=
  C4_line_coverage 0 (by decide) grid422 hits422 (by decide) (by decide) (by decide)
    (by decide) (by decide) (by decide)

end coverage

/-! ### Pairing of the boundaries -/

section pairing

variable {α : Type}

theorem init_line_pairing (I : Nat) (hI : I < 3) (extents : int3)
    (R : List (mesh_object_info α)) (hR : InRange extents R) (hS : PlaneSorted I R)
    (hP : Paired I R) (hne : extents.get I ≠ 1) :
    ∃ v, init_line I [] extents R = some v ∧
      ∀ (i : Nat) (a : mesh_object_info α), i < R.length → R[i]? = some a →
        a.ray_outside = true →
        ∃ (j : Nat) (l l1 : line α) (b : mesh_object_info α),
          v[j]? = some l ∧ l.end_ = object_at i a ∧
          R[i + 1]? = some b ∧ b.ray_outside = false ∧
          v[j + 1]? = some l1 ∧ l1.start = object_at (i + 1) b := by
  refine init_line_rule I hI extents R hR hS hP hne
    (fun _ k v => ∀ (i : Nat) (a : mesh_object_info α), i < k → R[i]? = some a →
        a.ray_outside = true →
        ∃ (j : Nat) (l l1 : line α) (b : mesh_object_info α),
          v[j]? = some l ∧ l.end_ = object_at i a ∧
          R[i + 1]? = some b ∧ b.ray_outside = false ∧
          v[j + 1]? = some l1 ∧ l1.start = object_at (i + 1) b)
    (fun _ _ k v b0 => ∀ (i : Nat) (a : mesh_object_info α), i < k → R[i]? = some a →
        a.ray_outside = true →
        ∃ (j : Nat) (l : line α) (b : mesh_object_info α),
          v[j]? = some l ∧ l.end_ = object_at i a ∧
          R[i + 1]? = some b ∧ b.ray_outside = false ∧
          ((∃ l1 : line α, v[j + 1]? = some l1 ∧ l1.start = object_at (i + 1) b) ∨
            (j + 1 = v.length ∧ b0 = object_at (i + 1) b)))
    ?_ ?_ ?_ [] ?_
  · intro s f k v _ _ h i a hi hia haT
    obtain ⟨j, l, l1, b, h1, h2, h3, h4, h5, h6⟩ := h i a hi hia haT
    exact ⟨j, l, b, h1, h2, h3, h4, Or.inl ⟨l1, h5, h6⟩⟩
  · intro s f k v b0 a b _ _ hka hkb haT hbF _ _ _ _ h i c hi hic hcT
    by_cases hik : i < k
    · obtain ⟨j, l, b1, h1, h2, h3, h4, h5⟩ := h i c hik hic hcT
      have hj : j < v.length := by
        by_contra hcon
        rw [List.getElem?_eq_none (by omega)] at h1
        simp at h1
      refine ⟨j, l, b1, ?_, h2, h3, h4, Or.inl ?_⟩
      · rw [List.getElem?_append_left hj]; exact h1
      · rcases h5 with ⟨l1, h6, h7⟩ | ⟨h6, h7⟩
        · have hj1 : j + 1 < v.length := by
            by_contra hcon
            rw [List.getElem?_eq_none (by omega)] at h6
            simp at h6
          exact ⟨l1, by rw [List.getElem?_append_left hj1]; exact h6, h7⟩
        · refine ⟨⟨index.stride I extents, b0, object_at k a⟩, ?_, h7⟩
          rw [List.getElem?_append_right (by omega)]
          simp [h6]
    · by_cases hik1 : i = k
      · subst hik1
        rw [hka] at hic
        simp only [Option.some.injEq] at hic
        subst hic
        refine ⟨v.length, ⟨index.stride I extents, b0, object_at i a⟩, b, ?_, rfl, hkb, hbF,
          Or.inr ⟨by simp, rfl⟩⟩
        rw [List.getElem?_append_right (le_refl _)]
        simp
      · have hik2 : i = k + 1 := by omega
        subst hik2
        rw [hkb] at hic
        simp only [Option.some.injEq] at hic
        subst hic
        rw [hbF] at hcT
        exact absurd hcT (by simp)
  · intro s f k v b0 _ _ h i a hi hia haT
    obtain ⟨j, l, b, h1, h2, h3, h4, h5⟩ := h i a hi hia haT
    have hj : j < v.length := by
      by_contra hcon
      rw [List.getElem?_eq_none (by omega)] at h1
      simp at h1
    have h1a : (v ++ [⟨index.stride I extents, b0, ⟨right_point I extents s f, none⟩⟩])[j]?
        = some l := by
      rw [List.getElem?_append_left hj]; exact h1
    rcases h5 with ⟨l1, h6, h7⟩ | ⟨h6, h7⟩
    · have hj1 : j + 1 < v.length := by
        by_contra hcon
        rw [List.getElem?_eq_none (by omega)] at h6
        simp at h6
      exact ⟨j, l, l1, b, h1a, h2, h3, h4,
        by rw [List.getElem?_append_left hj1]; exact h6, h7⟩
    · refine ⟨j, l, ⟨index.stride I extents, b0, ⟨right_point I extents s f, none⟩⟩, b,
        h1a, h2, h3, h4, ?_, h7⟩
      rw [List.getElem?_append_right (by omega)]
      simp [h6]
  · intro i a hi
    omega

/-- C8, as stated, fails: on `grid422` with the list `hits_false_first` (in range, sorted, flags
alternating `false, true` on the ray) the intersection with `ray_outside = false` is the end
of no emitted line and the intersection with `ray_outside = true` that follows it is the start
of no emitted line; the code makes the first the start and the second the end of one line. -/
theorem C8_boundary_pairing_counterexample :
    InRange grid422 hits_false_first ∧ RaySorted 0 hits_false_first ∧
      hits_false_first.map (fun m => m.ray_outside) = [false, true] ∧
      init_line 0 [] grid422 hits_false_first = some lines_false_first ∧
      (∀ l ∈ lines_false_first, l.end_ ≠ object_at 0 (hit false 1 0 1 0 7)) ∧
      (∀ l ∈ lines_false_first, l.start ≠ object_at 1 (hit true 2 0 1 0 8)) := by
  decide

/-- C8, amended. Boundary pairing: for a direction `I` with `extents[I] ≥ 2` and an
intersection list that is in range, sorted by plane and in which the intersections of a ray
alternate `ray_outside = true, false, true, false, …`, each intersection `R[i]` with
`ray_outside = true` becomes the end boundary of an emitted line, the intersection `R[i + 1]`
that follows it has `ray_outside = false` and becomes the start boundary of the next emitted
line. -/
theorem C8_boundary_pairing (I : Nat) (hI : I < 3) (extents : int3)
    (R : List (mesh_object_info α)) (hd : 2 ≤ extents.get I)
    (hR : InRange extents R) (hS : PlaneSorted I R) (hA : RaysAlternate I R)
    (i : Nat) (a : mesh_object_info α) (hia : R[i]? = some a) (haT : a.ray_outside = true) :
    ∃ (v : List (line α)) (j : Nat) (l l1 : line α) (b : mesh_object_info α),
      init_line I [] extents R = some v ∧
      v[j]? = some l ∧ l.end_ = object_at i a ∧
      R[i + 1]? = some b ∧ b.ray_outside = false ∧
      v[j + 1]? = some l1 ∧ l1.start = object_at (i + 1) b := by
  obtain ⟨v, hv, hall⟩ := init_line_pairing I hI extents R hR hS
    (paired_of_raysAlternate I R hS hA) (by omega)
  have hi : i < R.length := by
    by_contra hcon
    rw [List.getElem?_eq_none (by omega)] at hia
    simp at hia
  obtain ⟨j, l, l1, b, h1, h2, h3, h4, h5, h6⟩ := hall i a hi hia haT
  exact ⟨v, j, l, l1, b, hv, h1, h2, h3, h4, h5, h6⟩

/-- Witness of the amended C8 on `grid422` with `hits422` at the first intersection. -/
theorem C8_boundary_pairing_witness :
    ∃ (v : List (line Int)) (j : Nat) (l l1 : line Int) (b : mesh_object_info Int),
      init_line 0 [] grid422 hits422 = some v ∧
      v[j]? = some l ∧ l.end_ = object_at 0 (hit true 1 0 1 0 7) ∧
      hits422[0 + 1]? = some b ∧ b.ray_outside = false ∧
      v[j + 1]? = some l1 ∧ l1.start = object_at (0 + 1) b :=
  C8_boundary_pairing 0 (by decide) grid422 hits422 (by decide) (by decide) (by decide)
    (by decide) 0 (hit true 1 0 1 0 7) (by decide) (by decide)

end pairing

/-! ### `dirichlet_line` -/

section dirichlet

/-- C9. For `dir` in `0, 1, 2`, `dirichlet_line(start, dir, grid_bcs)` returns true if and
only if there is a direction `i` different from `dir` such that `grid_bcs[i].left` is Dirichlet
and `start` lies on the left (index 0) face of direction `i`, or `grid_bcs[i].right` is
Dirichlet and `start` lies on the right (index `extents[i] - 1`) face of direction `i`. -/
theorem C9_dirichlet_line_iff (extents : int3) (start : int3) (dir : Nat) (hdir : dir < 3)
    (grid_bcs : bcs.Grid) :
    dirichlet_line extents start dir grid_bcs = true ↔
      ∃ i : Nat, i < 3 ∧ i ≠ dir ∧
        (((grid_bcs.get i).left = bcs.Dirichlet ∧ start.get i = 0) ∨
          ((grid_bcs.get i).right = bcs.Dirichlet ∧ start.get i = extents.get i - 1)) := by
  have hface : ∀ i, dirichlet_face extents start grid_bcs i = true ↔
      (((grid_bcs.get i).left = bcs.Dirichlet ∧ start.get i = 0) ∨
        ((grid_bcs.get i).right = bcs.Dirichlet ∧ start.get i = extents.get i - 1)) := by
    intro i
    simp [dirichlet_face, on_boundary]
  constructor
  · intro h
    interval_cases dir
    · simp only [dirichlet_line, List.range_zero, List.foldl_nil, List.range', List.foldl_cons,
        Bool.false_or, Bool.or_eq_true] at h
      rcases h with h | h
      · exact ⟨1, by omega, by omega, (hface 1).1 h⟩
      · exact ⟨2, by omega, by omega, (hface 2).1 h⟩
    · simp only [dirichlet_line, List.range_succ, List.range_zero, List.nil_append,
        List.foldl_cons, List.foldl_nil, List.range', Bool.false_or, Bool.or_eq_true] at h
      rcases h with h | h
      · exact ⟨0, by omega, by omega, (hface 0).1 h⟩
      · exact ⟨2, by omega, by omega, (hface 2).1 h⟩
    · simp only [dirichlet_line, List.range_succ, List.range_zero, List.nil_append,
        List.cons_append, List.foldl_cons, List.foldl_nil, List.range', Bool.false_or,
        Bool.or_eq_true] at h
      rcases h with h | h
      · exact ⟨0, by omega, by omega, (hface 0).1 h⟩
      · exact ⟨1, by omega, by omega, (hface 1).1 h⟩
  · rintro ⟨i, hi, hne, h⟩
    have hf := (hface i).2 h
    interval_cases dir
    · simp only [dirichlet_line, List.range_zero, List.foldl_nil, List.range', List.foldl_cons,
        Bool.false_or, Bool.or_eq_true]
      interval_cases i
      · exact absurd rfl hne
      · exact Or.inl hf
      · exact Or.inr hf
    · simp only [dirichlet_line, List.range_succ, List.range_zero, List.nil_append,
        List.foldl_cons, List.foldl_nil, List.range', Bool.false_or, Bool.or_eq_true]
      interval_cases i
      · exact Or.inl hf
      · exact absurd rfl hne
      · exact Or.inr hf
    · simp only [dirichlet_line, List.range_succ, List.range_zero, List.nil_append,
        List.cons_append, List.foldl_cons, List.foldl_nil, List.range', Bool.false_or,
        Bool.or_eq_true]
      interval_cases i
      · exact Or.inl hf
      · exact Or.inr hf
      · exact absurd rfl hne

/-- Witness of C9 on `grid422`: a start on the left x face, direction y, Dirichlet on x. -/
theorem C9_dirichlet_line_iff_witness :
    dirichlet_line grid422 ⟨0, 1, 1⟩ 1 ⟨bcs.dd, bcs.ff, bcs.ff⟩ = true ↔
      ∃ i : Nat, i < 3 ∧ i ≠ 1 ∧
        ((((⟨bcs.dd, bcs.ff, bcs.ff⟩ : bcs.Grid).get i).left = bcs.Dirichlet ∧
            (⟨0, 1, 1⟩ : int3).get i = 0) ∨
          (((⟨bcs.dd, bcs.ff, bcs.ff⟩ : bcs.Grid).get i).right = bcs.Dirichlet ∧
            (⟨0, 1, 1⟩ : int3).get i = grid422.get i - 1)) :=
  C9_dirichlet_line_iff grid422 ⟨0, 1, 1⟩ 1 (by decide) ⟨bcs.dd, bcs.ff, bcs.ff⟩

end dirichlet

/-! ### Applying the derivative -/

section apply

variable {α : Type} [CommRing α]

theorem CSR_apply_entry (pts : List (Int × Int × α)) (n : Int) (x : Int → α) :
    ∀ (b : Int → α) (g : Int),
      (matrix.CSR.apply ⟨pts, n⟩ x b) g =
        b g + ((pts.filter (fun pt => pt.1 = g)).map (fun pt => pt.2.2 * x pt.2.1)).sum := by
  induction pts with
  | nil => intro b g; simp [matrix.CSR.apply]
  | cons pt rest ih =>
    intro b g
    have hstep : matrix.CSR.apply ⟨pt :: rest, n⟩ x b
        = matrix.CSR.apply ⟨rest, n⟩ x (Function.update b pt.1 (b pt.1 + pt.2.2 * x pt.2.1)) := by
      simp [matrix.CSR.apply]
    rw [hstep, ih]
    by_cases hg : pt.1 = g
    · subst hg
      simp [List.filter_cons, add_assoc]
    · have hg2 : g ≠ pt.1 := fun h => hg h.symm
      simp [List.filter_cons, hg, Function.update_noteq hg2]

theorem derivative_apply_D (d : derivative α) (u du : scalar α) (op : Op) :
    (d.apply u du op).D = d.B.apply (u.R d.dir) (matrix.Block.apply d.O u.D du.D op) := by
  unfold derivative.apply scalar.R
  split <;> rfl

/-- C10. Derivative apply without Neumann data: for every `op`, `apply(u, du, op)` leaves in
`du.D` the result of applying `O` to `u.D` into `du.D` with that `op`, followed by the
application of `B` to the boundary array of the derivative's own direction (`Rx` for 0, `Ry`
for 1, `Rz` for 2), and the application of `B` accumulates whatever `op` is: entry `g` grows by
the sum of `val * x[col]` over the points of `B` in row `g`. -/
theorem C10_apply_without_neumann (d : derivative α) (u du : scalar α) (op : Op) :
    (d.apply u du op).D = d.B.apply (u.R d.dir) (matrix.Block.apply d.O u.D du.D op) ∧
    (∀ (x b : Int → α) (g : Int),
      d.B.apply x b g =
        b g + ((d.B.points.filter (fun pt => pt.1 = g)).map (fun pt => pt.2.2 * x pt.2.1)).sum) :=
  ⟨derivative_apply_D d u du op, fun x b g => CSR_apply_entry d.B.points d.B.nrows x b g⟩

end apply

/-! ### Updates that copy the input -/

section copy

variable {α : Type}

theorem keepsCopy_update (x : Int → α) (g : Int) :
    KeepsCopy x (fun b => Function.update b g (x g)) := by
  intro b t h
  by_cases ht : t = g
  · subst ht; simp
  · simp [Function.update_noteq ht, h]

theorem keepsCopy_foldl (x : Int → α) (g : Nat → Int) (rs : List Nat) :
    KeepsCopy x (fun b => rs.foldl (fun (b : Int → α) (r : Nat) =>
      Function.update b (g r) (x (g r))) b) := by
  induction rs with
  | nil => intro b t h; exact h
  | cons r rest ih =>
    intro b t h
    simp only [List.foldl_cons]
    exact ih _ t (keepsCopy_update x (g r) b t h)

theorem writesCopy_foldl (x : Int → α) (g : Nat → Int) (rs : List Nat) (r : Nat)
    (hr : r ∈ rs) :
    WritesCopy x (fun b => rs.foldl (fun (b : Int → α) (r : Nat) =>
      Function.update b (g r) (x (g r))) b) (g r) := by
  induction rs with
  | nil => simp at hr
  | cons r0 rest ih =>
    intro b
    simp only [List.foldl_cons]
    rcases List.mem_cons.1 hr with h | h
    · subst h
      exact keepsCopy_foldl x g rest _ _ (by simp)
    · exact ih h _

end copy

section identity_blocks

variable {α : Type} [CommRing α]

theorem dense_idL_apply (ro co st : Int) (x b : Int → α) :
    (⟨2, 3, ro, co, st, [1, 0, 0, 0, 1, 0]⟩ : matrix.Dense α).apply x b Op.eq
      = Function.update (Function.update b ro (x co)) (ro + st) (x (co + st)) := by
  have h2 : (2 : Int).toNat = 2 := rfl
  have h3 : (3 : Int).toNat = 3 := rfl
  simp [matrix.Dense.apply, h2, h3, List.range_succ, Op.store]

theorem dense_idR_apply (ro co st : Int) (x b : Int → α) :
    (⟨2, 3, ro, co, st, [0, 1, 0, 0, 0, 1]⟩ : matrix.Dense α).apply x b Op.eq
      = Function.update (Function.update b ro (x (co + st))) (ro + st) (x (co + 2 * st)) := by
  have h2 : (2 : Int).toNat = 2 := rfl
  have h3 : (3 : Int).toNat = 3 := rfl
  simp [matrix.Dense.apply, h2, h3, List.range_succ, Op.store]

theorem circ_id_apply (ro st : Int) (n : Int) (x b : Int → α) :
    (⟨n, ro, st, [1]⟩ : matrix.Circulant α).apply x b Op.eq
      = (List.range n.toNat).foldl
          (fun (b : Int → α) (r : Nat) =>
            Function.update b (ro + (r : Int) * st) (x (ro + (r : Int) * st))) b := by
  simp [matrix.Circulant.apply, Op.store, List.range_succ]

theorem dense_make_idL (ro co st : Int) :
    ({ matrix.Dense.make 2 3 [1, 0, 0, 0, 1, 0] with
        row_offset := ro, col_offset := co, stride := st } : matrix.Dense α)
      = ⟨2, 3, ro, co, st, [1, 0, 0, 0, 1, 0]⟩ := by
  have h6 : (2 * 3 : Int).toNat = 6 := rfl
  simp [matrix.Dense.make, h6]

theorem dense_make_idR (ro co st : Int) :
    ({ matrix.Dense.make 2 3 [0, 1, 0, 0, 0, 1] with
        row_offset := ro, col_offset := co, stride := st } : matrix.Dense α)
      = ⟨2, 3, ro, co, st, [0, 1, 0, 0, 0, 1]⟩ := by
  have h6 : (2 * 3 : Int).toNat = 6 := rfl
  simp [matrix.Dense.make, h6]

/-- The five stages of applying an identity block with `n` columns at offset `ro` and stride
`st`: two rows of the left matrix, the interior rows, two rows of the right matrix. -/
theorem identity_block_apply (extents : int3) (dir : Nat) (l : line α) (x b : Int → α)
    (n ro st : Int)
    (hn : n = l.end_.mesh_coordinate.get dir - l.start.mesh_coordinate.get dir + 1)
    (hro : ro = ic extents l.start.mesh_coordinate) (hst : st = l.stride) :
    (identity_block extents dir l).apply x b Op.eq =
      Function.update (Function.update
        ((List.range (n - 2 - 2).toNat).foldl
          (fun (b : Int → α) (r : Nat) =>
            Function.update b (ro + st * 2 + (r : Int) * st) (x (ro + st * 2 + (r : Int) * st)))
          (Function.update (Function.update b ro (x ro)) (ro + st) (x (ro + st))))
        (ro + st * (2 + (n - 2 - 2))) (x (ro + st * (2 + (n - 2 - 2)))))
        (ro + st * (2 + (n - 2 - 2)) + st) (x (ro + st * (2 + (n - 2 - 2)) + st)) := by
  subst hn hro hst
  unfold identity_block matrix.InnerBlock.make matrix.InnerBlock.apply
  simp only [dense_make_idL, dense_make_idR]
  show (⟨2, 3,
      ic extents l.start.mesh_coordinate + l.stride * (2 +
        (l.end_.mesh_coordinate.get dir - l.start.mesh_coordinate.get dir + 1 - 2 - 2)),
      ic extents l.start.mesh_coordinate + l.stride *
        (l.end_.mesh_coordinate.get dir - l.start.mesh_coordinate.get dir + 1 - 3),
      l.stride, [0, 1, 0, 0, 0, 1]⟩ : matrix.Dense α).apply x
    ((⟨l.end_.mesh_coordinate.get dir - l.start.mesh_coordinate.get dir + 1 - 2 - 2,
        ic extents l.start.mesh_coordinate + l.stride * 2, l.stride, [1]⟩ :
          matrix.Circulant α).apply x
      ((⟨2, 3, ic extents l.start.mesh_coordinate, ic extents l.start.mesh_coordinate,
          l.stride, [1, 0, 0, 0, 1, 0]⟩ : matrix.Dense α).apply x b Op.eq) Op.eq) Op.eq = _
  rw [dense_idR_apply, circ_id_apply, dense_idL_apply]
  have e1 : ic extents l.start.mesh_coordinate + l.stride *
      (l.end_.mesh_coordinate.get dir - l.start.mesh_coordinate.get dir + 1 - 3) + l.stride
      = ic extents l.start.mesh_coordinate + l.stride * (2 +
          (l.end_.mesh_coordinate.get dir - l.start.mesh_coordinate.get dir + 1 - 2 - 2)) := by
    ring
  have e2 : ic extents l.start.mesh_coordinate + l.stride *
      (l.end_.mesh_coordinate.get dir - l.start.mesh_coordinate.get dir + 1 - 3) + 2 * l.stride
      = ic extents l.start.mesh_coordinate + l.stride * (2 +
          (l.end_.mesh_coordinate.get dir - l.start.mesh_coordinate.get dir + 1 - 2 - 2))
        + l.stride := by
    ring
  rw [e1, e2]

theorem identity_block_keeps (extents : int3) (dir : Nat) (l : line α) (x : Int → α) :
    KeepsCopy x (fun b => (identity_block extents dir l).apply x b Op.eq) := by
  intro b t h
  show (identity_block extents dir l).apply x b Op.eq t = x t
  rw [identity_block_apply extents dir l x b _ _ _ rfl rfl rfl]
  refine keepsCopy_update x _ _ t ?_
  refine keepsCopy_update x _ _ t ?_
  refine keepsCopy_foldl x (fun r => ic extents l.start.mesh_coordinate + l.stride * 2
    + (r : Int) * l.stride) _ _ t ?_
  refine keepsCopy_update x _ _ t ?_
  exact keepsCopy_update x _ _ t h

/-- An identity block with at least four columns copies `x` into every one of its rows. -/
theorem identity_block_writes (extents : int3) (dir : Nat) (l : line α) (x : Int → α)
    (n : Int) (hn : n = l.end_.mesh_coordinate.get dir - l.start.mesh_coordinate.get dir + 1)
    (h4 : 4 ≤ n) (r : Int) (hr0 : 0 ≤ r) (hrn : r < n) :
    WritesCopy x (fun b => (identity_block extents dir l).apply x b Op.eq)
      (ic extents l.start.mesh_coordinate + r * l.stride) := by
  intro b
  show (identity_block extents dir l).apply x b Op.eq _ = _
  rw [identity_block_apply extents dir l x b n _ _ hn rfl rfl]
  generalize ic extents l.start.mesh_coordinate = ro
  generalize l.stride = st
  by_cases c4 : r = n - 1
  · have ht : ro + r * st = ro + st * (2 + (n - 2 - 2)) + st := by subst c4; ring
    rw [ht]; simp
  refine keepsCopy_update x _ _ _ ?_
  by_cases c3 : r = n - 2
  · have ht : ro + r * st = ro + st * (2 + (n - 2 - 2)) := by subst c3; ring
    rw [ht]; simp
  refine keepsCopy_update x _ _ _ ?_
  by_cases c2 : 2 ≤ r
  · have hmem : (r - 2).toNat ∈ List.range (n - 2 - 2).toNat := by
      rw [List.mem_range]; omega
    have ht : ro + r * st = ro + st * 2 + (((r - 2).toNat : Nat) : Int) * st := by
      rw [Int.toNat_of_nonneg (by omega)]; ring
    rw [ht]
    exact writesCopy_foldl x (fun k => ro + st * 2 + (k : Int) * st) _ _ hmem _
  refine keepsCopy_foldl x (fun k => ro + st * 2 + (k : Int) * st) _ _ _ ?_
  by_cases c1 : r = 1
  · have ht : ro + r * st = ro + st := by subst c1; ring
    rw [ht]; simp
  refine keepsCopy_update x _ _ _ ?_
  have c0 : r = 0 := by omega
  have ht : ro + r * st = ro := by subst c0; ring
  rw [ht]; simp

theorem block_apply_keeps (x : Int → α) :
    ∀ (O : List (matrix.InnerBlock α)),
      (∀ A ∈ O, KeepsCopy x (fun b => A.apply x b Op.eq)) →
      KeepsCopy x (fun b => matrix.Block.apply O x b Op.eq) := by
  intro O
  induction O with
  | nil => intro _ b t h; exact h
  | cons A rest ih =>
    intro hO b t h
    show matrix.Block.apply rest x (A.apply x b Op.eq) Op.eq t = x t
    exact ih (fun A1 h1 => hO A1 (List.mem_cons_of_mem _ h1)) _ t
      (hO A (List.mem_cons_self _ _) b t h)

theorem block_apply_writes (x : Int → α) (t : Int) :
    ∀ (O : List (matrix.InnerBlock α)),
      (∀ A ∈ O, KeepsCopy x (fun b => A.apply x b Op.eq)) →
      (∃ A ∈ O, WritesCopy x (fun b => A.apply x b Op.eq) t) →
      WritesCopy x (fun b => matrix.Block.apply O x b Op.eq) t := by
  intro O
  induction O with
  | nil => rintro _ ⟨A, hA, _⟩; simp at hA
  | cons A rest ih =>
    rintro hO ⟨A1, hA1, hw⟩ b
    show matrix.Block.apply rest x (A.apply x b Op.eq) Op.eq t = x t
    have hrest : ∀ A2 ∈ rest, KeepsCopy x (fun b => A2.apply x b Op.eq) :=
      fun A2 h2 => hO A2 (List.mem_cons_of_mem _ h2)
    rcases List.mem_cons.1 hA1 with h | h
    · subst h
      exact block_apply_keeps x rest hrest _ t (hw b)
    · exact ih hrest ⟨A1, h, hw⟩ _

end identity_blocks

/-! ### The derivative of a mesh without objects under free boundary conditions -/

section identity_derivative

variable {α : Type} [LinearOrderedCommRing α]

theorem store_all_six (c : List α) (h : c.length = 6) (a0 a1 a2 a3 a4 a5 : α) :
    store_all c [a0, a1, a2, a3, a4, a5] = [a0, a1, a2, a3, a4, a5] := by
  match c, h with
  | [_, _, _, _, _, _], _ => rfl

theorem free_left (dir : Nat) :
    ((⟨bcs.ff, bcs.ff, bcs.ff⟩ : bcs.Grid).get dir).left = bcs.type.F := by
  unfold bcs.Grid.get
  split <;> rfl

theorem free_right (dir : Nat) :
    ((⟨bcs.ff, bcs.ff, bcs.ff⟩ : bcs.Grid).get dir).right = bcs.type.F := by
  unfold bcs.Grid.get
  split <;> rfl

theorem dirichlet_line_free (extents start : int3) (dir : Nat) :
    dirichlet_line extents start dir ⟨bcs.ff, bcs.ff, bcs.ff⟩ = false := by
  have hface : ∀ i, dirichlet_face extents start ⟨bcs.ff, bcs.ff, bcs.ff⟩ i = false := by
    intro i
    unfold dirichlet_face
    rw [free_left, free_right]
    simp [bcs.Dirichlet]
  have hfold : ∀ (l : List Nat),
      l.foldl (fun result i =>
        result || dirichlet_face extents start ⟨bcs.ff, bcs.ff, bcs.ff⟩ i) false = false := by
    intro l
    induction l with
    | nil => rfl
    | cons i t ih =>
      rw [List.foldl_cons, hface]
      exact ih
  unfold dirichlet_line
  simp only [hfold]

/-- One line without objects, free boundary conditions, Identity stencil: the buffers receive
the two coefficient patterns and `O` receives the identity block of the line. -/
theorem assemble_line_identity (dir : Nat) (m : mesh α) (obj_bcs : bcs.Object)
    (st : Builders α) (l : line α) (hs : l.start.object = none) (he : l.end_.object = none)
    (hL : st.left.length = 6) (hR : st.right.length = 6) :
    assemble_line dir m stencils.Identity ⟨bcs.ff, bcs.ff, bcs.ff⟩ obj_bcs [1] st l =
      Except.ok { left := [1, 0, 0, 0, 1, 0], right := [0, 1, 0, 0, 0, 1], extra := st.extra,
                  B := st.B, O := st.O ++ [identity_block m.extents dir l], N := st.N } := by
  have h01 : (0 : α) ≤ 1 ∧ (1 : α) ≤ 1 := ⟨zero_le_one, le_refl _⟩
  unfold assemble_line
  rw [dirichlet_line_free]
  simp only [Bool.false_eq_true, if_false]
  unfold assemble_left assemble_right
  simp only [hs, he, free_left, free_right, stencils.Identity, if_pos h01,
    store_all_six _ hL, store_all_six _ hR, bcs.Dirichlet, bcs.Neumann]
  simp [identity_block, matrix.Dense.make, store_all_six _ hR]

theorem assemble_lines_identity (dir : Nat) (m : mesh α) (obj_bcs : bcs.Object) :
    ∀ (ls : List (line α)) (st : Builders α),
      (∀ l ∈ ls, l.start.object = none ∧ l.end_.object = none) →
      st.left.length = 6 → st.right.length = 6 →
      ∃ st1, assemble_lines dir m stencils.Identity ⟨bcs.ff, bcs.ff, bcs.ff⟩ obj_bcs [1] st ls
          = Except.ok st1 ∧
        st1.O = st.O ++ ls.map (identity_block m.extents dir) ∧ st1.B = st.B := by
  intro ls
  induction ls with
  | nil => intro st _ _ _; exact ⟨st, rfl, by simp, rfl⟩
  | cons l rest ih =>
    intro st hls hL hR
    have hl := hls l (List.mem_cons_self _ _)
    obtain ⟨st1, hrun, hO, hB⟩ := ih
      { left := [1, 0, 0, 0, 1, 0], right := [0, 1, 0, 0, 0, 1], extra := st.extra,
        B := st.B, O := st.O ++ [identity_block m.extents dir l], N := st.N }
      (fun l1 h1 => hls l1 (List.mem_cons_of_mem _ h1)) rfl rfl
    refine ⟨st1, ?_, ?_, hB⟩
    · rw [assemble_lines, assemble_line_identity dir m obj_bcs st l hl.1 hl.2 hL hR]
      exact hrun
    · rw [hO]; simp

/-- The constructor on lines without objects: `O` is the list of the identity blocks of the
lines and `B` is empty. -/
theorem derivative_make_identity (dir : Nat) (m : mesh α) (obj_bcs : bcs.Object)
    (hls : ∀ l ∈ m.lines dir, l.start.object = none ∧ l.end_.object = none) :
    ∃ d, derivative.make dir m stencils.Identity ⟨bcs.ff, bcs.ff, bcs.ff⟩ obj_bcs = Except.ok d ∧
      d.dir = dir ∧ d.O = (m.lines dir).map (identity_block m.extents dir) ∧
      d.B.points = [] := by
  have hq : (2 * (0 : Int) + 1).toNat = 1 := rfl
  have h6 : ((2 : Int) * 3).toNat = 6 := rfl
  obtain ⟨st1, hrun, hO, hB⟩ := assemble_lines_identity dir m obj_bcs (m.lines dir)
    { left := List.replicate 6 0, right := List.replicate 6 0,
      extra := List.replicate (2 : Int).toNat 0, B := [], O := [], N := [] }
    hls (by simp) (by simp)
  refine ⟨{ dir := dir, O := st1.O, B := ⟨st1.B, size m.extents⟩, N := ⟨st1.N, size m.extents⟩,
            interior_c := [1] }, ?_, rfl, by simpa using hO, by simpa using hB⟩
  unfold derivative.make
  simp only [stencils.Identity, hq, h6, List.replicate, List.set]
  simp only [List.replicate] at hrun
  simp only [stencils.Identity] at hrun
  rw [hrun]

theorem init_line_nil_some (I : Nat) (hI : I < 3) (extents : int3) :
    ∃ v, init_line I [] extents ([] : List (mesh_object_info α)) = some v := by
  by_cases h1 : extents.get I = 1
  · exact ⟨[], by unfold init_line; rw [if_pos h1]⟩
  · obtain ⟨v, hv, _⟩ := init_line_uncut (α := α) I hI extents h1
    exact ⟨v, hv⟩

theorem mesh_make_uncut (extents : int3) (h : Nat → α) :
    ∃ m : mesh α, mesh.make extents h (fun _ => []) = some m ∧ m.extents = extents ∧
      ∀ d, d < 3 → init_line d [] extents ([] : List (mesh_object_info α)) = some (m.lines d) := by
  obtain ⟨l0, h0⟩ := init_line_nil_some (α := α) 0 (by decide) extents
  obtain ⟨l1, h1⟩ := init_line_nil_some (α := α) 1 (by decide) extents
  obtain ⟨l2, h2⟩ := init_line_nil_some (α := α) 2 (by decide) extents
  refine ⟨{ extents := extents, h := h, R := fun _ => [],
            lines_ := fun d => match d with
              | 0 => l0
              | 1 => l1
              | _ => l2 }, ?_, rfl, ?_⟩
  · unfold mesh.make
    simp only [h0, h1, h2]
  · intro d hd
    interval_cases d
    · exact h0
    · exact h1
    · exact h2

theorem ic_on_ray (I : Nat) (hI : I < 3) (extents ijk : int3) :
    ic extents (left_point I (ijk.get (index.slow I)) (ijk.get (index.fast I)))
        + ijk.get I * index.stride I extents = ic extents ijk := by
  interval_cases I <;>
    simp only [ic, left_point, index.slow, index.fast, index.stride, int3.set, int3.get,
      int3.zero] <;> ring

/-- C1. Identity derivative: for a mesh without objects whose extent along direction `i` is at
least 4, with free boundary conditions on all six faces and the Identity stencil, the mesh and
the derivative `D_i` are constructed, and applying `D_i` with the assign op to any field `u`
(over any previous content of `du`) leaves `du.D` equal to `u.D` at every cell `ijk` of the
grid. -/
theorem C1_identity_derivative (extents : int3) (h : Nat → α) (i : Nat) (hi : i < 3)
    (h4 : 4 ≤ extents.get i) (obj_bcs : bcs.Object) (u du : scalar α) (ijk : int3)
    (hin : in_cells extents ijk) :
    ∃ (m : mesh α) (d : derivative α),
      mesh.make extents h (fun _ => []) = some m ∧
      derivative.make i m stencils.Identity ⟨bcs.ff, bcs.ff, bcs.ff⟩ obj_bcs = Except.ok d ∧
      (d.apply u du Op.eq).D (ic extents ijk) = u.D (ic extents ijk) := by
  obtain ⟨m, hm, hext, hlines⟩ := mesh_make_uncut extents h
  have hrun := hlines i hi
  have hcell : ∀ k, k < 3 → 0 ≤ ijk.get k ∧ ijk.get k < extents.get k := by
    intro k hk
    obtain ⟨hx, hy, hz⟩ := hin
    interval_cases k
    · exact hx
    · exact hy
    · exact hz
  have hslow : index.slow i < 3 := by interval_cases i <;> decide
  have hfast : index.fast i < 3 := by interval_cases i <;> decide
  have hls : ∀ l ∈ m.lines i, l.start.object = none ∧ l.end_.object = none := by
    intro l hl
    obtain ⟨_, s, f, _, _, hstart, hend⟩ := init_line_lineOK i hi extents [] (m.lines i) hrun l hl
    constructor
    · rcases hstart with hs | ⟨k, a, hk, _⟩
      · rw [hs]
      · simp at hk
    · rcases hend with hs | ⟨k, a, hk, _⟩
      · rw [hs]
      · simp at hk
  obtain ⟨d, hd, hdir, hO, hB⟩ := derivative_make_identity i m obj_bcs hls
  refine ⟨m, d, hm, hd, ?_⟩
  obtain ⟨v, hv, _, hget⟩ := init_line_uncut (α := α) i hi extents (by omega)
  rw [hrun] at hv
  simp only [Option.some.injEq] at hv
  subst hv
  have hs1 := hcell (index.slow i) hslow
  have hf1 := hcell (index.fast i) hfast
  have hr1 := hcell i hi
  have hsn : (ijk.get (index.slow i)).toNat < (extents.get (index.slow i)).toNat := by omega
  have hfn : (ijk.get (index.fast i)).toNat < (extents.get (index.fast i)).toNat := by omega
  have hlt : (ijk.get (index.slow i)).toNat * (extents.get (index.fast i)).toNat
      + (ijk.get (index.fast i)).toNat
      < (extents.get (index.slow i)).toNat * (extents.get (index.fast i)).toNat := by
    calc (ijk.get (index.slow i)).toNat * (extents.get (index.fast i)).toNat
          + (ijk.get (index.fast i)).toNat
        < (ijk.get (index.slow i)).toNat * (extents.get (index.fast i)).toNat
          + (extents.get (index.fast i)).toNat := by omega
      _ = ((ijk.get (index.slow i)).toNat + 1) * (extents.get (index.fast i)).toNat := by
        rw [Nat.succ_mul]
      _ ≤ (extents.get (index.slow i)).toNat * (extents.get (index.fast i)).toNat :=
        Nat.mul_le_mul_right _ hsn
  have hl := List.getElem?_mem (hget _ _ hsn hfn hlt)
  rw [Int.toNat_of_nonneg hs1.1, Int.toNat_of_nonneg hf1.1] at hl
  have hkeep : ∀ A ∈ d.O, KeepsCopy u.D (fun b => A.apply u.D b Op.eq) := by
    intro A hA
    rw [hO] at hA
    obtain ⟨l, _, rfl⟩ := List.mem_map.1 hA
    exact identity_block_keeps m.extents i l u.D
  have hwrite := block_apply_writes u.D (ic extents ijk) d.O hkeep
    ⟨_, by rw [hO]; exact List.mem_map.2 ⟨_, hl, rfl⟩, by
      have hw := identity_block_writes m.extents i
        (⟨index.stride i extents,
          ⟨left_point i (ijk.get (index.slow i)) (ijk.get (index.fast i)), none⟩,
          ⟨right_point i extents (ijk.get (index.slow i)) (ijk.get (index.fast i)), none⟩⟩ :
            line α)
        u.D (extents.get i)
        (by simp only [right_point_dir i hi, left_point_dir i hi]; ring)
        h4 (ijk.get i) hr1.1 hr1.2
      rw [hext] at hw ⊢
      simp only at hw
      rw [ic_on_ray i hi extents ijk] at hw
      exact hw⟩
  rw [derivative_apply_D]
  have hBid : ∀ (x b : Int → α), d.B.apply x b = b := by
    intro x b
    unfold matrix.CSR.apply
    rw [hB]
    rfl
  rw [hBid]
  exact hwrite du.D

/-- Witness of C1: the grid 4 x 2 x 2 over `Int`, direction x, the field `u.D[g] = 10 + g`,
a zero `du`, at the cell `(2, 1, 0)`. -/
theorem C1_identity_derivative_witness :
    ∃ (m : mesh Int) (d : derivative Int),
      mesh.make grid422 (fun _ => 1) (fun _ => []) = some m ∧
      derivative.make 0 m stencils.Identity ⟨bcs.ff, bcs.ff, bcs.ff⟩ [] = Except.ok d ∧
      (d.apply ⟨fun g => 10 + g, fun _ => 0, fun _ => 0, fun _ => 0⟩
          ⟨fun _ => 0, fun _ => 0, fun _ => 0, fun _ => 0⟩ Op.eq).D (ic grid422 ⟨2, 1, 0⟩)
        = (⟨fun g => 10 + g, fun _ => 0, fun _ => 0, fun _ => 0⟩ : scalar Int).D
            (ic grid422 ⟨2, 1, 0⟩) :=
  C1_identity_derivative grid422 (fun _ => 1) 0 (by decide) (by decide) []
    ⟨fun g => 10 + g, fun _ => 0, fun _ => 0, fun _ => 0⟩
    ⟨fun _ => 0, fun _ => 0, fun _ => 0, fun _ => 0⟩ ⟨2, 1, 0⟩ (by decide)

end identity_derivative

/-! ### The apply with Neumann data and the addressing of an InnerBlock -/

section apply2
variable {α : Type} [CommRing α]

theorem derivative_apply_eq (d : derivative α) (u du : scalar α) (op : Op) :
    d.apply u du op =
      { du with D := d.B.apply (u.R d.dir) (matrix.Block.apply d.O u.D du.D op) } := by
  unfold derivative.apply scalar.R
  split <;> rfl

/-- C11. Derivative apply with Neumann data: for every `op`, `apply(u, nu, du, op)` leaves in
`du.D` the result of `apply(u, du, op)` followed by the application of `N` to `nu.D`, which
accumulates whatever `op` is (entry `g` grows by the sum of `val * nu.D[col]` over the points
of `N` in row `g`); and the result is the same for any other `nu1` with the same domain values
and any other `u1` with the same domain values and the same boundary array of the derivative's
direction: the boundary arrays of `nu` and the other boundary arrays of `u` have no influence. -/
theorem C11_apply_with_neumann (d : derivative α) (u nu du u1 nu1 : scalar α) (op : Op)
    (hD : u1.D = u.D) (hR : u1.R d.dir = u.R d.dir) (hnu : nu1.D = nu.D) :
    (d.apply_neumann u nu du op).D = d.N.apply nu.D (d.apply u du op).D ∧
    (∀ (x b : Int → α) (g : Int),
      d.N.apply x b g =
        b g + ((d.N.points.filter (fun pt => pt.1 = g)).map (fun pt => pt.2.2 * x pt.2.1)).sum) ∧
    d.apply_neumann u1 nu1 du op = d.apply_neumann u nu du op := by
  refine ⟨rfl, fun x b g => CSR_apply_entry d.N.points d.N.nrows x b g, ?_⟩
  unfold derivative.apply_neumann
  rw [derivative_apply_eq, derivative_apply_eq, hD, hR, hnu]

/-- C17. InnerBlock child addressing: after the 7-argument constructor, the left child has
the `row_offset`, `col_offset` and `stride` of the arguments, the interior child has
`row_offset + stride * left.rows` and the given stride, the right child has
`row_offset + stride * (left.rows + interior.rows)`,
`col_offset + stride * (columns - right.columns)` and the given stride (every other field of
the children is kept), and the block has `rows = left.rows + interior.rows + right.rows` and
the given columns, offsets and stride. -/
theorem C17_innerblock_child_addressing (columns row_offset col_offset stride : Int)
    (left : matrix.Dense α) (i : matrix.Circulant α) (right : matrix.Dense α) :
    ((matrix.InnerBlock.make columns row_offset col_offset stride left i right).left_boundary
        = { left with row_offset := row_offset, col_offset := col_offset, stride := stride }) ∧
    ((matrix.InnerBlock.make columns row_offset col_offset stride left i right).interior
        = { i with row_offset := row_offset + stride * left.rows, stride := stride }) ∧
    ((matrix.InnerBlock.make columns row_offset col_offset stride left i right).right_boundary
        = { right with
            row_offset := row_offset + stride * (left.rows + i.rows)
            col_offset := col_offset + stride * (columns - right.columns)
            stride := stride }) ∧
    (matrix.InnerBlock.make columns row_offset col_offset stride left i right).rows
        = left.rows + i.rows + right.rows ∧
    (matrix.InnerBlock.make columns row_offset col_offset stride left i right).columns
        = columns ∧
    (matrix.InnerBlock.make columns row_offset col_offset stride left i right).row_offset
        = row_offset ∧
    (matrix.InnerBlock.make columns row_offset col_offset stride left i right).col_offset
        = col_offset ∧
    (matrix.InnerBlock.make columns row_offset col_offset stride left i right).stride
        = stride :=
  ⟨rfl, rfl, rfl, rfl, rfl, rfl, rfl, rfl⟩

theorem innerBlock_rows_split (columns row_offset col_offset stride : Int)
    (left : matrix.Dense α) (i : matrix.Circulant α) (right : matrix.Dense α)
    (hl : 0 ≤ left.rows) (hi : 0 ≤ i.rows) (hr : 0 ≤ right.rows) (g : Int) :
    (matrix.InnerBlock.make columns row_offset col_offset stride left i right).has_row g ↔
      ((matrix.InnerBlock.make columns row_offset col_offset stride left i right).left_boundary.has_row g ∨
       (matrix.InnerBlock.make columns row_offset col_offset stride left i right).interior.has_row g ∨
       (matrix.InnerBlock.make columns row_offset col_offset stride left i right).right_boundary.has_row g) := by
  unfold matrix.InnerBlock.has_row matrix.Dense.has_row matrix.Circulant.has_row
    matrix.InnerBlock.make
  simp only
  constructor
  · rintro ⟨r, h0, h1, rfl⟩
    by_cases c1 : r < left.rows
    · exact Or.inl ⟨r, h0, c1, rfl⟩
    · by_cases c2 : r < left.rows + i.rows
      · exact Or.inr (Or.inl ⟨r - left.rows, by omega, by omega, by ring⟩)
      · exact Or.inr (Or.inr ⟨r - left.rows - i.rows, by omega, by omega, by ring⟩)
  · rintro (⟨r, h0, h1, rfl⟩ | ⟨r, h0, h1, rfl⟩ | ⟨r, h0, h1, rfl⟩)
    · exact ⟨r, h0, by omega, rfl⟩
    · exact ⟨left.rows + r, by omega, by omega, by ring⟩
    · exact ⟨left.rows + i.rows + r, by omega, by omega, by ring⟩

theorem stride_cancel (st a b : Int) (hst : st ≠ 0) (ro : Int)
    (h : ro + a * st = ro + b * st) : a = b := by
  have h2 : (a - b) * st = 0 := by linear_combination h
  rcases mul_eq_zero.1 h2 with h3 | h3
  · omega
  · exact absurd h3 hst

/-- C18. InnerBlock row partition: for an InnerBlock built by the 7-argument constructor
with `stride ≠ 0` and non-negative child row counts, an index `g` is a global row of the block
(`row_offset + r * stride`, `0 ≤ r < rows`) exactly when it is a global row of the left, the
interior or the right child, and it is a global row of at most one child. -/
theorem C18_innerblock_row_partition (columns row_offset col_offset stride : Int)
    (left : matrix.Dense α) (i : matrix.Circulant α) (right : matrix.Dense α)
    (hst : stride ≠ 0) (hl : 0 ≤ left.rows) (hi : 0 ≤ i.rows) (hr : 0 ≤ right.rows) (g : Int) :
    ((matrix.InnerBlock.make columns row_offset col_offset stride left i right).has_row g ↔
      ((matrix.InnerBlock.make columns row_offset col_offset stride left i right).left_boundary.has_row g ∨
       (matrix.InnerBlock.make columns row_offset col_offset stride left i right).interior.has_row g ∨
       (matrix.InnerBlock.make columns row_offset col_offset stride left i right).right_boundary.has_row g)) ∧
    ¬ ((matrix.InnerBlock.make columns row_offset col_offset stride left i right).left_boundary.has_row g ∧
       (matrix.InnerBlock.make columns row_offset col_offset stride left i right).interior.has_row g) ∧
    ¬ ((matrix.InnerBlock.make columns row_offset col_offset stride left i right).left_boundary.has_row g ∧
       (matrix.InnerBlock.make columns row_offset col_offset stride left i right).right_boundary.has_row g) ∧
    ¬ ((matrix.InnerBlock.make columns row_offset col_offset stride left i right).interior.has_row g ∧
       (matrix.InnerBlock.make columns row_offset col_offset stride left i right).right_boundary.has_row g) := by
  refine ⟨innerBlock_rows_split columns row_offset col_offset stride left i right hl hi hr g,
    ?_, ?_, ?_⟩
  · unfold matrix.Dense.has_row matrix.Circulant.has_row matrix.InnerBlock.make
    simp only
    rintro ⟨⟨r1, h10, h11, e1⟩, ⟨r2, h20, h21, e2⟩⟩
    have := stride_cancel stride r1 (left.rows + r2) hst row_offset (by rw [← e1, e2]; ring)
    omega
  · unfold matrix.Dense.has_row matrix.InnerBlock.make
    simp only
    rintro ⟨⟨r1, h10, h11, e1⟩, ⟨r2, h20, h21, e2⟩⟩
    have := stride_cancel stride r1 (left.rows + i.rows + r2) hst row_offset
      (by rw [← e1, e2]; ring)
    omega
  · unfold matrix.Dense.has_row matrix.Circulant.has_row matrix.InnerBlock.make
    simp only
    rintro ⟨⟨r1, h10, h11, e1⟩, ⟨r2, h20, h21, e2⟩⟩
    have := stride_cancel stride (left.rows + r1) (left.rows + i.rows + r2) hst row_offset
      (by linear_combination e2 - e1)
    omega


/-- Witness of C11: a derivative in direction x whose `N` holds one point, the field `ramp`
and a field that differs from it only in `Ry` and `Rz`. -/
theorem C11_apply_with_neumann_witness :
    (one_point_derivative.apply_neumann ramp ramp zero_field Op.plus_eq).D
        = one_point_derivative.N.apply ramp.D
            (one_point_derivative.apply ramp zero_field Op.plus_eq).D ∧
    (∀ (x b : Int → Int) (g : Int),
      one_point_derivative.N.apply x b g =
        b g + ((one_point_derivative.N.points.filter (fun pt => pt.1 = g)).map
          (fun pt => pt.2.2 * x pt.2.1)).sum) ∧
    one_point_derivative.apply_neumann ramp_other zero_ramp zero_field Op.plus_eq
      = one_point_derivative.apply_neumann ramp ramp zero_field Op.plus_eq :=
  C11_apply_with_neumann one_point_derivative ramp ramp zero_field ramp_other zero_ramp
    Op.plus_eq rfl rfl rfl

/-- Witness of C18: a block of 2 + 1 + 2 rows at offset 3 with stride 2, at the index 7. -/
theorem C18_innerblock_row_partition_witness :
    ((matrix.InnerBlock.make 5 3 3 2 (matrix.Dense.make 2 3 ([] : List Int))
        (matrix.Circulant.make 1 [1]) (matrix.Dense.make 2 3 [])).has_row 7 ↔
      ((matrix.InnerBlock.make 5 3 3 2 (matrix.Dense.make 2 3 ([] : List Int))
        (matrix.Circulant.make 1 [1]) (matrix.Dense.make 2 3 [])).left_boundary.has_row 7 ∨
       (matrix.InnerBlock.make 5 3 3 2 (matrix.Dense.make 2 3 ([] : List Int))
        (matrix.Circulant.make 1 [1]) (matrix.Dense.make 2 3 [])).interior.has_row 7 ∨
       (matrix.InnerBlock.make 5 3 3 2 (matrix.Dense.make 2 3 ([] : List Int))
        (matrix.Circulant.make 1 [1]) (matrix.Dense.make 2 3 [])).right_boundary.has_row 7)) ∧
    ¬ ((matrix.InnerBlock.make 5 3 3 2 (matrix.Dense.make 2 3 ([] : List Int))
        (matrix.Circulant.make 1 [1]) (matrix.Dense.make 2 3 [])).left_boundary.has_row 7 ∧
       (matrix.InnerBlock.make 5 3 3 2 (matrix.Dense.make 2 3 ([] : List Int))
        (matrix.Circulant.make 1 [1]) (matrix.Dense.make 2 3 [])).interior.has_row 7) ∧
    ¬ ((matrix.InnerBlock.make 5 3 3 2 (matrix.Dense.make 2 3 ([] : List Int))
        (matrix.Circulant.make 1 [1]) (matrix.Dense.make 2 3 [])).left_boundary.has_row 7 ∧
       (matrix.InnerBlock.make 5 3 3 2 (matrix.Dense.make 2 3 ([] : List Int))
        (matrix.Circulant.make 1 [1]) (matrix.Dense.make 2 3 [])).right_boundary.has_row 7) ∧
    ¬ ((matrix.InnerBlock.make 5 3 3 2 (matrix.Dense.make 2 3 ([] : List Int))
        (matrix.Circulant.make 1 [1]) (matrix.Dense.make 2 3 [])).interior.has_row 7 ∧
       (matrix.InnerBlock.make 5 3 3 2 (matrix.Dense.make 2 3 ([] : List Int))
        (matrix.Circulant.make 1 [1]) (matrix.Dense.make 2 3 [])).right_boundary.has_row 7) :=
  C18_innerblock_row_partition 5 3 3 2 (matrix.Dense.make 2 3 ([] : List Int))
    (matrix.Circulant.make 1 [1]) (matrix.Dense.make 2 3 []) (by decide) (by decide)
    (by decide) (by decide) 7

end apply2

/-! ### Applying a block as a list of writes -/

section writes
variable {α : Type} [CommRing α]

theorem store_writes_append (op : Op) (ws1 ws2 : List (Int × α)) (b : Int → α) :
    store_writes op (ws1 ++ ws2) b = store_writes op ws2 (store_writes op ws1 b) := by
  unfold store_writes
  rw [List.foldl_append]

theorem dense_apply_writes (A : matrix.Dense α) (x b : Int → α) (op : Op) :
    A.apply x b op = store_writes op (A.writes x) b := by
  unfold matrix.Dense.apply store_writes matrix.Dense.writes
  rw [List.foldl_map]

theorem circulant_apply_writes (A : matrix.Circulant α) (x b : Int → α) (op : Op) :
    A.apply x b op = store_writes op (A.writes x) b := by
  unfold matrix.Circulant.apply store_writes matrix.Circulant.writes
  rw [List.foldl_map]

theorem innerBlock_apply_writes (A : matrix.InnerBlock α) (x b : Int → α) (op : Op) :
    A.apply x b op = store_writes op (A.writes x) b := by
  unfold matrix.InnerBlock.apply matrix.InnerBlock.writes
  rw [store_writes_append, store_writes_append, dense_apply_writes, circulant_apply_writes,
    dense_apply_writes]

theorem block_apply_writes_eq (x : Int → α) (op : Op) :
    ∀ (O : List (matrix.InnerBlock α)) (b : Int → α),
      matrix.Block.apply O x b op = store_writes op (matrix.Block.writes O x) b := by
  intro O
  induction O with
  | nil => intro b; rfl
  | cons A rest ih =>
    intro b
    show matrix.Block.apply rest x (A.apply x b op) op = _
    rw [ih, innerBlock_apply_writes]
    show _ = store_writes op (A.writes x ++ matrix.Block.writes rest x) b
    rw [store_writes_append]

theorem innerBlock_writes_keys (A : matrix.InnerBlock α) (x : Int → α) :
    (A.writes x).map Prod.fst = A.row_list := by
  unfold matrix.InnerBlock.writes matrix.InnerBlock.row_list matrix.Dense.writes
    matrix.Circulant.writes
  simp only [List.map_append, List.map_map]
  rfl

theorem block_writes_keys (x : Int → α) :
    ∀ (O : List (matrix.InnerBlock α)),
      (matrix.Block.writes O x).map Prod.fst = matrix.Block.row_list O := by
  intro O
  induction O with
  | nil => rfl
  | cons A rest ih =>
    show (A.writes x ++ matrix.Block.writes rest x).map Prod.fst
      = A.row_list ++ matrix.Block.row_list rest
    rw [List.map_append, ih, innerBlock_writes_keys]

/-- Add-assign: entry `g` grows by the sum of the values written to row `g`. -/
theorem store_writes_plus_entry :
    ∀ (ws : List (Int × α)) (b : Int → α) (g : Int),
      store_writes Op.plus_eq ws b g =
        b g + ((ws.filter (fun w => w.1 = g)).map Prod.snd).sum := by
  intro ws
  induction ws with
  | nil => intro b g; simp [store_writes]
  | cons w rest ih =>
    intro b g
    have hstep : store_writes Op.plus_eq (w :: rest) b
        = store_writes Op.plus_eq rest (Function.update b w.1 (b w.1 + w.2)) := rfl
    rw [hstep, ih]
    by_cases hg : w.1 = g
    · subst hg
      simp [List.filter_cons, add_assoc]
    · have hg2 : g ≠ w.1 := fun h => hg h.symm
      simp [List.filter_cons, hg, Function.update_noteq hg2]

/-- Assign with pairwise distinct rows: a written row holds the value written to it, any other
entry is kept. -/
theorem store_writes_eq_entry :
    ∀ (ws : List (Int × α)) (b : Int → α) (g : Int), (ws.map Prod.fst).Nodup →
      store_writes Op.eq ws b g =
        if g ∈ ws.map Prod.fst then ((ws.filter (fun w => w.1 = g)).map Prod.snd).sum
        else b g := by
  intro ws
  induction ws with
  | nil => intro b g _; simp [store_writes]
  | cons w rest ih =>
    intro b g hnd
    have hstep : store_writes Op.eq (w :: rest) b
        = store_writes Op.eq rest (Function.update b w.1 w.2) := rfl
    rw [List.map_cons, List.nodup_cons] at hnd
    rw [hstep, ih _ _ hnd.2]
    by_cases hg : w.1 = g
    · subst hg
      have hfil : rest.filter (fun v => v.1 = w.1) = [] := by
        rw [List.filter_eq_nil_iff]
        intro v hv hvw
        apply hnd.1
        rw [List.mem_map]
        exact ⟨v, hv, by simpa using hvw⟩
      simp [List.filter_cons, hfil, hnd.1]
    · have hg2 : g ≠ w.1 := fun h => hg h.symm
      have hmem : g ∈ w.1 :: List.map Prod.fst rest ↔ g ∈ List.map Prod.fst rest := by
        rw [List.mem_cons]
        constructor
        · rintro (h | h)
          · exact absurd h hg2
          · exact h
        · exact Or.inr
      rw [List.map_cons, List.filter_cons]
      simp only [hg, decide_False, Function.update_noteq hg2, hmem, Bool.false_eq_true,
        if_false]

theorem filter_sum_of_not_mem (ws : List (Int × α)) (g : Int)
    (h : g ∉ ws.map Prod.fst) : ((ws.filter (fun w => w.1 = g)).map Prod.snd).sum = 0 := by
  have hfil : ws.filter (fun v => v.1 = g) = [] := by
    rw [List.filter_eq_nil_iff]
    intro v hv hvw
    apply h
    rw [List.mem_map]
    exact ⟨v, hv, by simpa using hvw⟩
  rw [hfil]; rfl

/-- With pairwise distinct rows, add-assign into `b` adds what assign writes into zero. -/
theorem store_writes_plus_of_nodup (ws : List (Int × α)) (b : Int → α) (g : Int)
    (hnd : (ws.map Prod.fst).Nodup) :
    store_writes Op.plus_eq ws b g = b g + store_writes Op.eq ws (fun _ => 0) g := by
  rw [store_writes_plus_entry, store_writes_eq_entry ws _ g hnd]
  by_cases hm : g ∈ ws.map Prod.fst
  · rw [if_pos hm]
  · rw [if_neg hm, filter_sum_of_not_mem ws g hm]

theorem csr_entry (A : matrix.CSR α) (x b : Int → α) (g : Int) :
    A.apply x b g =
      b g + ((A.points.filter (fun pt => pt.1 = g)).map (fun pt => pt.2.2 * x pt.2.1)).sum :=
  CSR_apply_entry A.points A.nrows x b g

theorem apply_neumann_entry (d : derivative α) (u nu du : scalar α) (op : Op) (g : Int) :
    (d.apply_neumann u nu du op).D g =
      store_writes op (matrix.Block.writes d.O u.D) du.D g
        + ((d.B.points.filter (fun pt => pt.1 = g)).map
            (fun pt => pt.2.2 * u.R d.dir pt.2.1)).sum
        + ((d.N.points.filter (fun pt => pt.1 = g)).map
            (fun pt => pt.2.2 * nu.D pt.2.1)).sum := by
  show d.N.apply nu.D (d.apply u du op).D g = _
  rw [csr_entry, derivative_apply_D, csr_entry, block_apply_writes_eq]

/-- C12, amended. Accumulation: for every derivative operator and fields `u`, `nu`, two
add-assign applications into a zero buffer give twice one add-assign application; and for a
derivative operator whose InnerBlocks write pairwise distinct global rows, starting from
`du = 0`, applying with the assign op and then again with the add-assign op leaves `du.D` equal
to twice the result of the single assign application, and one add-assign application into a
zero buffer gives the result of the assign application (so that the two statements are then
the same). -/
theorem C12_accumulation (d : derivative α) (u nu : scalar α) (g : Int) :
    (d.apply_neumann u nu (d.apply_neumann u nu scalar.zero Op.plus_eq) Op.plus_eq).D g
        = 2 * (d.apply_neumann u nu scalar.zero Op.plus_eq).D g ∧
    ((matrix.Block.row_list d.O).Nodup →
      (d.apply_neumann u nu (d.apply_neumann u nu scalar.zero Op.eq) Op.plus_eq).D g
          = 2 * (d.apply_neumann u nu scalar.zero Op.eq).D g ∧
      (d.apply_neumann u nu scalar.zero Op.plus_eq).D g
          = (d.apply_neumann u nu scalar.zero Op.eq).D g) := by
  have hz : (scalar.zero : scalar α).D = fun _ => 0 := rfl
  refine ⟨?_, fun hnd => ?_⟩
  · rw [apply_neumann_entry d u nu _ Op.plus_eq, store_writes_plus_entry,
      apply_neumann_entry d u nu _ Op.plus_eq, store_writes_plus_entry, hz]
    ring
  · have hk : ((matrix.Block.writes d.O u.D).map Prod.fst).Nodup := by
      rw [block_writes_keys]; exact hnd
    have hplus : ∀ b : Int → α, store_writes Op.plus_eq (matrix.Block.writes d.O u.D) b g
        = b g + store_writes Op.eq (matrix.Block.writes d.O u.D) (fun _ => 0) g :=
      fun b => store_writes_plus_of_nodup _ b g hk
    refine ⟨?_, ?_⟩
    · rw [apply_neumann_entry d u nu _ Op.plus_eq, hplus, apply_neumann_entry d u nu _ Op.eq,
        hz]
      ring
    · rw [apply_neumann_entry d u nu _ Op.plus_eq, hplus, apply_neumann_entry d u nu _ Op.eq,
        hz]
      ring

/-- C12, as stated, fails: on the grid 3 x 1 x 1 without objects, with free boundary
conditions and the Identity stencil, the left and the right matrix of the only line both write
row 1; after the assign application `du.D[1] = 11`, after the add-assign application that
follows `du.D[1] = 33`, not 22. -/
theorem C12_accumulation_counterexample :
    mesh.make ⟨3, 1, 1⟩ (fun _ => (1 : Int)) (fun _ => []) = some mesh311 ∧
    ∃ d, derivative.make 0 mesh311 stencils.Identity free3 [] = Except.ok d ∧
      (d.apply_neumann ramp ramp zero_field Op.eq).D 1 = 11 ∧
      (d.apply_neumann ramp ramp (d.apply_neumann ramp ramp zero_field Op.eq) Op.plus_eq).D 1
        = 33 ∧
      (d.apply_neumann ramp ramp (d.apply_neumann ramp ramp zero_field Op.eq) Op.plus_eq).D 1
        ≠ 2 * (d.apply_neumann ramp ramp zero_field Op.eq).D 1 := by
  refine ⟨rfl, _, rfl, ?_, ?_, ?_⟩ <;> decide

/-- Witness of the amended C12: a derivative with one identity block of four rows, whose
rows are pairwise distinct. -/
theorem C12_accumulation_witness :
    (matrix.Block.row_list one_block_derivative.O).Nodup ∧
    (one_block_derivative.apply_neumann ramp ramp
        (one_block_derivative.apply_neumann ramp ramp scalar.zero Op.plus_eq) Op.plus_eq).D 2
        = 2 * (one_block_derivative.apply_neumann ramp ramp scalar.zero Op.plus_eq).D 2 ∧
    (one_block_derivative.apply_neumann ramp ramp
        (one_block_derivative.apply_neumann ramp ramp scalar.zero Op.eq) Op.plus_eq).D 2
        = 2 * (one_block_derivative.apply_neumann ramp ramp scalar.zero Op.eq).D 2 ∧
    (one_block_derivative.apply_neumann ramp ramp scalar.zero Op.plus_eq).D 2
        = (one_block_derivative.apply_neumann ramp ramp scalar.zero Op.eq).D 2 :=
  ⟨by decide, (C12_accumulation one_block_derivative ramp ramp 2).1,
    (C12_accumulation one_block_derivative ramp ramp 2).2 (by decide)⟩

end writes

/-! ### Linearity -/

section linearity
variable {α : Type} [CommRing α]

theorem sum_map_lin {ι : Type} (l : List ι) (k : ι → α) (ix : ι → Int) (a b : α)
    (x y : Int → α) :
    (l.map (fun c => k c * (a * x (ix c) + b * y (ix c)))).sum
      = a * (l.map (fun c => k c * x (ix c))).sum + b * (l.map (fun c => k c * y (ix c))).sum := by
  induction l with
  | nil => simp
  | cons c t ih =>
    simp only [List.map_cons, List.sum_cons, ih]
    ring

theorem foldl_update_lin {ι : Type} (key : ι → Int) (vx vy vz : ι → α) (a b : α)
    (hv : ∀ r, vz r = a * vx r + b * vy r) :
    ∀ (rs : List ι) (bx bz bw : Int → α), (∀ g, bz g = a * bx g + b * bw g) →
      ∀ g, (rs.foldl (fun (buf : Int → α) r => Function.update buf (key r) (vz r)) bz) g
        = a * (rs.foldl (fun (buf : Int → α) r => Function.update buf (key r) (vx r)) bx) g
          + b * (rs.foldl (fun (buf : Int → α) r => Function.update buf (key r) (vy r)) bw) g := by
  intro rs
  induction rs with
  | nil => intro bx bz bw h g; exact h g
  | cons r t ih =>
    intro bx bz bw h g
    simp only [List.foldl_cons]
    apply ih
    intro g1
    by_cases hg : g1 = key r
    · subst hg; simp [hv]
    · simp [Function.update_noteq hg, h]

theorem dense_apply_lin (A : matrix.Dense α) (a b : α) (x y bx bw bz : Int → α)
    (h : ∀ g, bz g = a * bx g + b * bw g) (g : Int) :
    A.apply (fun t => a * x t + b * y t) bz Op.eq g
      = a * A.apply x bx Op.eq g + b * A.apply y bw Op.eq g := by
  unfold matrix.Dense.apply
  simp only [Op.store]
  exact foldl_update_lin _ _ _ _ a b (fun r => sum_map_lin _ _ _ a b x y) _ bx bz bw h g

theorem circulant_apply_lin (A : matrix.Circulant α) (a b : α) (x y bx bw bz : Int → α)
    (h : ∀ g, bz g = a * bx g + b * bw g) (g : Int) :
    A.apply (fun t => a * x t + b * y t) bz Op.eq g
      = a * A.apply x bx Op.eq g + b * A.apply y bw Op.eq g := by
  unfold matrix.Circulant.apply
  simp only [Op.store]
  exact foldl_update_lin _ _ _ _ a b (fun r => sum_map_lin _ _ _ a b x y) _ bx bz bw h g

theorem innerBlock_apply_lin (A : matrix.InnerBlock α) (a b : α) (x y bx bw bz : Int → α)
    (h : ∀ g, bz g = a * bx g + b * bw g) (g : Int) :
    A.apply (fun t => a * x t + b * y t) bz Op.eq g
      = a * A.apply x bx Op.eq g + b * A.apply y bw Op.eq g := by
  unfold matrix.InnerBlock.apply
  apply dense_apply_lin
  intro g1
  apply circulant_apply_lin
  intro g2
  apply dense_apply_lin
  exact h

theorem block_apply_lin (a b : α) (x y : Int → α) :
    ∀ (O : List (matrix.InnerBlock α)) (bx bw bz : Int → α),
      (∀ g, bz g = a * bx g + b * bw g) → ∀ g,
      matrix.Block.apply O (fun t => a * x t + b * y t) bz Op.eq g
        = a * matrix.Block.apply O x bx Op.eq g + b * matrix.Block.apply O y bw Op.eq g := by
  intro O
  induction O with
  | nil => intro bx bw bz h g; exact h g
  | cons A rest ih =>
    intro bx bw bz h g
    show matrix.Block.apply rest _ (A.apply _ bz Op.eq) Op.eq g
      = a * matrix.Block.apply rest x (A.apply x bx Op.eq) Op.eq g
        + b * matrix.Block.apply rest y (A.apply y bw Op.eq) Op.eq g
    apply ih
    intro g1
    exact innerBlock_apply_lin A a b x y bx bw bz h g1

theorem scalar_lin_R (a b : α) (u v : scalar α) (dir : Nat) :
    (scalar.lin a u b v).R dir = fun g => a * u.R dir g + b * v.R dir g := by
  unfold scalar.R scalar.lin
  split <;> rfl

/-- C15. Operator linearity: for every derivative (constructed or not), all scalars `a`, `b`
and all fields `u`, `v` (domain and boundary arrays), applying with the assign op into a zeroed
`du` gives `D(a*u + b*v).D = a*D(u).D + b*D(v).D` at every index, over exact arithmetic. -/
theorem C15_operator_linearity (d : derivative α) (a b : α) (u v : scalar α) (g : Int) :
    (d.apply (scalar.lin a u b v) scalar.zero Op.eq).D g
      = a * (d.apply u scalar.zero Op.eq).D g + b * (d.apply v scalar.zero Op.eq).D g := by
  rw [derivative_apply_D, derivative_apply_D, derivative_apply_D, csr_entry, csr_entry,
    csr_entry, scalar_lin_R]
  have hO := block_apply_lin a b u.D v.D d.O (fun _ => 0) (fun _ => 0) (fun _ => 0)
    (fun _ => by simp) g
  have hD : (scalar.lin a u b v).D = fun t => a * u.D t + b * v.D t := rfl
  have hz : (scalar.zero : scalar α).D = fun _ => 0 := rfl
  rw [hD, hz, hO, sum_map_lin]
  ring

end linearity

/-! ### Faults of the constructor -/

section faults
variable {α : Type} [CommRing α]

theorem object_bc_negative (obj_bcs : bcs.Object) (id : Int) (h : id < 0) :
    object_bc obj_bcs id = Except.error Fault.undefined := by
  unfold object_bc
  have h1 : id < (obj_bcs.length : Int) := by omega
  rw [if_pos h1, if_pos h]

theorem object_bc_too_large (obj_bcs : bcs.Object) (id : Int) (h : (obj_bcs.length : Int) ≤ id) :
    object_bc obj_bcs id = Except.error Fault.assertion := by
  unfold object_bc
  rw [if_neg (by omega)]

theorem object_bc_not_dirichlet (obj_bcs : bcs.Object) (id : Int) (bc : bcs.type)
    (h0 : 0 ≤ id) (hbc : obj_bcs[id.toNat]? = some bc) (hne : bc ≠ bcs.Dirichlet) :
    object_bc obj_bcs id = Except.error Fault.assertion := by
  unfold object_bc
  have hlt : id.toNat < obj_bcs.length := by
    by_contra hcon
    rw [List.getElem?_eq_none (by omega)] at hbc
    simp at hbc
  rw [if_pos (by omega), if_neg (by omega), hbc]
  simp only
  rw [if_neg hne]

theorem mapM_undefined (f : Nat → Except Fault (Int × Int × α))
    (hf : ∀ r e, f r = Except.error e → e = Fault.undefined) :
    ∀ (l : List Nat), (∃ r ∈ l, ∃ e, f r = Except.error e) →
      l.mapM f = Except.error Fault.undefined := by
  intro l
  induction l with
  | nil => rintro ⟨r, hr, _⟩; simp at hr
  | cons a t ih =>
    rintro ⟨r, hr, e, he⟩
    rw [List.mapM_cons]
    cases hfa : f a with
    | error e1 =>
      rw [hf a e1 hfa]
      rfl
    | ok v =>
      have hrt : r ∈ t := by
        rcases List.mem_cons.1 hr with h | h
        · subst h; rw [hfa] at he; cases he
        · exact h
      have := ih ⟨r, hrt, e, he⟩
      simp only [bind, Except.bind, this]

theorem neumann_points_short (extra : List α) (n first stride col : Int)
    (h : extra.length < n.toNat) :
    neumann_points extra n first stride col = Except.error Fault.undefined := by
  unfold neumann_points
  apply mapM_undefined
  · intro r e hre
    cases hx : extra[r]? with
    | none => rw [hx] at hre; simp only at hre; cases hre; rfl
    | some v => rw [hx] at hre; simp only at hre; cases hre
  · refine ⟨extra.length, List.mem_range.2 h, Fault.undefined, ?_⟩
    rw [List.getElem?_eq_none (le_refl _)]

/-- C20, amended. No capacity check: on a line that is not skipped and starts at a Neumann
domain face, if the stencil's `query(Neumann)` reports more extras than the buffer `extra`
holds after `nbs` (as when `ex > ex_max`), the constructor does not fail an assertion: it reads
`extra` beyond its size, which is undefined behaviour. -/
theorem C20_no_capacity_check (dir : Nat) (m : mesh α) (stencil : Stencil α)
    (grid_bcs : bcs.Grid) (obj_bcs : bcs.Object) (interior_c : List α) (st : Builders α)
    (l : line α) (c x : List α)
    (hskip : dirichlet_line m.extents l.start.mesh_coordinate dir grid_bcs = false)
    (hface : l.start.object = none) (hbc : (grid_bcs.get dir).left = bcs.Neumann)
    (hnbs : stencil.nbs (m.h dir) bcs.Neumann 1 false st.left st.extra = Except.ok (c, x))
    (hex : x.length < (stencil.query bcs.Neumann).nextra.toNat) :
    assemble_line dir m stencil grid_bcs obj_bcs interior_c st l
      = Except.error Fault.undefined := by
  unfold assemble_line
  rw [hskip]
  simp only [Bool.false_eq_true, if_false]
  unfold assemble_left
  simp only [hface, hbc, hnbs]
  have hnd : ¬ (bcs.Neumann = bcs.Dirichlet) := by decide
  simp only [neumann_points_short x _ _ _ _ hex, if_true, if_neg hnd]


/-- Witness of the amended C20: the stencil `over_extra` on the only line of `mesh811` with a
Neumann face at the start. -/
theorem C20_no_capacity_check_witness :
    assemble_line 0 mesh811 over_extra neumann3 [] [0] builders_over_extra
        ⟨1, face 0 0 0, face 7 0 0⟩
      = Except.error Fault.undefined :=
  C20_no_capacity_check 0 mesh811 over_extra neumann3 [] [0] builders_over_extra
    ⟨1, face 0 0 0, face 7 0 0⟩ [0] [] (by decide) rfl rfl rfl (by decide)

end faults

/-- C20, as stated, fails: on the grid 8 x 1 x 1 the stencil `over_extra` (one Neumann extra
requested, none announced by `query_max`) makes the constructor read `extra` beyond its size:
the run ends in undefined behaviour, not in a failed assertion; and with the stencil
`over_rows` (three rows of four coefficients requested, one by one announced) the constructor
returns an operator. -/
theorem C20_capacity_check_counterexample :
    mesh.make ⟨8, 1, 1⟩ (fun _ => (1 : Int)) (fun _ => []) = some mesh811 ∧
    over_extra.query_max.nextra < (over_extra.query bcs.Neumann).nextra ∧
    derivative.make 0 mesh811 over_extra neumann3 [] = Except.error Fault.undefined ∧
    over_rows.query_max.r < (over_rows.query bcs.type.F).r ∧
    over_rows.query_max.t < (over_rows.query bcs.type.F).t ∧
    (∃ d, derivative.make 0 mesh811 over_rows free3 [] = Except.ok d) :=
  ⟨rfl, by decide, rfl, by decide, by decide, _, rfl⟩

/-- C19, failing input: on `grid422` with a shape of id `-1` on the ray `(0, 1)` and
`obj_bcs = [Dirichlet]`, the check `id < obj_bcs.size()` passes and `obj_bcs[-1]` is read: the
construction ends in undefined behaviour, not in a failed assertion. -/
theorem C19_negative_id_undefined :
    ∃ m, mesh.make grid422 (fun _ => (1 : Int)) hits_negative_id = some m ∧
      derivative.make 0 m stencils.Identity free3 [bcs.Dirichlet]
        = Except.error Fault.undefined :=
  ⟨_, rfl, rfl⟩

section frame
variable {α : Type} [CommRing α]

theorem store_writes_frame (op : Op) :
    ∀ (ws : List (Int × α)) (b : Int → α) (g : Int), g ∉ ws.map Prod.fst →
      store_writes op ws b g = b g := by
  intro ws
  induction ws with
  | nil => intro b g _; rfl
  | cons w rest ih =>
    intro b g hg
    have hstep : store_writes op (w :: rest) b
        = store_writes op rest (Function.update b w.1 (op.store (b w.1) w.2)) := rfl
    rw [List.map_cons, List.mem_cons, not_or] at hg
    rw [hstep, ih _ _ hg.2, Function.update_noteq hg.1]

/-- Assign: a written row holds a value that does not depend on the buffer. -/
theorem store_writes_eq_indep :
    ∀ (ws : List (Int × α)) (b c : Int → α) (g : Int), g ∈ ws.map Prod.fst →
      store_writes Op.eq ws b g = store_writes Op.eq ws c g := by
  intro ws
  induction ws with
  | nil => intro b c g hg; simp at hg
  | cons w rest ih =>
    intro b c g hg
    have hstep : ∀ b : Int → α, store_writes Op.eq (w :: rest) b
        = store_writes Op.eq rest (Function.update b w.1 w.2) := fun _ => rfl
    rw [hstep, hstep]
    by_cases hr : g ∈ rest.map Prod.fst
    · exact ih _ _ g hr
    · rw [List.map_cons, List.mem_cons] at hg
      have hgw : g = w.1 := by
        rcases hg with h | h
        · exact h
        · exact absurd h hr
      rw [store_writes_frame Op.eq rest _ g hr, store_writes_frame Op.eq rest _ g hr, hgw,
        Function.update_same, Function.update_same]

theorem innerBlock_apply_frame (A : matrix.InnerBlock α) (x b : Int → α) (op : Op) (g : Int)
    (hg : g ∉ A.row_list) : A.apply x b op g = b g := by
  rw [innerBlock_apply_writes]
  exact store_writes_frame op _ b g (by rw [innerBlock_writes_keys]; exact hg)

theorem innerBlock_apply_indep (A : matrix.InnerBlock α) (x b c : Int → α) (g : Int)
    (hg : g ∈ A.row_list) : A.apply x b Op.eq g = A.apply x c Op.eq g := by
  rw [innerBlock_apply_writes, innerBlock_apply_writes]
  exact store_writes_eq_indep _ b c g (by rw [innerBlock_writes_keys]; exact hg)

theorem block_apply_frame (x : Int → α) (op : Op) (g : Int) :
    ∀ (O : List (matrix.InnerBlock α)) (b : Int → α), g ∉ matrix.Block.row_list O →
      matrix.Block.apply O x b op g = b g := by
  intro O b hg
  rw [block_apply_writes_eq]
  exact store_writes_frame op _ b g (by rw [block_writes_keys]; exact hg)

theorem csr_apply_frame (A : matrix.CSR α) (x b : Int → α) (g : Int)
    (hg : ∀ pt ∈ A.points, pt.1 ≠ g) : A.apply x b g = b g := by
  rw [csr_entry]
  have hfil : A.points.filter (fun pt => pt.1 = g) = [] := by
    rw [List.filter_eq_nil_iff]
    intro v hv hvw
    exact hg v hv (by simpa using hvw)
  rw [hfil]
  simp

/-- Two blocks that write no common row commute under assign. -/
theorem innerBlock_apply_comm (A B : matrix.InnerBlock α) (x b : Int → α)
    (hAB : ∀ g, g ∈ A.row_list → g ∉ B.row_list) :
    B.apply x (A.apply x b Op.eq) Op.eq = A.apply x (B.apply x b Op.eq) Op.eq := by
  funext g
  by_cases hA : g ∈ A.row_list
  · rw [innerBlock_apply_frame B x _ Op.eq g (hAB g hA)]
    exact innerBlock_apply_indep A x _ _ g hA
  · rw [innerBlock_apply_frame A x _ Op.eq g hA]
    by_cases hB : g ∈ B.row_list
    · exact innerBlock_apply_indep B x _ _ g hB
    · rw [innerBlock_apply_frame B x _ Op.eq g hB, innerBlock_apply_frame B x _ Op.eq g hB,
        innerBlock_apply_frame A x _ Op.eq g hA]

/-- Blocks that pairwise write no common row can be applied in any order under assign. -/
theorem block_apply_perm (x : Int → α) (O1 O2 : List (matrix.InnerBlock α))
    (hp : O1.Perm O2) :
    O1.Pairwise (fun A B => ∀ g, g ∈ A.row_list → g ∉ B.row_list) →
      ∀ b : Int → α, matrix.Block.apply O1 x b Op.eq = matrix.Block.apply O2 x b Op.eq := by
  have hsymm : ∀ A B : matrix.InnerBlock α,
      (∀ g, g ∈ A.row_list → g ∉ B.row_list) → (∀ g, g ∈ B.row_list → g ∉ A.row_list) :=
    fun A B h g hB hA => h g hA hB
  induction hp with
  | nil => intro _ b; rfl
  | cons A _ ih =>
    intro hpw b
    exact ih (List.pairwise_cons.1 hpw).2 _
  | swap A B l =>
    intro hpw b
    have h1 := (List.pairwise_cons.1 hpw).1 A (List.mem_cons_self _ _)
    show matrix.Block.apply l x (A.apply x (B.apply x b Op.eq) Op.eq) Op.eq
      = matrix.Block.apply l x (B.apply x (A.apply x b Op.eq) Op.eq) Op.eq
    rw [innerBlock_apply_comm B A x b h1]
  | trans h12 _ ih1 ih2 =>
    intro hpw b
    rw [ih1 hpw b]
    exact ih2 ((h12.pairwise_iff (fun {A B} h => hsymm A B h)).1 hpw) b

end frame

/-! ### The blocks and the points the constructor emits -/

section shape
variable {α : Type} [CommRing α]

theorem object_points_rows (b_coeffs : List α) (first stride col : Int) (n : Nat)
    (hn : b_coeffs.length ≤ n) :
    ∀ p ∈ object_points b_coeffs first stride col,
      ∃ i : Nat, i < n ∧ p.1 = first + stride * (i : Int) := by
  intro p hp
  unfold object_points at hp
  rw [List.mem_map] at hp
  obtain ⟨rv, hrv, rfl⟩ := hp
  exact ⟨rv.1, lt_of_lt_of_le (List.fst_lt_of_mem_enum hrv) hn, rfl⟩

theorem assemble_left_shape (dir : Nat) (h : α) (stencil : Stencil α) (grid_bcs : bcs.Grid)
    (obj_bcs : bcs.Object) (stride : Int) (start : boundary α) (a a1 : Assembly α)
    (L : matrix.Dense α)
    (hrun : assemble_left dir h stencil grid_bcs obj_bcs stride start a = Except.ok (L, a1)) :
    a1.rows = a.rows - dropped start (grid_bcs.get dir).left ∧
    a1.row_offset = a.row_offset + dropped start (grid_bcs.get dir).left * stride ∧
    a1.st.O = a.st.O ∧
    ∃ pts, a1.st.B = a.st.B ++ pts ∧
      ∀ p ∈ pts, ∃ i : Nat, i < L.rows.toNat ∧ p.1 = a1.row_offset + stride * (i : Int) := by
  unfold assemble_left at hrun
  unfold dropped
  cases hobj : start.object with
  | some obj =>
    rw [hobj] at hrun
    simp only at hrun
    cases hbc : object_bc obj_bcs obj.objectID with
    | error e => rw [hbc] at hrun; simp at hrun
    | ok bc_t =>
      rw [hbc] at hrun
      simp only at hrun
      cases hnbs : stencil.nbs h bc_t obj.psi false a.st.left a.st.extra with
      | error e => rw [hnbs] at hrun; simp at hrun
      | ok lx =>
        obtain ⟨left, extra⟩ := lx
        rw [hnbs] at hrun
        simp only [Except.ok.injEq, Prod.mk.injEq] at hrun
        obtain ⟨hL, ha1⟩ := hrun
        subst hL ha1
        refine ⟨by simp, by simp, rfl, _, rfl, ?_⟩
        apply object_points_rows
        simp only [matrix.Dense.make, List.length_take]
        exact Nat.min_le_left _ _
  | none =>
    rw [hobj] at hrun
    simp only at hrun
    cases hnbs : stencil.nbs h (grid_bcs.get dir).left 1 false a.st.left a.st.extra with
    | error e => rw [hnbs] at hrun; simp at hrun
    | ok lx =>
      obtain ⟨left, extra⟩ := lx
      rw [hnbs] at hrun
      simp only at hrun
      by_cases hD : (grid_bcs.get dir).left = bcs.Dirichlet
      · rw [if_pos hD] at hrun
        simp only [Except.ok.injEq, Prod.mk.injEq] at hrun
        obtain ⟨hL, ha1⟩ := hrun
        subst hL ha1
        refine ⟨by simp [hD], by simp [hD], rfl, [], by simp, by simp⟩
      · rw [if_neg hD] at hrun
        by_cases hN : (grid_bcs.get dir).left = bcs.Neumann
        · rw [if_pos hN] at hrun
          cases hpts : neumann_points extra (stencil.query (grid_bcs.get dir).left).nextra
              a.row_offset stride a.row_offset with
          | error e => rw [hpts] at hrun; simp at hrun
          | ok pts =>
            rw [hpts] at hrun
            simp only [Except.ok.injEq, Prod.mk.injEq] at hrun
            obtain ⟨hL, ha1⟩ := hrun
            subst hL ha1
            refine ⟨by simp [hD], by simp [hD], rfl, [], by simp, by simp⟩
        · rw [if_neg hN] at hrun
          simp only [Except.ok.injEq, Prod.mk.injEq] at hrun
          obtain ⟨hL, ha1⟩ := hrun
          subst hL ha1
          refine ⟨by simp [hD], by simp [hD], rfl, [], by simp, by simp⟩

theorem assemble_right_shape (dir : Nat) (h : α) (stencil : Stencil α) (grid_bcs : bcs.Grid)
    (obj_bcs : bcs.Object) (stride : Int) (end_ : boundary α) (ic_end : Int)
    (a a1 : Assembly α) (R : matrix.Dense α)
    (hrun : assemble_right dir h stencil grid_bcs obj_bcs stride end_ ic_end a
      = Except.ok (R, a1)) :
    a1.rows = a.rows - dropped end_ (grid_bcs.get dir).right ∧
    a1.row_offset = a.row_offset ∧
    a1.st.O = a.st.O ∧
    ∃ pts, a1.st.B = a.st.B ++ pts ∧
      ∀ p ∈ pts, end_.object.isSome = true ∧
        ∃ i : Nat, i < R.rows.toNat ∧ p.1 = ic_end - R.rows * stride + stride * (i : Int) := by
  unfold assemble_right at hrun
  unfold dropped
  cases hobj : end_.object with
  | some obj =>
    rw [hobj] at hrun
    simp only at hrun
    cases hbc : object_bc obj_bcs obj.objectID with
    | error e => rw [hbc] at hrun; simp at hrun
    | ok bc_t =>
      rw [hbc] at hrun
      simp only at hrun
      cases hnbs : stencil.nbs h bc_t obj.psi true a.st.right a.st.extra with
      | error e => rw [hnbs] at hrun; simp at hrun
      | ok lx =>
        obtain ⟨right, extra⟩ := lx
        rw [hnbs] at hrun
        simp only [Except.ok.injEq, Prod.mk.injEq] at hrun
        obtain ⟨hL, ha1⟩ := hrun
        subst hL ha1
        refine ⟨by simp, rfl, rfl, _, rfl, ?_⟩
        intro p hp
        refine ⟨rfl, ?_⟩
        refine object_points_rows _ _ _ _ _ ?_ p hp
        simp only [matrix.Dense.make, List.length_take]
        exact Nat.min_le_left _ _
  | none =>
    rw [hobj] at hrun
    simp only at hrun
    cases hnbs : stencil.nbs h (grid_bcs.get dir).right 1 true a.st.right a.st.extra with
    | error e => rw [hnbs] at hrun; simp at hrun
    | ok lx =>
      obtain ⟨right, extra⟩ := lx
      rw [hnbs] at hrun
      simp only at hrun
      by_cases hD : (grid_bcs.get dir).right = bcs.Dirichlet
      · rw [if_pos hD] at hrun
        simp only [Except.ok.injEq, Prod.mk.injEq] at hrun
        obtain ⟨hL, ha1⟩ := hrun
        subst hL ha1
        refine ⟨by simp [hD], rfl, rfl, [], by simp, by simp⟩
      · rw [if_neg hD] at hrun
        by_cases hN : (grid_bcs.get dir).right = bcs.Neumann
        · rw [if_pos hN] at hrun
          cases hpts : neumann_points extra (stencil.query (grid_bcs.get dir).right).nextra
              (ic_end - ((stencil.query (grid_bcs.get dir).right).nextra - 1) * stride)
              stride ic_end with
          | error e => rw [hpts] at hrun; simp at hrun
          | ok pts =>
            rw [hpts] at hrun
            simp only [Except.ok.injEq, Prod.mk.injEq] at hrun
            obtain ⟨hL, ha1⟩ := hrun
            subst hL ha1
            refine ⟨by simp [hD], rfl, rfl, [], by simp, by simp⟩
        · rw [if_neg hN] at hrun
          simp only [Except.ok.injEq, Prod.mk.injEq] at hrun
          obtain ⟨hL, ha1⟩ := hrun
          subst hL ha1
          refine ⟨by simp [hD], rfl, rfl, [], by simp, by simp⟩

theorem assemble_line_shape (dir : Nat) (m : mesh α) (stencil : Stencil α)
    (grid_bcs : bcs.Grid) (obj_bcs : bcs.Object) (c : List α) (st st1 : Builders α)
    (l : line α)
    (hrun : assemble_line dir m stencil grid_bcs obj_bcs c st l = Except.ok st1) :
    (dirichlet_line m.extents l.start.mesh_coordinate dir grid_bcs = true ∧ st1 = st) ∨
    (dirichlet_line m.extents l.start.mesh_coordinate dir grid_bcs = false ∧
      ∃ A pts, st1.O = st.O ++ [A] ∧ BlockOfLine m.extents dir grid_bcs l A ∧
        st1.B = st.B ++ pts ∧
        ∀ p ∈ pts,
          ic m.extents l.end_.mesh_coordinate = ic m.extents l.start.mesh_coordinate
            + l.stride * (l.end_.mesh_coordinate.get dir - l.start.mesh_coordinate.get dir) →
          p.1 ∈ A.row_list) := by
  unfold assemble_line at hrun
  by_cases hskip : dirichlet_line m.extents l.start.mesh_coordinate dir grid_bcs = true
  · rw [if_pos hskip] at hrun
    simp only [Except.ok.injEq] at hrun
    exact Or.inl ⟨hskip, hrun.symm⟩
  · rw [if_neg hskip] at hrun
    simp only at hrun
    right
    refine ⟨by simpa using hskip, ?_⟩
    cases hleft : assemble_left dir (m.h dir) stencil grid_bcs obj_bcs l.stride l.start
        ⟨l.end_.mesh_coordinate.get dir - l.start.mesh_coordinate.get dir + 1,
          l.end_.mesh_coordinate.get dir - l.start.mesh_coordinate.get dir + 1,
          ic m.extents l.start.mesh_coordinate, ic m.extents l.start.mesh_coordinate, st⟩ with
    | error e => rw [hleft] at hrun; simp at hrun
    | ok La =>
      obtain ⟨L, a1⟩ := La
      rw [hleft] at hrun
      simp only at hrun
      cases hright : assemble_right dir (m.h dir) stencil grid_bcs obj_bcs l.stride l.end_
          (ic m.extents l.end_.mesh_coordinate) a1 with
      | error e => rw [hright] at hrun; simp at hrun
      | ok Ra =>
        obtain ⟨R, a2⟩ := Ra
        rw [hright] at hrun
        simp only [Except.ok.injEq] at hrun
        obtain ⟨hr1, hro1, hO1, pts1, hB1, hp1⟩ :=
          assemble_left_shape dir _ stencil grid_bcs obj_bcs _ _ _ _ _ hleft
        obtain ⟨hr2, hro2, hO2, pts2, hB2, hp2⟩ :=
          assemble_right_shape dir _ stencil grid_bcs obj_bcs _ _ _ _ _ _ hright
        simp only at hr1 hro1 hO1 hB1
        subst hrun
        refine ⟨matrix.InnerBlock.make a2.columns a2.row_offset a2.col_offset l.stride L
          (matrix.Circulant.make (a2.rows - L.rows - R.rows) c) R, pts1 ++ pts2,
          by simp only [hO2, hO1], ?_, ?_, ?_⟩
        · unfold BlockOfLine matrix.InnerBlock.make matrix.Circulant.make line_cells
          rw [hro2, hro1, hr2, hr1]
          refine ⟨?_, ?_, ?_, ?_, ?_, ?_, ?_, ?_, ?_, ?_⟩ <;> dsimp only <;> ring
        · simp only [hB2, hB1, List.append_assoc]
        · intro p hp hgeo
          unfold matrix.InnerBlock.row_list matrix.InnerBlock.make matrix.Circulant.make
          simp only [List.mem_append, List.mem_map, List.mem_range]
          rcases List.mem_append.1 hp with h | h
          · obtain ⟨i, hi, hpi⟩ := hp1 p h
            left; left
            refine ⟨i, hi, ?_⟩
            rw [hpi, hro2]
            ring
          · obtain ⟨hobj, i, hi, hpi⟩ := hp2 p h
            right
            refine ⟨i, hi, ?_⟩
            have hd : dropped l.end_ (grid_bcs.get dir).right = 1 := by
              unfold dropped
              rw [if_pos hobj]
            rw [hpi, hgeo, hr2, hro2, hr1, hro1, hd]
            ring


theorem assemble_lines_shape (dir : Nat) (m : mesh α) (stencil : Stencil α)
    (grid_bcs : bcs.Grid) (obj_bcs : bcs.Object) (c : List α) :
    ∀ (ls : List (line α)) (st st1 : Builders α),
      assemble_lines dir m stencil grid_bcs obj_bcs c st ls = Except.ok st1 →
      ∃ As pts, st1.O = st.O ++ As ∧ st1.B = st.B ++ pts ∧
        List.Forall₂ (fun l A => BlockOfLine m.extents dir grid_bcs l A)
          (ls.filter (fun l => !dirichlet_line m.extents l.start.mesh_coordinate dir grid_bcs))
          As ∧
        ((∀ l ∈ ls, ic m.extents l.end_.mesh_coordinate = ic m.extents l.start.mesh_coordinate
            + l.stride * (l.end_.mesh_coordinate.get dir - l.start.mesh_coordinate.get dir)) →
          ∀ p ∈ pts, p.1 ∈ matrix.Block.row_list As) := by
  intro ls
  induction ls with
  | nil =>
    intro st st1 hrun
    unfold assemble_lines at hrun
    simp only [Except.ok.injEq] at hrun
    subst hrun
    exact ⟨[], [], by simp, by simp, by simp, by simp⟩
  | cons l ls ih =>
    intro st st1 hrun
    unfold assemble_lines at hrun
    cases hline : assemble_line dir m stencil grid_bcs obj_bcs c st l with
    | error e => rw [hline] at hrun; simp at hrun
    | ok st2 =>
      rw [hline] at hrun
      simp only at hrun
      obtain ⟨As, pts, hO, hB, hF, hP⟩ := ih st2 st1 hrun
      rcases assemble_line_shape dir m stencil grid_bcs obj_bcs c st st2 l hline with
        ⟨hskip, hst⟩ | ⟨hskip, A, pts0, hO0, hA, hB0, hP0⟩
      · subst hst
        refine ⟨As, pts, hO, hB, ?_, ?_⟩
        · rw [List.filter_cons]
          simp only [hskip, Bool.not_true, Bool.false_eq_true, if_false]
          exact hF
        · intro hgeo
          exact hP (fun l1 hl1 => hgeo l1 (List.mem_cons_of_mem _ hl1))
      · refine ⟨A :: As, pts0 ++ pts, by rw [hO, hO0]; simp, by rw [hB, hB0]; simp, ?_, ?_⟩
        · rw [List.filter_cons]
          simp only [hskip, Bool.not_false, if_true]
          exact List.Forall₂.cons hA hF
        · intro hgeo p hp
          show p.1 ∈ A.row_list ++ matrix.Block.row_list As
          rw [List.mem_append]
          rcases List.mem_append.1 hp with h | h
          · exact Or.inl (hP0 p h (hgeo l (List.mem_cons_self _ _)))
          · exact Or.inr (hP (fun l1 hl1 => hgeo l1 (List.mem_cons_of_mem _ hl1)) p h)

theorem derivative_make_shape (dir : Nat) (m : mesh α) (stencil : Stencil α)
    (grid_bcs : bcs.Grid) (obj_bcs : bcs.Object) (d : derivative α)
    (hrun : derivative.make dir m stencil grid_bcs obj_bcs = Except.ok d) :
    d.dir = dir ∧
    List.Forall₂ (fun l A => BlockOfLine m.extents dir grid_bcs l A)
      ((m.lines dir).filter
        (fun l => !dirichlet_line m.extents l.start.mesh_coordinate dir grid_bcs)) d.O ∧
    ((∀ l ∈ m.lines dir, ic m.extents l.end_.mesh_coordinate
        = ic m.extents l.start.mesh_coordinate
          + l.stride * (l.end_.mesh_coordinate.get dir - l.start.mesh_coordinate.get dir)) →
      ∀ p ∈ d.B.points, p.1 ∈ matrix.Block.row_list d.O) := by
  unfold derivative.make at hrun
  simp only at hrun
  cases hlines : assemble_lines dir m stencil grid_bcs obj_bcs
      (stencil.interior (m.h dir) (List.replicate (2 * stencil.query_max.p + 1).toNat 0))
      { left := List.replicate (stencil.query_max.r * stencil.query_max.t).toNat 0
        right := List.replicate (stencil.query_max.r * stencil.query_max.t).toNat 0
        extra := List.replicate stencil.query_max.nextra.toNat 0
        B := [], O := [], N := [] } (m.lines dir) with
  | error e => rw [hlines] at hrun; simp at hrun
  | ok st =>
    rw [hlines] at hrun
    simp only [Except.ok.injEq] at hrun
    subst hrun
    obtain ⟨As, pts, hO, hB, hF, hP⟩ :=
      assemble_lines_shape dir m stencil grid_bcs obj_bcs _ _ _ _ hlines
    simp only [List.nil_append] at hO hB
    refine ⟨rfl, ?_, ?_⟩
    · show List.Forall₂ _ _ st.O
      rw [hO]; exact hF
    · intro hgeo
      show ∀ p ∈ st.B, p.1 ∈ matrix.Block.row_list st.O
      rw [hO, hB]; exact hP hgeo

theorem forall₂_mem_right {β γ : Type} (r : β → γ → Prop) :
    ∀ (l1 : List β) (l2 : List γ), List.Forall₂ r l1 l2 →
      ∀ y ∈ l2, ∃ x ∈ l1, r x y := by
  intro l1 l2 h
  induction h with
  | nil => intro y hy; simp at hy
  | cons hab _ ih =>
    intro y hy
    rcases List.mem_cons.1 hy with h1 | h1
    · subst h1
      exact ⟨_, List.mem_cons_self _ _, hab⟩
    · obtain ⟨x, hx, hr⟩ := ih y h1
      exact ⟨x, List.mem_cons_of_mem _ hx, hr⟩

theorem forall₂_pairwise {β γ : Type} (r : β → γ → Prop) (P : β → β → Prop)
    (Q : γ → γ → Prop) :
    ∀ (l1 : List β) (l2 : List γ), List.Forall₂ r l1 l2 →
      (∀ a b A B, a ∈ l1 → b ∈ l1 → r a A → r b B → P a b → Q A B) →
      l1.Pairwise P → l2.Pairwise Q := by
  intro l1 l2 h
  induction h with
  | nil => intro _ _; exact List.Pairwise.nil
  | cons hab hrest ih =>
    intro hPQ hp
    rw [List.pairwise_cons] at hp ⊢
    refine ⟨?_, ih (fun a b A B ha hb => hPQ a b A B (List.mem_cons_of_mem _ ha)
      (List.mem_cons_of_mem _ hb)) hp.2⟩
    intro B hB
    obtain ⟨b, hb, hrb⟩ := forall₂_mem_right r _ _ hrest B hB
    exact hPQ _ b _ B (List.mem_cons_self _ _) (List.mem_cons_of_mem _ hb) hab hrb (hp.1 b hb)


end shape

/-! ### Cells of a line and their linear indices -/

section geometry
variable {α : Type}

theorem ic_shift (I : Nat) (hI : I < 3) (extents c : int3) (k : Int) :
    ic extents (c.set I (c.get I + k)) = ic extents c + k * index.stride I extents := by
  interval_cases I <;>
    simp only [ic, index.stride, int3.set, int3.get] <;> ring

theorem mul_add_unique (n a b r t : Int) (hr0 : 0 ≤ r) (hr : r < n) (ht0 : 0 ≤ t)
    (ht : t < n) (h : a * n + r = b * n + t) : a = b ∧ r = t := by
  have hn : 0 < n := by omega
  have h1 : (a * n + r) % n = r := by
    rw [add_comm, Int.add_mul_emod_self, Int.emod_eq_of_lt hr0 hr]
  have h2 : (b * n + t) % n = t := by
    rw [add_comm, Int.add_mul_emod_self, Int.emod_eq_of_lt ht0 ht]
  have hrt : r = t := by rw [← h1, ← h2, h]
  subst hrt
  have h3 : a * n = b * n := by omega
  exact ⟨mul_right_cancel₀ (ne_of_gt hn) h3, rfl⟩

theorem ic_inj (extents a b : int3) (ha : in_cells extents a) (hb : in_cells extents b)
    (h : ic extents a = ic extents b) : a = b := by
  obtain ⟨⟨ax0, ax1⟩, ⟨ay0, ay1⟩, ⟨az0, az1⟩⟩ := ha
  obtain ⟨⟨bx0, bx1⟩, ⟨by0, by1⟩, ⟨bz0, bz1⟩⟩ := hb
  unfold ic at h
  have h1 : (a.x * extents.y + a.y) * extents.z + a.z
      = (b.x * extents.y + b.y) * extents.z + b.z := by linear_combination h
  obtain ⟨h2, hz⟩ := mul_add_unique _ _ _ _ _ az0 az1 bz0 bz1 h1
  obtain ⟨hx, hy⟩ := mul_add_unique _ _ _ _ _ ay0 ay1 by0 by1 h2
  cases a; cases b
  simp only at hx hy hz
  subst hx hy hz
  rfl

theorem dropped_cases (b : boundary α) (face : bcs.type) :
    (dropped b face = 0 ∧ b.object = none ∧ face ≠ bcs.Dirichlet) ∨
    (dropped b face = 1 ∧ (b.object.isSome = true ∨ face = bcs.Dirichlet)) := by
  unfold dropped
  cases hobj : b.object with
  | some o => right; simp
  | none =>
    by_cases hD : face = bcs.Dirichlet
    · right; simp [hD]
    · left; simp [hD]

/-- The geometry of a line of `init_line` for an in-range list: both boundaries lie on one ray
of the grid, the start not before the first cell and the end not after the last one, a
boundary without object on the domain face. -/
theorem line_geometry (I : Nat) (hI : I < 3) (extents : int3)
    (R : List (mesh_object_info α)) (hR : InRange extents R) (l : line α)
    (hl : LineOK I extents R l) :
    l.stride = index.stride I extents ∧
    (0 ≤ l.start.mesh_coordinate.get (index.slow I) ∧
      l.start.mesh_coordinate.get (index.slow I) < extents.get (index.slow I)) ∧
    (0 ≤ l.start.mesh_coordinate.get (index.fast I) ∧
      l.start.mesh_coordinate.get (index.fast I) < extents.get (index.fast I)) ∧
    l.end_.mesh_coordinate.get (index.slow I) = l.start.mesh_coordinate.get (index.slow I) ∧
    l.end_.mesh_coordinate.get (index.fast I) = l.start.mesh_coordinate.get (index.fast I) ∧
    0 ≤ l.start.mesh_coordinate.get I ∧
    l.end_.mesh_coordinate.get I ≤ extents.get I - 1 ∧
    (l.start.object = none → l.start.mesh_coordinate.get I = 0) ∧
    (l.end_.object = none → l.end_.mesh_coordinate.get I = extents.get I - 1) := by
  obtain ⟨hst, s, f, hs, hf, hstart, hend⟩ := hl
  have hS : l.start.mesh_coordinate.get (index.slow I) = s ∧
      l.start.mesh_coordinate.get (index.fast I) = f ∧
      0 ≤ l.start.mesh_coordinate.get I ∧
      (l.start.object = none → l.start.mesh_coordinate.get I = 0) := by
    rcases hstart with h | ⟨k, m, hk, _, hms, hmf, h⟩
    · rw [h]
      exact ⟨left_point_slow I hI s f, left_point_fast I hI s f,
        by rw [left_point_dir I hI], fun _ => left_point_dir I hI s f⟩
    · rw [h]
      have hm := in_grid_get extents m (hR m (List.getElem?_mem hk)) I
      exact ⟨hms, hmf, hm.1, fun hn => by simp [object_at] at hn⟩
  have hE : l.end_.mesh_coordinate.get (index.slow I) = s ∧
      l.end_.mesh_coordinate.get (index.fast I) = f ∧
      l.end_.mesh_coordinate.get I ≤ extents.get I - 1 ∧
      (l.end_.object = none → l.end_.mesh_coordinate.get I = extents.get I - 1) := by
    rcases hend with h | ⟨k, m, hk, _, hms, hmf, h⟩
    · rw [h]
      exact ⟨right_point_slow I hI extents s f, right_point_fast I hI extents s f,
        by rw [right_point_dir I hI], fun _ => right_point_dir I hI extents s f⟩
    · rw [h]
      have hm := in_grid_get extents m (hR m (List.getElem?_mem hk)) I
      exact ⟨hms, hmf, by have := hm.2; simp only [object_at]; omega,
        fun hn => by simp [object_at] at hn⟩
  obtain ⟨h1, h2, h3, h4⟩ := hS
  obtain ⟨h5, h6, h7, h8⟩ := hE
  refine ⟨hst, ?_, ?_, ?_, ?_, h3, h7, h4, h8⟩
  · rw [h1]; exact hs
  · rw [h2]; exact hf
  · rw [h5, h1]
  · rw [h6, h2]

theorem ic_line_end (I : Nat) (hI : I < 3) (extents : int3) (l : line α)
    (hst : l.stride = index.stride I extents)
    (hs : l.end_.mesh_coordinate.get (index.slow I)
      = l.start.mesh_coordinate.get (index.slow I))
    (hf : l.end_.mesh_coordinate.get (index.fast I)
      = l.start.mesh_coordinate.get (index.fast I)) :
    ic extents l.end_.mesh_coordinate = ic extents l.start.mesh_coordinate
      + l.stride * (l.end_.mesh_coordinate.get I - l.start.mesh_coordinate.get I) := by
  have h1 := ic_on_ray I hI extents l.end_.mesh_coordinate
  have h2 := ic_on_ray I hI extents l.start.mesh_coordinate
  rw [hs, hf] at h1
  rw [hst]
  linear_combination h2 - h1

theorem get_set_same (I : Nat) (hI : I < 3) (c : int3) (a : Int) : (c.set I a).get I = a := by
  interval_cases I <;> rfl

theorem get_set_slow (I : Nat) (hI : I < 3) (c : int3) (a : Int) :
    (c.set I a).get (index.slow I) = c.get (index.slow I) := by
  interval_cases I <;> rfl

theorem get_set_fast (I : Nat) (hI : I < 3) (c : int3) (a : Int) :
    (c.set I a).get (index.fast I) = c.get (index.fast I) := by
  interval_cases I <;> rfl

theorem in_cells_of_get (I : Nat) (hI : I < 3) (extents c : int3)
    (h1 : 0 ≤ c.get I ∧ c.get I < extents.get I)
    (h2 : 0 ≤ c.get (index.slow I) ∧ c.get (index.slow I) < extents.get (index.slow I))
    (h3 : 0 ≤ c.get (index.fast I) ∧ c.get (index.fast I) < extents.get (index.fast I)) :
    in_cells extents c := by
  unfold in_cells
  interval_cases I <;> simp only [index.slow, index.fast, int3.get] at h1 h2 h3 <;>
    exact ⟨by omega, by omega, by omega⟩

theorem int3_ext_get (I : Nat) (hI : I < 3) (a b : int3) (h1 : a.get I = b.get I)
    (h2 : a.get (index.slow I) = b.get (index.slow I))
    (h3 : a.get (index.fast I) = b.get (index.fast I)) : a = b := by
  cases a; cases b
  interval_cases I <;> simp only [index.slow, index.fast, int3.get] at h1 h2 h3 <;>
    simp only [int3.mk.injEq] <;> exact ⟨by omega, by omega, by omega⟩

/-- Every row a block addresses is the linear index of a cell of its line, between the two
ends without the dropped rows. -/
theorem has_row_cell (I : Nat) (hI : I < 3) (extents : int3) (grid_bcs : bcs.Grid)
    (R : List (mesh_object_info α)) (hR : InRange extents R) (l : line α)
    (hl : LineOK I extents R l) (A : matrix.InnerBlock α)
    (hA : BlockOfLine extents I grid_bcs l A) (g : Int) (hg : A.has_row g) :
    ∃ c : int3, in_cells extents c ∧ ic extents c = g ∧
      c.get (index.slow I) = l.start.mesh_coordinate.get (index.slow I) ∧
      c.get (index.fast I) = l.start.mesh_coordinate.get (index.fast I) ∧
      l.start.mesh_coordinate.get I + dropped l.start (grid_bcs.get I).left ≤ c.get I ∧
      c.get I ≤ l.end_.mesh_coordinate.get I - dropped l.end_ (grid_bcs.get I).right := by
  obtain ⟨hst, hs, hf, hes, hef, h0, h1, _, _⟩ := line_geometry I hI extents R hR l hl
  obtain ⟨hAst, hAro, hArows, _⟩ := hA
  obtain ⟨r, hr0, hr1, hgr⟩ := hg
  have hdl : 0 ≤ dropped l.start (grid_bcs.get I).left := by
    rcases dropped_cases l.start (grid_bcs.get I).left with h | h <;> omega
  have hdr : 0 ≤ dropped l.end_ (grid_bcs.get I).right := by
    rcases dropped_cases l.end_ (grid_bcs.get I).right with h | h <;> omega
  unfold line_cells at hArows
  refine ⟨l.start.mesh_coordinate.set I
    (l.start.mesh_coordinate.get I + (dropped l.start (grid_bcs.get I).left + r)), ?_, ?_, ?_,
    ?_, ?_, ?_⟩
  · apply in_cells_of_get I hI
    · rw [get_set_same I hI]; omega
    · rw [get_set_slow I hI]; exact hs
    · rw [get_set_fast I hI]; exact hf
  · rw [ic_shift I hI, hgr, hAro, hAst, hst]
    ring
  · exact get_set_slow I hI _ _
  · exact get_set_fast I hI _ _
  · rw [get_set_same I hI]; omega
  · rw [get_set_same I hI]; omega

/-- When the two boundary matrices of a block fit into its rows, the children write only
rows the block addresses. -/
theorem row_list_has_row (extents : int3) (I : Nat) (grid_bcs : bcs.Grid) (l : line α)
    (A : matrix.InnerBlock α) (hA : BlockOfLine extents I grid_bcs l A)
    (hrows : 0 ≤ A.left_boundary.rows ∧ A.left_boundary.rows ≤ A.rows ∧
      0 ≤ A.right_boundary.rows ∧ A.right_boundary.rows ≤ A.rows)
    (g : Int) (hg : g ∈ A.row_list) : A.has_row g := by
  obtain ⟨_, _, _, hlo, hls, hio, his, hir, hro, hrs⟩ := hA
  unfold matrix.InnerBlock.row_list at hg
  simp only [List.mem_append, List.mem_map, List.mem_range] at hg
  rcases hg with (⟨r, hr, rfl⟩ | ⟨r, hr, rfl⟩) | ⟨r, hr, rfl⟩
  · exact ⟨r, by omega, by omega, by rw [hlo, hls]⟩
  · exact ⟨A.left_boundary.rows + r, by omega, by omega, by rw [hio, his]; ring⟩
  · exact ⟨A.rows - A.right_boundary.rows + r, by omega, by omega, by rw [hro, hrs]; ring⟩


end geometry

/-! ### Lines of one ray follow each other -/

section separated
variable {α : Type}

theorem raySorted_get (I : Nat) (R : List (mesh_object_info α)) (hS : RaySorted I R)
    (i j : Nat) (a b : mesh_object_info α) (hi : R[i]? = some a) (hj : R[j]? = some b)
    (hij : i < j) : ray_le I a b := by
  have hjl : j < R.length := by
    by_contra hcon
    rw [List.getElem?_eq_none (by omega)] at hj
    simp at hj
  have hil : i < R.length := by omega
  rw [List.getElem?_eq_getElem hil] at hi
  rw [List.getElem?_eq_getElem hjl] at hj
  simp only [Option.some.injEq] at hi hj
  subst hi hj
  exact (List.pairwise_iff_getElem.1 hS) i j hil hjl hij

theorem lines_separated (I : Nat) (hI : I < 3) (extents : int3)
    (R : List (mesh_object_info α)) (hR : InRange extents R) (hS : RaySorted I R)
    (hA : RaysAlternate I R) (v : List (line α))
    (hrun : init_line I [] extents R = some v) : v.Pairwise (Separated I) := by
  by_cases hne : extents.get I = 1
  · unfold init_line at hrun
    rw [if_pos hne] at hrun
    simp only [Option.some.injEq] at hrun
    subst hrun
    exact List.Pairwise.nil
  · have hPS := planeSorted_of_raySorted I R hS
    have hex : ∃ vf, init_line I [] extents R = some vf ∧
        (vf.Pairwise (Separated I) ∧
          ∀ l ∈ vf, l.start.mesh_coordinate.get (index.slow I)
              * (((extents.get (index.fast I)).toNat : Nat) : Int)
            + l.start.mesh_coordinate.get (index.fast I)
              < (((extents.get (index.slow I)).toNat * (extents.get (index.fast I)).toNat
                  : Nat) : Int)) := by
      refine init_line_rule I hI extents R hR hPS
        (paired_of_raysAlternate I R hPS hA) hne
        (fun q _ v => v.Pairwise (Separated I) ∧
          ∀ l ∈ v, l.start.mesh_coordinate.get (index.slow I)
              * (((extents.get (index.fast I)).toNat : Nat) : Int)
            + l.start.mesh_coordinate.get (index.fast I) < (q : Int))
        (fun s f k v b0 => v.Pairwise (Separated I) ∧
          (∀ l ∈ v, l.start.mesh_coordinate.get (index.slow I)
                * (((extents.get (index.fast I)).toNat : Nat) : Int)
              + l.start.mesh_coordinate.get (index.fast I)
                < (s : Int) * (((extents.get (index.fast I)).toNat : Nat) : Int) + (f : Int) ∨
            (l.start.mesh_coordinate.get (index.slow I) = (s : Int) ∧
              l.start.mesh_coordinate.get (index.fast I) = (f : Int) ∧
              l.end_.object.isSome = true ∧ b0.object.isSome = true ∧
              l.end_.mesh_coordinate.get I ≤ b0.mesh_coordinate.get I)) ∧
          b0.mesh_coordinate.get (index.slow I) = (s : Int) ∧
          b0.mesh_coordinate.get (index.fast I) = (f : Int) ∧
          ∀ (j : Nat) (m : mesh_object_info α), k ≤ j → R[j]? = some m →
            m.solid_coord.get (index.slow I) = (s : Int) →
            m.solid_coord.get (index.fast I) = (f : Int) →
            b0.mesh_coordinate.get I ≤ m.solid_coord.get I)
        ?_ ?_ ?_ [] ?_
      · intro s f k v _ _ h
        refine ⟨h.1, ?_, left_point_slow I hI _ _, left_point_fast I hI _ _, ?_⟩
        · intro l hl
          left
          have := h.2 l hl
          push_cast at this
          exact this
        · intro j m _ hjm _ _
          rw [left_point_dir I hI]
          exact (in_grid_get extents m (hR m (List.getElem?_mem hjm)) I).1
      · intro s f k v b0 a b _ _ hka hkb _ _ has haf hbs hbf h
        obtain ⟨hpw, hall, hb0s, hb0f, hlow⟩ := h
        have hab : a.solid_coord.get I ≤ b.solid_coord.get I := by
          have := raySorted_get I R hS k (k + 1) a b hka hkb (by omega)
          unfold ray_le at this
          omega
        have hb0b : b0.mesh_coordinate.get I ≤ b.solid_coord.get I :=
          hlow (k + 1) b (by omega) hkb hbs hbf
        refine ⟨?_, ?_, hbs, hbf, ?_⟩
        · rw [List.pairwise_append]
          refine ⟨hpw, List.pairwise_singleton _ _, ?_⟩
          intro l hl x hx
          rw [List.mem_singleton] at hx
          subst hx
          intro e1 e2
          simp only at e1 e2
          rcases hall l hl with h1 | h1
          · rw [e1, e2, hb0s, hb0f] at h1
            omega
          · exact ⟨h1.2.2.1, h1.2.2.2.1, h1.2.2.2.2⟩
        · intro l hl
          rcases List.mem_append.1 hl with h1 | h1
          · rcases hall l h1 with h2 | h2
            · exact Or.inl h2
            · exact Or.inr ⟨h2.1, h2.2.1, h2.2.2.1, rfl, by simp only [object_at]; omega⟩
          · rw [List.mem_singleton] at h1
            subst h1
            exact Or.inr ⟨hb0s, hb0f, rfl, rfl, by simp only [object_at]; omega⟩
        · intro j m hj hjm hms hmf
          have := raySorted_get I R hS (k + 1) j b m hkb hjm (by omega)
          unfold ray_le at this
          simp only [object_at]
          omega
      · intro s f k v b0 _ _ h
        obtain ⟨hpw, hall, hb0s, hb0f, hlow⟩ := h
        refine ⟨?_, ?_⟩
        · rw [List.pairwise_append]
          refine ⟨hpw, List.pairwise_singleton _ _, ?_⟩
          intro l hl x hx
          rw [List.mem_singleton] at hx
          subst hx
          intro e1 e2
          simp only at e1 e2
          rcases hall l hl with h1 | h1
          · rw [e1, e2, hb0s, hb0f] at h1
            omega
          · exact ⟨h1.2.2.1, h1.2.2.2.1, h1.2.2.2.2⟩
        · intro l hl
          push_cast
          rcases List.mem_append.1 hl with h1 | h1
          · rcases hall l h1 with h2 | h2
            · omega
            · rw [h2.1, h2.2.1]; omega
          · rw [List.mem_singleton] at h1
            subst h1
            simp only
            rw [hb0s, hb0f]; omega
      · exact ⟨List.Pairwise.nil, by intro l hl; simp at hl⟩
    obtain ⟨vf, hvf, hK⟩ := hex
    rw [hvf] at hrun
    simp only [Option.some.injEq] at hrun
    subst hrun
    exact hK.1

end separated

/-! ### Rows of the blocks of a mesh -/

section rows
variable {α : Type} [CommRing α]

theorem mesh_make_lines (extents : int3) (h : Nat → α) (R : Nat → List (mesh_object_info α))
    (m : mesh α) (hm : mesh.make extents h R = some m) :
    m.extents = extents ∧
      ∀ d, d < 3 → init_line d [] extents (R d) = some (m.lines d) := by
  unfold mesh.make at hm
  cases h0 : init_line 0 [] extents (R 0) with
  | none => rw [h0] at hm; simp at hm
  | some l0 =>
    cases h1 : init_line 1 [] extents (R 1) with
    | none => rw [h0, h1] at hm; simp at hm
    | some l1 =>
      cases h2 : init_line 2 [] extents (R 2) with
      | none => rw [h0, h1, h2] at hm; simp at hm
      | some l2 =>
        rw [h0, h1, h2] at hm
        simp only [Option.some.injEq] at hm
        subst hm
        refine ⟨rfl, ?_⟩
        intro d hd
        interval_cases d
        · exact h0
        · exact h1
        · exact h2

theorem dirichlet_line_of_face (extents start : int3) (dir i : Nat) (hdir : dir < 3)
    (hi : i < 3) (hne : i ≠ dir) (grid_bcs : bcs.Grid)
    (hf : dirichlet_face extents start grid_bcs i = true) :
    dirichlet_line extents start dir grid_bcs = true := by
  interval_cases dir
  · simp only [dirichlet_line, List.range_zero, List.foldl_nil, List.range', List.foldl_cons,
      Bool.false_or, Bool.or_eq_true]
    interval_cases i
    · exact absurd rfl hne
    · exact Or.inl hf
    · exact Or.inr hf
  · simp only [dirichlet_line, List.range_succ, List.range_zero, List.nil_append,
      List.foldl_cons, List.foldl_nil, List.range', Bool.false_or, Bool.or_eq_true]
    interval_cases i
    · exact Or.inl hf
    · exact absurd rfl hne
    · exact Or.inr hf
  · simp only [dirichlet_line, List.range_succ, List.range_zero, List.nil_append,
      List.cons_append, List.foldl_cons, List.foldl_nil, List.range', Bool.false_or,
      Bool.or_eq_true]
    interval_cases i
    · exact Or.inl hf
    · exact Or.inr hf
    · exact absurd rfl hne

theorem slow_or_fast (dir i : Nat) (hdir : dir < 3) (hi : i < 3) (hne : i ≠ dir) :
    i = index.slow dir ∨ i = index.fast dir := by
  interval_cases dir <;> interval_cases i <;> simp [index.slow, index.fast] at hne ⊢

/-- Blocks of two separated lines address no common row. -/
theorem blocks_disjoint (I : Nat) (hI : I < 3) (extents : int3) (grid_bcs : bcs.Grid)
    (R : List (mesh_object_info α)) (hR : InRange extents R) (l1 l2 : line α)
    (h1 : LineOK I extents R l1) (h2 : LineOK I extents R l2) (hsep : Separated I l1 l2)
    (A B : matrix.InnerBlock α) (hA : BlockOfLine extents I grid_bcs l1 A)
    (hB : BlockOfLine extents I grid_bcs l2 B) (g : Int) (hgA : A.has_row g) :
    ¬ B.has_row g := by
  intro hgB
  obtain ⟨c1, hc1, hic1, hs1, hf1, _, hhi1⟩ :=
    has_row_cell I hI extents grid_bcs R hR l1 h1 A hA g hgA
  obtain ⟨c2, hc2, hic2, hs2, hf2, hlo2, _⟩ :=
    has_row_cell I hI extents grid_bcs R hR l2 h2 B hB g hgB
  have hc : c1 = c2 := ic_inj extents c1 c2 hc1 hc2 (by rw [hic1, hic2])
  subst hc
  obtain ⟨he, hs, hle⟩ := hsep (by rw [← hs1, hs2]) (by rw [← hf1, hf2])
  have hd1 : dropped l1.end_ (grid_bcs.get I).right = 1 := by
    unfold dropped; rw [if_pos he]
  have hd2 : dropped l2.start (grid_bcs.get I).left = 1 := by
    unfold dropped; rw [if_pos hs]
  omega

/-- The structure of the blocks of a derivative built on a mesh with an in-range list: every
block belongs to a line that is not skipped, and blocks of different lines address no common
row when the lines are separated. -/
theorem derivative_blocks (dir : Nat) (hdir : dir < 3) (extents : int3) (h : Nat → α)
    (R : Nat → List (mesh_object_info α)) (m : mesh α)
    (hm : mesh.make extents h R = some m) (hR : InRange extents (R dir))
    (stencil : Stencil α) (grid_bcs : bcs.Grid) (obj_bcs : bcs.Object) (d : derivative α)
    (hd : derivative.make dir m stencil grid_bcs obj_bcs = Except.ok d) :
    (∀ A ∈ d.O, ∃ l, LineOK dir extents (R dir) l ∧
      dirichlet_line extents l.start.mesh_coordinate dir grid_bcs = false ∧
      BlockOfLine extents dir grid_bcs l A) ∧
    (∀ p ∈ d.B.points, p.1 ∈ matrix.Block.row_list d.O) ∧
    ((m.lines dir).Pairwise (Separated dir) →
      d.O.Pairwise (fun A B => ∀ g, A.has_row g → ¬ B.has_row g)) := by
  obtain ⟨hext, hlines⟩ := mesh_make_lines extents h R m hm
  have hOK := init_line_lineOK dir hdir extents (R dir) (m.lines dir) (hlines dir hdir)
  obtain ⟨_, hF, hB⟩ := derivative_make_shape dir m stencil grid_bcs obj_bcs d hd
  rw [hext] at hF hB
  refine ⟨?_, ?_, ?_⟩
  · intro A hA
    obtain ⟨l, hl, hlA⟩ := forall₂_mem_right _ _ _ hF A hA
    rw [List.mem_filter] at hl
    exact ⟨l, hOK l hl.1, by simpa using hl.2, hlA⟩
  · apply hB
    intro l hl
    obtain ⟨hst, _, _, hes, hef, _⟩ := line_geometry dir hdir extents (R dir) hR l (hOK l hl)
    exact ic_line_end dir hdir extents l hst hes hef
  · intro hsep
    refine forall₂_pairwise _ (Separated dir) _ _ _ hF ?_
      (List.Pairwise.sublist (List.filter_sublist _) hsep)
    intro a b A B ha hb hA hB hab g
    exact blocks_disjoint dir hdir extents grid_bcs (R dir) hR a b
      (hOK a (List.mem_filter.1 ha).1) (hOK b (List.mem_filter.1 hb).1) hab A B hA hB g

/-- C16, as stated, fails: on the grid 1 x 2 x 2 without objects (an empty, hence admissible,
intersection list), in direction z with Dirichlet conditions on the z faces and the Identity
stencil, each of the two lines keeps no row while its boundary matrices have two rows each;
the children of the first block write the rows 1, 2, -1, 0, those of the second the rows
3, 4, 1, 2, and the value left in row 1 depends on the order of the two blocks. -/
theorem C16_disjoint_block_rows_counterexample :
    InRange grid122 ([] : List (mesh_object_info Int)) ∧
    RaySorted 2 ([] : List (mesh_object_info Int)) ∧
    RaysAlternate 2 ([] : List (mesh_object_info Int)) ∧
    ∃ m d A B, mesh.make grid122 (fun _ => (1 : Int)) (fun _ => []) = some m ∧
      derivative.make 2 m stencils.Identity dirichlet_z [] = Except.ok d ∧
      d.O = [A, B] ∧ A.row_list = [1, 2, -1, 0] ∧ B.row_list = [3, 4, 1, 2] ∧
      matrix.Block.apply [A, B] ramp.D zero_field.D Op.eq 1 = 12 ∧
      matrix.Block.apply [B, A] ramp.D zero_field.D Op.eq 1 = 10 := by
  refine ⟨by decide, by decide, by decide, _, _, _, _, rfl, rfl, rfl, ?_, ?_, ?_, ?_⟩ <;>
    decide

/-- C16, amended. Disjoint block rows: for every mesh whose lines of direction `dir` come from
an admissible intersection list (in range, sorted by plane and along `dir`, the intersections of
a ray alternating between closing and opening), the InnerBlocks the Derivative constructor adds
to `O` address pairwise disjoint sets of global rows (`row_offset + r * stride`,
`0 ≤ r < rows`); and when in every block the left and the right matrix have a non-negative
number of rows that does not exceed the rows of the block (no line is shorter than a boundary
stencil), applying the blocks of `O` with the assign op in any order gives the same result. -/
theorem C16_disjoint_block_rows (dir : Nat) (hdir : dir < 3) (extents : int3) (h : Nat → α)
    (R : Nat → List (mesh_object_info α)) (m : mesh α)
    (hm : mesh.make extents h R = some m) (hR : InRange extents (R dir))
    (hS : RaySorted dir (R dir)) (hA : RaysAlternate dir (R dir))
    (stencil : Stencil α) (grid_bcs : bcs.Grid) (obj_bcs : bcs.Object) (d : derivative α)
    (hd : derivative.make dir m stencil grid_bcs obj_bcs = Except.ok d) :
    d.O.Pairwise (fun A B => ∀ g, A.has_row g → ¬ B.has_row g) ∧
    ((∀ A ∈ d.O, 0 ≤ A.left_boundary.rows ∧ A.left_boundary.rows ≤ A.rows ∧
        0 ≤ A.right_boundary.rows ∧ A.right_boundary.rows ≤ A.rows) →
      ∀ O1 : List (matrix.InnerBlock α), O1.Perm d.O → ∀ x b : Int → α,
        matrix.Block.apply O1 x b Op.eq = matrix.Block.apply d.O x b Op.eq) := by
  obtain ⟨hblk, _, hpw⟩ :=
    derivative_blocks dir hdir extents h R m hm hR stencil grid_bcs obj_bcs d hd
  have hsep := lines_separated dir hdir extents (R dir) hR hS hA (m.lines dir)
    ((mesh_make_lines extents h R m hm).2 dir hdir)
  have hdis := hpw hsep
  refine ⟨hdis, ?_⟩
  intro hrows O1 hperm x b
  have hlist : d.O.Pairwise (fun A B => ∀ g, g ∈ A.row_list → g ∉ B.row_list) := by
    refine List.Pairwise.imp_of_mem ?_ hdis
    intro A B hA1 hB1 hAB g hgA hgB
    obtain ⟨l1, _, _, hl1⟩ := hblk A hA1
    obtain ⟨l2, _, _, hl2⟩ := hblk B hB1
    exact hAB g (row_list_has_row extents dir grid_bcs l1 A hl1 (hrows A hA1) g hgA)
      (row_list_has_row extents dir grid_bcs l2 B hl2 (hrows B hB1) g hgB)
  exact (block_apply_perm x d.O O1 hperm.symm hlist b).symm

/-- Witness of the amended C16: the grid 12 x 1 x 1 cut by one solid, direction x. -/
theorem C16_disjoint_block_rows_witness :
    derivative_cut12.O.Pairwise (fun A B => ∀ g, A.has_row g → ¬ B.has_row g) ∧
    ((∀ A ∈ derivative_cut12.O, 0 ≤ A.left_boundary.rows ∧ A.left_boundary.rows ≤ A.rows ∧
        0 ≤ A.right_boundary.rows ∧ A.right_boundary.rows ≤ A.rows) →
      ∀ O1 : List (matrix.InnerBlock Int), O1.Perm derivative_cut12.O → ∀ x b : Int → Int,
        matrix.Block.apply O1 x b Op.eq = matrix.Block.apply derivative_cut12.O x b Op.eq) :=
  C16_disjoint_block_rows 0 (by decide) ⟨12, 1, 1⟩ (fun _ => 1) hits_cut12 mesh_cut12 rfl
    (by decide) (by decide) (by decide) stencils.Identity dirichlet_x [bcs.Dirichlet]
    derivative_cut12 rfl

/-- C13, as stated, fails: on the grid 12 x 1 x 1 cut by one solid, with Dirichlet conditions
on the x faces and the Identity stencil, applying the derivative in direction x with the
assign op into a `du` that holds 10 at the cell `(0, 0, 0)` of the left x face and 21 at the
cell `(11, 0, 0)` of the right x face leaves 10 and 21 there, not 0: the rows are dropped, so
nothing is written. And on the grid 2 x 1 x 1, whose only line keeps no row while the boundary
matrices have two rows each, the right matrix writes the rows -1 and 0: starting from
`du = 0` the cell `(0, 0, 0)` of the left x face receives `u.D[1] = 11`. -/
theorem C13_dirichlet_zeroing_counterexample :
    mesh.make ⟨12, 1, 1⟩ (fun _ => (1 : Int)) hits_cut12 = some mesh_cut12 ∧
    derivative.make 0 mesh_cut12 stencils.Identity dirichlet_x [bcs.Dirichlet]
      = Except.ok derivative_cut12 ∧
    (dirichlet_x.get 0).left = bcs.Dirichlet ∧ (dirichlet_x.get 0).right = bcs.Dirichlet ∧
    on_boundary ⟨12, 1, 1⟩ 0 false ⟨0, 0, 0⟩ = true ∧
    on_boundary ⟨12, 1, 1⟩ 0 true ⟨11, 0, 0⟩ = true ∧
    (derivative_cut12.apply ramp ramp Op.eq).D (ic ⟨12, 1, 1⟩ ⟨0, 0, 0⟩) = 10 ∧
    (derivative_cut12.apply ramp ramp Op.eq).D (ic ⟨12, 1, 1⟩ ⟨11, 0, 0⟩) = 21 ∧
    ∃ m d, mesh.make ⟨2, 1, 1⟩ (fun _ => (1 : Int)) (fun _ => []) = some m ∧
      derivative.make 0 m stencils.Identity dirichlet_x [] = Except.ok d ∧
      on_boundary ⟨2, 1, 1⟩ 0 false ⟨0, 0, 0⟩ = true ∧
      (d.apply ramp zero_field Op.eq).D (ic ⟨2, 1, 1⟩ ⟨0, 0, 0⟩) = 11 := by
  refine ⟨rfl, rfl, rfl, rfl, rfl, rfl, ?_, ?_, _, _, rfl, rfl, rfl, ?_⟩ <;> decide

/-- C13, amended. Dirichlet boundary rows: for a mesh whose intersection list of direction
`dir` is in range, and a derivative in which the left and the right matrix of every block have
a non-negative number of rows that does not exceed the rows of the block, when a domain face
carries a Dirichlet condition, applying the derivative (with the assign or the add-assign op)
to any `u` leaves the values of `du.D` at the cells on that face as they were before the
application; they are exactly 0 when `du` was 0 there before. -/
theorem C13_dirichlet_zeroing (dir : Nat) (hdir : dir < 3) (extents : int3) (h : Nat → α)
    (R : Nat → List (mesh_object_info α)) (m : mesh α)
    (hm : mesh.make extents h R = some m) (hR : InRange extents (R dir))
    (stencil : Stencil α) (grid_bcs : bcs.Grid) (obj_bcs : bcs.Object) (d : derivative α)
    (hd : derivative.make dir m stencil grid_bcs obj_bcs = Except.ok d)
    (hrows : ∀ A ∈ d.O, 0 ≤ A.left_boundary.rows ∧ A.left_boundary.rows ≤ A.rows ∧
      0 ≤ A.right_boundary.rows ∧ A.right_boundary.rows ≤ A.rows)
    (i : Nat) (hi : i < 3) (right : Bool)
    (hface : (if right then (grid_bcs.get i).right else (grid_bcs.get i).left)
      = bcs.Dirichlet)
    (ijk : int3) (hin : in_cells extents ijk) (hon : on_boundary extents i right ijk = true)
    (u du : scalar α) :
    (∀ op : Op, (d.apply u du op).D (ic extents ijk) = du.D (ic extents ijk)) ∧
    (du.D (ic extents ijk) = 0 → (d.apply u du Op.eq).D (ic extents ijk) = 0) := by
  obtain ⟨hblk, hB, _⟩ :=
    derivative_blocks dir hdir extents h R m hm hR stencil grid_bcs obj_bcs d hd
  have hnot : ic extents ijk ∉ matrix.Block.row_list d.O := by
    intro hmem
    unfold matrix.Block.row_list at hmem
    rw [List.mem_flatMap] at hmem
    obtain ⟨A, hA, hgA⟩ := hmem
    obtain ⟨l, hl, hskip, hlA⟩ := hblk A hA
    obtain ⟨c, hc, hic, hcs, hcf, hlo, hhi⟩ :=
      has_row_cell dir hdir extents grid_bcs (R dir) hR l hl A hlA _
        (row_list_has_row extents dir grid_bcs l A hlA (hrows A hA) _ hgA)
    have hcijk : c = ijk := ic_inj extents c ijk hc hin hic
    subst hcijk
    obtain ⟨_, _, _, _, _, h0, h1, _, _⟩ := line_geometry dir hdir extents (R dir) hR l hl
    by_cases hid : i = dir
    · subst hid
      unfold on_boundary at hon
      cases right with
      | false =>
        simp only [Bool.false_eq_true, if_false, beq_iff_eq] at hon hface
        rcases dropped_cases l.start (grid_bcs.get i).left with hd0 | hd1
        · exact hd0.2.2 hface
        · omega
      | true =>
        simp only [if_true, beq_iff_eq] at hon hface
        rcases dropped_cases l.end_ (grid_bcs.get i).right with hd0 | hd1
        · exact hd0.2.2 hface
        · omega
    · have hsame : l.start.mesh_coordinate.get i = c.get i := by
        rcases slow_or_fast dir i hdir hi hid with h2 | h2
        · rw [h2, hcs]
        · rw [h2, hcf]
      have hf : dirichlet_face extents l.start.mesh_coordinate grid_bcs i = true := by
        unfold dirichlet_face on_boundary
        unfold on_boundary at hon
        rw [hsame]
        cases right with
        | false =>
          simp only [Bool.false_eq_true, if_false] at hon hface ⊢
          simp [hface, hon]
        | true =>
          simp only [if_true] at hon hface ⊢
          simp [hface, hon]
      rw [dirichlet_line_of_face extents _ dir i hdir hi hid grid_bcs hf] at hskip
      exact absurd hskip (by simp)
  have hkeep : ∀ op : Op, (d.apply u du op).D (ic extents ijk) = du.D (ic extents ijk) := by
    intro op
    rw [derivative_apply_D, csr_apply_frame, block_apply_frame _ _ _ _ _ hnot]
    intro p hp hpg
    exact hnot (hpg ▸ hB p hp)
  exact ⟨hkeep, fun h0 => by rw [hkeep Op.eq, h0]⟩

/-- Witness of the amended C13: the cell `(0, 0, 0)` on the left x face of the grid
12 x 1 x 1 cut by one solid. -/
theorem C13_dirichlet_zeroing_witness :
    (∀ op : Op, (derivative_cut12.apply ramp zero_field op).D (ic ⟨12, 1, 1⟩ ⟨0, 0, 0⟩)
      = zero_field.D (ic ⟨12, 1, 1⟩ ⟨0, 0, 0⟩)) ∧
    (zero_field.D (ic ⟨12, 1, 1⟩ ⟨0, 0, 0⟩) = 0 →
      (derivative_cut12.apply ramp zero_field Op.eq).D (ic ⟨12, 1, 1⟩ ⟨0, 0, 0⟩) = 0) :=
  C13_dirichlet_zeroing 0 (by decide) ⟨12, 1, 1⟩ (fun _ => 1) hits_cut12 mesh_cut12 rfl
    (by decide) stencils.Identity dirichlet_x [bcs.Dirichlet] derivative_cut12 (by rfl)
    (by decide) 0 (by decide) false (by rfl) ⟨0, 0, 0⟩ (by decide) (by decide) ramp zero_field


end rows

/-! ### Steps of `init_line`, skipped lines and the `Dense` constructor -/

section steps
variable {α : Type}

/-- C24. Degenerate direction: for a grid with `extents[d] = 1` and any intersection list,
empty or not, `init_line` returns the vector of lines it was given: starting from the empty
vector, direction `d` has no lines. -/
theorem C24_degenerate_direction (I : Nat) (extents : int3) (R : List (mesh_object_info α))
    (h1 : extents.get I = 1) :
    init_line I [] extents R = some [] ∧
    ∀ v : List (line α), init_line I v extents R = some v := by
  unfold init_line
  simp only [if_pos h1, and_self, implies_true]

/-- Witness of C24: direction x of `grid122` with the two intersections of `hits422`. -/
theorem C24_degenerate_direction_witness :
    grid122.get 0 = 1 ∧
    (init_line 0 [] grid122 hits422 = some [] ∧
      ∀ v : List (line Int), init_line 0 v grid122 hits422 = some v) :=
  ⟨by decide, C24_degenerate_direction 0 grid122 hits422 (by decide)⟩

end steps

section skipped
variable {α : Type} [CommRing α]

/-- C27. Skipped Dirichlet lines: for a line whose start satisfies
`dirichlet_line(start, dir, grid_bcs)`, the body of the constructor's loop returns the builders
and buffers unchanged: no InnerBlock is added to `O`, no entry to `B` or `N`, and no object
boundary condition is looked up, so no assertion can fail, whatever `obj_bcs` and the
boundaries of the line are. -/
theorem C27_skipped_dirichlet_lines (dir : Nat) (m : mesh α) (stencil : Stencil α)
    (grid_bcs : bcs.Grid) (obj_bcs : bcs.Object) (c : List α) (st : Builders α) (l : line α)
    (hskip : dirichlet_line m.extents l.start.mesh_coordinate dir grid_bcs = true) :
    assemble_line dir m stencil grid_bcs obj_bcs c st l = Except.ok st ∧
    ∀ ls : List (line α),
      assemble_lines dir m stencil grid_bcs obj_bcs c st (l :: ls)
        = assemble_lines dir m stencil grid_bcs obj_bcs c st ls := by
  have h1 : assemble_line dir m stencil grid_bcs obj_bcs c st l = Except.ok st := by
    unfold assemble_line
    rw [if_pos hskip]
  refine ⟨h1, ?_⟩
  intro ls
  rw [assemble_lines, h1]

/-- C22. Dense construction: for `rows, columns ≥ 0` and any input, the coefficient array has
`rows * columns` entries, entry `j` is the `j`-th element of the input for `j` below
`rows * columns` and the input length, entries not supplied by a shorter input are 0, and the
input elements from position `rows * columns` on are ignored; the row and column counts are the
arguments. -/
theorem C22_dense_construction (rows columns : Int) (h0 : 0 ≤ rows) (h1 : 0 ≤ columns)
    (rng : List α) :
    (((matrix.Dense.make rows columns rng).v.length : Nat) : Int) = rows * columns ∧
    (∀ j : Nat, (j : Int) < rows * columns → j < rng.length →
      (matrix.Dense.make rows columns rng).v[j]? = rng[j]?) ∧
    (∀ j : Nat, (j : Int) < rows * columns → rng.length ≤ j →
      (matrix.Dense.make rows columns rng).v[j]? = some 0) ∧
    (matrix.Dense.make rows columns (rng.take (rows * columns).toNat)).v
      = (matrix.Dense.make rows columns rng).v ∧
    (matrix.Dense.make rows columns rng).rows = rows ∧
    (matrix.Dense.make rows columns rng).columns = columns := by
  have hn : 0 ≤ rows * columns := mul_nonneg h0 h1
  refine ⟨?_, ?_, ?_, ?_, rfl, rfl⟩ <;> simp only [matrix.Dense.make]
  · rw [List.length_append, List.length_take, List.length_replicate]
    omega
  · intro j hj hlen
    have hj2 : j < (rows * columns).toNat := by omega
    rw [List.getElem?_append_left (by rw [List.length_take]; omega), List.getElem?_take_of_lt hj2]
  · intro j hj hlen
    have hj2 : j < (rows * columns).toNat := by omega
    rw [List.getElem?_append_right (by rw [List.length_take]; omega), List.length_take]
    rw [List.getElem?_replicate]
    rw [if_pos (by omega)]
  · rw [List.take_take, List.length_take]
    congr 2
    · simp
    · omega

/-- Witness of C27: a line of `mesh_cut12` that ends at an object whose id has no entry in
`obj_bcs`, with Dirichlet conditions on the y faces (every cell of the grid 12 x 1 x 1 lies on
them). -/
theorem C27_skipped_dirichlet_lines_witness :
    dirichlet_line mesh_cut12.extents (face 0 0 0).mesh_coordinate 0 ⟨bcs.ff, bcs.dd, bcs.ff⟩
      = true ∧
    (assemble_line 0 mesh_cut12 stencils.Identity ⟨bcs.ff, bcs.dd, bcs.ff⟩ [] [1]
        ⟨[], [], [], [], [], []⟩ ⟨1, face 0 0 0, cut 5 0 0 0 0 1⟩
      = Except.ok ⟨[], [], [], [], [], []⟩ ∧
    ∀ ls : List (line Int),
      assemble_lines 0 mesh_cut12 stencils.Identity ⟨bcs.ff, bcs.dd, bcs.ff⟩ [] [1]
          ⟨[], [], [], [], [], []⟩ (⟨1, face 0 0 0, cut 5 0 0 0 0 1⟩ :: ls)
        = assemble_lines 0 mesh_cut12 stencils.Identity ⟨bcs.ff, bcs.dd, bcs.ff⟩ [] [1]
          ⟨[], [], [], [], [], []⟩ ls) :=
  ⟨by decide, C27_skipped_dirichlet_lines 0 mesh_cut12 stencils.Identity
    ⟨bcs.ff, bcs.dd, bcs.ff⟩ [] [1] ⟨[], [], [], [], [], []⟩
    ⟨1, face 0 0 0, cut 5 0 0 0 0 1⟩ (by decide)⟩

/-- Witness of C22: two rows of three columns from seven input elements. -/
theorem C22_dense_construction_witness :
    (((matrix.Dense.make 2 3 [1, 2, 3, 4, 5, 6, (7 : Int)]).v.length : Nat) : Int) = 2 * 3 ∧
    (∀ j : Nat, (j : Int) < 2 * 3 → j < [1, 2, 3, 4, 5, 6, (7 : Int)].length →
      (matrix.Dense.make 2 3 [1, 2, 3, 4, 5, 6, (7 : Int)]).v[j]?
        = [1, 2, 3, 4, 5, 6, (7 : Int)][j]?) ∧
    (∀ j : Nat, (j : Int) < 2 * 3 → [1, 2, 3, 4, 5, 6, (7 : Int)].length ≤ j →
      (matrix.Dense.make 2 3 [1, 2, 3, 4, 5, 6, (7 : Int)]).v[j]? = some 0) ∧
    (matrix.Dense.make 2 3 ([1, 2, 3, 4, 5, 6, (7 : Int)].take ((2 : Int) * 3).toNat)).v
      = (matrix.Dense.make 2 3 [1, 2, 3, 4, 5, 6, (7 : Int)]).v ∧
    (matrix.Dense.make 2 3 [1, 2, 3, 4, 5, 6, (7 : Int)]).rows = 2 ∧
    (matrix.Dense.make 2 3 [1, 2, 3, 4, 5, 6, (7 : Int)]).columns = 3 :=
  C22_dense_construction 2 3 (by decide) (by decide) [1, 2, 3, 4, 5, 6, 7]


end skipped

/-! ### Rows and columns of the block of a line -/

section columns
variable {α : Type} [CommRing α]

theorem assemble_left_cols (dir : Nat) (h : α) (stencil : Stencil α) (grid_bcs : bcs.Grid)
    (obj_bcs : bcs.Object) (stride : Int) (start : boundary α) (a a1 : Assembly α)
    (L : matrix.Dense α)
    (hrun : assemble_left dir h stencil grid_bcs obj_bcs stride start a = Except.ok (L, a1)) :
    a1.columns = a.columns - at_object start ∧
    a1.col_offset = a.col_offset + at_object start * stride := by
  unfold assemble_left at hrun
  unfold at_object
  cases hobj : start.object with
  | some obj =>
    rw [hobj] at hrun
    simp only at hrun
    cases hbc : object_bc obj_bcs obj.objectID with
    | error e => rw [hbc] at hrun; simp at hrun
    | ok bc_t =>
      rw [hbc] at hrun
      simp only at hrun
      cases hnbs : stencil.nbs h bc_t obj.psi false a.st.left a.st.extra with
      | error e => rw [hnbs] at hrun; simp at hrun
      | ok lx =>
        obtain ⟨left, extra⟩ := lx
        rw [hnbs] at hrun
        simp only [Except.ok.injEq, Prod.mk.injEq] at hrun
        obtain ⟨hL, ha1⟩ := hrun
        subst hL ha1
        exact ⟨by simp, by simp⟩
  | none =>
    rw [hobj] at hrun
    simp only at hrun
    cases hnbs : stencil.nbs h (grid_bcs.get dir).left 1 false a.st.left a.st.extra with
    | error e => rw [hnbs] at hrun; simp at hrun
    | ok lx =>
      obtain ⟨left, extra⟩ := lx
      rw [hnbs] at hrun
      simp only at hrun
      by_cases hD : (grid_bcs.get dir).left = bcs.Dirichlet
      · rw [if_pos hD] at hrun
        simp only [Except.ok.injEq, Prod.mk.injEq] at hrun
        obtain ⟨hL, ha1⟩ := hrun
        subst hL ha1
        exact ⟨by simp, by simp⟩
      · rw [if_neg hD] at hrun
        by_cases hN : (grid_bcs.get dir).left = bcs.Neumann
        · rw [if_pos hN] at hrun
          cases hpts : neumann_points extra (stencil.query (grid_bcs.get dir).left).nextra
              a.row_offset stride a.row_offset with
          | error e => rw [hpts] at hrun; simp at hrun
          | ok pts =>
            rw [hpts] at hrun
            simp only [Except.ok.injEq, Prod.mk.injEq] at hrun
            obtain ⟨hL, ha1⟩ := hrun
            subst hL ha1
            exact ⟨by simp, by simp⟩
        · rw [if_neg hN] at hrun
          simp only [Except.ok.injEq, Prod.mk.injEq] at hrun
          obtain ⟨hL, ha1⟩ := hrun
          subst hL ha1
          exact ⟨by simp, by simp⟩

theorem assemble_right_cols (dir : Nat) (h : α) (stencil : Stencil α) (grid_bcs : bcs.Grid)
    (obj_bcs : bcs.Object) (stride : Int) (end_ : boundary α) (ic_end : Int)
    (a a1 : Assembly α) (R : matrix.Dense α)
    (hrun : assemble_right dir h stencil grid_bcs obj_bcs stride end_ ic_end a
      = Except.ok (R, a1)) :
    a1.columns = a.columns - at_object end_ ∧ a1.col_offset = a.col_offset := by
  unfold assemble_right at hrun
  unfold at_object
  cases hobj : end_.object with
  | some obj =>
    rw [hobj] at hrun
    simp only at hrun
    cases hbc : object_bc obj_bcs obj.objectID with
    | error e => rw [hbc] at hrun; simp at hrun
    | ok bc_t =>
      rw [hbc] at hrun
      simp only at hrun
      cases hnbs : stencil.nbs h bc_t obj.psi true a.st.right a.st.extra with
      | error e => rw [hnbs] at hrun; simp at hrun
      | ok lx =>
        obtain ⟨right, extra⟩ := lx
        rw [hnbs] at hrun
        simp only [Except.ok.injEq, Prod.mk.injEq] at hrun
        obtain ⟨hL, ha1⟩ := hrun
        subst hL ha1
        exact ⟨by simp, rfl⟩
  | none =>
    rw [hobj] at hrun
    simp only at hrun
    cases hnbs : stencil.nbs h (grid_bcs.get dir).right 1 true a.st.right a.st.extra with
    | error e => rw [hnbs] at hrun; simp at hrun
    | ok lx =>
      obtain ⟨right, extra⟩ := lx
      rw [hnbs] at hrun
      simp only at hrun
      by_cases hD : (grid_bcs.get dir).right = bcs.Dirichlet
      · rw [if_pos hD] at hrun
        simp only [Except.ok.injEq, Prod.mk.injEq] at hrun
        obtain ⟨hL, ha1⟩ := hrun
        subst hL ha1
        exact ⟨by simp, rfl⟩
      · rw [if_neg hD] at hrun
        by_cases hN : (grid_bcs.get dir).right = bcs.Neumann
        · rw [if_pos hN] at hrun
          cases hpts : neumann_points extra (stencil.query (grid_bcs.get dir).right).nextra
              (ic_end - ((stencil.query (grid_bcs.get dir).right).nextra - 1) * stride)
              stride ic_end with
          | error e => rw [hpts] at hrun; simp at hrun
          | ok pts =>
            rw [hpts] at hrun
            simp only [Except.ok.injEq, Prod.mk.injEq] at hrun
            obtain ⟨hL, ha1⟩ := hrun
            subst hL ha1
            exact ⟨by simp, rfl⟩
        · rw [if_neg hN] at hrun
          simp only [Except.ok.injEq, Prod.mk.injEq] at hrun
          obtain ⟨hL, ha1⟩ := hrun
          subst hL ha1
          exact ⟨by simp, rfl⟩

/-- A line that is not skipped and is assembled: the two boundary steps succeed and the block
is built from their results. -/
theorem assemble_line_inv (dir : Nat) (m : mesh α) (stencil : Stencil α)
    (grid_bcs : bcs.Grid) (obj_bcs : bcs.Object) (c : List α) (st st1 : Builders α)
    (l : line α)
    (hskip : dirichlet_line m.extents l.start.mesh_coordinate dir grid_bcs = false)
    (hrun : assemble_line dir m stencil grid_bcs obj_bcs c st l = Except.ok st1) :
    ∃ L a1 R a2,
      assemble_left dir (m.h dir) stencil grid_bcs obj_bcs l.stride l.start
        ⟨l.end_.mesh_coordinate.get dir - l.start.mesh_coordinate.get dir + 1,
          l.end_.mesh_coordinate.get dir - l.start.mesh_coordinate.get dir + 1,
          ic m.extents l.start.mesh_coordinate, ic m.extents l.start.mesh_coordinate, st⟩
        = Except.ok (L, a1) ∧
      assemble_right dir (m.h dir) stencil grid_bcs obj_bcs l.stride l.end_
        (ic m.extents l.end_.mesh_coordinate) a1 = Except.ok (R, a2) ∧
      st1 = { a2.st with
        O := a2.st.O ++
          [matrix.InnerBlock.make a2.columns a2.row_offset a2.col_offset l.stride L
            (matrix.Circulant.make (a2.rows - L.rows - R.rows) c) R] } := by
  unfold assemble_line at hrun
  rw [if_neg (by rw [hskip]; simp)] at hrun
  simp only at hrun
  cases hleft : assemble_left dir (m.h dir) stencil grid_bcs obj_bcs l.stride l.start
      ⟨l.end_.mesh_coordinate.get dir - l.start.mesh_coordinate.get dir + 1,
        l.end_.mesh_coordinate.get dir - l.start.mesh_coordinate.get dir + 1,
        ic m.extents l.start.mesh_coordinate, ic m.extents l.start.mesh_coordinate, st⟩ with
  | error e => rw [hleft] at hrun; simp at hrun
  | ok La =>
    obtain ⟨L, a1⟩ := La
    rw [hleft] at hrun
    simp only at hrun
    cases hright : assemble_right dir (m.h dir) stencil grid_bcs obj_bcs l.stride l.end_
        (ic m.extents l.end_.mesh_coordinate) a1 with
    | error e => rw [hright] at hrun; simp at hrun
    | ok Ra =>
      obtain ⟨R, a2⟩ := Ra
      rw [hright] at hrun
      simp only [Except.ok.injEq] at hrun
      exact ⟨L, a1, R, a2, rfl, hright, hrun.symm⟩

/-- The block of a line that is not skipped, with its row and column addressing. -/
theorem assemble_line_block (dir : Nat) (m : mesh α) (stencil : Stencil α)
    (grid_bcs : bcs.Grid) (obj_bcs : bcs.Object) (c : List α) (st st1 : Builders α)
    (l : line α)
    (hskip : dirichlet_line m.extents l.start.mesh_coordinate dir grid_bcs = false)
    (hrun : assemble_line dir m stencil grid_bcs obj_bcs c st l = Except.ok st1) :
    ∃ A, st1.O = st.O ++ [A] ∧ BlockOfLine m.extents dir grid_bcs l A ∧
      ColumnsOfLine m.extents dir l A := by
  rcases assemble_line_shape dir m stencil grid_bcs obj_bcs c st st1 l hrun with
    ⟨h1, _⟩ | ⟨_, A, pts, hO, hA, _, _⟩
  · rw [hskip] at h1; simp at h1
  · refine ⟨A, hO, hA, ?_⟩
    obtain ⟨L, a1, R, a2, hleft, hright, hst1⟩ :=
      assemble_line_inv dir m stencil grid_bcs obj_bcs c st st1 l hskip hrun
    obtain ⟨_, _, hO1, _⟩ := assemble_left_shape dir _ stencil grid_bcs obj_bcs _ _ _ _ _ hleft
    obtain ⟨_, _, hO2, _⟩ :=
      assemble_right_shape dir _ stencil grid_bcs obj_bcs _ _ _ _ _ _ hright
    obtain ⟨hc1, hco1⟩ := assemble_left_cols dir _ stencil grid_bcs obj_bcs _ _ _ _ _ hleft
    obtain ⟨hc2, hco2⟩ := assemble_right_cols dir _ stencil grid_bcs obj_bcs _ _ _ _ _ _ hright
    simp only at hO1 hc1 hco1
    have hOeq : st1.O = st.O ++
        [matrix.InnerBlock.make a2.columns a2.row_offset a2.col_offset l.stride L
          (matrix.Circulant.make (a2.rows - L.rows - R.rows) c) R] := by
      rw [hst1, hO2, hO1]
    rw [hO] at hOeq
    have hAeq := List.append_cancel_left hOeq
    simp only [List.cons.injEq, and_true] at hAeq
    subst hAeq
    unfold ColumnsOfLine matrix.InnerBlock.make line_cells
    refine ⟨?_, ?_⟩ <;> dsimp only
    · rw [hco2, hco1]
    · rw [hc2, hc1]

/-- C30. Dirichlet domain face drops a row but keeps the column: for a line that is not
skipped and whose assembly succeeds, the constructor adds exactly one InnerBlock `A` with the
stride of the line, `row_offset = ic(start) + stride` times the rows dropped at the start (one
for an object or a Dirichlet face), `col_offset = ic(start) + stride` times the columns dropped
at the start (one for an object only), `rows` and `columns` the number of cells
`end[dir] - start[dir] + 1` less the rows and the columns dropped at both ends. In particular
for a start at a Dirichlet domain face `row_offset = ic(start) + stride`, `col_offset =
ic(start)` and the column count is the number of cells, minus one only if the end is an object;
for an end at a Dirichlet domain face the row count is reduced by one and the column count is
not; a free face at the start or at the end changes neither rows nor columns. -/
theorem C30_dirichlet_face_rows_columns (dir : Nat) (m : mesh α) (stencil : Stencil α)
    (grid_bcs : bcs.Grid) (obj_bcs : bcs.Object) (c : List α) (st st1 : Builders α)
    (l : line α)
    (hskip : dirichlet_line m.extents l.start.mesh_coordinate dir grid_bcs = false)
    (hrun : assemble_line dir m stencil grid_bcs obj_bcs c st l = Except.ok st1) :
    ∃ A, st1.O = st.O ++ [A] ∧ A.stride = l.stride ∧
      A.row_offset = ic m.extents l.start.mesh_coordinate
        + dropped l.start (grid_bcs.get dir).left * l.stride ∧
      A.col_offset = ic m.extents l.start.mesh_coordinate + at_object l.start * l.stride ∧
      A.rows = line_cells dir l - dropped l.start (grid_bcs.get dir).left
        - dropped l.end_ (grid_bcs.get dir).right ∧
      A.columns = line_cells dir l - at_object l.start - at_object l.end_ ∧
      (l.start.object = none → (grid_bcs.get dir).left = bcs.Dirichlet →
        A.row_offset = ic m.extents l.start.mesh_coordinate + l.stride ∧
        A.col_offset = ic m.extents l.start.mesh_coordinate ∧
        A.columns = l.end_.mesh_coordinate.get dir - l.start.mesh_coordinate.get dir + 1
          - (if l.end_.object.isSome then 1 else 0)) ∧
      (l.end_.object = none → (grid_bcs.get dir).right = bcs.Dirichlet →
        A.rows = l.end_.mesh_coordinate.get dir - l.start.mesh_coordinate.get dir + 1
          - dropped l.start (grid_bcs.get dir).left - 1 ∧
        A.columns = l.end_.mesh_coordinate.get dir - l.start.mesh_coordinate.get dir + 1
          - at_object l.start) ∧
      (l.start.object = none → (grid_bcs.get dir).left = bcs.type.F →
        A.row_offset = ic m.extents l.start.mesh_coordinate ∧
        A.col_offset = ic m.extents l.start.mesh_coordinate) ∧
      (l.end_.object = none → (grid_bcs.get dir).right = bcs.type.F →
        A.rows = l.end_.mesh_coordinate.get dir - l.start.mesh_coordinate.get dir + 1
          - dropped l.start (grid_bcs.get dir).left ∧
        A.columns = l.end_.mesh_coordinate.get dir - l.start.mesh_coordinate.get dir + 1
          - at_object l.start) := by
  obtain ⟨A, hO, hA, hC⟩ :=
    assemble_line_block dir m stencil grid_bcs obj_bcs c st st1 l hskip hrun
  obtain ⟨hst, hro, hrows, _⟩ := hA
  obtain ⟨hco, hcols⟩ := hC
  refine ⟨A, hO, hst, hro, hco, hrows, hcols, ?_, ?_, ?_, ?_⟩
  · intro hobj hD
    rw [hro, hco, hcols]
    simp only [dropped, at_object, line_cells, hobj, hD, Option.isSome_none,
      Bool.false_eq_true, if_false, if_true]
    refine ⟨by ring, by ring, by ring⟩
  · intro hobj hD
    rw [hrows, hcols]
    simp only [line_cells]
    refine ⟨?_, ?_⟩
    · simp only [dropped, hobj, hD, Option.isSome_none, Bool.false_eq_true, if_false, if_true]
    · simp only [at_object, hobj, Option.isSome_none, Bool.false_eq_true, if_false]
      ring
  · intro hobj hF
    rw [hro, hco]
    have hne : ¬ (bcs.type.F = bcs.Dirichlet) := by decide
    simp only [dropped, at_object, hobj, hF, Option.isSome_none, Bool.false_eq_true, if_false,
      hne]
    refine ⟨by ring, by ring⟩
  · intro hobj hF
    rw [hrows, hcols]
    have hne : ¬ (bcs.type.F = bcs.Dirichlet) := by decide
    simp only [line_cells]
    refine ⟨?_, ?_⟩
    · simp only [dropped, hobj, hF, Option.isSome_none, Bool.false_eq_true, if_false, hne]
      ring
    · simp only [at_object, hobj, Option.isSome_none, Bool.false_eq_true, if_false]
      ring


/-- Witness of C30: the first line of `mesh_cut12`, from the Dirichlet face `x = 0` to the
object at cell 5: six cells, four rows from row 1, five columns from column 0. -/
theorem C30_dirichlet_face_rows_columns_witness :
    ∃ A, builders_cut12_first.O = builders_identity.O ++ [A] ∧ A.stride = 1 ∧
      A.row_offset = 1 ∧ A.col_offset = 0 ∧ A.rows = 4 ∧ A.columns = 5 :=
  (C30_dirichlet_face_rows_columns 0 mesh_cut12 stencils.Identity dirichlet_x [bcs.Dirichlet]
    [1] builders_identity builders_cut12_first ⟨1, face 0 0 0, cut 5 0 0 0 0 1⟩
    (by decide) (by rfl)).imp
    (fun _ h => ⟨h.1, h.2.1, h.2.2.1, h.2.2.2.1, h.2.2.2.2.1, h.2.2.2.2.2.1⟩)

theorem assemble_lines_blocks (dir : Nat) (m : mesh α) (stencil : Stencil α)
    (grid_bcs : bcs.Grid) (obj_bcs : bcs.Object) (c : List α) :
    ∀ (ls : List (line α)) (st st1 : Builders α),
      assemble_lines dir m stencil grid_bcs obj_bcs c st ls = Except.ok st1 →
      ∃ As, st1.O = st.O ++ As ∧
        List.Forall₂
          (fun l A => BlockOfLine m.extents dir grid_bcs l A ∧ ColumnsOfLine m.extents dir l A)
          (ls.filter (fun l => !dirichlet_line m.extents l.start.mesh_coordinate dir grid_bcs))
          As := by
  intro ls
  induction ls with
  | nil =>
    intro st st1 hrun
    unfold assemble_lines at hrun
    simp only [Except.ok.injEq] at hrun
    subst hrun
    exact ⟨[], by simp, by simp⟩
  | cons l ls ih =>
    intro st st1 hrun
    unfold assemble_lines at hrun
    cases hline : assemble_line dir m stencil grid_bcs obj_bcs c st l with
    | error e => rw [hline] at hrun; simp at hrun
    | ok st2 =>
      rw [hline] at hrun
      simp only at hrun
      obtain ⟨As, hO, hF⟩ := ih st2 st1 hrun
      by_cases hskip : dirichlet_line m.extents l.start.mesh_coordinate dir grid_bcs = true
      · have hst : st2 = st := by
          unfold assemble_line at hline
          rw [if_pos hskip] at hline
          simp only [Except.ok.injEq] at hline
          exact hline.symm
        subst hst
        refine ⟨As, hO, ?_⟩
        rw [List.filter_cons]
        simp only [hskip, Bool.not_true, Bool.false_eq_true, if_false]
        exact hF
      · have hskip2 : dirichlet_line m.extents l.start.mesh_coordinate dir grid_bcs = false := by
          simpa using hskip
        obtain ⟨A, hO0, hA, hC⟩ :=
          assemble_line_block dir m stencil grid_bcs obj_bcs c st st2 l hskip2 hline
        refine ⟨A :: As, by rw [hO, hO0]; simp, ?_⟩
        rw [List.filter_cons]
        simp only [hskip2, Bool.not_false, if_true]
        exact List.Forall₂.cons ⟨hA, hC⟩ hF

theorem ic_range (extents c : int3) (hc : in_cells extents c) :
    0 ≤ ic extents c ∧ ic extents c < size extents := by
  obtain ⟨⟨x0, x1⟩, ⟨y0, y1⟩, ⟨z0, z1⟩⟩ := hc
  unfold ic size
  have hny : 0 < extents.y := by omega
  have hnz : 0 < extents.z := by omega
  have h1 : 0 ≤ c.x * extents.y * extents.z :=
    mul_nonneg (mul_nonneg x0 (le_of_lt hny)) (le_of_lt hnz)
  have h2 : 0 ≤ c.y * extents.z := mul_nonneg y0 (le_of_lt hnz)
  have h3 : c.x * extents.y * extents.z ≤ (extents.x - 1) * extents.y * extents.z :=
    mul_le_mul_of_nonneg_right (mul_le_mul_of_nonneg_right (by omega) (le_of_lt hny))
      (le_of_lt hnz)
  have h4 : c.y * extents.z ≤ (extents.y - 1) * extents.z :=
    mul_le_mul_of_nonneg_right (by omega) (le_of_lt hnz)
  refine ⟨by omega, ?_⟩
  have h5 : (extents.x - 1) * extents.y * extents.z + (extents.y - 1) * extents.z
      + extents.z = extents.x * extents.y * extents.z := by ring
  omega

/-- Every column a block addresses is the linear index of a cell of its line. -/
theorem has_col_cell (I : Nat) (hI : I < 3) (extents : int3)
    (R : List (mesh_object_info α)) (hR : InRange extents R) (l : line α)
    (hl : LineOK I extents R l) (A : matrix.InnerBlock α) (hst : A.stride = l.stride)
    (hA : ColumnsOfLine extents I l A) (g : Int) (hg : A.has_col g) :
    ∃ c : int3, in_cells extents c ∧ ic extents c = g := by
  obtain ⟨hls, hs, hf, hes, hef, h0, h1, _, _⟩ := line_geometry I hI extents R hR l hl
  obtain ⟨hAco, hAcols⟩ := hA
  obtain ⟨k, hk0, hk1, hgk⟩ := hg
  have hdl : 0 ≤ at_object l.start ∧ 0 ≤ at_object l.end_ := by
    unfold at_object
    constructor <;> split <;> omega
  unfold line_cells at hAcols
  refine ⟨l.start.mesh_coordinate.set I
    (l.start.mesh_coordinate.get I + (at_object l.start + k)), ?_, ?_⟩
  · apply in_cells_of_get I hI
    · rw [get_set_same I hI]; omega
    · rw [get_set_slow I hI]; exact hs
    · rw [get_set_fast I hI]; exact hf
  · rw [ic_shift I hI, hgk, hAco, hst, hls]
    ring


theorem derivative_make_blocks (dir : Nat) (m : mesh α) (stencil : Stencil α)
    (grid_bcs : bcs.Grid) (obj_bcs : bcs.Object) (d : derivative α)
    (hrun : derivative.make dir m stencil grid_bcs obj_bcs = Except.ok d) :
    List.Forall₂
      (fun l A => BlockOfLine m.extents dir grid_bcs l A ∧ ColumnsOfLine m.extents dir l A)
      ((m.lines dir).filter
        (fun l => !dirichlet_line m.extents l.start.mesh_coordinate dir grid_bcs)) d.O := by
  unfold derivative.make at hrun
  simp only at hrun
  cases hlines : assemble_lines dir m stencil grid_bcs obj_bcs
      (stencil.interior (m.h dir) (List.replicate (2 * stencil.query_max.p + 1).toNat 0))
      { left := List.replicate (stencil.query_max.r * stencil.query_max.t).toNat 0
        right := List.replicate (stencil.query_max.r * stencil.query_max.t).toNat 0
        extra := List.replicate stencil.query_max.nextra.toNat 0
        B := [], O := [], N := [] } (m.lines dir) with
  | error e => rw [hlines] at hrun; simp at hrun
  | ok st =>
    rw [hlines] at hrun
    simp only [Except.ok.injEq] at hrun
    subst hrun
    obtain ⟨As, hO, hF⟩ := assemble_lines_blocks dir m stencil grid_bcs obj_bcs _ _ _ _ hlines
    simp only [List.nil_append] at hO
    show List.Forall₂ _ _ st.O
    rw [hO]; exact hF

/-- C21, as stated, fails: on the grid 2 x 1 x 1 (all extents at least 1) with the Identity
stencil and free boundary conditions the construction in direction x succeeds, its only block
has the interior row count `2 - 2 - 2 = -2`, and its left matrix has three columns from column
0 with stride 1, so it addresses column 2 while `mesh.size() = 2`; with Dirichlet conditions
on the x faces the construction succeeds too and the children of the block write the rows
1, 2, -1, 0. No assertion guards the length of a line. -/
theorem C21_construction_validity_counterexample :
    ∃ m d A, mesh.make ⟨2, 1, 1⟩ (fun _ => (1 : Int)) (fun _ => []) = some m ∧
      derivative.make 0 m stencils.Identity free3 [] = Except.ok d ∧ d.O = [A] ∧
      A.interior.rows = -2 ∧ A.left_boundary.columns = 3 ∧
      A.left_boundary.col_offset + 2 * A.left_boundary.stride = 2 ∧ size ⟨2, 1, 1⟩ = 2 ∧
      ∃ d2 A2, derivative.make 0 m stencils.Identity dirichlet_x [] = Except.ok d2 ∧
        d2.O = [A2] ∧ A2.row_list = [1, 2, -1, 0] := by
  refine ⟨_, _, _, rfl, rfl, rfl, ?_, ?_, ?_, ?_, _, _, rfl, rfl, ?_⟩ <;> decide

/-- C21, amended. Construction validity: for a mesh whose intersection list of direction
`dir` is in range, when the construction of the derivative succeeds, every InnerBlock of `O`
addresses by its own row and column counts (`row_offset + r * stride`, `0 ≤ r < rows`, and
`col_offset + c * stride`, `0 ≤ c < columns`) only rows and columns inside
`[0, mesh.size())`; and in a block whose interior row count and boundary row counts are
non-negative the three children write only rows inside `[0, mesh.size())`. The interior row
count itself is not checked. -/
theorem C21_construction_validity (dir : Nat) (hdir : dir < 3) (extents : int3) (h : Nat → α)
    (R : Nat → List (mesh_object_info α)) (m : mesh α)
    (hm : mesh.make extents h R = some m) (hR : InRange extents (R dir))
    (stencil : Stencil α) (grid_bcs : bcs.Grid) (obj_bcs : bcs.Object) (d : derivative α)
    (hd : derivative.make dir m stencil grid_bcs obj_bcs = Except.ok d) :
    ∀ A ∈ d.O,
      (∀ g, A.has_row g → 0 ≤ g ∧ g < size extents) ∧
      (∀ g, A.has_col g → 0 ≤ g ∧ g < size extents) ∧
      (0 ≤ A.left_boundary.rows → 0 ≤ A.interior.rows → 0 ≤ A.right_boundary.rows →
        ∀ g ∈ A.row_list, 0 ≤ g ∧ g < size extents) := by
  obtain ⟨hext, hlines⟩ := mesh_make_lines extents h R m hm
  have hOK := init_line_lineOK dir hdir extents (R dir) (m.lines dir) (hlines dir hdir)
  have hF := derivative_make_blocks dir m stencil grid_bcs obj_bcs d hd
  rw [hext] at hF
  intro A hA
  obtain ⟨l, hl, hlA, hlC⟩ := forall₂_mem_right _ _ _ hF A hA
  have hlOK := hOK l (List.mem_filter.1 hl).1
  have hrow : ∀ g, A.has_row g → 0 ≤ g ∧ g < size extents := by
    intro g hg
    obtain ⟨c, hc, hic, _⟩ := has_row_cell dir hdir extents grid_bcs (R dir) hR l hlOK A hlA g hg
    rw [← hic]
    exact ic_range extents c hc
  refine ⟨hrow, ?_, ?_⟩
  · intro g hg
    obtain ⟨c, hc, hic⟩ := has_col_cell dir hdir extents (R dir) hR l hlOK A hlA.1 hlC g hg
    rw [← hic]
    exact ic_range extents c hc
  · intro h1 h2 h3 g hg
    have hir := hlA.2.2.2.2.2.2.2.1
    exact hrow g (row_list_has_row extents dir grid_bcs l A hlA
      ⟨h1, by omega, h3, by omega⟩ g hg)

/-- Witness of the amended C21: the derivative on the grid 12 x 1 x 1 cut by one solid. -/
theorem C21_construction_validity_witness :
    mesh.make ⟨12, 1, 1⟩ (fun _ => (1 : Int)) hits_cut12 = some mesh_cut12 ∧
    InRange ⟨12, 1, 1⟩ (hits_cut12 0) ∧
    ∀ A ∈ derivative_cut12.O,
      (∀ g, A.has_row g → 0 ≤ g ∧ g < size ⟨12, 1, 1⟩) ∧
      (∀ g, A.has_col g → 0 ≤ g ∧ g < size ⟨12, 1, 1⟩) ∧
      (0 ≤ A.left_boundary.rows → 0 ≤ A.interior.rows → 0 ≤ A.right_boundary.rows →
        ∀ g ∈ A.row_list, 0 ≤ g ∧ g < size ⟨12, 1, 1⟩) :=
  ⟨rfl, by decide,
    C21_construction_validity 0 (by decide) ⟨12, 1, 1⟩ (fun _ => 1) hits_cut12 mesh_cut12 rfl
      (by decide) stencils.Identity dirichlet_x [bcs.Dirichlet] derivative_cut12 (by rfl)⟩


end columns

/-! ### The order of the lines -/

section ordering
variable {α : Type}

theorem ray_lt_lex (nf s f s1 f1 : Nat) (hf : f < nf) (h : s1 * nf + f1 < s * nf + f) :
    s1 < s ∨ (s1 = s ∧ f1 < f) := by
  rcases Nat.lt_trichotomy s1 s with h1 | h1 | h1
  · exact Or.inl h1
  · subst h1
    exact Or.inr ⟨rfl, by omega⟩
  · exfalso
    have h2 : (s + 1) * nf ≤ s1 * nf := Nat.mul_le_mul_right nf h1
    rw [Nat.add_mul, Nat.one_mul] at h2
    omega

theorem lines_sorted (I : Nat) (hI : I < 3) (extents : int3)
    (R : List (mesh_object_info α)) (hR : InRange extents R) (hS : RaySorted I R)
    (hA : RaysAlternate I R) (hne : extents.get I ≠ 1) :
    ∃ v : List (line α), init_line I [] extents R = some v ∧ v.Pairwise (line_le I) := by
  have hPS := planeSorted_of_raySorted I R hS
  have hex : ∃ vf, init_line I [] extents R = some vf ∧
      (vf.Pairwise (line_le I) ∧
        ∀ l ∈ vf, ∃ s1 f1 : Nat, f1 < (extents.get (index.fast I)).toNat ∧
          l.start.mesh_coordinate.get (index.slow I) = (s1 : Int) ∧
          l.start.mesh_coordinate.get (index.fast I) = (f1 : Int) ∧
          s1 * (extents.get (index.fast I)).toNat + f1
            < (extents.get (index.slow I)).toNat * (extents.get (index.fast I)).toNat) := by
    refine init_line_rule I hI extents R hR hPS
      (paired_of_raysAlternate I R hPS hA) hne
      (fun q _ v => v.Pairwise (line_le I) ∧
        ∀ l ∈ v, ∃ s1 f1 : Nat, f1 < (extents.get (index.fast I)).toNat ∧
          l.start.mesh_coordinate.get (index.slow I) = (s1 : Int) ∧
          l.start.mesh_coordinate.get (index.fast I) = (f1 : Int) ∧
          s1 * (extents.get (index.fast I)).toNat + f1 < q)
      (fun s f k v b0 => v.Pairwise (line_le I) ∧
        (∀ l ∈ v, ∃ s1 f1 : Nat, f1 < (extents.get (index.fast I)).toNat ∧
          l.start.mesh_coordinate.get (index.slow I) = (s1 : Int) ∧
          l.start.mesh_coordinate.get (index.fast I) = (f1 : Int) ∧
          (s1 * (extents.get (index.fast I)).toNat + f1
              < s * (extents.get (index.fast I)).toNat + f ∨
            (s1 = s ∧ f1 = f ∧
              l.start.mesh_coordinate.get I ≤ b0.mesh_coordinate.get I))) ∧
        b0.mesh_coordinate.get (index.slow I) = (s : Int) ∧
        b0.mesh_coordinate.get (index.fast I) = (f : Int) ∧
        ∀ (j : Nat) (m : mesh_object_info α), k ≤ j → R[j]? = some m →
          m.solid_coord.get (index.slow I) = (s : Int) →
          m.solid_coord.get (index.fast I) = (f : Int) →
          b0.mesh_coordinate.get I ≤ m.solid_coord.get I)
      ?_ ?_ ?_ [] ?_
    · intro s f k v _ _ h
      refine ⟨h.1, ?_, left_point_slow I hI _ _, left_point_fast I hI _ _, ?_⟩
      · intro l hl
        obtain ⟨s1, f1, h1, h2, h3, h4⟩ := h.2 l hl
        exact ⟨s1, f1, h1, h2, h3, Or.inl h4⟩
      · intro j m _ hjm _ _
        rw [left_point_dir I hI]
        exact (in_grid_get extents m (hR m (List.getElem?_mem hjm)) I).1
    · intro s f k v b0 a b _ hfn hka hkb _ _ has haf hbs hbf h
      obtain ⟨hpw, hall, hb0s, hb0f, hlow⟩ := h
      have hb0b : b0.mesh_coordinate.get I ≤ b.solid_coord.get I :=
        hlow (k + 1) b (by omega) hkb hbs hbf
      refine ⟨?_, ?_, hbs, hbf, ?_⟩
      · rw [List.pairwise_append]
        refine ⟨hpw, List.pairwise_singleton _ _, ?_⟩
        intro l hl x hx
        rw [List.mem_singleton] at hx
        subst hx
        obtain ⟨s1, f1, h1, h2, h3, h4⟩ := hall l hl
        unfold line_le
        simp only
        rw [h2, h3, hb0s, hb0f]
        rcases h4 with h5 | ⟨h5, h6, h7⟩
        · rcases ray_lt_lex _ s f s1 f1 hfn h5 with h8 | ⟨h8, h9⟩
          · left; omega
          · right; exact ⟨by omega, Or.inl (by omega)⟩
        · right; exact ⟨by omega, Or.inr ⟨by omega, h7⟩⟩
      · intro l hl
        rcases List.mem_append.1 hl with h1 | h1
        · obtain ⟨s1, f1, h2, h3, h4, h5⟩ := hall l h1
          refine ⟨s1, f1, h2, h3, h4, ?_⟩
          rcases h5 with h6 | ⟨h6, h7, h8⟩
          · exact Or.inl h6
          · exact Or.inr ⟨h6, h7, by simp only [object_at]; omega⟩
        · rw [List.mem_singleton] at h1
          subst h1
          exact ⟨s, f, hfn, hb0s, hb0f, Or.inr ⟨rfl, rfl, by simp only [object_at]; omega⟩⟩
      · intro j m hj hjm hms hmf
        have := raySorted_get I R hS (k + 1) j b m hkb hjm (by omega)
        unfold ray_le at this
        simp only [object_at]
        omega
    · intro s f k v b0 _ hfn h
      obtain ⟨hpw, hall, hb0s, hb0f, hlow⟩ := h
      refine ⟨?_, ?_⟩
      · rw [List.pairwise_append]
        refine ⟨hpw, List.pairwise_singleton _ _, ?_⟩
        intro l hl x hx
        rw [List.mem_singleton] at hx
        subst hx
        obtain ⟨s1, f1, h1, h2, h3, h4⟩ := hall l hl
        unfold line_le
        simp only
        rw [h2, h3, hb0s, hb0f]
        rcases h4 with h5 | ⟨h5, h6, h7⟩
        · rcases ray_lt_lex _ s f s1 f1 hfn h5 with h8 | ⟨h8, h9⟩
          · left; omega
          · right; exact ⟨by omega, Or.inl (by omega)⟩
        · right; exact ⟨by omega, Or.inr ⟨by omega, h7⟩⟩
      · intro l hl
        rcases List.mem_append.1 hl with h1 | h1
        · obtain ⟨s1, f1, h2, h3, h4, h5⟩ := hall l h1
          refine ⟨s1, f1, h2, h3, h4, ?_⟩
          rcases h5 with h6 | ⟨h6, h7, _⟩
          · omega
          · subst h6 h7; omega
        · rw [List.mem_singleton] at h1
          subst h1
          exact ⟨s, f, hfn, hb0s, hb0f, by omega⟩
    · exact ⟨List.Pairwise.nil, by intro l hl; simp at hl⟩
  obtain ⟨vf, hvf, hK⟩ := hex
  exact ⟨vf, hvf, hK.1⟩

/-- C26. Line ordering: for an admissible intersection list of direction `I` (in range,
sorted by `(slow, fast)` plane and by `I`-coordinate within a ray, the intersections of a ray
alternating between closing and opening), `init_line` returns a list of lines, and the list
is sorted lexicographically by `(start[slow], start[fast], start[I])`, where
`(slow, fast)` is `(1, 2)` for `I = 0`, `(0, 2)` for `I = 1` and `(0, 1)` for `I = 2`. -/
theorem C26_line_ordering (I : Nat) (hI : I < 3) (extents : int3)
    (R : List (mesh_object_info α)) (hR : InRange extents R) (hS : RaySorted I R)
    (hA : RaysAlternate I R) :
    (∃ v : List (line α), init_line I [] extents R = some v ∧ v.Pairwise (line_le I)) ∧
    (index.slow 0, index.fast 0) = (1, 2) ∧ (index.slow 1, index.fast 1) = (0, 2) ∧
    (index.slow 2, index.fast 2) = (0, 1) := by
  refine ⟨?_, rfl, rfl, rfl⟩
  by_cases hne : extents.get I = 1
  · refine ⟨[], ?_, List.Pairwise.nil⟩
    unfold init_line
    rw [if_pos hne]
  · exact lines_sorted I hI extents R hR hS hA hne

/-- Witness of C26: direction x of `grid422` with `hits422`. -/
theorem C26_line_ordering_witness :
    (∃ v : List (line Int), init_line 0 [] grid422 hits422 = some v ∧
      v.Pairwise (line_le 0)) ∧
    (index.slow 0, index.fast 0) = (1, 2) ∧ (index.slow 1, index.fast 1) = (0, 2) ∧
    (index.slow 2, index.fast 2) = (0, 1) :=
  C26_line_ordering 0 (by decide) grid422 hits422 (by decide) (by decide) (by decide)

end ordering

/-! ### The views `chunk` and `stride` of a coefficient buffer -/

section views
variable {α : Type}

theorem chunk_aux_cons (fuel t : Nat) (l : List α) (hl : l ≠ []) :
    chunk_aux (fuel + 1) t l = l.take t :: chunk_aux fuel t (l.drop t) := by
  rw [chunk_aux]
  have : l.isEmpty = false := by
    cases l with
    | nil => exact absurd rfl hl
    | cons a r => rfl
  simp [this]

/-- The pieces of `chunk(t)` with the offset `off` and the width `w` of each piece kept: entry
`i * w + c` of the flattened view is entry `i * t + c + off` of the buffer. -/
theorem chunk_flat_get (t w off : Nat) (f : List α → List α)
    (hf : ∀ p : List α, p.length = t → (f p).length = w ∧ ∀ c, c < w → (f p)[c]? = p[c + off]?)
    (hw : w + off ≤ t) :
    ∀ (fuel : Nat) (l : List α) (i c : Nat), l.length ≤ fuel → c < w →
      (i + 1) * t ≤ l.length →
      ((chunk_aux fuel t l).flatMap f)[i * w + c]? = l[i * t + c + off]? := by
  intro fuel
  induction fuel with
  | zero =>
    intro l i c hl hc hi
    have h1 : (i + 1) * t = i * t + t := by rw [Nat.add_mul, Nat.one_mul]
    omega
  | succ fuel ih =>
    intro l i c hl hc hi
    have h1 : (i + 1) * t = i * t + t := by rw [Nat.add_mul, Nat.one_mul]
    have hne : l ≠ [] := by
      intro h
      rw [h] at hi
      simp only [List.length_nil] at hi
      omega
    have hlt : t ≤ l.length := by omega
    rw [chunk_aux_cons fuel t l hne, List.flatMap_cons]
    obtain ⟨hlen, hget⟩ := hf (l.take t) (by rw [List.length_take]; omega)
    cases i with
    | zero =>
      simp only [Nat.zero_mul, Nat.zero_add]
      rw [List.getElem?_append_left (by omega), hget c hc,
        List.getElem?_take_of_lt (by omega)]
    | succ j =>
      have h2 : (j + 1) * w + c = w + (j * w + c) := by rw [Nat.add_mul, Nat.one_mul]; omega
      have h3 : (j + 1) * t + c + off = t + (j * t + c + off) := by
        rw [Nat.add_mul, Nat.one_mul]; omega
      have h4 : (j + 1 + 1) * t = (j + 1) * t + t := by rw [Nat.add_mul, Nat.one_mul]
      rw [h2, List.getElem?_append_right (by omega), hlen, Nat.add_sub_cancel_left,
        ih (l.drop t) j c (by rw [List.length_drop]; omega) hc
          (by rw [List.length_drop]; omega),
        List.getElem?_drop, h3]

/-- Entry `i` of the view `stride(t)` is entry `i * t` of the buffer. -/
theorem stride_view_get (t : Nat) (ht : 1 ≤ t) :
    ∀ (fuel : Nat) (l : List α) (i : Nat), l.length ≤ fuel →
      ((chunk_aux fuel t l).filterMap List.head?)[i]? = l[i * t]? := by
  intro fuel
  induction fuel with
  | zero =>
    intro l i hl
    have : l = [] := List.length_eq_zero.1 (by omega)
    subst this
    simp [chunk_aux]
  | succ fuel ih =>
    intro l i hl
    cases l with
    | nil => simp [chunk_aux]
    | cons a r =>
      rw [chunk_aux_cons fuel t (a :: r) (by simp)]
      have hhead : ((a :: r).take t).head? = some a := by
        cases t with
        | zero => omega
        | succ n => rfl
      rw [List.filterMap_cons, hhead]
      cases i with
      | zero => simp
      | succ j =>
        have h1 : (j + 1) * t = t + j * t := by rw [Nat.add_mul, Nat.one_mul]; omega
        simp only [List.getElem?_cons_succ]
        rw [ih ((a :: r).drop t) j (by rw [List.length_drop]; simp only [List.length_cons] at hl ⊢; omega),
          List.getElem?_drop, h1]

theorem drop_one_piece (t : Nat) (p : List α) (hp : p.length = t) :
    (List.drop 1 p).length = t - 1 ∧ ∀ c, c < t - 1 → (List.drop 1 p)[c]? = p[c + 1]? := by
  refine ⟨by rw [List.length_drop, hp], ?_⟩
  intro c _
  rw [List.getElem?_drop, Nat.add_comm]

theorem take_piece (t : Nat) (p : List α) (hp : p.length = t) :
    (List.take (t - 1) p).length = t - 1 ∧
      ∀ c, c < t - 1 → (List.take (t - 1) p)[c]? = p[c + 0]? := by
  refine ⟨by rw [List.length_take, hp]; omega, ?_⟩
  intro c hc
  rw [List.getElem?_take_of_lt hc, Nat.add_zero]

theorem object_points_get (b : List α) (first stride col : Int) (i : Nat) :
    (object_points b first stride col)[i]?
      = (b[i]?).map (fun v => (first + stride * (i : Int), col, v)) := by
  unfold object_points
  rw [List.getElem?_map, List.getElem?_enum]
  cases b[i]? <;> rfl

theorem object_points_length (b : List α) (first stride col : Int) :
    (object_points b first stride col).length = b.length := by
  unfold object_points
  rw [List.length_map, List.enum_length]

end views

section object_sides
variable {α : Type} [CommRing α]

theorem dense_make_get (rows columns : Int) (n : Nat) (hn : (rows * columns).toNat = n)
    (flat : List α) (j : Nat) (hj : j < n) (hflat : j < flat.length) :
    (matrix.Dense.make rows columns flat).v[j]? = flat[j]? := by
  unfold matrix.Dense.make
  simp only [hn]
  rw [List.getElem?_append_left (by rw [List.length_take]; omega),
    List.getElem?_take_of_lt hj]

theorem lt_length_of_getElem? {β : Type} (l1 l2 : List β) (i j : Nat)
    (h : l1[i]? = l2[j]?) (hj : j < l2.length) : i < l1.length := by
  by_contra hcon
  rw [List.getElem?_eq_none (by omega), List.getElem?_eq_getElem hj] at h
  simp at h

theorem cell_index (r t i c : Nat) (hi : i < r) (hc : c + 1 < t) :
    i * (t - 1) + c < r * (t - 1) ∧ (i + 1) * t ≤ r * t := by
  have h1 : (i + 1) * (t - 1) ≤ r * (t - 1) := Nat.mul_le_mul_right _ hi
  have h2 : (i + 1) * t ≤ r * t := Nat.mul_le_mul_right _ hi
  rw [Nat.add_mul, Nat.one_mul] at h1
  exact ⟨by omega, h2⟩

/-- C28. Left object boundary assembly: for a line whose start is an object boundary with a
valid Dirichlet object, with `(r, t) = stencil.query(Dirichlet)`, `t ≥ 1`, and `left` the
buffer after `nbs` holding at least `r * t` coefficients, the left step of the constructor
succeeds, `leftMat` has `r` rows, `t - 1` columns and `r * (t - 1)` coefficients with
`leftMat[i][c] = left[i * t + c + 1]`, and exactly `r` entries are appended to `B`, the `i`-th
being `(ic(start) + (i + 1) * stride, object_coordinate, left[i * t])`; when the whole line is
assembled, its block carries these coefficients as its left matrix and `B` starts with these
entries. -/
theorem C28_left_object_assembly (dir : Nat) (m : mesh α) (stencil : Stencil α)
    (grid_bcs : bcs.Grid) (obj_bcs : bcs.Object) (c0 : List α) (st : Builders α) (l : line α)
    (obj : object_boundary α) (hobj : l.start.object = some obj)
    (hbc : object_bc obj_bcs obj.objectID = Except.ok bcs.Dirichlet)
    (left extra : List α)
    (hnbs : stencil.nbs (m.h dir) bcs.Dirichlet obj.psi false st.left st.extra
      = Except.ok (left, extra))
    (r t : Nat) (hr : (stencil.query bcs.Dirichlet).r = (r : Int))
    (ht : (stencil.query bcs.Dirichlet).t = (t : Int)) (ht1 : 1 ≤ t)
    (hlen : r * t ≤ left.length) :
    ∃ L a1 pts,
      assemble_left dir (m.h dir) stencil grid_bcs obj_bcs l.stride l.start
        ⟨l.end_.mesh_coordinate.get dir - l.start.mesh_coordinate.get dir + 1,
          l.end_.mesh_coordinate.get dir - l.start.mesh_coordinate.get dir + 1,
          ic m.extents l.start.mesh_coordinate, ic m.extents l.start.mesh_coordinate, st⟩
        = Except.ok (L, a1) ∧
      L.rows = (r : Int) ∧ L.columns = (t : Int) - 1 ∧ L.v.length = r * (t - 1) ∧
      (∀ i c, i < r → c + 1 < t → L.v[i * (t - 1) + c]? = left[i * t + c + 1]?) ∧
      a1.st.B = st.B ++ pts ∧ pts.length = r ∧
      (∀ i, i < r → ∃ v, left[i * t]? = some v ∧
        pts[i]? = some (ic m.extents l.start.mesh_coordinate + ((i : Int) + 1) * l.stride,
          obj.object_coordinate, v)) ∧
      (∀ st1, dirichlet_line m.extents l.start.mesh_coordinate dir grid_bcs = false →
        assemble_line dir m stencil grid_bcs obj_bcs c0 st l = Except.ok st1 →
        ∃ A pts2, st1.O = st.O ++ [A] ∧ A.left_boundary.v = L.v ∧
          A.left_boundary.rows = (r : Int) ∧ A.left_boundary.columns = (t : Int) - 1 ∧
          st1.B = st.B ++ pts ++ pts2) := by
  have hn : ((r : Int) * ((t : Int) - 1)).toNat = r * (t - 1) := by
    have : ((t : Int) - 1) = ((t - 1 : Nat) : Int) := by omega
    rw [this, ← Nat.cast_mul, Int.toNat_natCast]
  have hleft : assemble_left dir (m.h dir) stencil grid_bcs obj_bcs l.stride l.start
      ⟨l.end_.mesh_coordinate.get dir - l.start.mesh_coordinate.get dir + 1,
        l.end_.mesh_coordinate.get dir - l.start.mesh_coordinate.get dir + 1,
        ic m.extents l.start.mesh_coordinate, ic m.extents l.start.mesh_coordinate, st⟩
      = Except.ok
        (matrix.Dense.make (r : Int) ((t : Int) - 1)
            ((chunk t left).flatMap (List.drop 1)),
          { rows := l.end_.mesh_coordinate.get dir - l.start.mesh_coordinate.get dir + 1 - 1
            columns := l.end_.mesh_coordinate.get dir - l.start.mesh_coordinate.get dir + 1 - 1
            row_offset := ic m.extents l.start.mesh_coordinate + l.stride
            col_offset := ic m.extents l.start.mesh_coordinate + l.stride
            st := { st with
              left := left
              extra := extra
              B := st.B ++ object_points ((stride_view t left).take r)
                (ic m.extents l.start.mesh_coordinate + l.stride) l.stride
                obj.object_coordinate } }) := by
    unfold assemble_left
    rw [hobj]
    simp only
    rw [hbc]
    simp only
    rw [hnbs]
    simp only [hr, ht, Int.toNat_natCast]
  have hstride : ∀ i, i < r → ((stride_view t left).take r)[i]? = left[i * t]? := by
    intro i hi
    rw [List.getElem?_take_of_lt hi]
    exact stride_view_get t ht1 _ left i (le_refl _)
  have hin : ∀ i, i < r → i * t < left.length := by
    intro i hi
    have h2 : (i + 1) * t ≤ r * t := Nat.mul_le_mul_right _ hi
    rw [Nat.add_mul, Nat.one_mul] at h2
    omega
  have hflat : ∀ i c, i < r → c + 1 < t →
      ((chunk t left).flatMap (List.drop 1))[i * (t - 1) + c]? = left[i * t + c + 1]? := by
    intro i c hi hc
    exact chunk_flat_get t (t - 1) 1 (List.drop 1) (drop_one_piece t) (by omega) _ left i c
      (le_refl _) (by omega) (le_trans (cell_index r t i c hi hc).2 hlen)
  refine ⟨_, _, _, hleft, rfl, rfl, ?_, ?_, rfl, ?_, ?_, ?_⟩
  · unfold matrix.Dense.make
    simp only [hn]
    rw [List.length_append, List.length_take, List.length_replicate]
    omega
  · intro i c hi hc
    have hidx := cell_index r t i c hi hc
    have hsrc : i * t + c + 1 < left.length := by
      have := hidx.2
      rw [Nat.add_mul, Nat.one_mul] at this
      omega
    rw [dense_make_get _ _ _ hn _ _ hidx.1
      (lt_length_of_getElem? _ _ _ _ (hflat i c hi hc) hsrc), hflat i c hi hc]
  · rw [object_points_length, List.length_take]
    have h1 : r - 1 < (stride_view t left).length ∨ r = 0 := by
      by_cases h0 : r = 0
      · exact Or.inr h0
      · left
        exact lt_length_of_getElem? _ _ _ _
          (stride_view_get t ht1 _ left (r - 1) (le_refl _)) (hin (r - 1) (by omega))
    rcases h1 with h1 | h1 <;> omega
  · intro i hi
    have hv : left[i * t]? = some (left.get ⟨i * t, hin i hi⟩) :=
      List.getElem?_eq_getElem (hin i hi)
    refine ⟨_, hv, ?_⟩
    rw [object_points_get, hstride i hi, hv]
    simp only [Option.map_some', Option.some.injEq, Prod.mk.injEq, and_true]
    ring
  · intro st1 hskip hrun
    obtain ⟨L2, a1, R2, a2, hl2, hr2, hst1⟩ :=
      assemble_line_inv dir m stencil grid_bcs obj_bcs c0 st st1 l hskip hrun
    rw [hleft] at hl2
    simp only [Except.ok.injEq, Prod.mk.injEq] at hl2
    obtain ⟨hL, ha1⟩ := hl2
    subst hL ha1
    obtain ⟨_, _, hO2, pts2, hB2, _⟩ :=
      assemble_right_shape dir _ stencil grid_bcs obj_bcs _ _ _ _ _ _ hr2
    refine ⟨matrix.InnerBlock.make a2.columns a2.row_offset a2.col_offset l.stride
      (matrix.Dense.make (r : Int) ((t : Int) - 1) ((chunk t left).flatMap (List.drop 1)))
      (matrix.Circulant.make
        (a2.rows - (matrix.Dense.make (r : Int) ((t : Int) - 1)
          ((chunk t left).flatMap (List.drop 1))).rows - R2.rows) c0) R2,
      pts2, ?_, ?_, ?_, ?_, ?_⟩
    · rw [hst1, hO2]
    · rfl
    · rfl
    · rfl
    · rw [hst1]
      exact hB2

/-- C29. Right object boundary assembly: for a line whose end is an object boundary with a
valid Dirichlet object, with `(r, t) = stencil.query(Dirichlet)`, `t ≥ 1`, and `right` the
buffer after `nbs` holding at least `r * t` coefficients, the right step of the constructor
succeeds from any state `a` of the line, `rightMat` has `r` rows, `t - 1` columns and
`r * (t - 1)` coefficients with `rightMat[i][c] = right[i * t + c]` for `c < t - 1`, and
exactly `r` entries are appended to `B`, the `i`-th being
`(ic(end) - r * stride + i * stride, object_coordinate, right[i * t + t - 1])`. -/
theorem C29_right_object_assembly (dir : Nat) (m : mesh α) (stencil : Stencil α)
    (grid_bcs : bcs.Grid) (obj_bcs : bcs.Object) (a : Assembly α) (l : line α)
    (obj : object_boundary α) (hobj : l.end_.object = some obj)
    (hbc : object_bc obj_bcs obj.objectID = Except.ok bcs.Dirichlet)
    (right extra : List α)
    (hnbs : stencil.nbs (m.h dir) bcs.Dirichlet obj.psi true a.st.right a.st.extra
      = Except.ok (right, extra))
    (r t : Nat) (hr : (stencil.query bcs.Dirichlet).r = (r : Int))
    (ht : (stencil.query bcs.Dirichlet).t = (t : Int)) (ht1 : 1 ≤ t)
    (hlen : r * t ≤ right.length) :
    ∃ Rm a2 pts,
      assemble_right dir (m.h dir) stencil grid_bcs obj_bcs l.stride l.end_
        (ic m.extents l.end_.mesh_coordinate) a = Except.ok (Rm, a2) ∧
      Rm.rows = (r : Int) ∧ Rm.columns = (t : Int) - 1 ∧ Rm.v.length = r * (t - 1) ∧
      (∀ i c, i < r → c + 1 < t → Rm.v[i * (t - 1) + c]? = right[i * t + c]?) ∧
      a2.st.B = a.st.B ++ pts ∧ pts.length = r ∧
      (∀ i, i < r → ∃ v, right[i * t + t - 1]? = some v ∧
        pts[i]? = some (ic m.extents l.end_.mesh_coordinate - (r : Int) * l.stride
            + (i : Int) * l.stride, obj.object_coordinate, v)) := by
  have hn : ((r : Int) * ((t : Int) - 1)).toNat = r * (t - 1) := by
    have : ((t : Int) - 1) = ((t - 1 : Nat) : Int) := by omega
    rw [this, ← Nat.cast_mul, Int.toNat_natCast]
  have ht2 : ((t : Int) - 1).toNat = t - 1 := by omega
  have hright : assemble_right dir (m.h dir) stencil grid_bcs obj_bcs l.stride l.end_
      (ic m.extents l.end_.mesh_coordinate) a
      = Except.ok
        (matrix.Dense.make (r : Int) ((t : Int) - 1)
            ((chunk t right).flatMap (List.take (t - 1))),
          { a with
            rows := a.rows - 1
            columns := a.columns - 1
            st := { a.st with
              right := right
              extra := extra
              B := a.st.B ++ object_points ((stride_view t (right.drop (t - 1))).take r)
                (ic m.extents l.end_.mesh_coordinate - (r : Int) * l.stride) l.stride
                obj.object_coordinate } }) := by
    unfold assemble_right
    rw [hobj]
    simp only
    rw [hbc]
    simp only
    rw [hnbs]
    simp only [hr, ht, Int.toNat_natCast, ht2]
  have hin : ∀ i, i < r → i * t + t - 1 < right.length := by
    intro i hi
    have h2 : (i + 1) * t ≤ r * t := Nat.mul_le_mul_right _ hi
    rw [Nat.add_mul, Nat.one_mul] at h2
    omega
  have hstride : ∀ i, i < r →
      ((stride_view t (right.drop (t - 1))).take r)[i]? = right[i * t + t - 1]? := by
    intro i hi
    rw [List.getElem?_take_of_lt hi]
    have h1 := stride_view_get t ht1 _ (right.drop (t - 1)) i (le_refl _)
    have h2 : t - 1 + i * t = i * t + t - 1 := by omega
    rw [List.getElem?_drop, h2] at h1
    exact h1
  have hflat : ∀ i c, i < r → c + 1 < t →
      ((chunk t right).flatMap (List.take (t - 1)))[i * (t - 1) + c]? = right[i * t + c]? := by
    intro i c hi hc
    exact chunk_flat_get t (t - 1) 0 (List.take (t - 1)) (take_piece t) (by omega) _ right i c
      (le_refl _) (by omega) (le_trans (cell_index r t i c hi hc).2 hlen)
  refine ⟨_, _, _, hright, rfl, rfl, ?_, ?_, rfl, ?_, ?_⟩
  · unfold matrix.Dense.make
    simp only [hn]
    rw [List.length_append, List.length_take, List.length_replicate]
    omega
  · intro i c hi hc
    have hidx := cell_index r t i c hi hc
    have hsrc : i * t + c < right.length := by
      have := hidx.2
      rw [Nat.add_mul, Nat.one_mul] at this
      omega
    rw [dense_make_get _ _ _ hn _ _ hidx.1
      (lt_length_of_getElem? _ _ _ _ (hflat i c hi hc) hsrc), hflat i c hi hc]
  · rw [object_points_length, List.length_take]
    have h1 : r - 1 < (stride_view t (right.drop (t - 1))).length ∨ r = 0 := by
      by_cases h0 : r = 0
      · exact Or.inr h0
      · left
        have h2 := stride_view_get t ht1 _ (right.drop (t - 1)) (r - 1) (le_refl _)
        have h3 : t - 1 + (r - 1) * t = (r - 1) * t + t - 1 := by omega
        rw [List.getElem?_drop, h3] at h2
        exact lt_length_of_getElem? _ _ _ _ h2 (hin (r - 1) (by omega))
    rcases h1 with h1 | h1 <;> omega
  · intro i hi
    have hv : right[i * t + t - 1]? = some (right.get ⟨i * t + t - 1, hin i hi⟩) :=
      List.getElem?_eq_getElem (hin i hi)
    refine ⟨_, hv, ?_⟩
    rw [object_points_get, hstride i hi, hv]
    simp only [Option.map_some', Option.some.injEq, Prod.mk.injEq, and_true]
    ring

/-- Witness of C28: the second line of `mesh_cut12`, which starts at the object at cell 6,
with the Identity stencil (`r = 2`, `t = 3`). -/
theorem C28_left_object_assembly_witness :
    ∃ L a1 pts,
      assemble_left 0 (mesh_cut12.h 0) stencils.Identity dirichlet_x [bcs.Dirichlet] 1
        (cut 6 0 0 1 0 0) ⟨11 - 6 + 1, 11 - 6 + 1, 6, 6, builders_identity⟩
        = Except.ok (L, a1) ∧
      L.rows = 2 ∧ L.columns = 2 ∧ L.v.length = 4 ∧
      a1.st.B = builders_identity.B ++ pts ∧ pts.length = 2 :=
  match C28_left_object_assembly 0 mesh_cut12 stencils.Identity dirichlet_x [bcs.Dirichlet]
      [1] builders_identity ⟨1, cut 6 0 0 1 0 0, face 11 0 0⟩ ⟨1, 0, 0⟩ rfl (by rfl)
      [1, 0, 0, 0, 1, 0] [0, 0] (by rfl) 2 3 rfl rfl (by decide) (by decide) with
  | ⟨L, a1, pts, h1, h2, h3, h4, _, h6, h7, _⟩ => ⟨L, a1, pts, h1, h2, h3, h4, h6, h7⟩

/-- Witness of C29: the first line of `mesh_cut12`, which ends at the object at cell 5, with
the Identity stencil (`r = 2`, `t = 3`). -/
theorem C29_right_object_assembly_witness :
    ∃ Rm a2 pts,
      assemble_right 0 (mesh_cut12.h 0) stencils.Identity dirichlet_x [bcs.Dirichlet] 1
        (cut 5 0 0 0 0 1) 5 ⟨5, 6, 1, 0, builders_identity⟩ = Except.ok (Rm, a2) ∧
      Rm.rows = 2 ∧ Rm.columns = 2 ∧ Rm.v.length = 4 ∧
      a2.st.B = builders_identity.B ++ pts ∧ pts.length = 2 :=
  match C29_right_object_assembly 0 mesh_cut12 stencils.Identity dirichlet_x [bcs.Dirichlet]
      ⟨5, 6, 1, 0, builders_identity⟩ ⟨1, face 0 0 0, cut 5 0 0 0 0 1⟩ ⟨0, 0, 1⟩ rfl (by rfl)
      [0, 1, 0, 0, 0, 1] [0, 0] (by rfl) 2 3 rfl rfl (by decide) (by decide) with
  | ⟨Rm, a2, pts, h1, h2, h3, h4, _, h6, h7, _⟩ => ⟨Rm, a2, pts, h1, h2, h3, h4, h6, h7⟩


end object_sides

/-! ### Assignment through the fluid filter -/

section fluid
variable {α : Type}

theorem foldl_update_mem (val : α) :
    ∀ (gs : List Int) (D : Int → α) (g : Int),
      (gs.foldl (fun D g => Function.update D g val) D) g = if g ∈ gs then val else D g := by
  intro gs
  induction gs with
  | nil => intro D g; simp
  | cons a rest ih =>
    intro D g
    rw [List.foldl_cons, ih]
    by_cases h1 : g ∈ rest
    · simp [h1]
    · by_cases h2 : g = a
      · subst h2; simp [h1]
      · simp [h1, h2, Function.update_noteq h2]

theorem mem_fluid_indices (extents : int3) (S : List int3) (g : Int) :
    g ∈ fluid_indices extents S ↔
      (0 ≤ g ∧ g < size extents) ∧ g ∉ S.map (ic extents) := by
  unfold fluid_indices
  rw [List.mem_filter, List.mem_map]
  simp only [List.mem_range, decide_eq_true_eq]
  constructor
  · rintro ⟨⟨n, hn, rfl⟩, h2⟩
    exact ⟨⟨by omega, by omega⟩, h2⟩
  · rintro ⟨⟨h0, h1⟩, h2⟩
    exact ⟨⟨g.toNat, by omega, by omega⟩, h2⟩

theorem fluid_indices_length (extents : int3) (S : List int3) (h0 : 0 ≤ size extents)
    (hS : ∀ c ∈ S, in_cells extents c) (hnd : S.Nodup) :
    ((fluid_indices extents S).length : Int) = size extents - (S.length : Int) := by
  have hL : ((List.range (size extents).toNat).map (fun (g : Nat) => (g : Int))).Nodup :=
    List.Nodup.map (fun a b h => by simpa using h) (List.nodup_range _)
  have hT : (S.map (ic extents)).Nodup := by
    refine (List.nodup_map_iff_inj_on hnd).2 ?_
    intro a ha b hb hab
    exact ic_inj extents a b (hS a ha) (hS b hb) hab
  have hsplit := List.length_eq_length_filter_add
    (l := (List.range (size extents).toNat).map (fun (g : Nat) => (g : Int)))
    (fun g => decide (g ∈ S.map (ic extents)))
  have hperm : (((List.range (size extents).toNat).map (fun (g : Nat) => (g : Int))).filter
      (fun g => decide (g ∈ S.map (ic extents)))).Perm (S.map (ic extents)) := by
    rw [List.perm_ext_iff_of_nodup (List.Nodup.filter _ hL) hT]
    intro g
    rw [List.mem_filter, List.mem_map]
    simp only [List.mem_range, decide_eq_true_eq]
    constructor
    · exact fun h => h.2
    · intro hg
      refine ⟨?_, hg⟩
      obtain ⟨c, hc, rfl⟩ := List.mem_map.1 hg
      have := ic_range extents c (hS c hc)
      exact ⟨(ic extents c).toNat, by omega, by omega⟩
  have hlen := hperm.length_eq
  rw [List.length_map] at hlen
  have heq : (fluid_indices extents S).length
      = (((List.range (size extents).toNat).map (fun (g : Nat) => (g : Int))).filter
          (fun x => !decide (x ∈ S.map (ic extents)))).length := by
    unfold fluid_indices
    congr 1
    apply List.filter_congr
    intro x _
    simp only [decide_not]
  rw [List.length_map, List.length_range, hlen] at hsplit
  omega

/-- C23. Filtered assignment: for a grid with a list `S` of distinct solid cells, assigning a
value through the fluid filter writes the value at every cell that is not in `S`, leaves
every entry at a solid cell (and every entry that is not an index of the view) unchanged, the
indices of the view are pairwise distinct and their number is `mesh.size() - |S|`, and without
solid cells the view has every index of `[0, mesh.size())`. -/
theorem C23_filtered_assignment (extents : int3) (S : List int3) (h0 : 0 ≤ size extents)
    (hS : ∀ c ∈ S, in_cells extents c) (hnd : S.Nodup) (D : Int → α) (val : α) :
    (∀ c, in_cells extents c → c ∉ S → assign_fluid extents S D val (ic extents c) = val) ∧
    (∀ c ∈ S, assign_fluid extents S D val (ic extents c) = D (ic extents c)) ∧
    (∀ g, g ∉ fluid_indices extents S → assign_fluid extents S D val g = D g) ∧
    (fluid_indices extents S).Nodup ∧
    ((fluid_indices extents S).length : Int) = size extents - (S.length : Int) ∧
    fluid_indices extents []
      = (List.range (size extents).toNat).map (fun (g : Nat) => (g : Int)) := by
  refine ⟨?_, ?_, ?_, ?_, fluid_indices_length extents S h0 hS hnd, ?_⟩
  · intro c hc hcS
    unfold assign_fluid
    rw [foldl_update_mem, if_pos]
    rw [mem_fluid_indices]
    refine ⟨ic_range extents c hc, ?_⟩
    intro hmem
    obtain ⟨s, hs, hsc⟩ := List.mem_map.1 hmem
    exact hcS (ic_inj extents s c (hS s hs) hc hsc ▸ hs)
  · intro c hc
    unfold assign_fluid
    rw [foldl_update_mem, if_neg]
    rw [mem_fluid_indices]
    intro h
    exact h.2 (List.mem_map.2 ⟨c, hc, rfl⟩)
  · intro g hg
    unfold assign_fluid
    rw [foldl_update_mem, if_neg hg]
  · unfold fluid_indices
    exact List.Nodup.filter _
      (List.Nodup.map (fun a b h => by simpa using h) (List.nodup_range _))
  · unfold fluid_indices
    rw [List.filter_eq_self]
    intro g _
    simp

/-- Witness of C23: `grid422` with the two solid cells `(1, 0, 1)` and `(2, 0, 1)`. -/
theorem C23_filtered_assignment_witness :
    (∀ c, in_cells grid422 c → c ∉ [(⟨1, 0, 1⟩ : int3), ⟨2, 0, 1⟩] →
      assign_fluid grid422 [⟨1, 0, 1⟩, ⟨2, 0, 1⟩] ramp.D 1 (ic grid422 c) = 1) ∧
    (∀ c ∈ [(⟨1, 0, 1⟩ : int3), ⟨2, 0, 1⟩],
      assign_fluid grid422 [⟨1, 0, 1⟩, ⟨2, 0, 1⟩] ramp.D 1 (ic grid422 c)
        = ramp.D (ic grid422 c)) ∧
    (∀ g, g ∉ fluid_indices grid422 [⟨1, 0, 1⟩, ⟨2, 0, 1⟩] →
      assign_fluid grid422 [⟨1, 0, 1⟩, ⟨2, 0, 1⟩] ramp.D 1 g = ramp.D g) ∧
    (fluid_indices grid422 [⟨1, 0, 1⟩, ⟨2, 0, 1⟩]).Nodup ∧
    ((fluid_indices grid422 [⟨1, 0, 1⟩, ⟨2, 0, 1⟩]).length : Int)
      = size grid422 - (([(⟨1, 0, 1⟩ : int3), ⟨2, 0, 1⟩].length : Nat) : Int) ∧
    fluid_indices grid422 []
      = (List.range (size grid422).toNat).map (fun (g : Nat) => (g : Int)) :=
  C23_filtered_assignment grid422 [⟨1, 0, 1⟩, ⟨2, 0, 1⟩] (by decide) (by decide) (by decide)
    ramp.D 1


end fluid

/-! ### The linearisation and `dirichlet_line` -/

section linear

theorem ic_surj (extents : int3) (hy : 1 ≤ extents.y) (hz : 1 ≤ extents.z) (g : Int)
    (h0 : 0 ≤ g) (h1 : g < size extents) :
    ∃ c : int3, in_cells extents c ∧ ic extents c = g := by
  have hq0 : 0 ≤ g / extents.z := Int.ediv_nonneg h0 (by omega)
  have hq1 : g / extents.z < extents.x * extents.y :=
    Int.ediv_lt_of_lt_mul (by omega) (by unfold size at h1; exact h1)
  refine ⟨⟨g / extents.z / extents.y, g / extents.z % extents.y, g % extents.z⟩, ?_, ?_⟩
  · exact ⟨⟨Int.ediv_nonneg hq0 (by omega), Int.ediv_lt_of_lt_mul (by omega) hq1⟩,
      ⟨Int.emod_nonneg _ (by omega), Int.emod_lt_of_pos _ (by omega)⟩,
      ⟨Int.emod_nonneg _ (by omega), Int.emod_lt_of_pos _ (by omega)⟩⟩
  · unfold ic
    simp only
    have e1 := Int.emod_add_ediv g extents.z
    have e2 := Int.emod_add_ediv (g / extents.z) extents.y
    have e4 : g / extents.z / extents.y * extents.y * extents.z
        + g / extents.z % extents.y * extents.z
        = (g / extents.z % extents.y + extents.y * (g / extents.z / extents.y))
          * extents.z := by ring
    rw [e4, e2]
    linarith

/-- C38. Linearisation is a bijection: for extents with all components at least 1,
`IndexExtents::operator()` maps the cells of the grid injectively into `0 .. nx*ny*nz - 1`,
every integer of that range is the index of a cell, and moving one cell along direction `d`
changes the index by `stride(d)`. -/
theorem C38_linearization_bijection (extents : int3) (hx : 1 ≤ extents.x)
    (hy : 1 ≤ extents.y) (hz : 1 ≤ extents.z) :
    (∀ a b, in_cells extents a → in_cells extents b → ic extents a = ic extents b → a = b) ∧
    (∀ c, in_cells extents c → 0 ≤ ic extents c ∧ ic extents c ≤ size extents - 1) ∧
    (∀ g, 0 ≤ g → g ≤ size extents - 1 → ∃ c, in_cells extents c ∧ ic extents c = g) ∧
    (∀ (d : Nat) (c : int3), d < 3 →
      ic extents (c.set d (c.get d + 1)) = ic extents c + index.stride d extents) ∧
    size extents = extents.x * extents.y * extents.z := by
  refine ⟨fun a b ha hb h => ic_inj extents a b ha hb h, ?_, ?_, ?_, rfl⟩
  · intro c hc
    have := ic_range extents c hc
    omega
  · intro g h0 h1
    exact ic_surj extents hy hz g h0 (by omega)
  · intro d c hd
    rw [ic_shift d hd, one_mul]

/-- Witness of C38 on `grid422`. -/
theorem C38_linearization_bijection_witness :
    (∀ a b, in_cells grid422 a → in_cells grid422 b → ic grid422 a = ic grid422 b → a = b) ∧
    (∀ c, in_cells grid422 c → 0 ≤ ic grid422 c ∧ ic grid422 c ≤ size grid422 - 1) ∧
    (∀ g, 0 ≤ g → g ≤ size grid422 - 1 → ∃ c, in_cells grid422 c ∧ ic grid422 c = g) ∧
    (∀ (d : Nat) (c : int3), d < 3 →
      ic grid422 (c.set d (c.get d + 1)) = ic grid422 c + index.stride d grid422) ∧
    size grid422 = grid422.x * grid422.y * grid422.z :=
  C38_linearization_bijection grid422 (by decide) (by decide) (by decide)

/-- C39. `dirichlet_line` ignores the line's own direction: for a direction `dir` of the grid,
two boundary-condition sets that agree in every direction other than `dir` and two starts that
agree in every component other than `dir` give the same result. -/
theorem C39_dirichlet_line_own_direction (extents : int3) (dir : Nat) (hdir : dir < 3)
    (g1 g2 : bcs.Grid) (s1 s2 : int3)
    (hg : ∀ i, i < 3 → i ≠ dir → g1.get i = g2.get i)
    (hs : ∀ i, i < 3 → i ≠ dir → s1.get i = s2.get i) :
    dirichlet_line extents s1 dir g1 = dirichlet_line extents s2 dir g2 := by
  have hface : ∀ i, i < 3 → i ≠ dir →
      dirichlet_face extents s1 g1 i = dirichlet_face extents s2 g2 i := by
    intro i hi hne
    unfold dirichlet_face on_boundary
    rw [hg i hi hne, hs i hi hne]
  interval_cases dir
  · simp only [dirichlet_line, List.range_zero, List.foldl_nil, List.range', List.foldl_cons]
    rw [hface 1 (by omega) (by omega), hface 2 (by omega) (by omega)]
  · simp only [dirichlet_line, List.range_succ, List.range_zero, List.nil_append,
      List.foldl_cons, List.foldl_nil, List.range']
    rw [hface 0 (by omega) (by omega), hface 2 (by omega) (by omega)]
  · simp only [dirichlet_line, List.range_succ, List.range_zero, List.nil_append,
      List.cons_append, List.foldl_cons, List.foldl_nil, List.range']
    rw [hface 0 (by omega) (by omega), hface 1 (by omega) (by omega)]

/-- Witness of C39: direction x of `grid422`, conditions that differ on the x faces and starts
that differ in x. -/
theorem C39_dirichlet_line_own_direction_witness :
    dirichlet_line grid422 ⟨0, 1, 1⟩ 0 ⟨bcs.dd, bcs.fd, bcs.ff⟩
      = dirichlet_line grid422 ⟨3, 1, 1⟩ 0 ⟨bcs.ff, bcs.fd, bcs.ff⟩ :=
  C39_dirichlet_line_own_direction grid422 0 (by decide) ⟨bcs.dd, bcs.fd, bcs.ff⟩
    ⟨bcs.ff, bcs.fd, bcs.ff⟩ ⟨0, 1, 1⟩ ⟨3, 1, 1⟩
    (by intro i hi hne; interval_cases i <;> first | rfl | exact absurd rfl hne)
    (by intro i hi hne; interval_cases i <;> first | rfl | exact absurd rfl hne)

end linear

/-! ### Applying one InnerBlock -/

section one_block
variable {α : Type} [CommRing α]

/-- Assign with pairwise distinct rows: every write is found in its row afterwards. -/
theorem store_writes_eq_mem :
    ∀ (ws : List (Int × α)) (b : Int → α), (ws.map Prod.fst).Nodup →
      ∀ w ∈ ws, store_writes Op.eq ws b w.1 = w.2 := by
  intro ws
  induction ws with
  | nil => intro b _ w hw; simp at hw
  | cons a rest ih =>
    intro b hnd w hw
    have hstep : store_writes Op.eq (a :: rest) b
        = store_writes Op.eq rest (Function.update b a.1 a.2) := rfl
    rw [List.map_cons, List.nodup_cons] at hnd
    rw [hstep]
    rcases List.mem_cons.1 hw with h | h
    · subst h
      rw [store_writes_frame Op.eq rest _ _ hnd.1, Function.update_same]
    · exact ih _ hnd.2 w h

theorem mem_rows_iff (off σ rows g : Int) :
    g ∈ (List.range rows.toNat).map (fun (r : Nat) => off + (r : Int) * σ) ↔
      ∃ r : Int, 0 ≤ r ∧ r < rows ∧ g = off + r * σ := by
  rw [List.mem_map]
  simp only [List.mem_range]
  constructor
  · rintro ⟨n, hn, rfl⟩
    exact ⟨n, by omega, by omega, rfl⟩
  · rintro ⟨r, h0, h1, rfl⟩
    refine ⟨r.toNat, by omega, ?_⟩
    rw [Int.toNat_of_nonneg h0]

theorem nodup_rows (off σ rows : Int) (hσ : σ ≠ 0) :
    ((List.range rows.toNat).map (fun (r : Nat) => off + (r : Int) * σ)).Nodup := by
  refine List.Nodup.map ?_ (List.nodup_range _)
  intro a b hab
  have := stride_cancel σ a b hσ off hab
  omega

theorem innerBlock_row_list_iff (columns ro co σ : Int) (left : matrix.Dense α)
    (i : matrix.Circulant α) (right : matrix.Dense α)
    (hl : 0 ≤ left.rows) (hi : 0 ≤ i.rows) (hr : 0 ≤ right.rows) (g : Int) :
    (matrix.InnerBlock.make columns ro co σ left i right).has_row g ↔
      g ∈ (matrix.InnerBlock.make columns ro co σ left i right).row_list := by
  rw [innerBlock_rows_split columns ro co σ left i right hl hi hr g]
  unfold matrix.InnerBlock.row_list matrix.Dense.has_row matrix.Circulant.has_row
  rw [List.mem_append, List.mem_append, mem_rows_iff, mem_rows_iff, mem_rows_iff, or_assoc]

theorem innerBlock_row_list_nodup (columns ro co σ : Int) (left : matrix.Dense α)
    (i : matrix.Circulant α) (right : matrix.Dense α) (hσ : σ ≠ 0)
    (hl : 0 ≤ left.rows) (hi : 0 ≤ i.rows) (hr : 0 ≤ right.rows) :
    (matrix.InnerBlock.make columns ro co σ left i right).row_list.Nodup := by
  unfold matrix.InnerBlock.row_list matrix.InnerBlock.make
  simp only
  rw [List.nodup_append, List.nodup_append]
  refine ⟨⟨nodup_rows _ _ _ hσ, nodup_rows _ _ _ hσ, ?_⟩, nodup_rows _ _ _ hσ, ?_⟩
  · intro g h1 h2
    obtain ⟨r1, a0, a1, e1⟩ := (mem_rows_iff _ _ _ _).1 h1
    obtain ⟨r2, b0, b1, e2⟩ := (mem_rows_iff _ _ _ _).1 h2
    have e3 : ro + r1 * σ = ro + (left.rows + r2) * σ := by rw [← e1, e2]; ring
    have := stride_cancel σ _ _ hσ ro e3
    omega
  · intro g h1 h2
    obtain ⟨r2, b0, b1, e2⟩ := (mem_rows_iff _ _ _ _).1 h2
    rcases List.mem_append.1 h1 with h3 | h3
    · obtain ⟨r1, a0, a1, e1⟩ := (mem_rows_iff _ _ _ _).1 h3
      have e3 : ro + r1 * σ = ro + (left.rows + i.rows + r2) * σ := by rw [← e1, e2]; ring
      have := stride_cancel σ _ _ hσ ro e3
      omega
    · obtain ⟨r1, a0, a1, e1⟩ := (mem_rows_iff _ _ _ _).1 h3
      have e3 : ro + (left.rows + r1) * σ = ro + (left.rows + i.rows + r2) * σ := by
        have : ro + (left.rows + r1) * σ = g := by rw [e1]; ring
        rw [this, e2]; ring
      have := stride_cancel σ _ _ hσ ro e3
      omega

/-- C32, as stated, fails: the block `short_block` is built by the 7-argument constructor
with stride 1 and has no global row (`rows = 2 - 4 + 2 = 0`), yet applying it with the assign
op writes entry 1 of `b` (its left matrix has two rows from row 1): an entry that is no row of
the block is changed. -/
theorem C32_innerblock_apply_counterexample :
    short_block.stride ≠ 0 ∧ short_block.rows = 0 ∧ ¬ short_block.has_row 1 ∧
    zero_field.D 1 = 0 ∧ short_block.apply ramp.D zero_field.D Op.eq 1 = 10 := by
  refine ⟨by decide, by decide, ?_, rfl, by decide⟩
  rintro ⟨r, h0, h1, _⟩
  have : short_block.rows = 0 := by decide
  omega

/-- C32, amended. InnerBlock apply: applying an InnerBlock built by the 7-argument
constructor applies left, then interior, then right, each with the same op; when
`stride ≠ 0` and the three children have non-negative row counts, the global rows of the block
are exactly the rows its children write, each written by one row of one child, with the assign
op every such row ends up holding the value that child computed for it, and every entry of `b`
that is not a global row of the block is unchanged (for both ops). -/
theorem C32_innerblock_apply (columns ro co σ : Int) (left : matrix.Dense α)
    (i : matrix.Circulant α) (right : matrix.Dense α) (hσ : σ ≠ 0)
    (hl : 0 ≤ left.rows) (hi : 0 ≤ i.rows) (hr : 0 ≤ right.rows) (x b : Int → α) :
    (∀ op, (matrix.InnerBlock.make columns ro co σ left i right).apply x b op
      = (matrix.InnerBlock.make columns ro co σ left i right).right_boundary.apply x
          ((matrix.InnerBlock.make columns ro co σ left i right).interior.apply x
            ((matrix.InnerBlock.make columns ro co σ left i right).left_boundary.apply x b op)
            op) op) ∧
    (matrix.InnerBlock.make columns ro co σ left i right).row_list.Nodup ∧
    (∀ g, (matrix.InnerBlock.make columns ro co σ left i right).has_row g ↔
      g ∈ ((matrix.InnerBlock.make columns ro co σ left i right).writes x).map Prod.fst) ∧
    (∀ w ∈ (matrix.InnerBlock.make columns ro co σ left i right).writes x,
      (matrix.InnerBlock.make columns ro co σ left i right).apply x b Op.eq w.1 = w.2) ∧
    (∀ g, ¬ (matrix.InnerBlock.make columns ro co σ left i right).has_row g →
      ∀ op, (matrix.InnerBlock.make columns ro co σ left i right).apply x b op g = b g) := by
  have hnd := innerBlock_row_list_nodup columns ro co σ left i right hσ hl hi hr
  refine ⟨fun _ => rfl, hnd, ?_, ?_, ?_⟩
  · intro g
    rw [innerBlock_writes_keys]
    exact innerBlock_row_list_iff columns ro co σ left i right hl hi hr g
  · intro w hw
    rw [innerBlock_apply_writes]
    exact store_writes_eq_mem _ b (by rw [innerBlock_writes_keys]; exact hnd) w hw
  · intro g hg op
    apply innerBlock_apply_frame
    intro hmem
    exact hg ((innerBlock_row_list_iff columns ro co σ left i right hl hi hr g).2 hmem)

/-- Witness of the amended C32: an identity block of four rows. -/
theorem C32_innerblock_apply_witness :
    (1 : Int) ≠ 0 ∧
    (∀ w ∈ (matrix.InnerBlock.make 4 0 0 1 (matrix.Dense.make 2 3 [1, 0, 0, 0, 1, 0])
        (matrix.Circulant.make 0 [1]) (matrix.Dense.make 2 3 [0, 1, 0, 0, 0, 1])).writes ramp.D,
      (matrix.InnerBlock.make 4 0 0 1 (matrix.Dense.make 2 3 [1, 0, 0, 0, 1, 0])
        (matrix.Circulant.make 0 [1]) (matrix.Dense.make 2 3 [0, 1, 0, 0, 0, 1])).apply
          ramp.D zero_field.D Op.eq w.1 = w.2) :=
  ⟨by decide,
    (C32_innerblock_apply 4 0 0 1 (matrix.Dense.make 2 3 [1, 0, 0, 0, 1, 0])
      (matrix.Circulant.make 0 [1]) (matrix.Dense.make 2 3 [0, 1, 0, 0, 0, 1])
      (by decide) (by decide) (by decide) (by decide) ramp.D zero_field.D).2.2.2.1⟩

end one_block

/-! ### The entries of `N` and of `B` of one line -/

section entries
variable {α : Type} [CommRing α]

theorem mapM_ok_entries {β γ : Type} (f : β → Except Fault γ) :
    ∀ (l : List β) (ys : List γ), l.mapM f = Except.ok ys →
      ys.length = l.length ∧
        ∀ i, i < l.length → ∃ x y, l[i]? = some x ∧ f x = Except.ok y ∧ ys[i]? = some y := by
  intro l
  induction l with
  | nil =>
    intro ys h
    rw [List.mapM_nil] at h
    cases h
    exact ⟨rfl, fun i hi => by simp at hi⟩
  | cons a t ih =>
    intro ys h
    rw [List.mapM_cons] at h
    cases hfa : f a with
    | error e => rw [hfa] at h; cases h
    | ok v =>
      rw [hfa] at h
      cases ht : t.mapM f with
      | error e => rw [ht] at h; cases h
      | ok vs =>
        rw [ht] at h
        cases h
        obtain ⟨hlen, hget⟩ := ih vs ht
        refine ⟨by simp [hlen], ?_⟩
        intro i hi
        cases i with
        | zero => exact ⟨a, v, by simp, hfa, by simp⟩
        | succ j =>
          obtain ⟨x, y, h1, h2, h3⟩ := hget j (by simpa using hi)
          exact ⟨x, y, by simpa using h1, h2, by simpa using h3⟩

/-- The entries a successful loop over the Neumann extras adds to `N`. -/
theorem neumann_points_entries (extra : List α) (n first stride col : Int)
    (pts : List (Int × Int × α))
    (h : neumann_points extra n first stride col = Except.ok pts) :
    pts.length = n.toNat ∧
      ∀ i, i < n.toNat → ∃ v, extra[i]? = some v ∧
        pts[i]? = some (first + stride * (i : Int), col, v) := by
  unfold neumann_points at h
  obtain ⟨hlen, hget⟩ := mapM_ok_entries _ _ _ h
  rw [List.length_range] at hlen hget
  refine ⟨hlen, ?_⟩
  intro i hi
  obtain ⟨x, y, h1, h2, h3⟩ := hget i hi
  rw [List.getElem?_range hi] at h1
  cases h1
  cases hx : extra[i]? with
  | none => rw [hx] at h2; cases h2
  | some v =>
    rw [hx] at h2
    simp only [Except.ok.injEq] at h2
    subst h2
    exact ⟨v, rfl, h3⟩

theorem object_bc_ok (obj_bcs : bcs.Object) (id : Int) (bc : bcs.type)
    (h : object_bc obj_bcs id = Except.ok bc) : bc = bcs.Dirichlet := by
  unfold object_bc at h
  split at h
  · split at h
    · cases h
    · split at h
      · cases h
      · split at h
        · cases h; assumption
        · cases h
  · cases h

/-- The left step: what it adds to `N` and the buffers it leaves. -/
theorem assemble_left_N (dir : Nat) (h : α) (stencil : Stencil α) (grid_bcs : bcs.Grid)
    (obj_bcs : bcs.Object) (stride : Int) (start : boundary α) (a a1 : Assembly α)
    (L : matrix.Dense α)
    (hrun : assemble_left dir h stencil grid_bcs obj_bcs stride start a = Except.ok (L, a1)) :
    a1.st.right = a.st.right ∧
    (start.object = none →
      stencil.nbs h (grid_bcs.get dir).left 1 false a.st.left a.st.extra
        = Except.ok (a1.st.left, a1.st.extra)) ∧
    ∃ pts, a1.st.N = a.st.N ++ pts ∧
      (start.object = none → (grid_bcs.get dir).left = bcs.Neumann →
        pts.length = (stencil.query bcs.Neumann).nextra.toNat ∧
        ∀ i, i < (stencil.query bcs.Neumann).nextra.toNat → ∃ v, a1.st.extra[i]? = some v ∧
          pts[i]? = some (a.row_offset + stride * (i : Int), a.row_offset, v)) ∧
      (¬ (start.object = none ∧ (grid_bcs.get dir).left = bcs.Neumann) → pts = []) := by
  unfold assemble_left at hrun
  cases hobj : start.object with
  | some obj =>
    rw [hobj] at hrun
    simp only at hrun
    cases hbc : object_bc obj_bcs obj.objectID with
    | error e => rw [hbc] at hrun; simp at hrun
    | ok bc_t =>
      rw [hbc] at hrun
      simp only at hrun
      cases hnbs : stencil.nbs h bc_t obj.psi false a.st.left a.st.extra with
      | error e => rw [hnbs] at hrun; simp at hrun
      | ok lx =>
        obtain ⟨left, extra⟩ := lx
        rw [hnbs] at hrun
        simp only [Except.ok.injEq, Prod.mk.injEq] at hrun
        obtain ⟨hL, ha1⟩ := hrun
        subst hL ha1
        exact ⟨rfl, (fun hn => by cases hn), [], by simp, (fun hn => by cases hn), fun _ => rfl⟩
  | none =>
    rw [hobj] at hrun
    simp only at hrun
    cases hnbs : stencil.nbs h (grid_bcs.get dir).left 1 false a.st.left a.st.extra with
    | error e => rw [hnbs] at hrun; simp at hrun
    | ok lx =>
      obtain ⟨left, extra⟩ := lx
      rw [hnbs] at hrun
      simp only at hrun
      by_cases hD : (grid_bcs.get dir).left = bcs.Dirichlet
      · rw [if_pos hD] at hrun
        simp only [Except.ok.injEq, Prod.mk.injEq] at hrun
        obtain ⟨hL, ha1⟩ := hrun
        subst hL ha1
        refine ⟨rfl, fun _ => rfl, [], by simp, ?_, fun _ => rfl⟩
        intro _ hN
        rw [hD] at hN
        exact absurd hN (by decide)
      · rw [if_neg hD] at hrun
        by_cases hN : (grid_bcs.get dir).left = bcs.Neumann
        · rw [if_pos hN] at hrun
          cases hpts : neumann_points extra (stencil.query (grid_bcs.get dir).left).nextra
              a.row_offset stride a.row_offset with
          | error e => rw [hpts] at hrun; simp at hrun
          | ok pts =>
            rw [hpts] at hrun
            simp only [Except.ok.injEq, Prod.mk.injEq] at hrun
            obtain ⟨hL, ha1⟩ := hrun
            subst hL ha1
            refine ⟨rfl, fun _ => rfl, pts, rfl, ?_, ?_⟩
            · intro _ _
              rw [hN] at hpts
              exact neumann_points_entries _ _ _ _ _ _ hpts
            · intro hcon
              exact absurd ⟨rfl, hN⟩ hcon
        · rw [if_neg hN] at hrun
          simp only [Except.ok.injEq, Prod.mk.injEq] at hrun
          obtain ⟨hL, ha1⟩ := hrun
          subst hL ha1
          exact ⟨rfl, fun _ => rfl, [], by simp, fun _ h2 => absurd h2 hN, fun _ => rfl⟩

/-- The right step: what it adds to `N` and the buffers it leaves. -/
theorem assemble_right_N (dir : Nat) (h : α) (stencil : Stencil α) (grid_bcs : bcs.Grid)
    (obj_bcs : bcs.Object) (stride : Int) (end_ : boundary α) (ic_end : Int)
    (a a1 : Assembly α) (R : matrix.Dense α)
    (hrun : assemble_right dir h stencil grid_bcs obj_bcs stride end_ ic_end a
      = Except.ok (R, a1)) :
    (end_.object = none →
      stencil.nbs h (grid_bcs.get dir).right 1 true a.st.right a.st.extra
        = Except.ok (a1.st.right, a1.st.extra)) ∧
    ∃ pts, a1.st.N = a.st.N ++ pts ∧
      (end_.object = none → (grid_bcs.get dir).right = bcs.Neumann →
        pts.length = (stencil.query bcs.Neumann).nextra.toNat ∧
        ∀ i, i < (stencil.query bcs.Neumann).nextra.toNat → ∃ v, a1.st.extra[i]? = some v ∧
          pts[i]? = some (ic_end - ((stencil.query bcs.Neumann).nextra - 1) * stride
            + stride * (i : Int), ic_end, v)) ∧
      (¬ (end_.object = none ∧ (grid_bcs.get dir).right = bcs.Neumann) → pts = []) := by
  unfold assemble_right at hrun
  cases hobj : end_.object with
  | some obj =>
    rw [hobj] at hrun
    simp only at hrun
    cases hbc : object_bc obj_bcs obj.objectID with
    | error e => rw [hbc] at hrun; simp at hrun
    | ok bc_t =>
      rw [hbc] at hrun
      simp only at hrun
      cases hnbs : stencil.nbs h bc_t obj.psi true a.st.right a.st.extra with
      | error e => rw [hnbs] at hrun; simp at hrun
      | ok lx =>
        obtain ⟨right, extra⟩ := lx
        rw [hnbs] at hrun
        simp only [Except.ok.injEq, Prod.mk.injEq] at hrun
        obtain ⟨hL, ha1⟩ := hrun
        subst hL ha1
        exact ⟨(fun hn => by cases hn), [], by simp, (fun hn => by cases hn), fun _ => rfl⟩
  | none =>
    rw [hobj] at hrun
    simp only at hrun
    cases hnbs : stencil.nbs h (grid_bcs.get dir).right 1 true a.st.right a.st.extra with
    | error e => rw [hnbs] at hrun; simp at hrun
    | ok lx =>
      obtain ⟨right, extra⟩ := lx
      rw [hnbs] at hrun
      simp only at hrun
      by_cases hD : (grid_bcs.get dir).right = bcs.Dirichlet
      · rw [if_pos hD] at hrun
        simp only [Except.ok.injEq, Prod.mk.injEq] at hrun
        obtain ⟨hL, ha1⟩ := hrun
        subst hL ha1
        refine ⟨fun _ => rfl, [], by simp, ?_, fun _ => rfl⟩
        intro _ hN
        rw [hD] at hN
        exact absurd hN (by decide)
      · rw [if_neg hD] at hrun
        by_cases hN : (grid_bcs.get dir).right = bcs.Neumann
        · rw [if_pos hN] at hrun
          cases hpts : neumann_points extra (stencil.query (grid_bcs.get dir).right).nextra
              (ic_end - ((stencil.query (grid_bcs.get dir).right).nextra - 1) * stride)
              stride ic_end with
          | error e => rw [hpts] at hrun; simp at hrun
          | ok pts =>
            rw [hpts] at hrun
            simp only [Except.ok.injEq, Prod.mk.injEq] at hrun
            obtain ⟨hL, ha1⟩ := hrun
            subst hL ha1
            refine ⟨fun _ => rfl, pts, rfl, ?_, ?_⟩
            · intro _ _
              rw [hN] at hpts
              exact neumann_points_entries _ _ _ _ _ _ hpts
            · intro hcon
              exact absurd ⟨rfl, hN⟩ hcon
        · rw [if_neg hN] at hrun
          simp only [Except.ok.injEq, Prod.mk.injEq] at hrun
          obtain ⟨hL, ha1⟩ := hrun
          subst hL ha1
          exact ⟨fun _ => rfl, [], by simp, fun _ h2 => absurd h2 hN, fun _ => rfl⟩

/-- C31. Neumann entries: for a line that is not skipped and whose assembly succeeds, `N`
receives the entries of the left step followed by those of the right step. With a Neumann
domain face at the start the left step adds exactly the `exLeft` entries
`(ic(start) + stride * i, ic(start), extra[i])`, `extra` being the buffer the `nbs` call of the
left side returned; with a Neumann domain face at the end the right step adds exactly the
`exRight` entries `(ic(end) - (exRight - 1) * stride + stride * i, ic(end), extra[i])`, `extra`
being the buffer the `nbs` call of the right side returned; a boundary of any other kind (an
object, a Dirichlet or a free face) adds nothing to `N`. -/
theorem C31_neumann_entries (dir : Nat) (m : mesh α) (stencil : Stencil α)
    (grid_bcs : bcs.Grid) (obj_bcs : bcs.Object) (c : List α) (st st1 : Builders α)
    (l : line α)
    (hskip : dirichlet_line m.extents l.start.mesh_coordinate dir grid_bcs = false)
    (hrun : assemble_line dir m stencil grid_bcs obj_bcs c st l = Except.ok st1) :
    ∃ (extra_left : List α) (ptsL ptsR : List (Int × Int × α)),
      st1.N = st.N ++ ptsL ++ ptsR ∧
      (l.start.object = none → ∃ left,
        stencil.nbs (m.h dir) (grid_bcs.get dir).left 1 false st.left st.extra
          = Except.ok (left, extra_left)) ∧
      (l.end_.object = none →
        stencil.nbs (m.h dir) (grid_bcs.get dir).right 1 true st.right extra_left
          = Except.ok (st1.right, st1.extra)) ∧
      (l.start.object = none → (grid_bcs.get dir).left = bcs.Neumann →
        ptsL.length = (stencil.query bcs.Neumann).nextra.toNat ∧
        ∀ i, i < (stencil.query bcs.Neumann).nextra.toNat → ∃ v, extra_left[i]? = some v ∧
          ptsL[i]? = some (ic m.extents l.start.mesh_coordinate + l.stride * (i : Int),
            ic m.extents l.start.mesh_coordinate, v)) ∧
      (¬ (l.start.object = none ∧ (grid_bcs.get dir).left = bcs.Neumann) → ptsL = []) ∧
      (l.end_.object = none → (grid_bcs.get dir).right = bcs.Neumann →
        ptsR.length = (stencil.query bcs.Neumann).nextra.toNat ∧
        ∀ i, i < (stencil.query bcs.Neumann).nextra.toNat → ∃ v, st1.extra[i]? = some v ∧
          ptsR[i]? = some (ic m.extents l.end_.mesh_coordinate
              - ((stencil.query bcs.Neumann).nextra - 1) * l.stride + l.stride * (i : Int),
            ic m.extents l.end_.mesh_coordinate, v)) ∧
      (¬ (l.end_.object = none ∧ (grid_bcs.get dir).right = bcs.Neumann) → ptsR = []) := by
  obtain ⟨L, a1, R, a2, hleft, hright, hst1⟩ :=
    assemble_line_inv dir m stencil grid_bcs obj_bcs c st st1 l hskip hrun
  obtain ⟨hr1, hnbs1, ptsL, hN1, hL1, hL2⟩ :=
    assemble_left_N dir _ stencil grid_bcs obj_bcs _ _ _ _ _ hleft
  obtain ⟨hnbs2, ptsR, hN2, hR1, hR2⟩ :=
    assemble_right_N dir _ stencil grid_bcs obj_bcs _ _ _ _ _ _ hright
  simp only at hr1 hnbs1 hN1 hL1
  have e1 : st1.N = a2.st.N := by rw [hst1]
  have e2 : st1.right = a2.st.right := by rw [hst1]
  have e3 : st1.extra = a2.st.extra := by rw [hst1]
  refine ⟨a1.st.extra, ptsL, ptsR, by rw [e1, hN2, hN1], ?_, ?_, hL1, hL2, ?_, hR2⟩
  · intro hn
    exact ⟨a1.st.left, hnbs1 hn⟩
  · intro hn
    rw [e2, e3, ← hr1]
    exact hnbs2 hn
  · intro hn hN
    rw [e3]
    exact hR1 hn hN

/-- Witness of C31: the only line of `mesh811` in direction x, Neumann faces at both ends,
the Identity stencil (two extras per side). -/
theorem C31_neumann_entries_witness :
    ∃ (ptsL ptsR : List (Int × Int × Int)),
      builders_neumann8.N = builders_identity.N ++ ptsL ++ ptsR ∧
      ptsL.length = 2 ∧ ptsR.length = 2 :=
  match C31_neumann_entries 0 mesh811 stencils.Identity neumann3 [] [1] builders_identity
      builders_neumann8 ⟨1, face 0 0 0, face 7 0 0⟩ (by decide) (by rfl) with
  | ⟨_, ptsL, ptsR, h1, _, _, h4, _, h6, _⟩ =>
    ⟨ptsL, ptsR, h1, (h4 rfl rfl).1, (h6 rfl rfl).1⟩


theorem stride_take_length {β : Type} (t r : Nat) (ht : 1 ≤ t) (l : List β)
    (h : ∀ i, i < r → i * t < l.length) : ((stride_view t l).take r).length = r := by
  rw [List.length_take]
  by_cases h0 : r = 0
  · omega
  · have h1 : r - 1 < (stride_view t l).length :=
      lt_length_of_getElem? _ _ _ _ (stride_view_get t ht _ l (r - 1) (le_refl _))
        (h (r - 1) (by omega))
    omega

theorem object_points_rows_eq (b : List α) (first stride col : Int) :
    (object_points b first stride col).map Prod.fst
      = (List.range b.length).map (fun (i : Nat) => first + stride * (i : Int)) := by
  apply List.ext_getElem?
  intro i
  rw [List.getElem?_map, object_points_get, List.getElem?_map]
  by_cases hi : i < b.length
  · rw [List.getElem?_eq_getElem hi, List.getElem?_range hi]
    rfl
  · rw [List.getElem?_eq_none (by omega), List.getElem?_eq_none (by simp; omega)]
    rfl

/-- The right step at an object boundary: the rows of the entries it adds to `B`. -/
theorem assemble_right_object_B (dir : Nat) (h : α) (stencil : Stencil α)
    (grid_bcs : bcs.Grid) (obj_bcs : bcs.Object) (stride : Int) (end_ : boundary α)
    (ic_end : Int) (a a1 : Assembly α) (R : matrix.Dense α) (obj : object_boundary α)
    (hobj : end_.object = some obj)
    (hrun : assemble_right dir h stencil grid_bcs obj_bcs stride end_ ic_end a
      = Except.ok (R, a1))
    (r t : Nat) (hr : (stencil.query bcs.Dirichlet).r = (r : Int))
    (ht : (stencil.query bcs.Dirichlet).t = (t : Int)) (ht1 : 1 ≤ t)
    (hlen : r * t ≤ a1.st.right.length) :
    R.rows = (r : Int) ∧
    ∃ pts, a1.st.B = a.st.B ++ pts ∧
      pts.map Prod.fst
        = (List.range r).map (fun (i : Nat) => ic_end - (r : Int) * stride + stride * (i : Int)) := by
  unfold assemble_right at hrun
  rw [hobj] at hrun
  simp only at hrun
  cases hbc : object_bc obj_bcs obj.objectID with
  | error e => rw [hbc] at hrun; simp at hrun
  | ok bc_t =>
    have hD := object_bc_ok obj_bcs _ _ hbc
    subst hD
    rw [hbc] at hrun
    simp only at hrun
    cases hnbs : stencil.nbs h bcs.Dirichlet obj.psi true a.st.right a.st.extra with
    | error e => rw [hnbs] at hrun; simp at hrun
    | ok lx =>
      obtain ⟨right, extra⟩ := lx
      rw [hnbs] at hrun
      simp only [Except.ok.injEq, Prod.mk.injEq] at hrun
      obtain ⟨hL, ha1⟩ := hrun
      subst hL ha1
      simp only at hlen
      have ht2 : ((t : Int) - 1).toNat = t - 1 := by omega
      refine ⟨by simp only [matrix.Dense.make, hr], _, rfl, ?_⟩
      rw [object_points_rows_eq]
      simp only [hr, ht, Int.toNat_natCast, ht2]
      rw [stride_take_length t r ht1]
      intro i hi
      have h2 : (i + 1) * t ≤ r * t := Nat.mul_le_mul_right _ hi
      rw [Nat.add_mul, Nat.one_mul] at h2
      rw [List.length_drop]
      omega

/-- C33. Row and column alignment of an assembled line: for a line of direction `dir` that
is not skipped, whose two ends lie on one ray and whose assembly succeeds, with `n` its number
of cells, `L` the rows dropped at the start (one for an object or a Dirichlet face) and `R`
those dropped at the end, the emitted InnerBlock has the first global row
`ic(start) + L * stride`, `n - L - R` rows, which is the sum of the row counts of its three
children, the last global row `ic(end) - R * stride` and the last global column `ic(end)` less
one stride only if the end is an object; and when the end is an object and the buffer `right`
holds the `r * t` coefficients, the rows of the entries the right step adds to `B` are exactly
the global rows of the right child, in order. -/
theorem C33_line_alignment (dir : Nat) (hdir : dir < 3) (m : mesh α) (stencil : Stencil α)
    (grid_bcs : bcs.Grid) (obj_bcs : bcs.Object) (c : List α) (st st1 : Builders α)
    (l : line α)
    (hskip : dirichlet_line m.extents l.start.mesh_coordinate dir grid_bcs = false)
    (hrun : assemble_line dir m stencil grid_bcs obj_bcs c st l = Except.ok st1)
    (hst : l.stride = index.stride dir m.extents)
    (hs : l.end_.mesh_coordinate.get (index.slow dir)
      = l.start.mesh_coordinate.get (index.slow dir))
    (hf : l.end_.mesh_coordinate.get (index.fast dir)
      = l.start.mesh_coordinate.get (index.fast dir)) :
    ∃ A, st1.O = st.O ++ [A] ∧
      A.row_offset = ic m.extents l.start.mesh_coordinate
        + dropped l.start (grid_bcs.get dir).left * l.stride ∧
      A.rows = l.end_.mesh_coordinate.get dir - l.start.mesh_coordinate.get dir + 1
        - dropped l.start (grid_bcs.get dir).left - dropped l.end_ (grid_bcs.get dir).right ∧
      A.rows = A.left_boundary.rows + A.interior.rows + A.right_boundary.rows ∧
      A.row_offset + (A.rows - 1) * A.stride = ic m.extents l.end_.mesh_coordinate
        - dropped l.end_ (grid_bcs.get dir).right * l.stride ∧
      A.col_offset + (A.columns - 1) * A.stride = ic m.extents l.end_.mesh_coordinate
        - (if l.end_.object.isSome then 1 else 0) * l.stride ∧
      (∀ (obj : object_boundary α) (r t : Nat), l.end_.object = some obj →
        (stencil.query bcs.Dirichlet).r = (r : Int) →
        (stencil.query bcs.Dirichlet).t = (t : Int) → 1 ≤ t → r * t ≤ st1.right.length →
        ∃ ptsL ptsR, st1.B = st.B ++ ptsL ++ ptsR ∧
          ptsR.map Prod.fst = (List.range A.right_boundary.rows.toNat).map
            (fun (i : Nat) => A.right_boundary.row_offset
              + (i : Int) * A.right_boundary.stride)) := by
  obtain ⟨A, hO, hA, hC⟩ :=
    assemble_line_block dir m stencil grid_bcs obj_bcs c st st1 l hskip hrun
  have hgeo := ic_line_end dir hdir m.extents l hst hs hf
  obtain ⟨hAst, hro, hrows, _, _, _, _, hir, hrro, hrst⟩ := hA
  obtain ⟨hco, hcols⟩ := hC
  unfold line_cells at hrows hcols
  refine ⟨A, hO, hro, hrows, by omega, ?_, ?_, ?_⟩
  · rw [hro, hrows, hAst, hgeo]; ring
  · rw [hco, hcols, hAst, hgeo]
    unfold at_object
    ring
  · intro obj r t hobj hr ht ht1 hlen
    obtain ⟨L, a1, R, a2, hleft, hright, hst1⟩ :=
      assemble_line_inv dir m stencil grid_bcs obj_bcs c st st1 l hskip hrun
    obtain ⟨_, _, hO1, ptsL, hB1, _⟩ :=
      assemble_left_shape dir _ stencil grid_bcs obj_bcs _ _ _ _ _ hleft
    obtain ⟨_, _, hO2, _⟩ :=
      assemble_right_shape dir _ stencil grid_bcs obj_bcs _ _ _ _ _ _ hright
    have e2 : st1.right = a2.st.right := by rw [hst1]
    rw [e2] at hlen
    obtain ⟨hRrows, ptsR, hB2, hrowsR⟩ :=
      assemble_right_object_B dir _ stencil grid_bcs obj_bcs _ _ _ _ _ _ obj hobj hright
        r t hr ht ht1 hlen
    simp only at hB1 hO1
    have hOeq : st1.O = st.O ++
        [matrix.InnerBlock.make a2.columns a2.row_offset a2.col_offset l.stride L
          (matrix.Circulant.make (a2.rows - L.rows - R.rows) c) R] := by
      rw [hst1, hO2, hO1]
    rw [hO] at hOeq
    have hAeq := List.append_cancel_left hOeq
    simp only [List.cons.injEq, and_true] at hAeq
    have hRr : A.right_boundary.rows = (r : Int) := by rw [hAeq]; exact hRrows
    have hd : dropped l.end_ (grid_bcs.get dir).right = 1 := by
      unfold dropped; rw [hobj]; rfl
    refine ⟨ptsL, ptsR, by rw [hst1]; simp only; rw [hB2, hB1], ?_⟩
    rw [hrowsR, hRr, Int.toNat_natCast]
    apply List.map_congr_left
    intro i _
    rw [hrro, hrst, hRr, hrows, hro, hAst, hgeo, hd]
    ring


/-- Witness of C33: the first line of `mesh_cut12`, from the Dirichlet face `x = 0` to the
object at cell 5: first row 1, four rows, last row `5 - 1`, last column `5 - 1`. -/
theorem C33_line_alignment_witness :
    ∃ A, builders_cut12_first.O = builders_identity.O ++ [A] ∧ A.row_offset = 1 ∧
      A.rows = 4 ∧ A.rows = A.left_boundary.rows + A.interior.rows + A.right_boundary.rows ∧
      A.row_offset + (A.rows - 1) * A.stride = 5 - 1 ∧
      A.col_offset + (A.columns - 1) * A.stride = 5 - 1 :=
  (C33_line_alignment 0 (by decide) mesh_cut12 stencils.Identity dirichlet_x [bcs.Dirichlet]
    [1] builders_identity builders_cut12_first ⟨1, face 0 0 0, cut 5 0 0 0 0 1⟩
    (by decide) (by rfl) (by decide) (by decide) (by decide)).imp
    (fun _ h => ⟨h.1, h.2.1, h.2.2.1, h.2.2.2.1, h.2.2.2.2.1, h.2.2.2.2.2.1⟩)


end entries

/-! ### Entries the derivative never writes -/

section apply_frame
variable {α : Type} [CommRing α]

theorem line_on_ray (I : Nat) (hI : I < 3) (extents : int3) (R : List (mesh_object_info α))
    (l : line α) (hl : LineOK I extents R l) :
    l.stride = index.stride I extents ∧
    l.end_.mesh_coordinate.get (index.slow I) = l.start.mesh_coordinate.get (index.slow I) ∧
    l.end_.mesh_coordinate.get (index.fast I)
      = l.start.mesh_coordinate.get (index.fast I) := by
  obtain ⟨hst, s, f, _, _, hstart, hend⟩ := hl
  have hS : l.start.mesh_coordinate.get (index.slow I) = s ∧
      l.start.mesh_coordinate.get (index.fast I) = f := by
    rcases hstart with h | ⟨k, m, _, _, hms, hmf, h⟩
    · rw [h]; exact ⟨left_point_slow I hI s f, left_point_fast I hI s f⟩
    · rw [h]; exact ⟨hms, hmf⟩
  have hE : l.end_.mesh_coordinate.get (index.slow I) = s ∧
      l.end_.mesh_coordinate.get (index.fast I) = f := by
    rcases hend with h | ⟨k, m, _, _, hms, hmf, h⟩
    · rw [h]; exact ⟨right_point_slow I hI extents s f, right_point_fast I hI extents s f⟩
    · rw [h]; exact ⟨hms, hmf⟩
  exact ⟨hst, by rw [hE.1, hS.1], by rw [hE.2, hS.2]⟩

/-- The rows of the entries one line adds to `B` and to `N`, relative to its block. -/
theorem assemble_line_rows (dir : Nat) (m : mesh α) (stencil : Stencil α)
    (grid_bcs : bcs.Grid) (obj_bcs : bcs.Object) (c : List α) (st st1 : Builders α)
    (l : line α)
    (hskip : dirichlet_line m.extents l.start.mesh_coordinate dir grid_bcs = false)
    (hrun : assemble_line dir m stencil grid_bcs obj_bcs c st l = Except.ok st1)
    (hgeo : ic m.extents l.end_.mesh_coordinate = ic m.extents l.start.mesh_coordinate
      + l.stride * (l.end_.mesh_coordinate.get dir - l.start.mesh_coordinate.get dir)) :
    ∃ A ptsB ptsN, st1.O = st.O ++ [A] ∧ st1.B = st.B ++ ptsB ∧ st1.N = st.N ++ ptsN ∧
      BlockOfLine m.extents dir grid_bcs l A ∧
      (∀ p ∈ ptsB, p.1 ∈ A.row_list) ∧
      (∀ p ∈ ptsN, (stencil.query bcs.Neumann).nextra ≤ A.rows → A.has_row p.1) := by
  rcases assemble_line_shape dir m stencil grid_bcs obj_bcs c st st1 l hrun with
    ⟨h1, _⟩ | ⟨_, A, ptsB, hO, hA, hB, hPB⟩
  · rw [hskip] at h1; simp at h1
  · obtain ⟨L, a1, R, a2, hleft, hright, hst1⟩ :=
      assemble_line_inv dir m stencil grid_bcs obj_bcs c st st1 l hskip hrun
    obtain ⟨_, _, ptsL, hN1, hL1, hL2⟩ :=
      assemble_left_N dir _ stencil grid_bcs obj_bcs _ _ _ _ _ hleft
    obtain ⟨_, ptsR, hN2, hR1, hR2⟩ :=
      assemble_right_N dir _ stencil grid_bcs obj_bcs _ _ _ _ _ _ hright
    simp only at hN1 hL1
    have e1 : st1.N = a2.st.N := by rw [hst1]
    refine ⟨A, ptsB, ptsL ++ ptsR, hO, hB, by rw [e1, hN2, hN1, List.append_assoc], hA,
      fun p hp => hPB p hp hgeo, ?_⟩
    obtain ⟨hAst, hro, hrows, _⟩ := hA
    unfold line_cells at hrows
    intro p hp hex
    rcases List.mem_append.1 hp with h | h
    · by_cases hcase : l.start.object = none ∧ (grid_bcs.get dir).left = bcs.Neumann
      · obtain ⟨hlen, hget⟩ := hL1 hcase.1 hcase.2
        obtain ⟨i, hi, hpi⟩ := List.getElem_of_mem h
        obtain ⟨v, _, hv⟩ := hget i (by omega)
        rw [List.getElem?_eq_getElem hi, hpi] at hv
        simp only [Option.some.injEq] at hv
        have hd : dropped l.start (grid_bcs.get dir).left = 0 := by
          unfold dropped
          rw [hcase.1, hcase.2]
          rfl
        refine ⟨i, by omega, by omega, ?_⟩
        rw [hv, hro, hAst, hd]
        ring
      · rw [hL2 hcase] at h
        simp at h
    · by_cases hcase : l.end_.object = none ∧ (grid_bcs.get dir).right = bcs.Neumann
      · obtain ⟨hlen, hget⟩ := hR1 hcase.1 hcase.2
        obtain ⟨i, hi, hpi⟩ := List.getElem_of_mem h
        obtain ⟨v, _, hv⟩ := hget i (by omega)
        rw [List.getElem?_eq_getElem hi, hpi] at hv
        simp only [Option.some.injEq] at hv
        have hd : dropped l.end_ (grid_bcs.get dir).right = 0 := by
          unfold dropped
          rw [hcase.1, hcase.2]
          rfl
        have hdl : 0 ≤ dropped l.start (grid_bcs.get dir).left := by
          rcases dropped_cases l.start (grid_bcs.get dir).left with h5 | h5 <;> omega
        refine ⟨A.rows - (stencil.query bcs.Neumann).nextra + i, by omega, by omega, ?_⟩
        rw [hv, hro, hAst, hrows, hd, hgeo]
        ring
      · rw [hR2 hcase] at h
        simp at h

theorem assemble_lines_rows (dir : Nat) (m : mesh α) (stencil : Stencil α)
    (grid_bcs : bcs.Grid) (obj_bcs : bcs.Object) (c : List α) :
    ∀ (ls : List (line α)) (st st1 : Builders α),
      assemble_lines dir m stencil grid_bcs obj_bcs c st ls = Except.ok st1 →
      (∀ l ∈ ls, ic m.extents l.end_.mesh_coordinate = ic m.extents l.start.mesh_coordinate
          + l.stride * (l.end_.mesh_coordinate.get dir - l.start.mesh_coordinate.get dir)) →
      ∃ As, st1.O = st.O ++ As ∧
        (∀ A ∈ As, ∃ l ∈ ls, BlockOfLine m.extents dir grid_bcs l A) ∧
        (∀ p ∈ st1.B, p ∈ st.B ∨ ∃ A ∈ As, p.1 ∈ A.row_list) ∧
        (∀ p ∈ st1.N, p ∈ st.N ∨
          ∃ A ∈ As, ((stencil.query bcs.Neumann).nextra ≤ A.rows → A.has_row p.1)) := by
  intro ls
  induction ls with
  | nil =>
    intro st st1 hrun _
    unfold assemble_lines at hrun
    simp only [Except.ok.injEq] at hrun
    subst hrun
    exact ⟨[], by simp, by simp, fun p hp => Or.inl hp, fun p hp => Or.inl hp⟩
  | cons l ls ih =>
    intro st st1 hrun hgeo
    unfold assemble_lines at hrun
    cases hline : assemble_line dir m stencil grid_bcs obj_bcs c st l with
    | error e => rw [hline] at hrun; simp at hrun
    | ok st2 =>
      rw [hline] at hrun
      simp only at hrun
      obtain ⟨As, hO, hblk, hB, hN⟩ :=
        ih st2 st1 hrun (fun l1 hl1 => hgeo l1 (List.mem_cons_of_mem _ hl1))
      by_cases hskip : dirichlet_line m.extents l.start.mesh_coordinate dir grid_bcs = true
      · have hst : st2 = st := by
          unfold assemble_line at hline
          rw [if_pos hskip] at hline
          simp only [Except.ok.injEq] at hline
          exact hline.symm
        subst hst
        refine ⟨As, hO, ?_, hB, hN⟩
        intro A hA
        obtain ⟨l1, hl1, h1⟩ := hblk A hA
        exact ⟨l1, List.mem_cons_of_mem _ hl1, h1⟩
      · have hskip2 : dirichlet_line m.extents l.start.mesh_coordinate dir grid_bcs = false := by
          simpa using hskip
        obtain ⟨A, ptsB, ptsN, hO0, hB0, hN0, hA, hPB, hPN⟩ :=
          assemble_line_rows dir m stencil grid_bcs obj_bcs c st st2 l hskip2 hline
            (hgeo l (List.mem_cons_self _ _))
        refine ⟨A :: As, by rw [hO, hO0]; simp, ?_, ?_, ?_⟩
        · intro A1 hA1
          rcases List.mem_cons.1 hA1 with h | h
          · subst h
            exact ⟨l, List.mem_cons_self _ _, hA⟩
          · obtain ⟨l1, hl1, h1⟩ := hblk A1 h
            exact ⟨l1, List.mem_cons_of_mem _ hl1, h1⟩
        · intro p hp
          rcases hB p hp with h | ⟨A1, hA1, h⟩
          · rw [hB0] at h
            rcases List.mem_append.1 h with h2 | h2
            · exact Or.inl h2
            · exact Or.inr ⟨A, List.mem_cons_self _ _, hPB p h2⟩
          · exact Or.inr ⟨A1, List.mem_cons_of_mem _ hA1, h⟩
        · intro p hp
          rcases hN p hp with h | ⟨A1, hA1, h⟩
          · rw [hN0] at h
            rcases List.mem_append.1 h with h2 | h2
            · exact Or.inl h2
            · exact Or.inr ⟨A, List.mem_cons_self _ _, hPN p h2⟩
          · exact Or.inr ⟨A1, List.mem_cons_of_mem _ hA1, h⟩

/-- C37. Derivative apply frame: for a derivative constructed on a mesh, in which every block
has non-negative row counts of its left, interior and right child (every line has at least
`rLeft + rRight` rows) and at least as many rows as the stencil has Neumann extras, applying
it, with or without Neumann data and with either op, leaves `du.D` unchanged at every index
that is not a global row of some InnerBlock of `O`, and leaves the boundary arrays `Rx`, `Ry`,
`Rz` of `du` as they are. -/
theorem C37_derivative_apply_frame (dir : Nat) (hdir : dir < 3) (extents : int3)
    (h : Nat → α) (R : Nat → List (mesh_object_info α)) (m : mesh α)
    (hm : mesh.make extents h R = some m)
    (stencil : Stencil α) (grid_bcs : bcs.Grid) (obj_bcs : bcs.Object) (d : derivative α)
    (hd : derivative.make dir m stencil grid_bcs obj_bcs = Except.ok d)
    (hrows : ∀ A ∈ d.O, 0 ≤ A.left_boundary.rows ∧ 0 ≤ A.interior.rows ∧
      0 ≤ A.right_boundary.rows ∧ (stencil.query bcs.Neumann).nextra ≤ A.rows)
    (u nu du : scalar α) (op : Op) (g : Int) (hg : ∀ A ∈ d.O, ¬ A.has_row g) :
    (d.apply u du op).D g = du.D g ∧ (d.apply_neumann u nu du op).D g = du.D g ∧
    (d.apply u du op).Rx = du.Rx ∧ (d.apply u du op).Ry = du.Ry ∧
    (d.apply u du op).Rz = du.Rz ∧
    (d.apply_neumann u nu du op).Rx = du.Rx ∧ (d.apply_neumann u nu du op).Ry = du.Ry ∧
    (d.apply_neumann u nu du op).Rz = du.Rz := by
  obtain ⟨hext, hlines⟩ := mesh_make_lines extents h R m hm
  have hOK := init_line_lineOK dir hdir extents (R dir) (m.lines dir) (hlines dir hdir)
  have hshape : ∃ As, d.O = As ∧
      (∀ A ∈ As, ∃ l ∈ m.lines dir, BlockOfLine m.extents dir grid_bcs l A) ∧
      (∀ p ∈ d.B.points, ∃ A ∈ As, p.1 ∈ A.row_list) ∧
      (∀ p ∈ d.N.points,
        ∃ A ∈ As, ((stencil.query bcs.Neumann).nextra ≤ A.rows → A.has_row p.1)) := by
    unfold derivative.make at hd
    simp only at hd
    cases hrun : assemble_lines dir m stencil grid_bcs obj_bcs
        (stencil.interior (m.h dir) (List.replicate (2 * stencil.query_max.p + 1).toNat 0))
        { left := List.replicate (stencil.query_max.r * stencil.query_max.t).toNat 0
          right := List.replicate (stencil.query_max.r * stencil.query_max.t).toNat 0
          extra := List.replicate stencil.query_max.nextra.toNat 0
          B := [], O := [], N := [] } (m.lines dir) with
    | error e => rw [hrun] at hd; simp at hd
    | ok st =>
      rw [hrun] at hd
      simp only [Except.ok.injEq] at hd
      subst hd
      obtain ⟨As, hO, hblk, hB, hN⟩ :=
        assemble_lines_rows dir m stencil grid_bcs obj_bcs _ _ _ _ hrun (by
          intro l hl
          obtain ⟨hst, hes, hef⟩ := line_on_ray dir hdir extents (R dir) l (hOK l hl)
          rw [hext]
          exact ic_line_end dir hdir extents l hst hes hef)
      simp only [List.nil_append] at hO
      refine ⟨As, hO, hblk, ?_, ?_⟩
      · intro p hp
        rcases hB p hp with h1 | h1
        · simp at h1
        · exact h1
      · intro p hp
        rcases hN p hp with h1 | h1
        · simp at h1
        · exact h1
  obtain ⟨As, hAs, hblk, hB, hN⟩ := hshape
  subst hAs
  have hsub : ∀ A ∈ d.O, ∀ x, x ∈ A.row_list → A.has_row x := by
    intro A hA x hx
    obtain ⟨l, _, hlA⟩ := hblk A hA
    obtain ⟨h1, h2, h3, _⟩ := hrows A hA
    have hir := hlA.2.2.2.2.2.2.2.1
    exact row_list_has_row m.extents dir grid_bcs l A hlA ⟨h1, by omega, h3, by omega⟩ x hx
  have hnot : g ∉ matrix.Block.row_list d.O := by
    intro hmem
    unfold matrix.Block.row_list at hmem
    rw [List.mem_flatMap] at hmem
    obtain ⟨A, hA, hgA⟩ := hmem
    exact hg A hA (hsub A hA g hgA)
  have h1 : (d.apply u du op).D g = du.D g := by
    rw [derivative_apply_D, csr_apply_frame, block_apply_frame _ _ _ _ _ hnot]
    intro p hp hpg
    obtain ⟨A, hA, hpA⟩ := hB p hp
    exact hg A hA (hpg ▸ hsub A hA _ hpA)
  have h2 : (d.apply_neumann u nu du op).D g = du.D g := by
    show d.N.apply nu.D (d.apply u du op).D g = du.D g
    rw [csr_apply_frame, h1]
    intro p hp hpg
    obtain ⟨A, hA, hpA⟩ := hN p hp
    exact hg A hA (hpg ▸ hpA (hrows A hA).2.2.2)
  have h3 : d.apply u du op
      = { du with D := d.B.apply (u.R d.dir) (matrix.Block.apply d.O u.D du.D op) } :=
    derivative_apply_eq d u du op
  refine ⟨h1, h2, ?_, ?_, ?_, ?_, ?_, ?_⟩
  · rw [h3]
  · rw [h3]
  · rw [h3]
  · show (d.apply u du op).Rx = du.Rx
    rw [h3]
  · show (d.apply u du op).Ry = du.Ry
    rw [h3]
  · show (d.apply u du op).Rz = du.Rz
    rw [h3]

/-- Witness of C37: the derivative on the grid 8 x 1 x 1 with Neumann faces and the Identity
stencil, at the index 100, which is no row of its block. -/
theorem C37_derivative_apply_frame_witness :
    mesh.make ⟨8, 1, 1⟩ (fun _ => (1 : Int)) (fun _ => []) = some mesh811 ∧
    derivative.make 0 mesh811 stencils.Identity neumann3 [] = Except.ok derivative_neumann8 ∧
    ((derivative_neumann8.apply ramp ramp_other Op.eq).D 100 = ramp_other.D 100 ∧
      (derivative_neumann8.apply_neumann ramp ramp ramp_other Op.eq).D 100 = ramp_other.D 100 ∧
      (derivative_neumann8.apply ramp ramp_other Op.eq).Rx = ramp_other.Rx ∧
      (derivative_neumann8.apply ramp ramp_other Op.eq).Ry = ramp_other.Ry ∧
      (derivative_neumann8.apply ramp ramp_other Op.eq).Rz = ramp_other.Rz ∧
      (derivative_neumann8.apply_neumann ramp ramp ramp_other Op.eq).Rx = ramp_other.Rx ∧
      (derivative_neumann8.apply_neumann ramp ramp ramp_other Op.eq).Ry = ramp_other.Ry ∧
      (derivative_neumann8.apply_neumann ramp ramp ramp_other Op.eq).Rz = ramp_other.Rz) :=
  ⟨rfl, by rfl,
    C37_derivative_apply_frame 0 (by decide) ⟨8, 1, 1⟩ (fun _ => 1) (fun _ => []) mesh811 rfl
      stencils.Identity neumann3 [] derivative_neumann8 (by rfl) (by decide)
      ramp ramp ramp_other Op.eq 100 (by
        intro A hA
        have hA2 : A ∈ [matrix.InnerBlock.make 8 0 0 1 (matrix.Dense.make 2 3 [-1, 0, 0, -1, 1, 0])
            (matrix.Circulant.make 4 [1]) (matrix.Dense.make 2 3 [0, 1, -1, 0, 0, -1])] := hA
        rw [List.mem_singleton] at hA2
        subst hA2
        rintro ⟨r, h0, h1, h2⟩
        have e1 : (matrix.InnerBlock.make 8 0 0 1 (matrix.Dense.make 2 3 [-1, 0, 0, -1, 1, (0 : Int)])
            (matrix.Circulant.make 4 [1]) (matrix.Dense.make 2 3 [0, 1, -1, 0, 0, -1])).rows = 8 := by
          decide
        have e2 : (matrix.InnerBlock.make 8 0 0 1 (matrix.Dense.make 2 3 [-1, 0, 0, -1, 1, (0 : Int)])
            (matrix.Circulant.make 4 [1]) (matrix.Dense.make 2 3 [0, 1, -1, 0, 0, -1])).row_offset = 0 :=
          rfl
        have e3 : (matrix.InnerBlock.make 8 0 0 1 (matrix.Dense.make 2 3 [-1, 0, 0, -1, 1, (0 : Int)])
            (matrix.Circulant.make 4 [1]) (matrix.Dense.make 2 3 [0, 1, -1, 0, 0, -1])).stride = 1 :=
          rfl
        rw [e1] at h1
        rw [e2, e3] at h2
        omega)⟩


end apply_frame

/-! ### A proof rule for `init_line` on arbitrary intersection lists -/

section any_rule
variable {α : Type}

/-- The `while` loop of one ray under an invariant `J` of the remaining intersections, the
pending boundary and the lines: when the loop returns, `J` holds of its result, and when `Ok`
holds the loop does return. -/
theorem ray_loop_any (I : Nat) (extents left : int3) (Ok : Prop)
    (J : List (mesh_object_info α) → Option (boundary α) → List (line α) → Prop)
    (hT : ∀ m rest k b v,
      same_plane (index.slow I) (index.fast I) left m.solid_coord = true →
      m.ray_outside = true → J (m :: rest) (some b) v →
      J rest none (v ++ [⟨index.stride I extents, b, object_at k m⟩]))
    (hF : ∀ m rest k lb v,
      same_plane (index.slow I) (index.fast I) left m.solid_coord = true →
      m.ray_outside = false → J (m :: rest) lb v → J rest (some (object_at k m)) v)
    (hsafe : ∀ m rest v,
      same_plane (index.slow I) (index.fast I) left m.solid_coord = true →
      m.ray_outside = true → J (m :: rest) none v → ¬ Ok) :
    ∀ (rest : List (mesh_object_info α)) (k : Nat) (lb : Option (boundary α))
      (v : List (line α)), J rest lb v →
      (Ok → ∃ r, ray_loop I extents left rest k lb v = some r) ∧
      (∀ st lb1, ray_loop I extents left rest k lb v = some (st, lb1) →
        J st.rest lb1 st.v) := by
  intro rest
  induction rest with
  | nil =>
    intro k lb v hJ
    refine ⟨fun _ => ⟨(⟨k, [], v⟩, lb), by simp only [ray_loop]⟩, ?_⟩
    intro st lb1 hrun
    simp only [ray_loop, Option.some.injEq, Prod.mk.injEq] at hrun
    obtain ⟨rfl, rfl⟩ := hrun
    exact hJ
  | cons m t ih =>
    intro k lb v hJ
    unfold ray_loop
    by_cases hin : same_plane (index.slow I) (index.fast I) left m.solid_coord = true
    · rw [if_pos hin]
      by_cases hTm : m.ray_outside = true
      · rw [if_pos hTm]
        cases lb with
        | none =>
          refine ⟨fun hOk => absurd hOk (hsafe m t v hin hTm hJ), ?_⟩
          intro st lb1 hrun
          simp at hrun
        | some b =>
          simp only
          exact ih (k + 1) none _ (hT m t k b v hin hTm hJ)
      · rw [if_neg hTm]
        exact ih (k + 1) _ v (hF m t k lb v hin (by simpa using hTm) hJ)
    · rw [if_neg hin]
      refine ⟨fun _ => ⟨_, rfl⟩, ?_⟩
      intro st lb1 hrun
      simp only [Option.some.injEq, Prod.mk.injEq] at hrun
      obtain ⟨rfl, rfl⟩ := hrun
      exact hJ

/-- Proof rule for `init_line` on any intersection list: an invariant `K` between rays and
an invariant `J` inside the ray `(s, f)` are carried through every run that returns; when
`Ok` holds (which excludes a closing intersection met without a pending boundary) the run
returns. -/
theorem init_line_any (I : Nat) (extents : int3) (Ok : Prop)
    (J : Int → Int → List (mesh_object_info α) → Option (boundary α) → List (line α) → Prop)
    (K : List (mesh_object_info α) → List (line α) → Prop)
    (hstart : ∀ s f rest v, K rest v → J s f rest (some ⟨left_point I s f, none⟩) v)
    (hT : ∀ s f m rest k b v,
      same_plane (index.slow I) (index.fast I) (left_point I s f) m.solid_coord = true →
      m.ray_outside = true → J s f (m :: rest) (some b) v →
      J s f rest none (v ++ [⟨index.stride I extents, b, object_at k m⟩]))
    (hF : ∀ s f m rest k lb v,
      same_plane (index.slow I) (index.fast I) (left_point I s f) m.solid_coord = true →
      m.ray_outside = false → J s f (m :: rest) lb v →
      J s f rest (some (object_at k m)) v)
    (hsafe : ∀ s f m rest v,
      same_plane (index.slow I) (index.fast I) (left_point I s f) m.solid_coord = true →
      m.ray_outside = true → J s f (m :: rest) none v → ¬ Ok)
    (hend : ∀ s f rest b v, J s f rest (some b) v →
      K rest (v ++ [⟨index.stride I extents, b, ⟨right_point I extents s f, none⟩⟩]))
    (hend0 : ∀ s f rest v, J s f rest none v → K rest v)
    (R : List (mesh_object_info α)) (v0 : List (line α)) (h0 : K R v0) :
    (Ok → ∃ vf, init_line I v0 extents R = some vf) ∧
    (∀ vf, init_line I v0 extents R = some vf → ∃ rest, K rest vf) := by
  have hplane : ∀ (s f : Int) (st : LineState α), K st.rest st.v →
      (Ok → ∃ st1, plane_step I extents s f st = some st1) ∧
      (∀ st1, plane_step I extents s f st = some st1 → K st1.rest st1.v) := by
    intro s f st hK
    obtain ⟨h1, h2⟩ := ray_loop_any I extents (left_point I s f) Ok (J s f)
      (hT s f) (hF s f) (hsafe s f) st.rest st.first (some ⟨left_point I s f, none⟩) st.v
      (hstart s f _ _ hK)
    unfold plane_step
    constructor
    · intro hOk
      obtain ⟨r, hr⟩ := h1 hOk
      rw [hr]
      obtain ⟨st1, lb1⟩ := r
      cases lb1 with
      | none => exact ⟨_, rfl⟩
      | some b => exact ⟨_, rfl⟩
    · intro st1 hrun
      cases hr : ray_loop I extents (left_point I s f) st.rest st.first
          (some ⟨left_point I s f, none⟩) st.v with
      | none => rw [hr] at hrun; simp at hrun
      | some r =>
        obtain ⟨st2, lb1⟩ := r
        rw [hr] at hrun
        have hJ := h2 st2 lb1 hr
        cases lb1 with
        | none =>
          simp only [Option.some.injEq] at hrun
          subst hrun
          exact hend0 s f _ _ hJ
        | some b =>
          simp only [Option.some.injEq] at hrun
          subst hrun
          exact hend s f _ b _ hJ
  have hfast : ∀ (s : Int) (n : Nat) (f : Int) (st : LineState α), K st.rest st.v →
      (Ok → ∃ st1, fast_loop I extents s n f st = some st1) ∧
      (∀ st1, fast_loop I extents s n f st = some st1 → K st1.rest st1.v) := by
    intro s n
    induction n with
    | zero =>
      intro f st hK
      refine ⟨fun _ => ⟨st, rfl⟩, ?_⟩
      intro st1 hrun
      simp only [fast_loop, Option.some.injEq] at hrun
      subst hrun
      exact hK
    | succ n ih =>
      intro f st hK
      obtain ⟨h1, h2⟩ := hplane s f st hK
      unfold fast_loop
      constructor
      · intro hOk
        obtain ⟨st1, hst1⟩ := h1 hOk
        rw [hst1]
        exact (ih (f + 1) st1 (h2 st1 hst1)).1 hOk
      · intro st2 hrun
        cases hst1 : plane_step I extents s f st with
        | none => rw [hst1] at hrun; simp at hrun
        | some st1 =>
          rw [hst1] at hrun
          exact (ih (f + 1) st1 (h2 st1 hst1)).2 st2 hrun
  have hslow : ∀ (n : Nat) (s : Int) (st : LineState α), K st.rest st.v →
      (Ok → ∃ st1, slow_loop I extents n s st = some st1) ∧
      (∀ st1, slow_loop I extents n s st = some st1 → K st1.rest st1.v) := by
    intro n
    induction n with
    | zero =>
      intro s st hK
      refine ⟨fun _ => ⟨st, rfl⟩, ?_⟩
      intro st1 hrun
      simp only [slow_loop, Option.some.injEq] at hrun
      subst hrun
      exact hK
    | succ n ih =>
      intro s st hK
      obtain ⟨h1, h2⟩ := hfast s (extents.get (index.fast I)).toNat 0 st hK
      unfold slow_loop
      constructor
      · intro hOk
        obtain ⟨st1, hst1⟩ := h1 hOk
        rw [hst1]
        exact (ih (s + 1) st1 (h2 st1 hst1)).1 hOk
      · intro st2 hrun
        cases hst1 : fast_loop I extents s (extents.get (index.fast I)).toNat 0 st with
        | none => rw [hst1] at hrun; simp at hrun
        | some st1 =>
          rw [hst1] at hrun
          exact (ih (s + 1) st1 (h2 st1 hst1)).2 st2 hrun
  unfold init_line
  by_cases h1 : extents.get I = 1
  · rw [if_pos h1]
    refine ⟨fun _ => ⟨v0, rfl⟩, ?_⟩
    intro vf hvf
    simp only [Option.some.injEq] at hvf
    subst hvf
    exact ⟨R, h0⟩
  · rw [if_neg h1]
    obtain ⟨h2, h3⟩ := hslow (extents.get (index.slow I)).toNat 0 ⟨0, R, v0⟩ h0
    constructor
    · intro hOk
      obtain ⟨st1, hst1⟩ := h2 hOk
      rw [hst1]
      exact ⟨_, rfl⟩
    · intro vf hvf
      cases hst1 : slow_loop I extents (extents.get (index.slow I)).toNat 0 ⟨0, R, v0⟩ with
      | none => rw [hst1] at hvf; simp at hvf
      | some st1 =>
        rw [hst1] at hvf
        simp only [Option.some.injEq] at hvf
        subst hvf
        exact ⟨_, h3 st1 hst1⟩

end any_rule

/-! ### The pending boundary -/

section pending
variable {α : Type}

theorem no_consecutive_true_mid (a b : Bool) (ys : List Bool) :
    ∀ xs : List Bool, no_consecutive_true (xs ++ a :: b :: ys) = true → a = true →
      b = false := by
  intro xs
  induction xs with
  | nil =>
    intro h ha
    simp only [List.nil_append, no_consecutive_true, Bool.and_eq_true, Bool.not_eq_true',
      Bool.and_eq_false_iff] at h
    rcases h.1 with h1 | h1
    · rw [ha] at h1; cases h1
    · exact h1
  | cons x t ih =>
    intro h ha
    cases t with
    | nil =>
      simp only [List.cons_append, List.nil_append] at h
      rw [no_consecutive_true, Bool.and_eq_true] at h
      exact ih h.2 ha
    | cons y t1 =>
      simp only [List.cons_append] at h
      rw [no_consecutive_true, Bool.and_eq_true] at h
      exact ih h.2 ha

theorem same_plane_trans (J K : Nat) (a b c : int3) (h1 : same_plane J K a b = true)
    (h2 : same_plane J K a c = true) : same_plane J K b c = true := by
  rw [same_plane_iff] at h1 h2 ⊢
  exact ⟨by rw [← h1.1, h2.1], by rw [← h1.2, h2.2]⟩

/-- Flags that alternate `true, false, …` have no two consecutive `true`. -/
theorem no_consecutive_true_of_alternating :
    ∀ l : List Bool, alternating l = true →
      no_consecutive_true l = true ∧ no_consecutive_true (false :: l) = true := by
  intro l
  induction l using list_two_step with
  | h0 => intro _; exact ⟨rfl, rfl⟩
  | h1 x => intro h; simp [alternating] at h
  | h2 x y l ih =>
    intro h
    simp only [alternating, Bool.and_eq_true, Bool.not_eq_true'] at h
    obtain ⟨⟨hx, hy⟩, hl⟩ := h
    subst hx; subst hy
    have h1 := (ih hl).2
    refine ⟨?_, ?_⟩
    · rw [no_consecutive_true, h1]; rfl
    · rw [no_consecutive_true, no_consecutive_true, h1]; rfl

/-- Rays that alternate closing, opening, … carry no two consecutive closing intersections. -/
theorem noDoubleClose_of_raysAlternate (I : Nat) (R : List (mesh_object_info α))
    (hA : RaysAlternate I R) : NoDoubleClose I R :=
  fun m hm => (no_consecutive_true_of_alternating _ (hA m hm)).1

/-- Without two consecutive closing intersections on a ray, an intersection that closes a
line is never followed in the list by another closing intersection of the same ray. -/
theorem noDoubleClose_adjacent (I : Nat) (R : List (mesh_object_info α))
    (hA : NoDoubleClose I R) :
    ∀ pre a b post, R = pre ++ a :: b :: post →
      same_plane (index.slow I) (index.fast I) a.solid_coord b.solid_coord = true →
      a.ray_outside = true → b.ray_outside = false := by
  intro pre a b post hR hab haT
  have ha : a ∈ R := by rw [hR]; simp
  have h := hA a ha
  unfold ray_of at h
  rw [hR, List.filter_append, List.filter_cons, List.filter_cons] at h
  simp only [same_plane_self, hab, if_true, List.map_append, List.map_cons] at h
  exact no_consecutive_true_mid _ _ _ _ h haT

/-- C35. Pending boundary is always present when used: for an intersection list in which no
ray carries two consecutive intersections with `ray_outside = true` (as when the
intersections of each ray alternate, starting with `ray_outside = true`), `init_line` never
dereferences an empty `left_boundary`: the run returns the vector of lines, for every grid and
every initial vector. -/
theorem C35_pending_boundary_present (I : Nat) (extents : int3)
    (R : List (mesh_object_info α)) (hA : NoDoubleClose I R) (v0 : List (line α)) :
    ∃ v, init_line I v0 extents R = some v := by
  refine (init_line_any I extents True
    (fun s f rest lb _ =>
      (∀ pre a b post, rest = pre ++ a :: b :: post →
        same_plane (index.slow I) (index.fast I) a.solid_coord b.solid_coord = true →
        a.ray_outside = true → b.ray_outside = false) ∧
      (lb = none → ∀ m t, rest = m :: t →
        same_plane (index.slow I) (index.fast I) (left_point I s f) m.solid_coord = true →
        m.ray_outside = false))
    (fun rest _ =>
      ∀ pre a b post, rest = pre ++ a :: b :: post →
        same_plane (index.slow I) (index.fast I) a.solid_coord b.solid_coord = true →
        a.ray_outside = true → b.ray_outside = false)
    ?_ ?_ ?_ ?_ ?_ ?_ R v0 (noDoubleClose_adjacent I R hA)).1 trivial
  · intro s f rest v hK
    exact ⟨hK, fun h => by cases h⟩
  · intro s f m rest k b v hin hT hJ
    refine ⟨?_, ?_⟩
    · intro pre a b1 post hrest
      exact hJ.1 (m :: pre) a b1 post (by rw [hrest]; rfl)
    · intro _ m1 t hrest hin1
      exact hJ.1 [] m m1 t (by rw [hrest]; rfl)
        (same_plane_trans _ _ _ _ _ hin hin1) hT
  · intro s f m rest k lb v hin hF hJ
    refine ⟨?_, fun h => by cases h⟩
    intro pre a b1 post hrest
    exact hJ.1 (m :: pre) a b1 post (by rw [hrest]; rfl)
  · intro s f m rest v hin hT hJ _
    have := hJ.2 rfl m rest rfl hin
    rw [hT] at this
    cases this
  · intro s f rest b v hJ
    exact hJ.1
  · intro s f rest v hJ
    exact hJ.1

/-- Witness of C35: direction x of `grid422` with `hits422`, whose rays alternate. -/
theorem C35_pending_boundary_present_witness :
    (RaysAlternate 0 hits422 ∧ NoDoubleClose 0 hits422) ∧
    ∃ v, init_line 0 [] grid422 hits422 = some v :=
  ⟨⟨by decide, by decide⟩,
    C35_pending_boundary_present 0 grid422 hits422 (by decide) []⟩

end pending

/-! ### Lines are well formed -/

section wellformed
variable {α : Type}

/-- On a list that is in range and sorted along `I` within each ray, on a grid with at least
one cell along `I`, no line of `init_line` ends before it starts. -/
theorem init_line_ordered (I : Nat) (hI : I < 3) (extents : int3)
    (R : List (mesh_object_info α)) (hR : InRange extents R) (hS : SortedOnRays I R)
    (hE : 1 ≤ extents.get I) (v : List (line α))
    (hrun : init_line I [] extents R = some v) :
    ∀ l ∈ v, l.start.mesh_coordinate.get I ≤ l.end_.mesh_coordinate.get I := by
  have h := (init_line_any I extents False
    (fun (s f : Int) (rest : List (mesh_object_info α)) (lb : Option (boundary α))
        (v : List (line α)) =>
      rest.Pairwise (fun (a b : mesh_object_info α) =>
        same_plane (index.slow I) (index.fast I) a.solid_coord b.solid_coord = true →
          a.solid_coord.get I ≤ b.solid_coord.get I) ∧
      (∀ x ∈ rest, in_grid extents x) ∧
      (∀ l ∈ v, l.start.mesh_coordinate.get I ≤ l.end_.mesh_coordinate.get I) ∧
      ∀ b, lb = some b →
        (∀ x ∈ rest,
          same_plane (index.slow I) (index.fast I) (left_point I s f) x.solid_coord = true →
            b.mesh_coordinate.get I ≤ x.solid_coord.get I) ∧
        b.mesh_coordinate.get I ≤ extents.get I - 1)
    (fun (rest : List (mesh_object_info α)) (v : List (line α)) =>
      rest.Pairwise (fun (a b : mesh_object_info α) =>
        same_plane (index.slow I) (index.fast I) a.solid_coord b.solid_coord = true →
          a.solid_coord.get I ≤ b.solid_coord.get I) ∧
      (∀ x ∈ rest, in_grid extents x) ∧
      (∀ l ∈ v, l.start.mesh_coordinate.get I ≤ l.end_.mesh_coordinate.get I))
    ?_ ?_ ?_ ?_ ?_ ?_ R [] ⟨hS, hR, by intro l hl; simp at hl⟩).2 v hrun
  · obtain ⟨_, _, _, hv⟩ := h
    exact hv
  · intro s f rest v ⟨hP, hG, hv⟩
    refine ⟨hP, hG, hv, ?_⟩
    intro b hb
    simp only [Option.some.injEq] at hb
    subst hb
    refine ⟨?_, ?_⟩
    · intro x hx _
      show (left_point I s f).get I ≤ _
      rw [left_point_dir I hI]
      exact (in_grid_get extents x (hG x hx) I).1
    · show (left_point I s f).get I ≤ _
      rw [left_point_dir I hI]
      omega
  · intro s f m rest k b v hin hT ⟨hP, hG, hv, hb⟩
    refine ⟨(List.pairwise_cons.1 hP).2, fun x hx => hG x (List.mem_cons_of_mem _ hx), ?_,
      fun b1 h1 => by cases h1⟩
    intro l hl
    rcases List.mem_append.1 hl with h | h
    · exact hv l h
    · simp only [List.mem_singleton] at h
      subst h
      exact (hb b rfl).1 m (List.mem_cons_self _ _) hin
  · intro s f m rest k lb v hin hF ⟨hP, hG, hv, _⟩
    refine ⟨(List.pairwise_cons.1 hP).2, fun x hx => hG x (List.mem_cons_of_mem _ hx), hv, ?_⟩
    intro b hb
    simp only [Option.some.injEq] at hb
    subst hb
    refine ⟨?_, ?_⟩
    · intro x hx hinx
      exact (List.pairwise_cons.1 hP).1 x hx (same_plane_trans _ _ _ _ _ hin hinx)
    · have := (in_grid_get extents m (hG m (List.mem_cons_self _ _)) I).2
      show m.solid_coord.get I ≤ _
      omega
  · intro s f m rest v _ _ _ h
    exact h
  · intro s f rest b v ⟨hP, hG, hv, hb⟩
    refine ⟨hP, hG, ?_⟩
    intro l hl
    rcases List.mem_append.1 hl with h | h
    · exact hv l h
    · simp only [List.mem_singleton] at h
      subst h
      show b.mesh_coordinate.get I ≤ (right_point I extents s f).get I
      rw [right_point_dir I hI]
      exact (hb b rfl).2
  · intro s f rest v ⟨hP, hG, hv, _⟩
    exact ⟨hP, hG, hv⟩

/-- C36. Line well-formedness: every line `init_line` emits, for any intersection list, has
start and end mesh coordinates that agree in both components other than the direction; and
when the list is in range and sorted by the coordinate of the direction within each ray (on a
grid with at least one cell along the direction), every line has `start[d] ≤ end[d]`. -/
theorem C36_line_wellformed (I : Nat) (hI : I < 3) (extents : int3)
    (R : List (mesh_object_info α)) (v : List (line α))
    (hrun : init_line I [] extents R = some v) :
    (∀ l ∈ v,
      l.start.mesh_coordinate.get (index.slow I) = l.end_.mesh_coordinate.get (index.slow I) ∧
      l.start.mesh_coordinate.get (index.fast I) = l.end_.mesh_coordinate.get (index.fast I)) ∧
    (InRange extents R → SortedOnRays I R → 1 ≤ extents.get I →
      ∀ l ∈ v, l.start.mesh_coordinate.get I ≤ l.end_.mesh_coordinate.get I) := by
  refine ⟨?_, fun hR hS hE => init_line_ordered I hI extents R hR hS hE v hrun⟩
  intro l hl
  obtain ⟨hst, s, f, _, _, hstart, hend⟩ := init_line_lineOK I hI extents R v hrun l hl
  have hS : l.start.mesh_coordinate.get (index.slow I) = s ∧
      l.start.mesh_coordinate.get (index.fast I) = f := by
    rcases hstart with h | ⟨k, m, _, _, hms, hmf, h⟩
    · rw [h]; exact ⟨left_point_slow I hI s f, left_point_fast I hI s f⟩
    · rw [h]; exact ⟨hms, hmf⟩
  have hE : l.end_.mesh_coordinate.get (index.slow I) = s ∧
      l.end_.mesh_coordinate.get (index.fast I) = f := by
    rcases hend with h | ⟨k, m, _, _, hms, hmf, h⟩
    · rw [h]; exact ⟨right_point_slow I hI extents s f, right_point_fast I hI extents s f⟩
    · rw [h]; exact ⟨hms, hmf⟩
  exact ⟨by rw [hE.1, hS.1], by rw [hE.2, hS.2]⟩

/-- Witness of C36: direction x of `grid422` with `hits422`, whose lines are `lines422`. -/
theorem C36_line_wellformed_witness :
    (0 < 3 ∧ init_line 0 [] grid422 hits422 = some lines422) ∧
    (InRange grid422 hits422 ∧ SortedOnRays 0 hits422 ∧ 1 ≤ grid422.get 0) ∧
    (∀ l ∈ lines422,
      l.start.mesh_coordinate.get (index.slow 0) = l.end_.mesh_coordinate.get (index.slow 0) ∧
      l.start.mesh_coordinate.get (index.fast 0) = l.end_.mesh_coordinate.get (index.fast 0)) ∧
    (∀ l ∈ lines422, l.start.mesh_coordinate.get 0 ≤ l.end_.mesh_coordinate.get 0) :=
  ⟨⟨by decide, init_line_grid422⟩, ⟨by decide, by decide, by decide⟩,
    (C36_line_wellformed 0 (by decide) grid422 hits422 lines422 init_line_grid422).1,
    (C36_line_wellformed 0 (by decide) grid422 hits422 lines422 init_line_grid422).2
      (by decide) (by decide) (by decide)⟩

end wellformed

/-! ### Every intersection is used once -/

section used_once
variable {α : Type}

theorem boundary_uses_append (v : List (line α)) (l : line α) :
    boundary_uses (v ++ [l]) =
      boundary_uses v ++ (object_use false l.start ++ object_use true l.end_) := by
  induction v with
  | nil => simp [boundary_uses]
  | cons a t ih =>
    show object_use false a.start ++ object_use true a.end_ ++ boundary_uses (t ++ [l]) = _
    rw [ih]
    simp only [boundary_uses, List.append_assoc]

theorem intersection_roles_append (a : mesh_object_info α) :
    ∀ (l : List (mesh_object_info α)) (j : Nat),
      intersection_roles j (l ++ [a]) =
        intersection_roles j l ++ [(((j + l.length : Nat) : Int), a.ray_outside)] := by
  intro l
  induction l with
  | nil => intro j; simp [intersection_roles]
  | cons b t ih =>
    intro j
    show ((j : Int), b.ray_outside) :: intersection_roles (j + 1) (t ++ [a]) = _
    rw [ih]
    have e : j + 1 + t.length = j + (b :: t).length := by
      simp only [List.length_cons]; omega
    rw [e]
    rfl

theorem intersection_roles_take (R : List (mesh_object_info α)) (k : Nat)
    (a : mesh_object_info α) (hk : R[k]? = some a) :
    intersection_roles 0 (R.take (k + 1)) =
      intersection_roles 0 (R.take k) ++ [((k : Int), a.ray_outside)] := by
  have hlt : k < R.length := by
    by_contra hcon
    rw [List.getElem?_eq_none (by omega)] at hk
    simp at hk
  have e : R.take (k + 1) = R.take k ++ [a] := by
    rw [List.take_succ, hk]; rfl
  rw [e, intersection_roles_append]
  simp only [List.length_take, Nat.zero_add]
  rw [Nat.min_eq_left (le_of_lt hlt)]

theorem intersection_roles_filter_none :
    ∀ (l : List (mesh_object_info α)) (j : Nat) (i : Int), i < (j : Int) →
      (intersection_roles j l).filter (fun p => decide (p.1 = i)) = [] := by
  intro l
  induction l with
  | nil => intro j i _; rfl
  | cons b t ih =>
    intro j i hij
    simp only [intersection_roles]
    rw [List.filter_cons_of_neg (by simp; omega)]
    exact ih (j + 1) i (by push_cast; omega)

theorem intersection_roles_filter :
    ∀ (l : List (mesh_object_info α)) (j k : Nat) (m : mesh_object_info α), l[k]? = some m →
      (intersection_roles j l).filter (fun p => decide (p.1 = ((j + k : Nat) : Int)))
        = [(((j + k : Nat) : Int), m.ray_outside)] := by
  intro l
  induction l with
  | nil => intro j k m h; simp at h
  | cons b t ih =>
    intro j k m h
    cases k with
    | zero =>
      simp only [List.getElem?_cons_zero, Option.some.injEq] at h
      subst h
      simp only [intersection_roles, Nat.add_zero]
      rw [List.filter_cons_of_pos (by simp),
        intersection_roles_filter_none t (j + 1) (j : Int) (by push_cast; omega)]
    | succ k =>
      simp only [List.getElem?_cons_succ] at h
      simp only [intersection_roles]
      rw [List.filter_cons_of_neg (by simp; omega)]
      have e : j + (k + 1) = j + 1 + k := by omega
      rw [e]
      exact ih (j + 1) k m h

/-- C34. Every intersection is used exactly once: for a direction `I` with `extents[I] ≥ 2`
and an intersection list `R` that is in range, sorted by `(slow, fast)` plane in loop order
and alternating closing/opening on each ray, the loops of `init_line` end with the whole list
consumed (`first` at the end of `R`, nothing left), and the object coordinates of the
boundaries of the emitted lines, each with its role, are exactly the indices `0, 1, …` of `R`
with the flag `ray_outside`: every index `k` is the object coordinate of exactly one boundary,
an end when `R[k].ray_outside` is true and a start otherwise. -/
theorem C34_each_intersection_once (I : Nat) (hI : I < 3) (extents : int3)
    (R : List (mesh_object_info α)) (hd : 2 ≤ extents.get I)
    (hR : InRange extents R) (hS : PlaneSorted I R) (hA : RaysAlternate I R) :
    ∃ st, slow_loop I extents (extents.get (index.slow I)).toNat 0 ⟨0, R, []⟩ = some st ∧
      init_line I [] extents R = some st.v ∧
      st.first = R.length ∧ st.rest = [] ∧
      boundary_uses st.v = intersection_roles 0 R ∧
      ∀ (k : Nat) (m : mesh_object_info α), R[k]? = some m →
        (boundary_uses st.v).filter (fun p => decide (p.1 = (k : Int)))
          = [((k : Int), m.ray_outside)] := by
  have hlow0 : NotBefore I ((0 : Nat) : Int) 0 (R.drop 0) := by
    intro m hm
    have hm1 : m ∈ R := by simpa using hm
    have hs := in_grid_get extents m (hR m hm1) (index.slow I)
    have hf := in_grid_get extents m (hR m hm1) (index.fast I)
    push_cast
    omega
  obtain ⟨k1, v1, hrun, _, hk1, hlow1, hK1⟩ :=
    slow_loop_paired I hI extents R hR hS
      (fun _ k v => boundary_uses v = intersection_roles 0 (R.take k))
      (fun _ _ k v b0 =>
        boundary_uses v ++ object_use false b0 = intersection_roles 0 (R.take k))
      (fun s f k v _ _ h => by
        show boundary_uses v ++ [] = _
        rw [List.append_nil]; exact h)
      (fun s f k v b0 a b _ _ hka hkb haT hbF _ _ _ _ h => by
        show boundary_uses (v ++ [_]) ++ [(((k + 1 : Nat) : Int), false)] = _
        rw [boundary_uses_append, intersection_roles_take R (k + 1) b hkb,
          intersection_roles_take R k a hka, ← h, haT, hbF]
        show (boundary_uses v ++ (object_use false b0 ++ [((k : Int), true)])) ++ _ = _
        simp only [List.append_assoc])
      (fun s f k v b0 _ _ h => by
        show boundary_uses (v ++ [_]) = _
        rw [boundary_uses_append, ← h]
        show boundary_uses v ++ (object_use false b0 ++ []) = _
        rw [List.append_nil])
      (extents.get (index.slow I)).toNat 0 0 [] (by omega)
      (by simpa using paired_of_raysAlternate I R hS hA) (by omega) hlow0 (by rfl)
  have hnil : R.drop k1 = [] := by
    cases hd1 : R.drop k1 with
    | nil => rfl
    | cons m t =>
      exfalso
      have hm : m ∈ R.drop k1 := by rw [hd1]; exact List.mem_cons_self _ _
      have hs := in_grid_get extents m (hR m (List.mem_of_mem_drop hm)) (index.slow I)
      have := hlow1 m hm
      omega
  have hk : k1 = R.length := by
    have := List.drop_eq_nil_iff.1 hnil
    omega
  subst hk
  simp only [Nat.cast_ofNat, Int.Nat.cast_ofNat_Int, List.drop_zero] at hrun
  have huses : boundary_uses v1 = intersection_roles 0 R := by
    rw [hK1, List.take_length]
  refine ⟨⟨R.length, R.drop R.length, v1⟩, hrun, ?_, rfl, hnil, huses, ?_⟩
  · unfold init_line
    rw [if_neg (by omega), hrun]
  · intro k m hkm
    show (boundary_uses v1).filter _ = _
    rw [huses]
    have := intersection_roles_filter R 0 k m hkm
    simpa using this

/-- Witness of C34: direction x of `grid422` with the four intersections `hits422`. -/
theorem C34_each_intersection_once_witness :
    (0 < 3 ∧ 2 ≤ grid422.get 0 ∧ InRange grid422 hits422 ∧ PlaneSorted 0 hits422 ∧
      RaysAlternate 0 hits422) ∧
    ∃ st, slow_loop 0 grid422 (grid422.get (index.slow 0)).toNat 0 ⟨0, hits422, []⟩ = some st ∧
      init_line 0 [] grid422 hits422 = some st.v ∧
      st.first = hits422.length ∧ st.rest = [] ∧
      boundary_uses st.v = intersection_roles 0 hits422 ∧
      ∀ (k : Nat) (m : mesh_object_info Int), hits422[k]? = some m →
        (boundary_uses st.v).filter (fun p => decide (p.1 = (k : Int)))
          = [((k : Int), m.ray_outside)] :=
  ⟨⟨by decide, by decide, by decide, by decide, by decide⟩,
    C34_each_intersection_once 0 (by decide) grid422 hits422 (by decide) (by decide)
      (by decide) (by decide)⟩

end used_once

end ccs
